import Mathlib

/-!
# devhelper: format converter and encoders

A shallow embedding of `internal/converter/converter.go` and
`internal/encoder/encoder.go`.

Go strings and byte slices are lists of bytes.  Readers and writers are
explicit states that are passed through every operation.  The parts of the Go
standard library and of `gopkg.in/yaml.v3` the program calls are embedded next
to the code that calls them; where only a part of a library function is
embedded, the rest of its behaviour is a field of `Lib`, over which every
statement is quantified.
-/

namespace DevHelper

/-! ## Bytes and strings -/

abbrev Byte := Fin 256

abbrev Bytes := List Byte

/-- The bytes of an ASCII string literal. -/
def ascii (s : String) : Bytes := s.data.map (fun c => Fin.ofNat c.toNat)

/-- A Go `error` value, by its message. -/
structure GoError where
  msg : String
deriving DecidableEq, Repr

/-! ## `io.Reader` and `io.Writer` -/

/-- An `io.Reader`: the byte slices its next `Read` calls deliver, and the
error that ends the stream (`none` for `io.EOF`). -/
structure Reader where
  pending : List Bytes
  failure : Option GoError
deriving DecidableEq, Repr

/-- An `io.Writer`: the slices accepted by the `Write` calls made so far,
oldest first, and the number of bytes the sink still takes (`none`: no
limit).  A `Write` that does not fit is a short write with an error. -/
structure Writer where
  writes : List Bytes
  room : Option Nat
deriving DecidableEq, Repr

/-- A reader over a byte string, as `strings.NewReader`. -/
def NewReader (s : Bytes) : Reader := { pending := [s], failure := none }

/-- An empty `bytes.Buffer`. -/
def NewBuffer : Writer := { writes := [], room := none }

/-- All bytes a writer has received. -/
def Writer.content (w : Writer) : Bytes := w.writes.flatten

/-- The error of a `Write` the sink cannot take in full. -/
def errShortWrite : GoError := ⟨"short write"⟩

/-- One `Write` call. -/
def Writer.Write (w : Writer) (p : Bytes) : Writer × Option GoError :=
  match w.room with
  | none => ({ w with writes := w.writes ++ [p] }, none)
  | some n =>
    if p.length ≤ n then
      ({ writes := w.writes ++ [p], room := some (n - p.length) }, none)
    else
      ({ writes := w.writes ++ [p.take n], room := some 0 }, some errShortWrite)

/-- The reader once every pending slice has been consumed. -/
def Reader.drained (r : Reader) : Reader := { r with pending := [] }

/-- `io.ReadAll`: the bytes read up to the end of the stream and the error
that ended it, if any. -/
def ioReadAll (r : Reader) : Bytes × Option GoError × Reader :=
  (r.pending.flatten, r.failure, r.drained)

/-- The copy loop of `io.Copy`: every `Read` that delivers bytes is followed by
a `Write` of them; a failed `Write` stops the loop, the end of the stream
stops it with the reader's error (none at `io.EOF`). -/
def ioCopyLoop (w : Writer) (failure : Option GoError) :
    List Bytes → Writer × Option GoError × Reader
  | [] => (w, failure, { pending := [], failure := failure })
  | c :: cs =>
    if c.length = 0 then ioCopyLoop w failure cs
    else
      match w.Write c with
      | (w', none) => ioCopyLoop w' failure cs
      | (w', some e) => (w', some e, { pending := cs, failure := failure })

/-- `io.Copy(dst, src)`. -/
def ioCopy (w : Writer) (r : Reader) : Writer × Option GoError × Reader :=
  ioCopyLoop w r.failure r.pending

/-! ## Dynamic values (`interface{}`) -/

/-- A `float64`: an integral value below `2^53` in magnitude is held exactly,
with its sign (so that `-0` is kept); any other value by its bit pattern. -/
inductive F64
  | int (neg : Bool) (n : Nat)
  | bits (b : Nat)
deriving DecidableEq, Repr

/-- What an `interface{}` filled by a decoder holds.  A `map[string]interface{}`
has no insertion order: it is held as its entries in ascending key order, each
key once. -/
inductive Value
  | nil
  | bool (b : Bool)
  | float64 (f : F64)
  | int (z : Int)
  | string (s : Bytes)
  | slice (xs : List Value)
  | mapString (m : List (Bytes × Value))
  | other (tag : Nat)
deriving Repr

/-- The library behaviour that is not embedded: every statement below holds
for each value of these fields. -/
structure Lib where
  /-- `strconv.ParseFloat(s, 64)` on the number literals not embedded in `jsonNumber`. -/
  parseFloat : Bytes → Except GoError F64
  /-- The value of a JSON string literal that has an escape or a non-ASCII byte. -/
  jsonUnquote : Bytes → Bytes
  /-- `json.MarshalIndent(v, "", indent)` on a value other than `nil`. -/
  jsonMarshalIndent : Value → Bytes → Except GoError Bytes
  /-- `yaml.Unmarshal(data, &obj)`. -/
  yamlUnmarshal : Bytes → Except GoError Value
  /-- `yaml.Marshal(v)` outside the flat mappings embedded in `yamlMarshal`. -/
  yamlMarshal : Value → Except GoError Bytes
  /-- The error of `xml.Unmarshal(data, &obj)` on documents outside `xmlSimpleElement`. -/
  xmlUnmarshal : Bytes → Option GoError
  /-- `xml.MarshalIndent(v, "", indent)`. -/
  xmlMarshalIndent : Value → Bytes → Except GoError Bytes
  /-- `strings.Map(unicode.ToLower, s)`, the path of `strings.ToLower` for non-ASCII strings. -/
  mapToLower : Bytes → Bytes
  /-- `filepath.Abs(path)`. -/
  filepathAbs : Bytes → Bytes

/-! ## `encoding/json`: `Unmarshal` into an `interface{}` -/

/-- Go's `<` on strings: bytewise lexicographic order. -/
def bytesLess : Bytes → Bytes → Bool
  | [], [] => false
  | [], _ :: _ => true
  | _ :: _, [] => false
  | x :: xs, y :: ys => if x = y then bytesLess xs ys else decide (x < y)

/-- The map assignment `m[k] = v`. -/
def mapStore (k : Bytes) (v : Value) : List (Bytes × Value) → List (Bytes × Value)
  | [] => [(k, v)]
  | (k', v') :: m =>
    if k = k' then (k, v) :: m
    else if bytesLess k k' then (k, v) :: (k', v') :: m
    else (k', v') :: mapStore k v m

def isSpace (c : Byte) : Bool := c = 32 || c = 9 || c = 13 || c = 10

def isDigit (c : Byte) : Bool := decide (48 ≤ c.val) && decide (c.val ≤ 57)

def isHex (c : Byte) : Bool :=
  isDigit c || (decide (97 ≤ c.val) && decide (c.val ≤ 102))
    || (decide (65 ≤ c.val) && decide (c.val ≤ 70))

/-- The value of a string of decimal digits, most significant first, on top of
`acc`; `none` when a byte is not a digit. -/
def decimalValue (acc : Nat) : Bytes → Option Nat
  | [] => some acc
  | c :: cs => if isDigit c then decimalValue (acc * 10 + (c.val - 48)) cs else none

/-- The `float64` of a JSON number literal (`convertNumber`): an integer
literal below `2^53` is that integer exactly; any other literal goes through
`strconv.ParseFloat`, which fails when the value is out of range. -/
def jsonNumber (L : Lib) (lit : Bytes) : Except GoError F64 :=
  let neg := lit.head? = some 45
  let ds := if neg then lit.tail else lit
  match ds with
  | [] => L.parseFloat lit
  | _ :: _ =>
    match decimalValue 0 ds with
    | some n => if n < 2 ^ 53 then .ok (.int neg n) else L.parseFloat lit
    | none => L.parseFloat lit

/-- `maxNestingDepth` of `encoding/json`. -/
def maxNestingDepth : Nat := 10000

/-- One entry of the scanner's `parseState` stack, with the part of the
container decoded so far. -/
inductive Frame
  | arr (items : List Value)
  | objKey (m : List (Bytes × Value))
  | objColon (m : List (Bytes × Value)) (key : Bytes)
  | objValue (m : List (Bytes × Value)) (key : Bytes)
  | objNext (m : List (Bytes × Value))

/-- The scanner's `step` function, with the bytes of the literal being read
(newest first). -/
inductive Lex
  | beginValue
  | beginValueOrEmpty
  | beginStringOrEmpty
  | beginString
  | endValue
  | endTop
  | inString (raw : Bytes) (simple : Bool)
  | inStringEsc (raw : Bytes)
  | inStringEscU (raw : Bytes) (k : Nat)
  | neg (raw : Bytes)
  | zero (raw : Bytes)
  | one (raw : Bytes)
  | dot (raw : Bytes)
  | dot0 (raw : Bytes)
  | e (raw : Bytes)
  | eSign (raw : Bytes)
  | e0 (raw : Bytes)
  | word (rest : Bytes) (v : Value)

/-- The state of `json.Unmarshal` while it goes through the input. -/
structure Scanner where
  step : Lex
  parseState : List Frame
  result : Option Value
  savedError : Option GoError

def jsonInvalid (context : String) : GoError := ⟨"invalid character " ++ context⟩

/-- A value is complete: it becomes the top-level result, the next array
element or the value of the pending object key. -/
def Scanner.attach (s : Scanner) (v : Value) : Scanner :=
  match s.parseState with
  | [] => { s with step := .endValue, result := some v }
  | .arr items :: st => { s with step := .endValue, parseState := .arr (v :: items) :: st }
  | .objValue m k :: st => { s with step := .endValue, parseState := .objNext (mapStore k v m) :: st }
  | _ :: _ => { s with step := .endValue }

/-- A number literal is complete (`literalInterface`): an out-of-range number
is a saved error and the decoding goes on. -/
def Scanner.attachNumber (L : Lib) (s : Scanner) (raw : Bytes) : Scanner :=
  match jsonNumber L raw.reverse with
  | .ok f => s.attach (.float64 f)
  | .error e =>
    let s' := s.attach .nil
    { s' with savedError := match s.savedError with
                            | some e0 => some e0
                            | none => some e }

/-- A string literal is complete: an object key when one is expected, a value
otherwise. -/
def Scanner.attachString (L : Lib) (s : Scanner) (raw : Bytes) (simple : Bool) : Scanner :=
  let str := if simple then raw.reverse else L.jsonUnquote raw.reverse
  match s.parseState with
  | .objKey m :: st => { s with step := .endValue, parseState := .objColon m str :: st }
  | _ => s.attach (.string str)

def pushParseState (s : Scanner) (f : Frame) (next : Lex) : Except GoError Scanner :=
  if s.parseState.length + 1 ≤ maxNestingDepth then
    .ok { s with step := next, parseState := f :: s.parseState }
  else .error ⟨"exceeded max depth"⟩

def stateEndValue (s : Scanner) (c : Byte) : Except GoError Scanner :=
  match s.parseState with
  | [] =>
    if isSpace c then .ok { s with step := .endTop }
    else .error (jsonInvalid "after top-level value")
  | f :: st =>
    if isSpace c then .ok { s with step := .endValue }
    else
      match f with
      | .objColon m k =>
        if c = 58 then .ok { s with step := .beginValue, parseState := .objValue m k :: st }
        else .error (jsonInvalid "after object key")
      | .objNext m =>
        if c = 44 then .ok { s with step := .beginString, parseState := .objKey m :: st }
        else if c = 125 then .ok (Scanner.attach { s with parseState := st } (.mapString m))
        else .error (jsonInvalid "after object key:value pair")
      | .arr items =>
        if c = 44 then .ok { s with step := .beginValue }
        else if c = 93 then .ok (Scanner.attach { s with parseState := st } (.slice items.reverse))
        else .error (jsonInvalid "after array element")
      | _ => .error (jsonInvalid "")

def stateBeginValue (s : Scanner) (c : Byte) : Except GoError Scanner :=
  if isSpace c then .ok s
  else if c = 123 then pushParseState s (.objKey []) .beginStringOrEmpty
  else if c = 91 then pushParseState s (.arr []) .beginValueOrEmpty
  else if c = 34 then .ok { s with step := .inString [] true }
  else if c = 45 then .ok { s with step := .neg [c] }
  else if c = 48 then .ok { s with step := .zero [c] }
  else if c = 116 then .ok { s with step := .word (ascii "rue") (.bool true) }
  else if c = 102 then .ok { s with step := .word (ascii "alse") (.bool false) }
  else if c = 110 then .ok { s with step := .word (ascii "ull") .nil }
  else if isDigit c then .ok { s with step := .one [c] }
  else .error (jsonInvalid "looking for beginning of value")

def stateBeginString (s : Scanner) (c : Byte) : Except GoError Scanner :=
  if isSpace c then .ok s
  else if c = 34 then .ok { s with step := .inString [] true }
  else .error (jsonInvalid "looking for beginning of object key string")

/-- The scanner's step on one input byte. -/
def scanStep (L : Lib) (s : Scanner) (c : Byte) : Except GoError Scanner :=
  match s.step with
  | .beginValue => stateBeginValue s c
  | .beginValueOrEmpty =>
    if isSpace c then .ok s
    else if c = 93 then stateEndValue s c
    else stateBeginValue s c
  | .beginStringOrEmpty =>
    if isSpace c then .ok s
    else if c = 125 then
      match s.parseState with
      | .objKey m :: st => stateEndValue { s with parseState := .objNext m :: st } c
      | _ => .error (jsonInvalid "")
    else stateBeginString s c
  | .beginString => stateBeginString s c
  | .endValue => stateEndValue s c
  | .endTop =>
    if isSpace c then .ok s else .error (jsonInvalid "after top-level value")
  | .inString raw simple =>
    if c = 34 then .ok (s.attachString L raw simple)
    else if c = 92 then .ok { s with step := .inStringEsc (c :: raw) }
    else if c.val < 32 then .error (jsonInvalid "in string literal")
    else .ok { s with step := .inString (c :: raw) (simple && decide (c.val < 128)) }
  | .inStringEsc raw =>
    if c = 98 || c = 102 || c = 110 || c = 114 || c = 116 || c = 92 || c = 47 || c = 34 then
      .ok { s with step := .inString (c :: raw) false }
    else if c = 117 then .ok { s with step := .inStringEscU (c :: raw) 4 }
    else .error (jsonInvalid "in string escape code")
  | .inStringEscU raw k =>
    if isHex c then
      if k ≤ 1 then .ok { s with step := .inString (c :: raw) false }
      else .ok { s with step := .inStringEscU (c :: raw) (k - 1) }
    else .error (jsonInvalid "in \\u hexadecimal character escape")
  | .neg raw =>
    if c = 48 then .ok { s with step := .zero (c :: raw) }
    else if isDigit c then .ok { s with step := .one (c :: raw) }
    else .error (jsonInvalid "in numeric literal")
  | .one raw =>
    if isDigit c then .ok { s with step := .one (c :: raw) }
    else if c = 46 then .ok { s with step := .dot (c :: raw) }
    else if c = 101 || c = 69 then .ok { s with step := .e (c :: raw) }
    else stateEndValue (s.attachNumber L raw) c
  | .zero raw =>
    if c = 46 then .ok { s with step := .dot (c :: raw) }
    else if c = 101 || c = 69 then .ok { s with step := .e (c :: raw) }
    else stateEndValue (s.attachNumber L raw) c
  | .dot raw =>
    if isDigit c then .ok { s with step := .dot0 (c :: raw) }
    else .error (jsonInvalid "after decimal point in numeric literal")
  | .dot0 raw =>
    if isDigit c then .ok { s with step := .dot0 (c :: raw) }
    else if c = 101 || c = 69 then .ok { s with step := .e (c :: raw) }
    else stateEndValue (s.attachNumber L raw) c
  | .e raw =>
    if c = 43 || c = 45 then .ok { s with step := .eSign (c :: raw) }
    else if isDigit c then .ok { s with step := .e0 (c :: raw) }
    else .error (jsonInvalid "in exponent of numeric literal")
  | .eSign raw =>
    if isDigit c then .ok { s with step := .e0 (c :: raw) }
    else .error (jsonInvalid "in exponent of numeric literal")
  | .e0 raw =>
    if isDigit c then .ok { s with step := .e0 (c :: raw) }
    else stateEndValue (s.attachNumber L raw) c
  | .word rest v =>
    match rest with
    | [] => .error (jsonInvalid "")
    | x :: xs =>
      if c = x then
        match xs with
        | [] => .ok (s.attach v)
        | _ :: _ => .ok { s with step := .word xs v }
      else .error (jsonInvalid "in literal")

/-- The scanner run over the input, stopping at the first byte it rejects. -/
def scanAll (L : Lib) : Scanner → Bytes → Except GoError Scanner
  | s, [] => .ok s
  | s, c :: cs =>
    match scanStep L s c with
    | .ok s' => scanAll L s' cs
    | .error e => .error e

def errUnexpectedEnd : GoError := ⟨"unexpected end of JSON input"⟩

/-- `json.Unmarshal(data, &obj)` for `obj` of type `interface{}`: a syntax
error anywhere in the input is the result; otherwise the decoded value, or the
saved error of an out-of-range number.  The end of the input is presented to
the scanner as a space (`scanner.eof`). -/
def jsonUnmarshal (L : Lib) (data : Bytes) : Except GoError Value :=
  match scanAll L ⟨.beginValue, [], none, none⟩ data with
  | .error e => .error e
  | .ok s =>
    match scanStep L s 32 with
    | .error e => .error e
    | .ok s' =>
      match s'.result, s'.parseState with
      | some v, [] =>
        match s'.savedError with
        | some e => .error e
        | none => .ok v
      | _, _ => .error errUnexpectedEnd

/-- `json.MarshalIndent(v, "", indent)`: the nil interface is the literal
`null`, whatever the indent. -/
def jsonMarshalIndent (L : Lib) (v : Value) (indent : Bytes) : Except GoError Bytes :=
  match v with
  | .nil => .ok (ascii "null")
  | _ => L.jsonMarshalIndent v indent

/-! ## `gopkg.in/yaml.v3`: `Marshal` of a flat mapping -/

def isLetter (c : Byte) : Bool :=
  (decide (65 ≤ c.val) && decide (c.val ≤ 90)) || (decide (97 ≤ c.val) && decide (c.val ≤ 122))

/-- The ASCII lower-case form of a byte. -/
def lowerByte (c : Byte) : Byte :=
  if decide (65 ≤ c.val) && decide (c.val ≤ 90) then c + 32 else c

/-- Words that resolve to a boolean or null when read back as YAML, in lower
case: the encoder quotes them in every letter case. -/
def yamlReserved : List Bytes :=
  [ascii "true", ascii "false", ascii "null", ascii "y", ascii "yes", ascii "n",
   ascii "no", ascii "on", ascii "off"]

/-- Letters with single spaces between the words. -/
def lettersAndSpaces : Bytes → Bool
  | [] => false
  | [c] => isLetter c
  | c :: d :: rest =>
    if isLetter c then lettersAndSpaces (d :: rest)
    else c = 32 && isLetter d && lettersAndSpaces (d :: rest)

/-- Strings the encoder writes as plain scalars, unquoted and on one line: at
most 64 bytes of ASCII letters, the words separated by single spaces, and not a
reserved word.  What the encoder does with any other string is not embedded. -/
def yamlPlainText (s : Bytes) : Bool :=
  decide (s.length ≤ 64) && lettersAndSpaces s && !(yamlReserved.contains (s.map lowerByte))

/-- A mapping key of ASCII letters only. -/
def yamlPlainKey (s : Bytes) : Bool := s.all isLetter && yamlPlainText s

/-- The decimal digits of a natural number, with `fuel` bounding their count. -/
def natDigits : Nat → Nat → Bytes
  | 0, _ => []
  | fuel + 1, n =>
    if n < 10 then [Fin.ofNat (48 + n)]
    else natDigits fuel (n / 10) ++ [Fin.ofNat (48 + n % 10)]

/-- `strconv.Itoa` on a natural number. -/
def itoa (n : Nat) : Bytes := natDigits (n + 1) n

/-- The scalars embedded for the YAML encoder: a plain string is written as it
is; an integral `float64` below `10^6` in magnitude is written by
`strconv.FormatFloat(f, 'g', -1, 64)` as its decimal digits, with its sign. -/
def yamlScalar : Value → Option Bytes
  | .string s => if yamlPlainText s then some s else none
  | .float64 (.int neg n) =>
    if n < 10 ^ 6 then some ((if neg then [45] else []) ++ itoa n) else none
  | _ => none

/-- The order `keyList.Less` of the encoder on keys of letters only: by the
first rune that differs, a proper prefix first. -/
def keyLess : Bytes → Bytes → Bool
  | [], [] => false
  | [], _ :: _ => true
  | _ :: _, [] => false
  | x :: xs, y :: ys => if x = y then keyLess xs ys else decide (x < y)

/-- Insertion of an entry into a list of entries sorted by `keyLess`. -/
def insertByKey (e : Bytes × Bytes) : List (Bytes × Bytes) → List (Bytes × Bytes)
  | [] => [e]
  | f :: rest => if keyLess f.1 e.1 then f :: insertByKey e rest else e :: f :: rest

/-- The entries sorted by key (`sort.Sort(keys)` in `mappingv`). -/
def sortByKey : List (Bytes × Bytes) → List (Bytes × Bytes)
  | [] => []
  | e :: rest => insertByKey e (sortByKey rest)

/-- The entries of a flat mapping with their scalars rendered, when every key
and value is embedded. -/
def yamlEntries : List (Bytes × Value) → Option (List (Bytes × Bytes))
  | [] => some []
  | (k, v) :: m =>
    match yamlPlainKey k, yamlScalar v, yamlEntries m with
    | true, some sv, some rest => some ((k, sv) :: rest)
    | _, _, _ => none

/-- One `key: value` line of a block mapping. -/
def yamlLine (e : Bytes × Bytes) : Bytes := e.1 ++ [58, 32] ++ e.2 ++ [10]

/-- `yaml.Marshal(v)`: a non-empty `map[string]interface{}` of embedded scalars
is a block mapping, one `key: value` line per entry, the keys sorted. -/
def yamlMarshal (L : Lib) (v : Value) : Except GoError Bytes :=
  match v with
  | .mapString (e :: m) =>
    match yamlEntries (e :: m) with
    | some es => .ok ((sortByKey es).map yamlLine).flatten
    | none => L.yamlMarshal v
  | _ => L.yamlMarshal v

/-! ## `encoding/xml`: `Unmarshal` into an `interface{}` -/

/-- The leading ASCII letters of the input, and what follows them. -/
def xmlName : Bytes → Bytes × Bytes
  | [] => ([], [])
  | c :: cs =>
    if isLetter c then ((xmlName cs).1.cons c, (xmlName cs).2) else ([], c :: cs)

/-- The tokens read by `Decoder.Skip` after the first start tag: start tags
`<name>`, end tags `</name>` that close the innermost open element, and text
of ASCII letters, digits and spaces.  `true` when the first element is closed
by such tokens; the input after its end tag is not looked at. -/
def xmlSkip : Nat → List Bytes → Bytes → Bool
  | 0, _, _ => false
  | _ + 1, _, [] => false
  | fuel + 1, stk, c :: cs =>
    if c = 60 then
      match cs with
      | [] => false
      | d :: ds =>
        if d = 47 then
          match stk, (xmlName ds).2 with
          | top :: below, e :: _ =>
            if e = 62 && (xmlName ds).1 == top then
              (match below with
               | [] => true
               | _ :: _ => xmlSkip fuel below ((xmlName ds).2.tail))
            else false
          | _, _ => false
        else
          match (xmlName cs).1, (xmlName cs).2 with
          | _ :: _, e :: rest => if e = 62 then xmlSkip fuel ((xmlName cs).1 :: stk) rest else false
          | _, _ => false
    else if isLetter c || isDigit c || c = 32 then xmlSkip fuel stk cs
    else false

/-- A document that starts with a start tag `<name>` whose element is closed
by the tokens of `xmlSkip`. -/
def xmlSimpleElement (data : Bytes) : Bool :=
  match data with
  | 60 :: cs =>
    (match (xmlName cs).1, (xmlName cs).2 with
     | _ :: _, e :: rest => e = 62 && xmlSkip data.length [(xmlName cs).1] rest
     | _, _ => false)
  | _ => false

/-- The error of `xml.Unmarshal(data, &obj)` for `obj` of type `interface{}`.
`Decoder.unmarshal` reads tokens up to the first start element and, the target
being of kind `reflect.Interface`, returns `d.Skip()`: the element is read to
its end tag and nothing is stored, so `obj` stays `nil`, and the input after
the end tag is never read. -/
def xmlUnmarshal (L : Lib) (data : Bytes) : Option GoError :=
  if xmlSimpleElement data then none else L.xmlUnmarshal data

/-! ## `internal/converter`: `Converter.Convert` -/

/-- The converter: a reader and a writer. -/
structure Converter where
  reader : Reader
  writer : Writer

def NewConverter (reader : Reader) (writer : Writer) : Converter := ⟨reader, writer⟩

/-- The error `Convert` returns, by the `fmt.Errorf` that wraps the cause. -/
inductive ConvertError
  | copy (cause : GoError)
  | read (cause : GoError)
  | parseJSON (cause : GoError)
  | parseYAML (cause : GoError)
  | parseXML (cause : GoError)
  | marshalJSON (cause : GoError)
  | marshalYAML (cause : GoError)
  | marshalXML (cause : GoError)
  | write (cause : GoError)
deriving DecidableEq, Repr

/-- How a call ends: it returns `nil`, returns an error, or panics. -/
inductive Outcome
  | ok
  | error (e : ConvertError)
  | panic
deriving DecidableEq, Repr

/-- The format names. -/
def fmtJSON : Bytes := ascii "json"

def fmtYAML : Bytes := ascii "yaml"

def fmtYML : Bytes := ascii "yml"

def fmtXML : Bytes := ascii "xml"

/-- The normalisation at the head of `Convert`. -/
def normalize (f : Bytes) : Bytes := if f = fmtYML then fmtYAML else f

/-- The decoding `switch from` of `Convert`: `obj` stays `nil` when no case
matches, and for XML. -/
def decode (L : Lib) (src : Bytes) (data : Bytes) : Except ConvertError Value :=
  if src = fmtJSON then
    match jsonUnmarshal L data with
    | .ok v => .ok v
    | .error e => .error (.parseJSON e)
  else if src = fmtYAML then
    match L.yamlUnmarshal data with
    | .ok v => .ok v
    | .error e => .error (.parseYAML e)
  else if src = fmtXML then
    match xmlUnmarshal L data with
    | none => .ok .nil
    | some e => .error (.parseXML e)
  else .ok .nil

/-- `strings.Repeat(" ", indent)`, which panics for a negative count. -/
def repeatSpace (indent : Int) : Option Bytes :=
  if indent < 0 then none else some (List.replicate indent.toNat 32)

/-- The encoding `switch to` of `Convert`: `output` stays empty when no case
matches; `none` is the panic of `strings.Repeat`. -/
def encode (L : Lib) (dst : Bytes) (obj : Value) (indent : Int) :
    Option (Except ConvertError Bytes) :=
  if dst = fmtJSON then
    match repeatSpace indent with
    | none => none
    | some jsonIndent =>
      match jsonMarshalIndent L obj jsonIndent with
      | .ok out => some (.ok out)
      | .error e => some (.error (.marshalJSON e))
  else if dst = fmtYAML then
    match yamlMarshal L obj with
    | .ok out => some (.ok out)
    | .error e => some (.error (.marshalYAML e))
  else if dst = fmtXML then
    match repeatSpace indent with
    | none => none
    | some xmlIndent =>
      match L.xmlMarshalIndent obj xmlIndent with
      | .ok out => some (.ok out)
      | .error e => some (.error (.marshalXML e))
  else some (.ok [])

/-- `Converter.Convert(from, to, indent)`: the outcome and the converter's
reader and writer afterwards. -/
def Converter.Convert (L : Lib) (c : Converter) (src dst : Bytes) (indent : Int) :
    Outcome × Converter :=
  let src := normalize src
  let dst := normalize dst
  if src = dst then
    match ioCopy c.writer c.reader with
    | (w, some e, r) => (.error (.copy e), ⟨r, w⟩)
    | (w, none, r) => (.ok, ⟨r, w⟩)
  else
    match ioReadAll c.reader with
    | (_, some e, r) => (.error (.read e), ⟨r, c.writer⟩)
    | (data, none, r) =>
      match decode L src data with
      | .error e => (.error e, ⟨r, c.writer⟩)
      | .ok obj =>
        match encode L dst obj indent with
        | none => (.panic, ⟨r, c.writer⟩)
        | some (.error e) => (.error e, ⟨r, c.writer⟩)
        | some (.ok output) =>
          match c.writer.Write output with
          | (w, some e) => (.error (.write e), ⟨r, w⟩)
          | (w, none) => (.ok, ⟨r, w⟩)

/-! ## `internal/converter`: the `convert` command -/

/-- `strings.ToLower`: an ASCII string has its upper-case letters replaced; a
string with a non-ASCII byte goes through `strings.Map(unicode.ToLower, s)`. -/
def ToLower (L : Lib) (s : Bytes) : Bytes :=
  if s.all (fun c => decide (c.val < 128)) then s.map lowerByte else L.mapToLower s

/-- The lookup `supportedFormats[f]`. -/
def supportedFormats (f : Bytes) : Bool :=
  f = fmtJSON || f = fmtYAML || f = fmtYML || f = fmtXML

/-- What the command finds: the standard streams and the results of
`os.Open` and `os.Create`. -/
structure Env where
  stdin : Reader
  stdout : Writer
  osOpen : Bytes → Except GoError Reader
  osCreate : Bytes → Except GoError Writer

/-- A line the command writes to `os.Stderr`. -/
inductive Diagnostic
  | unsupportedSource (name : Bytes)
  | unsupportedTarget (name : Bytes)
  | openFailed (cause : GoError)
  | createFailed (cause : GoError)
  | convertFailed (cause : ConvertError)
deriving DecidableEq, Repr

/-- How the command ends. -/
inductive Exit
  | returned
  | exit (code : Nat)
  | panic
deriving DecidableEq, Repr

/-- What the command leaves behind: how it ended, the lines on `os.Stderr`,
the standard streams, and the files it opened and created. -/
structure RunResult where
  exit : Exit
  stderr : List Diagnostic
  stdin : Reader
  stdout : Writer
  opened : Option Reader
  created : Option Writer
deriving DecidableEq, Repr

/-- The text printed after a conversion into a file. -/
def savedNotice (absPath : Bytes) : Bytes :=
  ("Конвертация завершена, результат сохранен в: ".toUTF8.data.toList.map (fun b => b.val))
    ++ absPath ++ [10]

/-- The `Run` function of the command built by `NewCommand`, on the arguments
`from`, `to` and the optional file, with the values of the flags `--output`
and `--indent`. -/
def convertRun (L : Lib) (env : Env) (src dst : Bytes) (rest : List Bytes)
    (outputFile : Bytes) (indent : Int) : RunResult :=
  let src := ToLower L src
  let dst := ToLower L dst
  if !supportedFormats src then
    ⟨.exit 1, [.unsupportedSource src], env.stdin, env.stdout, none, none⟩
  else if !supportedFormats dst then
    ⟨.exit 1, [.unsupportedTarget dst], env.stdin, env.stdout, none, none⟩
  else
    let openResult : Except GoError (Option Reader) :=
      match rest with
      | [] => .ok none
      | file :: _ =>
        match env.osOpen file with
        | .ok r => .ok (some r)
        | .error e => .error e
    match openResult with
    | .error e => ⟨.exit 1, [.openFailed e], env.stdin, env.stdout, none, none⟩
    | .ok opened =>
      let createResult : Except GoError (Option Writer) :=
        if outputFile = [] then .ok none
        else
          match env.osCreate outputFile with
          | .ok w => .ok (some w)
          | .error e => .error e
      match createResult with
      | .error e => ⟨.exit 1, [.createFailed e], env.stdin, env.stdout, opened, none⟩
      | .ok created =>
        let result := Converter.Convert L
          (NewConverter (opened.getD env.stdin) (created.getD env.stdout)) src dst indent
        let stdin := if opened.isSome then env.stdin else result.2.reader
        let stdout := if created.isSome then env.stdout else result.2.writer
        let opened := opened.map (fun _ => result.2.reader)
        let created := created.map (fun _ => result.2.writer)
        match result.1 with
        | .panic => ⟨.panic, [], stdin, stdout, opened, created⟩
        | .error e => ⟨.exit 1, [.convertFailed e], stdin, stdout, opened, created⟩
        | .ok =>
          if outputFile = [] then ⟨.returned, [], stdin, stdout, opened, created⟩
          else
            ⟨.returned, [], stdin, (stdout.Write (savedNotice (L.filepathAbs outputFile))).1,
              opened, created⟩

/-! ## `unicode/utf8`, `unicode` and `strings.TrimSpace` -/

/-- `utf8.RuneError`. -/
def RuneError : Nat := 0xFFFD

def isContinuation (b : Byte) : Bool := decide (0x80 ≤ b.val) && decide (b.val ≤ 0xBF)

/-- The range the second byte of a sequence must lie in, by its first byte
(the `acceptRanges` of `unicode/utf8`). -/
def acceptSecond (b0 b1 : Byte) : Bool :=
  if b0 = 0xE0 then decide (0xA0 ≤ b1.val) && decide (b1.val ≤ 0xBF)
  else if b0 = 0xED then decide (0x80 ≤ b1.val) && decide (b1.val ≤ 0x9F)
  else if b0 = 0xF0 then decide (0x90 ≤ b1.val) && decide (b1.val ≤ 0xBF)
  else if b0 = 0xF4 then decide (0x80 ≤ b1.val) && decide (b1.val ≤ 0x8F)
  else isContinuation b1

/-- `utf8.DecodeRuneInString`: the first rune and its width in bytes; an
invalid or short sequence is `(RuneError, 1)`, the empty string `(RuneError, 0)`. -/
def DecodeRune : Bytes → Nat × Nat
  | [] => (RuneError, 0)
  | b0 :: rest =>
    if b0.val < 0x80 then (b0.val, 1)
    else if b0.val < 0xC2 then (RuneError, 1)
    else if b0.val < 0xE0 then
      match rest with
      | b1 :: _ =>
        if isContinuation b1 then ((b0.val &&& 0x1F) <<< 6 ||| (b1.val &&& 0x3F), 2)
        else (RuneError, 1)
      | _ => (RuneError, 1)
    else if b0.val < 0xF0 then
      match rest with
      | b1 :: b2 :: _ =>
        if acceptSecond b0 b1 && isContinuation b2 then
          ((b0.val &&& 0x0F) <<< 12 ||| (b1.val &&& 0x3F) <<< 6 ||| (b2.val &&& 0x3F), 3)
        else (RuneError, 1)
      | _ => (RuneError, 1)
    else if b0.val < 0xF5 then
      match rest with
      | b1 :: b2 :: b3 :: _ =>
        if acceptSecond b0 b1 && isContinuation b2 && isContinuation b3 then
          ((b0.val &&& 0x07) <<< 18 ||| (b1.val &&& 0x3F) <<< 12 ||| (b2.val &&& 0x3F) <<< 6
            ||| (b3.val &&& 0x3F), 4)
        else (RuneError, 1)
      | _ => (RuneError, 1)
    else (RuneError, 1)

/-- `utf8.RuneStart`. -/
def RuneStart (b : Byte) : Bool := b.val &&& 0xC0 != 0x80

/-- The loop of `utf8.DecodeLastRuneInString` that moves `start` back to a
byte that can start a rune, `steps` times at most; `none` when it runs past
the limit without finding one. -/
def lastRuneStart (s : Bytes) : Nat → Nat → Option Nat
  | 0, _ => none
  | steps + 1, start =>
    if RuneStart (s.getD start 0) then some start
    else if start = 0 then none
    else lastRuneStart s steps (start - 1)

/-- `utf8.DecodeLastRuneInString`: the last rune and its width. -/
def DecodeLastRune (s : Bytes) : Nat × Nat :=
  let stop := s.length
  if stop = 0 then (RuneError, 0)
  else
    let r := s.getD (stop - 1) 0
    if r.val < 0x80 then (r.val, 1)
    else
      let lim := stop - 4
      let start : Nat :=
        if stop - 1 ≤ lim then stop - 1 - 1
        else
          match lastRuneStart s (stop - 1 - lim) (stop - 2) with
          | some i => i
          | none => lim - 1
      let d := DecodeRune (s.drop start)
      if start + d.2 ≠ stop then (RuneError, 1) else d

/-- `unicode.IsSpace`. -/
def IsSpace (r : Nat) : Bool :=
  if r ≤ 0xFF then
    r = 9 || r = 10 || r = 11 || r = 12 || r = 13 || r = 32 || r = 0x85 || r = 0xA0
  else
    r = 0x1680 || (decide (0x2000 ≤ r) && decide (r ≤ 0x200A)) || r = 0x2028 || r = 0x2029
      || r = 0x202F || r = 0x205F || r = 0x3000

/-- The table `asciiSpace` of package `strings`. -/
def asciiSpace (c : Byte) : Bool :=
  c = 9 || c = 10 || c = 11 || c = 12 || c = 13 || c = 32

/-- `strings.TrimLeftFunc(s, unicode.IsSpace)`, with `fuel` bounding the
number of runes. -/
def trimLeftSpace : Nat → Bytes → Bytes
  | 0, _ => []
  | _ + 1, [] => []
  | fuel + 1, c :: cs =>
    if IsSpace (DecodeRune (c :: cs)).1 then
      trimLeftSpace fuel ((c :: cs).drop (DecodeRune (c :: cs)).2)
    else c :: cs

/-- The index returned by `lastIndexFunc(s, unicode.IsSpace, false)`, for the
prefix of length `i` still to examine; `none` for `-1`. -/
def lastNonSpace (s : Bytes) : Nat → Nat → Option Nat
  | 0, _ => none
  | fuel + 1, i =>
    if i = 0 then none
    else
      let d := DecodeLastRune (s.take i)
      if IsSpace d.1 then lastNonSpace s fuel (i - d.2) else some (i - d.2)

/-- `strings.TrimRightFunc(s, unicode.IsSpace)`. -/
def trimRightSpace (s : Bytes) : Bytes :=
  match lastNonSpace s (s.length + 1) s.length with
  | none => []
  | some i =>
    if (s.getD i 0).val ≥ 0x80 then s.take (i + (DecodeRune (s.drop i)).2)
    else s.take (i + 1)

/-- The second loop of `strings.TrimSpace`, on the reversed string: trailing
ASCII spaces are dropped; a non-ASCII byte sends what is left to
`TrimRightFunc`. -/
def trimSpaceStop : Bytes → Bytes
  | [] => []
  | c :: cs =>
    if c.val ≥ 0x80 then trimRightSpace (c :: cs).reverse
    else if asciiSpace c then trimSpaceStop cs
    else (c :: cs).reverse

/-- `strings.TrimSpace`: leading ASCII spaces are dropped; a non-ASCII byte
sends what is left to `TrimFunc`; then the second loop runs from the end. -/
def TrimSpace : Bytes → Bytes
  | [] => []
  | c :: cs =>
    if c.val ≥ 0x80 then trimRightSpace (trimLeftSpace (cs.length + 2) (c :: cs))
    else if asciiSpace c then TrimSpace cs
    else trimSpaceStop (c :: cs).reverse

/-! ## `encoding/base64` -/

/-- The alphabet of `base64.StdEncoding`. -/
def encodeStd : Bytes :=
  ascii "ABCDEFGHIJKLMNOPQRSTUVWXYZabcdefghijklmnopqrstuvwxyz0123456789+/"

/-- The alphabet of `base64.URLEncoding`. -/
def encodeURL : Bytes :=
  ascii "ABCDEFGHIJKLMNOPQRSTUVWXYZabcdefghijklmnopqrstuvwxyz0123456789-_"

/-- `StdPadding`. -/
def padChar : Byte := 61

/-- The entry `enc.encode[i]` of an alphabet. -/
def encodeAt (enc : Bytes) (i : Nat) : Byte := enc.getD i 0

/-- The entry `enc.decodeMap[c]`: the index of `c` in the alphabet, `none` for
the entry `0xFF` of a byte that is not in it. -/
def decodeMap (enc : Bytes) (c : Byte) : Option Nat :=
  if enc.indexOf c < enc.length then some (enc.indexOf c) else none

/-- `Encoding.EncodeToString` with padding. -/
def EncodeToString (enc : Bytes) : Bytes → Bytes
  | [] => []
  | [a] =>
    let val := a.val <<< 16
    [encodeAt enc (val >>> 18 &&& 0x3F), encodeAt enc (val >>> 12 &&& 0x3F), padChar, padChar]
  | [a, b] =>
    let val := a.val <<< 16 ||| b.val <<< 8
    [encodeAt enc (val >>> 18 &&& 0x3F), encodeAt enc (val >>> 12 &&& 0x3F),
     encodeAt enc (val >>> 6 &&& 0x3F), padChar]
  | a :: b :: c :: rest =>
    let val := a.val <<< 16 ||| b.val <<< 8 ||| c.val
    [encodeAt enc (val >>> 18 &&& 0x3F), encodeAt enc (val >>> 12 &&& 0x3F),
     encodeAt enc (val >>> 6 &&& 0x3F), encodeAt enc (val &&& 0x3F)] ++ EncodeToString enc rest

/-- `base64.CorruptInputError`; the offset it carries is left out. -/
def errCorruptInput : GoError := ⟨"illegal base64 data"⟩

/-- The loops of `decodeQuantum` that skip over newlines. -/
def skipNewlines : Bytes → Bytes
  | [] => []
  | c :: cs => if c = 10 || c = 13 then skipNewlines cs else c :: cs

/-- The end of `decodeQuantum`: the `dlen` six-bit values read make `dlen - 1`
bytes. -/
def quantumBytes (dbuf : List Nat) : Bytes :=
  let val := dbuf.getD 0 0 <<< 18 ||| dbuf.getD 1 0 <<< 12 ||| dbuf.getD 2 0 <<< 6 ||| dbuf.getD 3 0
  ([Fin.ofNat (val >>> 16), Fin.ofNat (val >>> 8), Fin.ofNat val] : Bytes).take (dbuf.length - 1)

/-- `Encoding.decodeQuantum` for a padded, non-strict encoding, with the
values read so far: the bytes decoded and the input left, or the error. -/
def decodeQuantum (enc : Bytes) : List Nat → Bytes → Except GoError (Bytes × Bytes)
  | dbuf, [] => if dbuf.length = 0 then .ok ([], []) else .error errCorruptInput
  | dbuf, c :: cs =>
    match decodeMap enc c with
    | some out =>
      if dbuf.length + 1 = 4 then .ok (quantumBytes (dbuf ++ [out]), cs)
      else decodeQuantum enc (dbuf ++ [out]) cs
    | none =>
      if c = 10 || c = 13 then decodeQuantum enc dbuf cs
      else if c ≠ padChar then .error errCorruptInput
      else if dbuf.length < 2 then .error errCorruptInput
      else if dbuf.length = 2 then
        match skipNewlines cs with
        | [] => .error errCorruptInput
        | d :: ds =>
          if d ≠ padChar then .error errCorruptInput
          else if (skipNewlines ds).length > 0 then .error errCorruptInput
          else .ok (quantumBytes dbuf, [])
      else if (skipNewlines cs).length > 0 then .error errCorruptInput
      else .ok (quantumBytes dbuf, [])

/-- The loop of `Encoding.Decode`: one quantum after the other until the input
is used up; each quantum takes at least one byte, which `fuel` counts. -/
def decodeLoop (enc : Bytes) : Nat → Bytes → Except GoError Bytes
  | _, [] => .ok []
  | 0, _ :: _ => .error ⟨"out of fuel"⟩
  | fuel + 1, c :: cs =>
    match decodeQuantum enc [] (c :: cs) with
    | .error e => .error e
    | .ok (out, rest) =>
      match decodeLoop enc fuel rest with
      | .error e => .error e
      | .ok more => .ok (out ++ more)

/-- `Encoding.DecodeString`; the bytes decoded before an error are left out,
the caller does not use them. -/
def DecodeString (enc : Bytes) (s : Bytes) : Except GoError Bytes :=
  decodeLoop enc s.length s

/-! ## `internal/encoder`: Base64 -/

/-- The encoder: a reader and a writer. -/
structure Encoder where
  reader : Reader
  writer : Writer
deriving DecidableEq, Repr

def NewEncoder (reader : Reader) (writer : Writer) : Encoder := ⟨reader, writer⟩

/-- The error a method of `Encoder` returns, by the `fmt.Errorf` that wraps
the cause. -/
inductive EncoderError
  | read (cause : GoError)
  | decodeBase64 (cause : GoError)
  | decodeURL (cause : GoError)
  | write (cause : GoError)
deriving DecidableEq, Repr

/-- `fmt.Fprintln(w, s)`: one `Write` of the string and a newline. -/
def Fprintln (w : Writer) (s : Bytes) : Writer × Option GoError := w.Write (s ++ [10])

/-- `Encoder.Base64Encode(urlSafe)`: the error returned, if any, and the
encoder's reader and writer afterwards. -/
def Encoder.Base64Encode (e : Encoder) (urlSafe : Bool) : Option EncoderError × Encoder :=
  match ioReadAll e.reader with
  | (_, some err, r) => (some (.read err), ⟨r, e.writer⟩)
  | (data, none, r) =>
    let encoded := if urlSafe then EncodeToString encodeURL data else EncodeToString encodeStd data
    match Fprintln e.writer encoded with
    | (w, some err) => (some (.write err), ⟨r, w⟩)
    | (w, none) => (none, ⟨r, w⟩)

/-- `Encoder.Base64Decode(urlSafe)`. -/
def Encoder.Base64Decode (e : Encoder) (urlSafe : Bool) : Option EncoderError × Encoder :=
  match ioReadAll e.reader with
  | (_, some err, r) => (some (.read err), ⟨r, e.writer⟩)
  | (data, none, r) =>
    let cleanData := TrimSpace data
    let decoded := if urlSafe then DecodeString encodeURL cleanData else DecodeString encodeStd cleanData
    match decoded with
    | .error err => (some (.decodeBase64 err), ⟨r, e.writer⟩)
    | .ok decoded =>
      match e.writer.Write decoded with
      | (w, some err) => (some (.write err), ⟨r, w⟩)
      | (w, none) => (none, ⟨r, w⟩)

/-! ## RFC 4648: the Base64 encoding, in the words of the RFC -/

/-- The eight bits of a byte, the most significant first. -/
def bitsOfByte (b : Byte) : List Nat :=
  [b.val / 128 % 2, b.val / 64 % 2, b.val / 32 % 2, b.val / 16 % 2, b.val / 8 % 2,
   b.val / 4 % 2, b.val / 2 % 2, b.val % 2]

/-- The number a string of bits stands for. -/
def bitsValue (bits : List Nat) : Nat := bits.foldl (fun acc b => 2 * acc + b) 0

/-- The bits in groups of six, from left to right; zero bits are added on the
right of a last group that is short. -/
def sixBitGroups : List Nat → List (List Nat)
  | b0 :: b1 :: b2 :: b3 :: b4 :: b5 :: rest => [b0, b1, b2, b3, b4, b5] :: sixBitGroups rest
  | [] => []
  | short => [short ++ List.replicate (6 - short.length) 0]

/-- The Base64 alphabet (table 1 of RFC 4648) and the URL and filename safe
alphabet (table 2): `A`-`Z`, `a`-`z`, `0`-`9`, then `+` and `/`, or `-` and
`_`. -/
def rfc4648Alphabet (urlSafe : Bool) (i : Nat) : Byte :=
  if i < 26 then Fin.ofNat (65 + i)
  else if i < 52 then Fin.ofNat (97 + (i - 26))
  else if i < 62 then Fin.ofNat (48 + (i - 52))
  else if i = 62 then (if urlSafe then 45 else 43)
  else (if urlSafe then 95 else 47)

/-- The characters for a group of input bits. -/
def rfc4648Chars (urlSafe : Bool) (bits : List Nat) : Bytes :=
  (sixBitGroups bits).map (fun g => rfc4648Alphabet urlSafe (bitsValue g))

/-- The encoding of RFC 4648, section 4: each group of 24 input bits is four
characters; a final group of 8 bits is two characters and `==`, one of 16 bits
three characters and `=`. -/
def rfc4648Encode (urlSafe : Bool) : Bytes → Bytes
  | [] => []
  | [a] => rfc4648Chars urlSafe (bitsOfByte a) ++ [61, 61]
  | [a, b] => rfc4648Chars urlSafe (bitsOfByte a ++ bitsOfByte b) ++ [61]
  | a :: b :: c :: rest =>
    rfc4648Chars urlSafe (bitsOfByte a ++ bitsOfByte b ++ bitsOfByte c)
      ++ rfc4648Encode urlSafe rest

/-! ## `net/url`: `QueryEscape` and `QueryUnescape` -/

/-- `shouldEscape(c, encodeQueryComponent)`: letters, digits and the marks
`-`, `_`, `.`, `~` are unreserved; the reserved characters and everything else
are escaped. -/
def shouldEscape (c : Byte) : Bool :=
  if (decide (97 ≤ c.val) && decide (c.val ≤ 122)) || (decide (65 ≤ c.val) && decide (c.val ≤ 90))
      || (decide (48 ≤ c.val) && decide (c.val ≤ 57)) then false
  else if c = 45 || c = 95 || c = 46 || c = 126 then false
  else true

/-- The table `upperhex`. -/
def upperhex : Bytes := ascii "0123456789ABCDEF"

/-- The body of the loop of `escape` for one byte, in the mode
`encodeQueryComponent`. -/
def escapeByte (c : Byte) : Bytes :=
  if c = 32 then [43]
  else if shouldEscape c then [37, upperhex.getD (c.val >>> 4) 0, upperhex.getD (c.val &&& 15) 0]
  else [c]

/-- `url.QueryEscape`; the early returns of `escape` for a string with
nothing to escape give what the loop gives. -/
def QueryEscape (s : Bytes) : Bytes := (s.map escapeByte).flatten

def ishex (c : Byte) : Bool :=
  (decide (48 ≤ c.val) && decide (c.val ≤ 57)) || (decide (97 ≤ c.val) && decide (c.val ≤ 102))
    || (decide (65 ≤ c.val) && decide (c.val ≤ 70))

def unhex (c : Byte) : Byte :=
  if decide (48 ≤ c.val) && decide (c.val ≤ 57) then c - 48
  else if decide (97 ≤ c.val) && decide (c.val ≤ 102) then c - 97 + 10
  else if decide (65 ≤ c.val) && decide (c.val ≤ 70) then c - 65 + 10
  else 0

/-- The first loop of `unescape`: the text of the first `%` that is not
followed by two hexadecimal digits (at most three bytes), if there is one. -/
def checkEscapes : Bytes → Option Bytes
  | [] => none
  | c :: cs =>
    if c = 37 then
      match cs with
      | h1 :: h2 :: rest =>
        if ishex h1 && ishex h2 then checkEscapes rest else some [c, h1, h2]
      | _ => some (c :: cs)
    else checkEscapes cs

/-- The second loop of `unescape`, in the mode `encodeQueryComponent`: `%XX`
is the byte with that value, `+` is a space. -/
def unescapeLoop : Bytes → Bytes
  | [] => []
  | c :: cs =>
    if c = 37 then
      match cs with
      | h1 :: h2 :: rest =>
        Fin.ofNat ((unhex h1).val <<< 4 ||| (unhex h2).val) :: unescapeLoop rest
      | _ => []
    else if c = 43 then 32 :: unescapeLoop cs
    else c :: unescapeLoop cs

/-- `url.EscapeError`; the text it carries is left out. -/
def errEscape : GoError := ⟨"invalid URL escape"⟩

/-- `url.QueryUnescape`. -/
def QueryUnescape (s : Bytes) : Except GoError Bytes :=
  match checkEscapes s with
  | some _ => .error errEscape
  | none => .ok (unescapeLoop s)

/-! ## `internal/encoder`: URL -/

/-- `Encoder.URLEncode()`. -/
def Encoder.URLEncode (e : Encoder) : Option EncoderError × Encoder :=
  match ioReadAll e.reader with
  | (_, some err, r) => (some (.read err), ⟨r, e.writer⟩)
  | (data, none, r) =>
    let encoded := QueryEscape data
    match Fprintln e.writer encoded with
    | (w, some err) => (some (.write err), ⟨r, w⟩)
    | (w, none) => (none, ⟨r, w⟩)

/-- `Encoder.URLDecode()`. -/
def Encoder.URLDecode (e : Encoder) : Option EncoderError × Encoder :=
  match ioReadAll e.reader with
  | (_, some err, r) => (some (.read err), ⟨r, e.writer⟩)
  | (data, none, r) =>
    let cleanData := TrimSpace data
    match QueryUnescape cleanData with
    | .error err => (some (.decodeURL err), ⟨r, e.writer⟩)
    | .ok decoded =>
      match Fprintln e.writer decoded with
      | (w, some err) => (some (.write err), ⟨r, w⟩)
      | (w, none) => (none, ⟨r, w⟩)

/-! ## `pkg/utils`: `TruncateString` -/

/-- The value of an expression of type `int`: 64 bits, two's complement. -/
def wrapInt64 (x : Int) : Int := (x + 2 ^ 63) % 2 ^ 64 - 2 ^ 63

/-- `TruncateString(s, maxLen)`; `none` is the run-time panic of the slice
expression `s[:maxLen-3]` whose bound is negative or beyond `len(s)`. -/
def TruncateString (s : Bytes) (maxLen : Int) : Option Bytes :=
  if (s.length : Int) ≤ maxLen then some s
  else
    let hi := wrapInt64 (maxLen - 3)
    if hi < 0 ∨ (s.length : Int) < hi then none
    else some (s.take hi.toNat ++ ascii "...")

/-! ## `internal/generator`: `GenerateString` -/

/-- The generator: a writer. -/
structure Generator where
  writer : Writer
deriving DecidableEq, Repr

def NewGenerator (writer : Writer) : Generator := ⟨writer⟩

/-- The error a method of `Generator` returns. -/
inductive GeneratorError
  | unknownCharset (charset : Bytes)
  | random (cause : GoError)
  | marshal (cause : GoError)
  | write (cause : GoError)
  | unknownFormat (format : Bytes)
deriving DecidableEq, Repr

/-- The random source `rand.Reader` as the calls of `rand.Int` see it: for the
call number `k` the error of the reader, or a draw. -/
abbrev RandSource := Nat → Except GoError Nat

/-- The call number `k` of `rand.Int(rand.Reader, big.NewInt(max))`: `none` is
its panic for `max <= 0`; otherwise the error of the reader or, by the contract
of `rand.Int`, a value `n` with `0 <= n < max`, here the draw reduced below
`max`. -/
def randInt (src : RandSource) (k : Nat) (max : Int) : Option (Except GoError Nat) :=
  if max ≤ 0 then none
  else
    match src k with
    | .error e => some (.error e)
    | .ok raw => some (.ok (raw % max.toNat))

/-- The `switch charset` of `GenerateString`; `none` is the `default` case. -/
def charsetChars (charset : Bytes) : Option Bytes :=
  if charset = ascii "alphanumeric" then
    some (ascii "ABCDEFGHIJKLMNOPQRSTUVWXYZabcdefghijklmnopqrstuvwxyz0123456789")
  else if charset = ascii "alpha" then
    some (ascii "ABCDEFGHIJKLMNOPQRSTUVWXYZabcdefghijklmnopqrstuvwxyz")
  else if charset = ascii "numeric" then some (ascii "0123456789")
  else if charset = ascii "ascii" then
    some (ascii ("!\"#$%&\x27()*+,-./0123456789:;<=>?@ABCDEFGHIJKLMNOPQRSTUVWXYZ[\\]^_\x60"
      ++ "abcdefghijklmnopqrstuvwxyz\x7b|\x7d~"))
  else if charset = ascii "hex" then some (ascii "0123456789abcdef")
  else none

/-- The inner loop of `GenerateString`: `length` bytes, each `chars[n]` for the
`n` of one call of `rand.Int`, the first of them call number `k`.  `none` is a
panic (of `rand.Int`, or of an index out of range); an error is the one of the
random source. -/
def randomString (src : RandSource) (chars : Bytes) : Nat → Nat → Option (Except GoError Bytes)
  | 0, _ => some (.ok [])
  | length + 1, k =>
    match randInt src k (chars.length : Int) with
    | none => none
    | some (.error e) => some (.error e)
    | some (.ok n) =>
      match chars[n]? with
      | none => none
      | some c =>
        match randomString src chars length (k + 1) with
        | none => none
        | some (.error e) => some (.error e)
        | some (.ok rest) => some (.ok (c :: rest))

/-- The outer loop of `GenerateString`: `count` strings. -/
def randomStrings (src : RandSource) (chars : Bytes) (length : Nat) :
    Nat → Nat → Option (Except GoError (List Bytes))
  | 0, _ => some (.ok [])
  | count + 1, k =>
    match randomString src chars length k with
    | none => none
    | some (.error e) => some (.error e)
    | some (.ok s) =>
      match randomStrings src chars length count (k + length) with
      | none => none
      | some (.error e) => some (.error e)
      | some (.ok rest) => some (.ok (s :: rest))

/-- The loop of `outputResult` for the format `string`: one `Fprintln` for each
item, up to the first that fails. -/
def writeLines (w : Writer) : List Bytes → Writer × Option GoError
  | [] => (w, none)
  | item :: rest =>
    match Fprintln w item with
    | (w1, some e) => (w1, some e)
    | (w1, none) => writeLines w1 rest

/-- The loop of `outputResult` for the format `csv`: one `Fprintf` of the
item between double quotes and a newline for each item. -/
def writeQuoted (w : Writer) : List Bytes → Writer × Option GoError
  | [] => (w, none)
  | item :: rest =>
    match w.Write (ascii "\"" ++ item ++ ascii "\"\n") with
    | (w1, some e) => (w1, some e)
    | (w1, none) => writeQuoted w1 rest

/-- `Generator.outputResult(data, format)`: the error returned, if any, and the
generator afterwards. -/
def Generator.outputResult (L : Lib) (g : Generator) (data : List Bytes) (format : Bytes) :
    Option GeneratorError × Generator :=
  if format = ascii "string" then
    match writeLines g.writer data with
    | (w, some e) => (some (.write e), ⟨w⟩)
    | (w, none) => (none, ⟨w⟩)
  else if format = ascii "json" then
    match jsonMarshalIndent L (.slice (data.map .string)) (ascii "  ") with
    | .error e => (some (.marshal e), g)
    | .ok jsonData =>
      match g.writer.Write jsonData with
      | (w, some e) => (some (.write e), ⟨w⟩)
      | (w, none) =>
        match Fprintln w [] with
        | (w1, some e) => (some (.write e), ⟨w1⟩)
        | (w1, none) => (none, ⟨w1⟩)
  else if format = ascii "csv" then
    match writeQuoted g.writer data with
    | (w, some e) => (some (.write e), ⟨w⟩)
    | (w, none) => (none, ⟨w⟩)
  else (some (.unknownFormat format), g)

/-- `make([]T, n)` for a type `T` of `size` bytes panics (`makeslice: len out of
range`) for a negative `n`, for a size `n * size` in bytes that overflows a
`uintptr` of 64 bits, and for a size above `maxAlloc`, the most the allocator
serves: `2^48` bytes on linux/amd64, less where memory is short. -/
def makeslicePanics (maxAlloc size : Nat) (n : Int) : Bool :=
  decide (n < 0) || decide ((2 : Int) ^ 64 ≤ n * size) || decide ((maxAlloc : Int) < n * size)

/-- `Generator.GenerateString(length, count, charset, format)`; `none` is a
run-time panic: of `make([]string, count)` or `make([]byte, length)`, of
`rand.Int`, or of an index out of range. -/
def Generator.GenerateString (L : Lib) (maxAlloc : Nat) (src : RandSource) (g : Generator)
    (length count : Int) (charset format : Bytes) :
    Option (Option GeneratorError × Generator) :=
  match charsetChars charset with
  | none => some (some (.unknownCharset charset), g)
  | some chars =>
    if makeslicePanics maxAlloc 16 count then none
    else if 0 < count ∧ makeslicePanics maxAlloc 1 length then none
    else
      match randomStrings src chars length.toNat count.toNat 0 with
      | none => none
      | some (.error e) => some (some (.random e), g)
      | some (.ok strs) => some (g.outputResult L strs format)

/-! ## `hash.Hash`, `crypto/md5` and `encoding/hex` -/

/-- A `hash.Hash`: the function of the algorithm from a message to its digest,
the digest size `Size()`, and the bytes written so far. -/
structure Hash where
  sum : Bytes → Bytes
  size : Nat
  written : Bytes

/-- `Hash.Write(p)`: it never returns an error. -/
def Hash.Write (h : Hash) (p : Bytes) : Hash := { h with written := h.written ++ p }

/-- `Hash.Sum(b)`: the digest of what was written, appended to `b`. -/
def Hash.Sum (h : Hash) (b : Bytes) : Bytes := b ++ h.sum h.written

/-- A word of 32 bits. -/
def word32 (x : Nat) : Nat := x % 2 ^ 32

/-- The rotation of a word of 32 bits to the left. -/
def rotl32 (x s : Nat) : Nat := word32 (x <<< s) ||| (x >>> (32 - s))

/-- The complement of a word of 32 bits. -/
def not32 (x : Nat) : Nat := 2 ^ 32 - 1 - x

/-- The table `T` of RFC 1321: `T[i]` is the integer part of
`2^32 * abs(sin(i + 1))`. -/
def md5Table : List Nat :=
  [0xd76aa478, 0xe8c7b756, 0x242070db, 0xc1bdceee, 0xf57c0faf, 0x4787c62a,
   0xa8304613, 0xfd469501, 0x698098d8, 0x8b44f7af, 0xffff5bb1, 0x895cd7be,
   0x6b901122, 0xfd987193, 0xa679438e, 0x49b40821, 0xf61e2562, 0xc040b340,
   0x265e5a51, 0xe9b6c7aa, 0xd62f105d, 0x02441453, 0xd8a1e681, 0xe7d3fbc8,
   0x21e1cde6, 0xc33707d6, 0xf4d50d87, 0x455a14ed, 0xa9e3e905, 0xfcefa3f8,
   0x676f02d9, 0x8d2a4c8a, 0xfffa3942, 0x8771f681, 0x6d9d6122, 0xfde5380c,
   0xa4beea44, 0x4bdecfa9, 0xf6bb4b60, 0xbebfbc70, 0x289b7ec6, 0xeaa127fa,
   0xd4ef3085, 0x04881d05, 0xd9d4d039, 0xe6db99e5, 0x1fa27cf8, 0xc4ac5665,
   0xf4292244, 0x432aff97, 0xab9423a7, 0xfc93a039, 0x655b59c3, 0x8f0ccc92,
   0xffeff47d, 0x85845dd1, 0x6fa87e4f, 0xfe2ce6e0, 0xa3014314, 0x4e0811a1,
   0xf7537e82, 0xbd3af235, 0x2ad7d2bb, 0xeb86d391]

/-- The shift amounts of the four rounds of RFC 1321. -/
def md5Shifts : List Nat :=
  [7, 12, 17, 22, 7, 12, 17, 22, 7, 12, 17, 22, 7, 12, 17, 22,
   5, 9, 14, 20, 5, 9, 14, 20, 5, 9, 14, 20, 5, 9, 14, 20,
   4, 11, 16, 23, 4, 11, 16, 23, 4, 11, 16, 23, 4, 11, 16, 23,
   6, 10, 15, 21, 6, 10, 15, 21, 6, 10, 15, 21, 6, 10, 15, 21]

/-- The registers `A`, `B`, `C`, `D` of MD5. -/
structure MD5State where
  a : Nat
  b : Nat
  c : Nat
  d : Nat
deriving DecidableEq, Repr

/-- Operation number `i` of the 64 of one block, on the 16 words `m` of the
block (RFC 1321, section 3.4). -/
def md5Step (m : List Nat) (s : MD5State) (i : Nat) : MD5State :=
  let f :=
    if i < 16 then (s.b &&& s.c) ||| (not32 s.b &&& s.d)
    else if i < 32 then (s.b &&& s.d) ||| (s.c &&& not32 s.d)
    else if i < 48 then s.b ^^^ s.c ^^^ s.d
    else s.c ^^^ (s.b ||| not32 s.d)
  let g :=
    if i < 16 then i
    else if i < 32 then (5 * i + 1) % 16
    else if i < 48 then (3 * i + 5) % 16
    else (7 * i) % 16
  let t := word32 (s.a + f + m.getD g 0 + md5Table.getD i 0)
  ⟨s.d, word32 (s.b + rotl32 t (md5Shifts.getD i 0)), s.b, s.c⟩

/-- A word from four bytes, the least significant first. -/
def leWord (b0 b1 b2 b3 : Byte) : Nat :=
  b0.val + b1.val * 2 ^ 8 + b2.val * 2 ^ 16 + b3.val * 2 ^ 24

/-- The words of a string of bytes, four bytes each. -/
def leWords : Bytes → List Nat
  | b0 :: b1 :: b2 :: b3 :: rest => leWord b0 b1 b2 b3 :: leWords rest
  | _ => []

/-- The four bytes of a word, the least significant first. -/
def leBytes (x : Nat) : Bytes :=
  [Fin.ofNat x, Fin.ofNat (x >>> 8), Fin.ofNat (x >>> 16), Fin.ofNat (x >>> 24)]

/-- One block of 16 words: the 64 operations, and the sum with the registers
before the block. -/
def md5Block (s : MD5State) (m : List Nat) : MD5State :=
  let t := (List.range 64).foldl (md5Step m) s
  ⟨word32 (s.a + t.a), word32 (s.b + t.b), word32 (s.c + t.c), word32 (s.d + t.d)⟩

/-- The blocks of 16 words of the padded message, one after the other;
`blocks` is their number. -/
def md5Blocks : Nat → MD5State → List Nat → MD5State
  | 0, s, _ => s
  | blocks + 1, s, ws => md5Blocks blocks (md5Block s (ws.take 16)) (ws.drop 16)

/-- The padding of RFC 1321: a bit `1`, bits `0` up to 56 bytes modulo 64, and
the length of the message in bits as 64 bits, the least significant byte
first. -/
def md5Pad (msg : Bytes) : Bytes :=
  let bits := msg.length * 8 % 2 ^ 64
  msg ++ [0x80] ++ List.replicate ((119 - msg.length % 64) % 64) 0
    ++ leBytes (bits % 2 ^ 32) ++ leBytes (bits / 2 ^ 32)

/-- The MD5 digest of a message (RFC 1321), which `crypto/md5` computes. -/
def md5Sum (msg : Bytes) : Bytes :=
  let padded := md5Pad msg
  let s := md5Blocks (padded.length / 64) ⟨0x67452301, 0xefcdab89, 0x98badcfe, 0x10325476⟩
    (leWords padded)
  leBytes s.a ++ leBytes s.b ++ leBytes s.c ++ leBytes s.d

/-- `md5.New()`. -/
def md5New : Hash := ⟨md5Sum, 16, []⟩

/-- The table `hextable` of `encoding/hex`. -/
def hextable : Bytes := ascii "0123456789abcdef"

/-- `hex.EncodeToString(src)`. -/
def hexEncodeToString : Bytes → Bytes
  | [] => []
  | v :: rest => hextable.getD (v.val >>> 4) 0 :: hextable.getD (v.val &&& 0x0f) 0
      :: hexEncodeToString rest

/-! ## `internal/hasher` -/

/-- The hasher: a reader and a writer. -/
structure Hasher where
  reader : Reader
  writer : Writer
deriving DecidableEq, Repr

def NewHasher (reader : Reader) (writer : Writer) : Hasher := ⟨reader, writer⟩

/-- The error `GenerateHash` returns, by the `fmt.Errorf` that wraps the cause. -/
inductive HasherError
  | read (cause : GoError)
deriving DecidableEq, Repr

/-- `Hasher.GenerateHash(hashFunc)`: the string and the error returned, and the
hasher and the hash function afterwards. -/
def Hasher.GenerateHash (h : Hasher) (hashFunc : Hash) :
    Bytes × Option HasherError × Hasher × Hash :=
  match ioReadAll h.reader with
  | (_, some err, r) => ([], some (.read err), ⟨r, h.writer⟩, hashFunc)
  | (data, none, r) =>
    let hashFunc := hashFunc.Write data
    (hexEncodeToString (hashFunc.Sum []), none, ⟨r, h.writer⟩, hashFunc)

/-! ## `float64`: the values that are finite and not negative -/

/-- A finite `float64` that is not negative, by its value `num / den`. -/
structure Frac where
  num : Nat
  den : Nat
deriving DecidableEq, Repr

/-- The quotient `n / d` rounded to the nearest integer, a tie to the even
one. -/
def divRoundEven (n d : Nat) : Nat :=
  if 2 * (n % d) > d ∨ (2 * (n % d) = d ∧ n / d % 2 = 1) then n / d + 1 else n / d

/-- The number of binary digits of `n`, with `fuel` bounding their count. -/
def bitLength : Nat → Nat → Nat
  | 0, _ => 0
  | fuel + 1, n => if n = 0 then 0 else bitLength fuel (n / 2) + 1

/-- The position of the highest bit of `n` that is set. -/
def highBit (n : Nat) : Nat := bitLength n n - 1

/-- The `float64` nearest to `num / den`, a tie to the one with the even
mantissa, for `den > 0` and a value in the range of the normal numbers: the
value is scaled by a power of two to lie between `2^52` and `2^53`, rounded to
an integer, the mantissa of 53 bits, and scaled back. -/
def roundFloat64 (num den : Nat) : Frac :=
  if num = 0 then ⟨0, 1⟩
  else
    let i := highBit den + 53 - highBit num
    let j := highBit num - (highBit den + 53)
    let n := num * 2 ^ i
    let k := if n / (den * 2 ^ j) ≥ 2 ^ 53 then j + 1 else j
    ⟨divRoundEven n (den * 2 ^ k) * 2 ^ k, 2 ^ i⟩

/-- The conversion `float64(n)` of an integer that is not negative. -/
def float64OfNat (n : Nat) : Frac := roundFloat64 n 1

/-- The quotient `x / y` of two `float64`, for `y` not zero. -/
def float64Div (x y : Frac) : Frac := roundFloat64 (x.num * y.den) (x.den * y.num)

/-- The sum `x + y` of two `float64`. -/
def float64Add (x y : Frac) : Frac :=
  roundFloat64 (x.num * y.den + y.num * x.den) (x.den * y.den)

/-- The conversion `int(x)` of a `float64` that is not negative: the
fractional part is dropped. -/
def float64ToInt (x : Frac) : Nat := x.num / x.den

/-- The decimal digits of `n` below `10^prec`, with the zeros in front. -/
def fracDigits : Nat → Nat → Bytes
  | 0, _ => []
  | prec + 1, n => Fin.ofNat (48 + n / 10 ^ prec % 10) :: fracDigits prec n

/-- The verb `%.<prec>f` of `fmt` for `prec > 0` on a value `num / den`: the
decimal expansion with `prec` digits after the point, rounded to the nearest,
a tie to the even digit (`strconv.FormatFloat(x, 'f', prec, 64)`). -/
def fmtFixed (prec : Nat) (x : Frac) : Bytes :=
  let q := divRoundEven (x.num * 10 ^ prec) x.den
  itoa (q / 10 ^ prec) ++ [46] ++ fracDigits prec (q % 10 ^ prec)

/-! ## `pkg/utils` and `internal/monitor`: `FormatBytes` -/

/-- The loop of `FormatBytes`, `for n := bytes / unit; n >= unit; n /= unit`:
the divisor, a `uint64`, and the exponent at its end; `n` gets smaller at each
turn, which `fuel` counts. -/
def unitLoop : Nat → Nat → Nat → Nat → Nat × Nat
  | 0, _, div, exp => (div, exp)
  | fuel + 1, n, div, exp =>
    if n ≥ 1024 then unitLoop fuel (n / 1024) (div * 1024 % 2 ^ 64) (exp + 1) else (div, exp)

/-- `utils.FormatBytes(bytes)` for a `uint64`; `none` is the panic of an index
out of range in `"KMGTPE"[exp]`. -/
def FormatBytes (bytes : Nat) : Option Bytes :=
  if bytes < 1024 then some (itoa bytes ++ ascii " B")
  else
    let r := unitLoop (bytes / 1024) (bytes / 1024) 1024 0
    match (ascii "KMGTPE")[r.2]? with
    | none => none
    | some c =>
      some (fmtFixed 1 (float64Div (float64OfNat bytes) (float64OfNat r.1)) ++ [32, c, 66])

/-- `monitor.formatBytes(bytes)`: the same text as `utils.FormatBytes`. -/
def formatBytes (bytes : Nat) : Option Bytes :=
  if bytes < 1024 then some (itoa bytes ++ ascii " B")
  else
    let r := unitLoop (bytes / 1024) (bytes / 1024) 1024 0
    match (ascii "KMGTPE")[r.2]? with
    | none => none
    | some c =>
      some (fmtFixed 1 (float64Div (float64OfNat bytes) (float64OfNat r.1)) ++ [32, c, 66])

/-! ## `time.Duration` and `FormatDuration` -/

/-- `time.Millisecond`, in nanoseconds. -/
def Millisecond : Nat := 1000000

/-- `time.Second`. -/
def Second : Nat := 1000000000

/-- `time.Minute`. -/
def Minute : Nat := 60000000000

/-- `time.Hour`. -/
def Hour : Nat := 3600000000000

/-- `Duration.Seconds()` for a duration that is not negative:
`float64(sec) + float64(nsec)/1e9`. -/
def Duration.Seconds (d : Nat) : Frac :=
  float64Add (float64OfNat (d / Second))
    (float64Div (float64OfNat (d % Second)) (float64OfNat 1000000000))

/-- `Duration.Minutes()`: `float64(min) + float64(nsec)/(60*1e9)`. -/
def Duration.Minutes (d : Nat) : Frac :=
  float64Add (float64OfNat (d / Minute))
    (float64Div (float64OfNat (d % Minute)) (float64OfNat (60 * 1000000000)))

/-- `Duration.Hours()`: `float64(h) + float64(nsec)/(60*60*1e9)`. -/
def Duration.Hours (d : Nat) : Frac :=
  float64Add (float64OfNat (d / Hour))
    (float64Div (float64OfNat (d % Hour)) (float64OfNat (60 * 60 * 1000000000)))

/-- The verb `%d` on an integer. -/
def itoaInt (z : Int) : Bytes := if z < 0 then 45 :: itoa (-z).toNat else itoa z.toNat

/-- `utils.FormatDuration(d)` for a `time.Duration`, an `int64` of
nanoseconds; `Microseconds()` and `Milliseconds()` are integer divisions that
truncate, the three other methods are in `float64`. -/
def FormatDuration (d : Int) : Bytes :=
  if d < Millisecond then itoaInt (d.tdiv 1000) ++ [32, 0xC2, 0xB5, 115]
  else if d < Second then itoaInt (d.tdiv 1000000) ++ ascii " ms"
  else if d < Minute then fmtFixed 2 (Duration.Seconds d.toNat) ++ ascii " s"
  else if d < Hour then
    itoa (float64ToInt (Duration.Minutes d.toNat)) ++ ascii " min "
      ++ itoa (float64ToInt (Duration.Seconds d.toNat) % 60) ++ ascii " s"
  else
    itoa (float64ToInt (Duration.Hours d.toNat)) ++ ascii " h "
      ++ itoa (float64ToInt (Duration.Minutes d.toNat) % 60) ++ ascii " min"

/-! ## `internal/httpclient`: basic authentication and `printHeaders` -/

/-- `Request.SetBasicAuth(username, password)`: the value it gives the header
`Authorization`. -/
def basicAuth (username password : Bytes) : Bytes :=
  ascii "Basic " ++ EncodeToString encodeStd (username ++ [58] ++ password)

/-- The step of `SendRequest` for the credentials: the value `SetBasicAuth`
gives the header `Authorization`, `none` when `SetBasicAuth` is not called. -/
def sendRequestAuthorization (username password : Bytes) : Option Bytes :=
  if username ≠ [] then some (basicAuth username password) else none

/-- The `Run` function of the `http` command, for the credentials: the values
of the flags `--user` and `--password` go to `SendRequest` as they are. -/
def httpRunAuthorization (user password : Bytes) : Option Bytes :=
  sendRequestAuthorization user password

/-- `strings.Cut(s, ":")`; `none` when there is no colon. -/
def cutColon : Bytes → Option (Bytes × Bytes)
  | [] => none
  | c :: cs =>
    if c = 58 then some ([], cs)
    else
      match cutColon cs with
      | some (before, after) => some (c :: before, after)
      | none => none

/-- The user name and the password that a value of the header `Authorization`
carries (`parseBasicAuth` of `net/http`, RFC 7617): after `Basic `, in any
letter case, the Base64 of the user name, a colon and the password. -/
def parseBasicAuth (auth : Bytes) : Option (Bytes × Bytes) :=
  if auth.length < 6 ∨ (auth.take 6).map lowerByte ≠ ascii "basic " then none
  else
    match DecodeString encodeStd (auth.drop 6) with
    | .error _ => none
    | .ok c => cutColon c

/-- The value `headers[key]` of a map given by its entries. -/
def headerValue : List (Bytes × Bytes) → Bytes → Bytes
  | [], _ => []
  | (k, v) :: rest, key => if k = key then v else headerValue rest key

/-- The rows that `printHeaders` appends to the table.  The map is given by
its entries in the order in which `range` visits them, an order Go leaves
open; `sortedHeaders` takes the keys in that order, and no call sorts it. -/
def printHeadersRows (headers : List (Bytes × Bytes)) : List (Bytes × Bytes) :=
  let sortedHeaders := headers.map (fun e => e.1)
  sortedHeaders.map (fun key => (key, headerValue headers key))

/-! ## `float64`: the finite values with their sign -/

/-- A finite `float64`: the sign and the magnitude. -/
structure Float64 where
  neg : Bool
  abs : Frac
deriving DecidableEq, Repr

/-- The conversion `float64(z)` of an integer. -/
def Float64.ofInt (z : Int) : Float64 := ⟨decide (z < 0), float64OfNat z.natAbs⟩

/-- The product `x * y`. -/
def Float64.mul (x y : Float64) : Float64 :=
  ⟨xor x.neg y.neg, roundFloat64 (x.abs.num * y.abs.num) (x.abs.den * y.abs.den)⟩

/-- The quotient `x / y`, for `y` not zero. -/
def Float64.div (x y : Float64) : Float64 := ⟨xor x.neg y.neg, float64Div x.abs y.abs⟩

/-- The sum `x + y`: of the magnitudes when the signs agree, and otherwise the
difference of the magnitudes with the sign of the larger one; a sum that is
zero without both terms being negative is `+0`. -/
def Float64.add (x y : Float64) : Float64 :=
  if x.neg = y.neg then ⟨x.neg, float64Add x.abs y.abs⟩
  else if y.abs.num * x.abs.den ≤ x.abs.num * y.abs.den then
    ⟨x.neg && decide (y.abs.num * x.abs.den < x.abs.num * y.abs.den),
      roundFloat64 (x.abs.num * y.abs.den - y.abs.num * x.abs.den) (x.abs.den * y.abs.den)⟩
  else
    ⟨y.neg, roundFloat64 (y.abs.num * x.abs.den - x.abs.num * y.abs.den) (x.abs.den * y.abs.den)⟩

/-- The negation `-x`. -/
def Float64.negate (x : Float64) : Float64 := ⟨!x.neg, x.abs⟩

/-- The comparison `x < 0`. -/
def Float64.isNegative (x : Float64) : Bool := x.neg && decide (x.abs.num ≠ 0)

/-- The comparison `x > 1`. -/
def Float64.aboveOne (x : Float64) : Bool := !x.neg && decide (x.abs.den < x.abs.num)

/-- The conversion `int(x)` or `int64(x)`: the fractional part is dropped; for
a value outside the range of `int64` the result depends on the
implementation, and is `outOfRange` here. -/
def Float64.toInt (outOfRange : Int) (x : Float64) : Int :=
  let t : Int := if x.neg then -((x.abs.num / x.abs.den : Nat) : Int) else (x.abs.num / x.abs.den : Nat)
  if t < -(2 ^ 63) ∨ 2 ^ 63 ≤ t then outOfRange else t

/-- The verb `%.<prec>f` on a `float64` with its sign. -/
def Float64.format (prec : Nat) (x : Float64) : Bytes :=
  if x.neg then 45 :: fmtFixed prec x.abs else fmtFixed prec x.abs

/-! ## `internal/generator`: `GenerateNumber` -/

/-- The random source `rand.Reader` as the calls of `rand.Read` see it: for the
call number `k` the error of the reader, or the bytes it fills the slice with. -/
abbrev ByteSource := Nat → Except GoError Bytes

/-- The fraction `n` of `GenerateNumber` from the random bytes: the first four
bytes as an integer, the least significant first, over `1 << 32`, and the two
corrections `n = -n` and `n = 1 / n`. -/
def randomFraction (randBytes : Bytes) : Float64 :=
  let k : Nat := (randBytes.getD 0 0).val ||| (randBytes.getD 1 0).val <<< 8
    ||| (randBytes.getD 2 0).val <<< 16 ||| (randBytes.getD 3 0).val <<< 24
  let n := Float64.div (Float64.ofInt k) (Float64.ofInt (2 ^ 32))
  let n := if n.isNegative then n.negate else n
  if n.aboveOne then Float64.div (Float64.ofInt 1) n else n

/-- The first loop of the float mode: `count` values `float64(min) + diff*n`,
the first of them from the call number `k` of `rand.Read`. -/
def randomFloats (bsrc : ByteSource) (min : Int) (diff : Float64) :
    Nat → Nat → Except GoError (List Float64)
  | 0, _ => .ok []
  | count + 1, k =>
    match bsrc k with
    | .error e => .error e
    | .ok randBytes =>
      match randomFloats bsrc min diff count (k + 1) with
      | .error e => .error e
      | .ok rest =>
        .ok (Float64.add (Float64.ofInt min) (Float64.mul diff (randomFraction randBytes))
          :: rest)

/-- The loop of the integer mode: `count` numbers `n.Int64() + min` printed
with `%d`, for the `n` of the calls of `rand.Int` from number `k` on; `none`
is the panic of `rand.Int`. -/
def randomInts (src : RandSource) (range64 min : Int) :
    Nat → Nat → Option (Except GoError (List Bytes))
  | 0, _ => some (.ok [])
  | count + 1, k =>
    match randInt src k range64 with
    | none => none
    | some (.error e) => some (.error e)
    | some (.ok n) =>
      match randomInts src range64 min count (k + 1) with
      | none => none
      | some (.error e) => some (.error e)
      | some (.ok rest) => some (.ok (itoaInt (wrapInt64 ((n : Int) + min)) :: rest))

/-- `Generator.GenerateNumber(min, max, count, float, format)` for `int64`
values `min` and `max`; `none` is a run-time panic: of `make([]float64, count)`
or `make([]string, count)`, or of `rand.Int`. -/
def Generator.GenerateNumber (L : Lib) (maxAlloc : Nat) (src : RandSource) (bsrc : ByteSource)
    (g : Generator) (min max count : Int) (float : Bool) (format : Bytes) :
    Option (Option GeneratorError × Generator) :=
  if float then
    if makeslicePanics maxAlloc 8 count then none
    else
      let diff := Float64.ofInt (wrapInt64 (max - min))
      match randomFloats bsrc min diff count.toNat 0 with
      | .error e => some (some (.random e), g)
      | .ok floats =>
        if makeslicePanics maxAlloc 16 count then none
        else some (g.outputResult L (floats.map (Float64.format 6)) format)
  else
    let range64 := wrapInt64 (max - min + 1)
    if makeslicePanics maxAlloc 16 count then none
    else
      match randomInts src range64 min count.toNat 0 with
      | none => none
      | some (.error e) => some (some (.random e), g)
      | some (.ok ints) => some (g.outputResult L ints format)

/-- The `Run` function of the `number` subcommand on its arguments and the
values of the flags `--float` and `--format`: how it ends, and the standard
output afterwards.  `strconv.ParseInt(s, 10, 64)` and `strconv.Atoi` are not
embedded: `parseInt` and `atoi` give their result, `none` for an error. -/
def numberRun (L : Lib) (maxAlloc : Nat) (src : RandSource) (bsrc : ByteSource)
    (parseInt atoi : Bytes → Option Int) (args : List Bytes) (float : Bool) (format : Bytes)
    (stdout : Writer) : Exit × Writer :=
  let minArg : Option Int :=
    match args with
    | [] => some 1
    | a :: _ => parseInt a
  match minArg with
  | none => (.exit 1, stdout)
  | some min =>
    let maxArg : Option Int :=
      match args.drop 1 with
      | [] => some 100
      | a :: _ =>
        match parseInt a with
        | none => none
        | some max => if max < min then none else some max
    match maxArg with
    | none => (.exit 1, stdout)
    | some max =>
      let countArg : Option Int :=
        match args.drop 2 with
        | [] => some 1
        | a :: _ =>
          match atoi a with
          | none => none
          | some count => if count < 1 then none else some count
      match countArg with
      | none => (.exit 1, stdout)
      | some count =>
        match Generator.GenerateNumber L maxAlloc src bsrc (NewGenerator stdout) min max count
            float format with
        | none => (.panic, stdout)
        | some (some _, g) => (.exit 1, g.writer)
        | some (none, g) => (.returned, g.writer)

/-! ## `time`: `Parse` with the layout `2006-01-02`, `Sub` and `Add` -/

/-- A leap year of the Gregorian calendar. -/
def isLeap (year : Nat) : Bool := year % 4 = 0 && (year % 100 != 0 || year % 400 = 0)

/-- The function `daysIn` of package `time`: the days of a month, 1 to 12. -/
def daysIn (month year : Nat) : Nat :=
  if month = 2 then (if isLeap year then 29 else 28)
  else if month = 4 ∨ month = 6 ∨ month = 9 ∨ month = 11 then 30
  else 31

/-- The days of the months of a year before `month`. -/
def daysBeforeMonth : Nat → Nat → Nat
  | 0, _ => 0
  | 1, _ => 0
  | month + 1, year => daysBeforeMonth month year + daysIn month year

/-- The days of the years from 0 up to `year`, this one left out. -/
def daysBeforeYear (year : Nat) : Nat :=
  365 * year + (year + 3) / 4 + (year + 399) / 400 - (year + 99) / 100

/-- The number of a day, counted from the first of January of the year 0. -/
def dayNumber (year month day : Nat) : Nat :=
  daysBeforeYear year + daysBeforeMonth month year + (day - 1)

/-- The function `getnum(s, true)` of package `time`: a number of exactly two
digits and what follows it. -/
def getnum2 : Bytes → Option (Nat × Bytes)
  | a :: b :: rest =>
    if isDigit a && isDigit b then some ((a.val - 48) * 10 + (b.val - 48), rest) else none
  | _ => none

/-- The year of the layout element `2006`: exactly four digits. -/
def getYear : Bytes → Option (Nat × Bytes)
  | a :: b :: c :: d :: rest =>
    if isDigit a && isDigit b && isDigit c && isDigit d then
      some ((a.val - 48) * 1000 + (b.val - 48) * 100 + (c.val - 48) * 10 + (d.val - 48), rest)
    else none
  | _ => none

/-- The literal `-` of the layout. -/
def skipDash : Bytes → Option Bytes
  | c :: rest => if c = 45 then some rest else none
  | [] => none

/-- `time.Parse("2006-01-02", value)`: the error, or the day parsed by its
number; the time returned is the midnight UTC that starts the day. -/
def timeParseDate (value : Bytes) : Except GoError Nat :=
  match getYear value with
  | none => .error ⟨"cannot parse as 2006"⟩
  | some (year, v1) =>
    match skipDash v1 with
    | none => .error ⟨"cannot parse as -"⟩
    | some v2 =>
      match getnum2 v2 with
      | none => .error ⟨"cannot parse as 01"⟩
      | some (month, v3) =>
        if month = 0 ∨ 12 < month then .error ⟨"month out of range"⟩
        else
          match skipDash v3 with
          | none => .error ⟨"cannot parse as -"⟩
          | some v4 =>
            match getnum2 v4 with
            | none => .error ⟨"cannot parse as 02"⟩
            | some (day, v5) =>
              if v5.length ≠ 0 then .error ⟨"extra text"⟩
              else if day < 1 ∨ day > daysIn month year then .error ⟨"day out of range"⟩
              else .ok (dayNumber year month day)

/-- The nanoseconds of a day. -/
def nsPerDay : Nat := 24 * Hour

/-- `t.Sub(u)` for two times in nanoseconds: the difference, or the largest or
the smallest `Duration` when it does not fit in an `int64`. -/
def timeSub (t u : Int) : Int :=
  if t - u > 2 ^ 63 - 1 then 2 ^ 63 - 1
  else if t - u < -(2 ^ 63) then -(2 ^ 63)
  else t - u

/-! ## `internal/generator`: `GenerateDate` -/

/-- The error `GenerateDate` returns. -/
inductive GenerateDateError
  | invalidStart (cause : GoError)
  | invalidEnd (cause : GoError)
  | endBeforeStart
  | output (e : GeneratorError)
deriving DecidableEq, Repr

/-- The loop of `GenerateDate`: `count` dates
`start.Add(time.Duration(n.Int64()) * 24 * time.Hour)` in the layout
`dateFormat`, for the `n` of the calls of `rand.Int` with the bound
`diffDays + 1` from number `k` on; `none` is the panic of `rand.Int`.
`Time.Format` is not embedded: `format` gives its result for a layout and a
time in nanoseconds. -/
def randomDates (src : RandSource) (format : Bytes → Int → Bytes) (start : Int)
    (diffDays : Int) (dateFormat : Bytes) : Nat → Nat → Option (Except GoError (List Bytes))
  | 0, _ => some (.ok [])
  | count + 1, k =>
    match randInt src k (wrapInt64 (diffDays + 1)) with
    | none => none
    | some (.error e) => some (.error e)
    | some (.ok n) =>
      match randomDates src format start diffDays dateFormat count (k + 1) with
      | none => none
      | some (.error e) => some (.error e)
      | some (.ok rest) =>
        some (.ok (format dateFormat (start + wrapInt64 ((n : Int) * 24 * Hour)) :: rest))

/-- `Generator.GenerateDate(startStr, endStr, count, dateFormat, outputFormat)`;
`none` is a run-time panic: of `make([]string, count)` or of `rand.Int`.
Times are in nanoseconds from the start of day 0. -/
def Generator.GenerateDate (L : Lib) (maxAlloc : Nat) (src : RandSource)
    (format : Bytes → Int → Bytes) (g : Generator) (startStr endStr : Bytes) (count : Int)
    (dateFormat outputFormat : Bytes) : Option (Option GenerateDateError × Generator) :=
  match timeParseDate startStr with
  | .error e => some (some (.invalidStart e), g)
  | .ok startDay =>
    match timeParseDate endStr with
    | .error e => some (some (.invalidEnd e), g)
    | .ok endDay =>
      let start : Int := (startDay * nsPerDay : Nat)
      let stop : Int := (endDay * nsPerDay : Nat)
      if stop < start then some (some .endBeforeStart, g)
      else
        let diff := timeSub stop start
        let diffDays : Int :=
          (float64ToInt (float64Div (Duration.Hours diff.toNat) (float64OfNat 24)) : Nat)
        if makeslicePanics maxAlloc 16 count then none
        else
          match randomDates src format start diffDays dateFormat count.toNat 0 with
          | none => none
          | some (.error e) => some (some (.output (.random e)), g)
          | some (.ok dates) =>
            match g.outputResult L dates outputFormat with
            | (none, g1) => some (none, g1)
            | (some e, g1) => some (some (.output e), g1)

/-! ## `internal/monitor`: `renderProgressBar` -/

/-- The loop `for i := 0; i < width; i++` of `renderProgressBar` from the
index `i` on, with the number of rounds still to run: each round appends `=`
when `i < completed` and a space otherwise. -/
def renderProgressBarLoop (completed : Int) (bar : Bytes) : Nat → Nat → Bytes
  | 0, _ => bar
  | rounds + 1, i =>
    renderProgressBarLoop completed (bar ++ (if (i : Int) < completed then ascii "=" else ascii " "))
      rounds (i + 1)

/-- `renderProgressBar(percent, width)` for a finite `percent`; `outOfRange`
is the result of the conversion `int(x)` for a value outside of `int64`, which
depends on the implementation. -/
def renderProgressBar (outOfRange : Int) (percent : Float64) (width : Int) : Bytes :=
  let width := if width < 10 then 10 else width
  let completed := Float64.toInt outOfRange
    (Float64.mul (Float64.div percent (Float64.ofInt 100)) (Float64.ofInt width))
  let completed := if completed > width then width else completed
  let bar := ascii "["
  let bar := renderProgressBarLoop completed bar width.toNat 0
  bar ++ ascii "]"

/-! ## The inputs of the scenarios -/

/-- A value of `Lib` for the concrete instances: every library call that is
not embedded fails. -/
def Lib.failing : Lib :=
  ⟨fun _ => .error ⟨"not embedded"⟩, id, fun _ _ => .error ⟨"not embedded"⟩,
   fun _ => .error ⟨"not embedded"⟩, fun _ => .error ⟨"not embedded"⟩,
   fun _ => some ⟨"not embedded"⟩, fun _ _ => .error ⟨"not embedded"⟩, id, id⟩

/-- The JSON object of the key-order scenario. -/
def jsonPerson : Bytes :=
  ascii "\x7b\"name\":\"John\",\"age\":30,\"city\":\"New York\"\x7d"

/-- The truncated JSON object of the decode-error scenario. -/
def jsonTruncated : Bytes := ascii "\x7b\"a\":1"

/-- The XML document of the XML-to-JSON scenario. -/
def xmlPerson : Bytes := ascii "<person><name>John</name><age>30</age></person>"

/-- An element followed by a stray `<`: not a well-formed XML document. -/
def xmlTrailing : Bytes := ascii "<a></a><"

/-- Whether `part` is a prefix of the input. -/
def startsWith (part : Bytes) (s : Bytes) : Bool := s.take part.length == part

/-- The input after the first occurrence of `part`, if it occurs. -/
def afterFirst (part : Bytes) : Bytes → Option Bytes
  | [] => if part.length = 0 then some [] else none
  | c :: cs =>
    if startsWith part (c :: cs) then some ((c :: cs).drop part.length)
    else afterFirst part cs

/-- Whether the parts occur in the input one after the other, in this order. -/
def occursInOrder : List Bytes → Bytes → Bool
  | [], _ => true
  | part :: parts, s =>
    match afterFirst part s with
    | some rest => occursInOrder parts rest
    | none => false

/-! ## Definitions for the statements -/

/-- The error of the source decoder, as `Convert` wraps it. -/
def decoderRejects (L : Lib) (src data : Bytes) (e : ConvertError) : Prop :=
  (src = fmtJSON ∧ ∃ cause, jsonUnmarshal L data = .error cause ∧ e = .parseJSON cause)
    ∨ (src = fmtYAML ∧ ∃ cause, L.yamlUnmarshal data = .error cause ∧ e = .parseYAML cause)
    ∨ (src = fmtXML ∧ ∃ cause, xmlUnmarshal L data = some cause ∧ e = .parseXML cause)

/-- A string of ASCII bytes only. -/
def isASCII (s : Bytes) : Prop := s.all (fun c => decide (c.val < 128)) = true

/-- The four six-bit values of three bytes, as `Encode` computes them. -/
def sextets (v : Nat) : List Nat :=
  [v >>> 18 &&& 0x3F, v >>> 12 &&& 0x3F, v >>> 6 &&& 0x3F, v &&& 0x3F]

/-- What the proofs use of an alphabet: each of its 64 entries decodes to its
index, is an ASCII byte and no space, and the padding is not an entry. -/
def goodAlphabet (enc : Bytes) : Prop :=
  (∀ i : Fin 64, decodeMap enc (encodeAt enc i.val) = some i.val)
    ∧ (∀ i : Fin 64, (encodeAt enc i.val).val < 128 ∧ asciiSpace (encodeAt enc i.val) = false)
    ∧ decodeMap enc padChar = none

/-- An unreserved character: a letter, a digit or one of `-`, `_`, `.`, `~`. -/
def isUnreserved (c : Byte) : Bool :=
  isLetter c || isDigit c || c = 45 || c = 95 || c = 46 || c = 126

/-- The upper-case hexadecimal digit for a value below 16. -/
def hexDigitUpper (d : Nat) : Byte := if d < 10 then Fin.ofNat (48 + d) else Fin.ofNat (55 + d)

/-- The query escaping in the words of the claim: an unreserved byte is
copied, a space becomes `+`, any other byte becomes `%` and its two upper-case
hexadecimal digits. -/
def queryEscapeSpec (s : Bytes) : Bytes :=
  (s.map (fun c =>
    if isUnreserved c then [c]
    else if c = 32 then [43]
    else [37, hexDigitUpper (c.val / 16), hexDigitUpper (c.val % 16)])).flatten

def isHexUpper (c : Byte) : Bool :=
  isDigit c || (decide (65 ≤ c.val) && decide (c.val ≤ 70))

/-- A string of unreserved characters, `+` and triples `%XX` of upper-case
hexadecimal digits only. -/
def isEscapedForm : Bytes → Bool
  | [] => true
  | c :: cs =>
    if c = 37 then
      match cs with
      | h1 :: h2 :: rest => isHexUpper h1 && isHexUpper h2 && isEscapedForm rest
      | _ => false
    else (isUnreserved c || c = 43) && isEscapedForm cs

/-- Whether the input starts with two hexadecimal digits. -/
def twoHex : Bytes → Bool
  | h1 :: h2 :: _ => ishex h1 && ishex h2
  | _ => false

/-- The string has a `%` that is not followed by two hexadecimal digits. -/
def hasBadEscape (s : Bytes) : Prop := ∃ pre post, s = pre ++ 37 :: post ∧ twoHex post = false

/-- The value of a hexadecimal digit of either case: its place among the
digits `0123456789abcdef`, or ten and its place among `ABCDEF`. -/
def hexDigitValue (c : Byte) : Option Nat :=
  if c ∈ ascii "0123456789abcdef" then some ((ascii "0123456789abcdef").indexOf c)
  else if c ∈ ascii "ABCDEF" then some (10 + (ascii "ABCDEF").indexOf c)
  else none

/-- The unescaped string in the words of the claim: `%XY`, for two hexadecimal
digits of the values `x` and `y`, stands for the byte `16 * x + y`, `+` for a
space and any other byte for itself; there is none when a `%` is not followed
by two hexadecimal digits. -/
def queryUnescapeSpec : Bytes → Option Bytes
  | [] => some []
  | c :: cs =>
    if c = 37 then
      match cs with
      | h1 :: h2 :: rest =>
        match hexDigitValue h1, hexDigitValue h2, queryUnescapeSpec rest with
        | some x, some y, some tail => some (Fin.ofNat (16 * x + y) :: tail)
        | _, _, _ => none
      | _ => none
    else
      match queryUnescapeSpec cs with
      | some tail => some ((if c = 43 then 32 else c) :: tail)
      | none => none

/-- The bytes `\n` and `\r`, which the decoder of `encoding/base64` ignores. -/
def isNewline (c : Byte) : Bool := c = 10 || c = 13

/-- The string without its `\n` and `\r` bytes. -/
def dropNewlines (s : Bytes) : Bytes := s.filter (fun c => !isNewline c)

/-- A byte of the alphabet. -/
def inAlphabet (enc : Bytes) (c : Byte) : Bool := (decodeMap enc c).isSome

/-- A valid padded Base64 string in the alphabet `enc`: groups of four
characters of the alphabet, the last group ending in nothing, `=` or `==`. -/
def validBase64 (enc : Bytes) : Bytes → Bool
  | [] => true
  | a :: b :: c :: d :: rest =>
    inAlphabet enc a && inAlphabet enc b &&
      (if rest.length = 0 then
        (inAlphabet enc c && (inAlphabet enc d || d = padChar)) || (c = padChar && d = padChar)
      else inAlphabet enc c && inAlphabet enc d && validBase64 enc rest)
  | _ => false

/-- What the proofs use of an alphabet: `\n`, `\r` and the padding are not
entries of it. -/
def paddedAlphabet (enc : Bytes) : Prop :=
  decodeMap enc 10 = none ∧ decodeMap enc 13 = none ∧ decodeMap enc 61 = none

/-- The input left after a quantum, without its newlines. -/
def dropRest (r : Except GoError (Bytes × Bytes)) : Except GoError (Bytes × Bytes) :=
  match r with
  | .ok (out, rest) => .ok (out, dropNewlines rest)
  | .error e => .error e


/-- The alphabet `Base64Decode` selects. -/
def alphabetOf (urlSafe : Bool) : Bytes := if urlSafe then encodeURL else encodeStd

/-- The UTF-8 encodings of the white space characters of Unicode, the runes
`unicode.IsSpace` reports: U+0009 to U+000D, U+0020, U+0085, U+00A0, U+1680,
U+2000 to U+200A, U+2028, U+2029, U+202F, U+205F and U+3000. -/
def spaceEncodings : List Bytes :=
  [[0x09], [0x0A], [0x0B], [0x0C], [0x0D], [0x20], [0xC2, 0x85], [0xC2, 0xA0],
   [0xE1, 0x9A, 0x80],
   [0xE2, 0x80, 0x80], [0xE2, 0x80, 0x81], [0xE2, 0x80, 0x82], [0xE2, 0x80, 0x83],
   [0xE2, 0x80, 0x84], [0xE2, 0x80, 0x85], [0xE2, 0x80, 0x86], [0xE2, 0x80, 0x87],
   [0xE2, 0x80, 0x88], [0xE2, 0x80, 0x89], [0xE2, 0x80, 0x8A],
   [0xE2, 0x80, 0xA8], [0xE2, 0x80, 0xA9], [0xE2, 0x80, 0xAF], [0xE2, 0x81, 0x9F],
   [0xE3, 0x80, 0x80]]

/-- A string of white space: white space characters one after the other. -/
def isWhitespace (ws : Bytes) : Prop :=
  ∃ l : List Bytes, (∀ e ∈ l, e ∈ spaceEncodings) ∧ ws = l.flatten

/-- What the proofs use of the encoding of a white space character: one ASCII
byte of the table `asciiSpace`, or two or three bytes that start a rune at the
first byte only, end in a byte that is not ASCII, and decode to a rune of
`unicode.IsSpace` of that width. -/
def spaceShape (e : Bytes) : Bool :=
  match e with
  | [a] => decide (a.val < 0x80) && asciiSpace a
  | [b0, b1] =>
    decide (b0.val ≥ 0x80) && decide (b1.val ≥ 0x80) && RuneStart b0
      && IsSpace (DecodeRune [b0, b1]).1 && decide ((DecodeRune [b0, b1]).2 = 2)
  | [b0, b1, b2] =>
    decide (b0.val ≥ 0x80) && decide (b2.val ≥ 0x80) && RuneStart b0 && !RuneStart b1
      && IsSpace (DecodeRune [b0, b1, b2]).1 && decide ((DecodeRune [b0, b1, b2]).2 = 3)
  | _ => false

/-- A byte of ASCII that is no white space. -/
def isPlain (c : Byte) : Prop := c.val < 128 ∧ asciiSpace c = false

/-- The charset names `GenerateString` knows. -/
def charsetNames : List Bytes :=
  [ascii "alphanumeric", ascii "alpha", ascii "numeric", ascii "ascii", ascii "hex"]

/-- A lower-case hexadecimal digit. -/
def isLowerHex (c : Byte) : Bool :=
  (decide (48 ≤ c.val) && decide (c.val ≤ 57)) || (decide (97 ≤ c.val) && decide (c.val ≤ 102))

/-- The exponent of the claim for a size from 1024 on: the `e` in 1..6 with
`1024^e <= b < 1024^(e+1)`, for `b` below `2^64`. -/
def unitExponent (b : Nat) : Nat :=
  if b < 1024 ^ 2 then 1 else if b < 1024 ^ 3 then 2 else if b < 1024 ^ 4 then 3
  else if b < 1024 ^ 5 then 4 else if b < 1024 ^ 6 then 5 else 6

/-- The text of the claim: the size in bytes below 1024, and from there on the
fraction `value` printed with one decimal, a space, the letter of the unit and
`B`. -/
def formatBytesText (b : Nat) (value : Frac) : Bytes :=
  if b < 1024 then itoa b ++ ascii " B"
  else fmtFixed 1 value ++ [32, (ascii "KMGTPE").getD (unitExponent b - 1) 0, 66]

/-- Two fractions of the same value. -/
def Frac.same (x y : Frac) : Prop := x.num * y.den = y.num * x.den

/-- A fraction whose value has at most 53 significant bits. -/
def Frac.isFloat (x : Frac) : Prop :=
  0 < x.den ∧ ∃ M a b, M < 2 ^ 53 ∧ x.num * 2 ^ b = M * 2 ^ a * x.den

/-- Rows in ascending order of their keys. -/
def ascendingKeys : List (Bytes × Bytes) → Bool
  | e :: f :: rest => bytesLess e.1 f.1 && ascendingKeys (f :: rest)
  | _ => true

/-- A date in the form `YYYY-MM-DD`: four digits, `-`, two digits of a month
from 1 to 12, `-`, and two digits of a day of that month. -/
def isDateForm (s : Bytes) : Bool :=
  match s with
  | [y1, y2, y3, y4, s1, m1, m2, s2, d1, d2] =>
    isDigit y1 && isDigit y2 && isDigit y3 && isDigit y4 && s1 = 45 && isDigit m1
      && isDigit m2 && s2 = 45 && isDigit d1 && isDigit d2
      && decide (1 ≤ (m1.val - 48) * 10 + (m2.val - 48))
      && decide ((m1.val - 48) * 10 + (m2.val - 48) ≤ 12)
      && decide (1 ≤ (d1.val - 48) * 10 + (d2.val - 48))
      && decide ((d1.val - 48) * 10 + (d2.val - 48)
          ≤ daysIn ((m1.val - 48) * 10 + (m2.val - 48))
              ((y1.val - 48) * 1000 + (y2.val - 48) * 100 + (y3.val - 48) * 10 + (y4.val - 48)))
  | _ => false

/-- A fraction that is the natural number `v`. -/
def Frac.isNat (x : Frac) (v : Nat) : Prop := 0 < x.den ∧ x.num = v * x.den

/-- A bar of width `w` with `k` cells filled: `[`, `k` times `=`, `w - k`
spaces and `]`. -/
def progressBarText (k w : Nat) : Bytes :=
  ascii "[" ++ List.replicate k 61 ++ List.replicate (w - k) 32 ++ ascii "]"

/-- The number `percent / 100 * w` in exact arithmetic, truncated toward zero
and clamped to `0..w`. -/
def exactCompleted (percent : Float64) (w : Nat) : Nat :=
  if percent.neg then 0 else min (percent.abs.num * w / (percent.abs.den * 100)) w

/-- A `float64` with its fractional part dropped. -/
def Float64.truncated (x : Float64) : Int :=
  if x.neg then -((x.abs.num / x.abs.den : Nat) : Int) else (x.abs.num / x.abs.den : Nat)

/-- A `float64` whose integer part is in the range of `int64`. -/
def Float64.fitsInt64 (x : Float64) : Prop := -(2 ^ 63) ≤ x.truncated ∧ x.truncated < 2 ^ 63

/-! ### The grammar of JSON (RFC 8259), on bytes -/

/-- White space: `ws = *( %x20 / %x09 / %x0A / %x0D )`. -/
def JsonWs (s : Bytes) : Prop := ∀ c ∈ s, c = 32 ∨ c = 9 ∨ c = 10 ∨ c = 13

/-- A decimal digit. -/
def isJsonDigit (c : Byte) : Prop := 48 ≤ c.val ∧ c.val ≤ 57

/-- Digits: `*DIGIT`. -/
def JsonDigits (s : Bytes) : Prop := ∀ c ∈ s, isJsonDigit c

/-- A hexadecimal digit of either case. -/
def isJsonHex (c : Byte) : Prop :=
  isJsonDigit c ∨ (65 ≤ c.val ∧ c.val ≤ 70) ∨ (97 ≤ c.val ∧ c.val ≤ 102)

/-- The characters that may follow a backslash, `u` apart: the quote, the
backslash, `/`, `b`, `f`, `n`, `r` and `t`. -/
def isJsonEscape (c : Byte) : Prop :=
  c = 34 ∨ c = 92 ∨ c = 47 ∨ c = 98 ∨ c = 102 ∨ c = 110 ∨ c = 114 ∨ c = 116

/-- The characters of a string and its closing quote: `*char quotation-mark`,
a `char` being a byte from `%x20` on other than the quote and the backslash (a
byte above `%x7F` is taken as it is: whether the text is valid UTF-8 is not
part of this grammar), an escape of one character or `\uXXXX`. -/
inductive JsonChars : Bytes → Prop
  | quote : JsonChars [34]
  | char (c : Byte) (s : Bytes) : 32 ≤ c.val → c ≠ 34 → c ≠ 92 → JsonChars s →
      JsonChars (c :: s)
  | escape (c : Byte) (s : Bytes) : isJsonEscape c → JsonChars s → JsonChars (92 :: c :: s)
  | unicode (h1 h2 h3 h4 : Byte) (s : Bytes) : isJsonHex h1 → isJsonHex h2 → isJsonHex h3 →
      isJsonHex h4 → JsonChars s → JsonChars (92 :: 117 :: h1 :: h2 :: h3 :: h4 :: s)

/-- The integer part: `int = zero / ( digit1-9 *DIGIT )`. -/
def JsonInt (s : Bytes) : Prop :=
  s = [48] ∨ ∃ d ds, s = d :: ds ∧ 49 ≤ d.val ∧ d.val ≤ 57 ∧ JsonDigits ds

/-- The optional fraction: `[ frac ]`, `frac = decimal-point 1*DIGIT`. -/
def JsonFrac (s : Bytes) : Prop :=
  s = [] ∨ ∃ d ds, s = 46 :: d :: ds ∧ isJsonDigit d ∧ JsonDigits ds

/-- The optional exponent: `[ exp ]`, `exp = e [ minus / plus ] 1*DIGIT`. -/
def JsonExp (s : Bytes) : Prop :=
  s = [] ∨ ∃ x sign d ds, s = x :: (sign ++ d :: ds) ∧ (x = 101 ∨ x = 69)
    ∧ (sign = [] ∨ sign = [43] ∨ sign = [45]) ∧ isJsonDigit d ∧ JsonDigits ds

/-- A number: `number = [ minus ] int [ frac ] [ exp ]`. -/
def JsonNumber (s : Bytes) : Prop :=
  ∃ sign i f e, s = sign ++ (i ++ (f ++ e)) ∧ (sign = [] ∨ sign = [45]) ∧ JsonInt i
    ∧ JsonFrac f ∧ JsonExp e

mutual
/-- A value: `false / null / true / object / array / number / string`, an array
being `[ ws ]` or `[ ws value *( ws , ws value ) ws ]` and an object `{ ws }`
or `{ ws member *( ws , ws member ) ws }`. -/
inductive JsonValue : Bytes → Prop
  | null : JsonValue [110, 117, 108, 108]
  | true : JsonValue [116, 114, 117, 101]
  | false : JsonValue [102, 97, 108, 115, 101]
  | number (s : Bytes) : JsonNumber s → JsonValue s
  | string (s : Bytes) : JsonChars s → JsonValue (34 :: s)
  | emptyArray (w : Bytes) : JsonWs w → JsonValue (91 :: (w ++ [93]))
  | array (w v t : Bytes) : JsonWs w → JsonValue v → JsonElements t →
      JsonValue (91 :: (w ++ (v ++ (t ++ [93]))))
  | emptyObject (w : Bytes) : JsonWs w → JsonValue (123 :: (w ++ [125]))
  | object (w k w1 w2 v t : Bytes) : JsonWs w → JsonChars k → JsonWs w1 → JsonWs w2 →
      JsonValue v → JsonMembers t →
      JsonValue (123 :: (w ++ (34 :: (k ++ (w1 ++ (58 :: (w2 ++ (v ++ (t ++ [125])))))))))
/-- The elements of an array after the first and the white space before the
closing bracket: `*( ws , ws value ) ws`. -/
inductive JsonElements : Bytes → Prop
  | done (w : Bytes) : JsonWs w → JsonElements w
  | more (w1 w2 v t : Bytes) : JsonWs w1 → JsonWs w2 → JsonValue v → JsonElements t →
      JsonElements (w1 ++ (44 :: (w2 ++ (v ++ t))))
/-- The members of an object after the first and the white space before the
closing brace: `*( ws , ws string ws : ws value ) ws`. -/
inductive JsonMembers : Bytes → Prop
  | done (w : Bytes) : JsonWs w → JsonMembers w
  | more (w0 w k w1 w2 v t : Bytes) : JsonWs w0 → JsonWs w → JsonChars k → JsonWs w1 →
      JsonWs w2 → JsonValue v → JsonMembers t →
      JsonMembers (w0 ++ (44 :: (w ++ (34 :: (k ++ (w1 ++ (58 :: (w2 ++ (v ++ t)))))))))
end

/-- A JSON text: `JSON-text = ws value ws`. -/
def WellFormedJSON (data : Bytes) : Prop :=
  ∃ w1 v w2, data = w1 ++ (v ++ w2) ∧ JsonWs w1 ∧ JsonValue v ∧ JsonWs w2

/-! ### What the scanner still has to read, in the terms of the grammar -/

/-- What follows a value, or the key of a member, that is complete within the
open arrays and objects `st`: the rest of the JSON text. -/
def After : List Frame → Bytes → Prop
  | [] => fun r => JsonWs r
  | .arr _ :: st => fun r => ∃ t r', r = t ++ (93 :: r') ∧ JsonElements t ∧ After st r'
  | .objValue _ _ :: st => fun r => ∃ t r', r = t ++ (125 :: r') ∧ JsonMembers t ∧ After st r'
  | .objNext _ :: st => fun r => ∃ t r', r = t ++ (125 :: r') ∧ JsonMembers t ∧ After st r'
  | .objKey _ :: st => fun r => ∃ w1 w2 v t r', r = w1 ++ (58 :: (w2 ++ (v ++ (t ++ (125 :: r')))))
      ∧ JsonWs w1 ∧ JsonWs w2 ∧ JsonValue v ∧ JsonMembers t ∧ After st r'
  | .objColon _ _ :: st => fun r => ∃ w1 w2 v t r',
      r = w1 ++ (58 :: (w2 ++ (v ++ (t ++ (125 :: r')))))
      ∧ JsonWs w1 ∧ JsonWs w2 ∧ JsonValue v ∧ JsonMembers t ∧ After st r'

/-- White space, a value and what follows it. -/
def BeginValue (st : List Frame) (w : Bytes) : Prop :=
  ∃ w0 v r, w = w0 ++ (v ++ r) ∧ JsonWs w0 ∧ JsonValue v ∧ After st r

/-- White space, a string and what follows it. -/
def BeginString (st : List Frame) (w : Bytes) : Prop :=
  ∃ w0 k r, w = w0 ++ (34 :: (k ++ r)) ∧ JsonWs w0 ∧ JsonChars k ∧ After st r

/-- The rest of a token, by a property of that rest, and what follows it. -/
def TokenRest (tail : Bytes → Prop) (st : List Frame) (w : Bytes) : Prop :=
  ∃ t r, w = t ++ r ∧ tail t ∧ After st r

/-- The rest of the JSON text in the state of the scanner with the step
function `step` and the open arrays and objects `st`. -/
def Lang (step : Lex) (st : List Frame) (w : Bytes) : Prop :=
  match step with
  | .beginValue => BeginValue st w
  | .beginValueOrEmpty =>
    BeginValue st w
      ∨ ∃ items st' w0 r, st = .arr items :: st' ∧ w = w0 ++ (93 :: r) ∧ JsonWs w0 ∧ After st' r
  | .beginStringOrEmpty =>
    BeginString st w
      ∨ ∃ m st' w0 r, st = .objKey m :: st' ∧ w = w0 ++ (125 :: r) ∧ JsonWs w0 ∧ After st' r
  | .beginString => BeginString st w
  | .endValue => After st w
  | .endTop => JsonWs w
  | .inString _ _ => TokenRest JsonChars st w
  | .inStringEsc _ => TokenRest (fun t => JsonChars (92 :: t)) st w
  | .inStringEscU _ k =>
    TokenRest (fun t => ∃ hs t', t = hs ++ t' ∧ hs.length = (k - 1) + 1 ∧ (∀ h ∈ hs, isJsonHex h)
      ∧ JsonChars t') st w
  | .neg _ =>
    TokenRest (fun t => ∃ i f e, t = i ++ (f ++ e) ∧ JsonInt i ∧ JsonFrac f ∧ JsonExp e) st w
  | .zero _ => TokenRest (fun t => ∃ f e, t = f ++ e ∧ JsonFrac f ∧ JsonExp e) st w
  | .one _ =>
    TokenRest (fun t => ∃ ds f e, t = ds ++ (f ++ e) ∧ JsonDigits ds ∧ JsonFrac f ∧ JsonExp e) st w
  | .dot _ =>
    TokenRest (fun t => ∃ d ds e, t = d :: (ds ++ e) ∧ isJsonDigit d ∧ JsonDigits ds ∧ JsonExp e)
      st w
  | .dot0 _ => TokenRest (fun t => ∃ ds e, t = ds ++ e ∧ JsonDigits ds ∧ JsonExp e) st w
  | .e _ =>
    TokenRest (fun t => ∃ sign d ds, t = sign ++ d :: ds ∧ (sign = [] ∨ sign = [43] ∨ sign = [45])
      ∧ isJsonDigit d ∧ JsonDigits ds) st w
  | .eSign _ => TokenRest (fun t => ∃ d ds, t = d :: ds ∧ isJsonDigit d ∧ JsonDigits ds) st w
  | .e0 _ => TokenRest JsonDigits st w
  | .word rest _ => TokenRest (fun t => t = rest) st w

/-- The result is set when the top-level value is complete, and not before. -/
def Scanner.Good (s : Scanner) : Prop :=
  s.result = none ∨ (s.parseState = [] ∧ (s.step = .endValue ∨ s.step = .endTop))

/-! ## Theorems: input and output -/

theorem Writer.content_Write_unbounded (w : Writer) (p : Bytes) (h : w.room = none) :
    (w.Write p).2 = none ∧ (w.Write p).1.room = none
      ∧ (w.Write p).1.content = w.content ++ p := by
  simp [Writer.Write, h, Writer.content]

theorem Writer.writes_of_Write_ok (w : Writer) (p : Bytes) (h : (w.Write p).2 = none) :
    (w.Write p).1.writes = w.writes ++ [p] := by
  unfold Writer.Write at h ⊢
  cases hr : w.room with
  | none => simp
  | some n =>
    simp only [hr] at h ⊢
    by_cases hn : p.length ≤ n
    · simp [hn]
    · simp [hn] at h

theorem ioCopyLoop_unbounded (fl : Option GoError) (cs : List Bytes) :
    ∀ w : Writer, w.room = none →
      (ioCopyLoop w fl cs).2.1 = fl ∧ (ioCopyLoop w fl cs).2.2 = ⟨[], fl⟩
        ∧ (ioCopyLoop w fl cs).1.content = w.content ++ cs.flatten := by
  induction cs with
  | nil => intro w _; simp [ioCopyLoop]
  | cons c cs ih =>
    intro w hw
    unfold ioCopyLoop
    by_cases hc : c.length = 0
    · have hc' : c = [] := List.length_eq_zero.mp hc
      simp only [hc, if_true]
      simpa [hc'] using ih w hw
    · simp only [hc, if_false]
      obtain ⟨h1, h2, h3⟩ := Writer.content_Write_unbounded w c hw
      cases hwr : w.Write c with
      | mk w' e =>
        rw [hwr] at h1 h2 h3
        simp only at h1 h2 h3
        subst h1
        simp only
        obtain ⟨i1, i2, i3⟩ := ih w' h2
        refine ⟨i1, i2, ?_⟩
        rw [i3, h3]
        simp

/-! ## Theorems: `Converter.Convert` -/

/-- C1: with the same source and target format, `Convert` returns no error and
the writer receives exactly the bytes of the reader, whatever they are; no
codec takes part, the result does not depend on the libraries. -/
theorem Convert_same_format_copies (L : Lib) (f : Bytes) (r : Reader) (w : Writer)
    (indent : Int) (hr : r.failure = none) (hw : w.room = none) :
    (Converter.Convert L ⟨r, w⟩ f f indent).1 = .ok
      ∧ (Converter.Convert L ⟨r, w⟩ f f indent).2.writer.content = w.content ++ r.pending.flatten
      ∧ (Converter.Convert L ⟨r, w⟩ f f indent).2.reader.pending = []
      ∧ ∀ L' : Lib, Converter.Convert L' ⟨r, w⟩ f f indent = Converter.Convert L ⟨r, w⟩ f f indent := by
  obtain ⟨h1, h2, h3⟩ := ioCopyLoop_unbounded r.failure r.pending w hw
  have key : ∀ L0 : Lib, Converter.Convert L0 ⟨r, w⟩ f f indent
      = (.ok, ⟨⟨[], none⟩, (ioCopyLoop w r.failure r.pending).1⟩) := by
    intro L0
    unfold Converter.Convert
    simp only [if_true, ioCopy]
    cases hcp : ioCopyLoop w r.failure r.pending with
    | mk w' rest =>
      cases rest with
      | mk e r' =>
        rw [hcp] at h1 h2
        simp only at h1 h2
        rw [hr] at h1 h2
        subst h1
        subst h2
        rfl
  refine ⟨?_, ?_, ?_, ?_⟩
  · rw [key L]
  · rw [key L]; exact h3
  · rw [key L]
  · intro L'; rw [key L, key L']

/-- C1, at the truncated JSON object: copied as it is from JSON to JSON. -/
theorem Convert_same_format_copies_witness :
    (Converter.Convert Lib.failing ⟨NewReader jsonTruncated, NewBuffer⟩
        fmtJSON fmtJSON 2).2.writer.content
      = NewBuffer.content ++ (NewReader jsonTruncated).pending.flatten :=
  (Convert_same_format_copies _ fmtJSON (NewReader jsonTruncated) NewBuffer 2 rfl rfl).2.1

/-! ### `encoding/json`: what the scanner accepts is a JSON text -/

/-! ## Theorems: `json.Unmarshal` accepts well-formed JSON only -/

theorem JsonWs_nil : JsonWs [] := by
  intro c hc
  cases hc

theorem JsonWs_cons (c : Byte) (w : Bytes) (hc : isSpace c = true) (hw : JsonWs w) :
    JsonWs (c :: w) := by
  intro x hx
  rcases List.mem_cons.mp hx with rfl | hx
  · simp only [isSpace, Bool.or_eq_true, decide_eq_true_eq] at hc
    tauto
  · exact hw x hx

theorem JsonDigits_nil : JsonDigits [] := by
  intro c hc
  cases hc

theorem isJsonDigit_of_isDigit (c : Byte) (h : isDigit c = true) : isJsonDigit c := by
  simp only [isDigit, Bool.and_eq_true, decide_eq_true_eq] at h
  exact h

theorem JsonDigits_cons (c : Byte) (w : Bytes) (hc : isDigit c = true) (hw : JsonDigits w) :
    JsonDigits (c :: w) := by
  intro x hx
  rcases List.mem_cons.mp hx with rfl | hx
  · exact isJsonDigit_of_isDigit _ hc
  · exact hw x hx

theorem isJsonHex_of_isHex (c : Byte) (h : isHex c = true) : isJsonHex c := by
  simp only [isHex, isDigit, Bool.or_eq_true, Bool.and_eq_true, decide_eq_true_eq] at h
  unfold isJsonHex isJsonDigit
  tauto

theorem JsonElements_ws (c : Byte) (t : Bytes) (hc : isSpace c = true) (ht : JsonElements t) :
    JsonElements (c :: t) := by
  cases ht with
  | done _ hw => exact .done _ (JsonWs_cons c _ hc hw)
  | more w1 w2 v t h1 h2 hv ht => exact .more (c :: w1) w2 v t (JsonWs_cons c w1 hc h1) h2 hv ht

theorem JsonMembers_ws (c : Byte) (t : Bytes) (hc : isSpace c = true) (ht : JsonMembers t) :
    JsonMembers (c :: t) := by
  cases ht with
  | done _ hw => exact .done _ (JsonWs_cons c _ hc hw)
  | more w0 w k w1 w2 v t h0 h hk h1 h2 hv ht =>
    exact .more (c :: w0) w k w1 w2 v t (JsonWs_cons c w0 hc h0) h hk h1 h2 hv ht

/-- White space may come before what follows a value. -/
theorem After_ws (c : Byte) (hc : isSpace c = true) :
    ∀ (st : List Frame) (r : Bytes), After st r → After st (c :: r) := by
  intro st r h
  match st, h with
  | [], h => exact JsonWs_cons c r hc h
  | .arr _ :: st, ⟨t, r', e, ht, hr⟩ => exact ⟨c :: t, r', by rw [e]; rfl, JsonElements_ws c t hc ht, hr⟩
  | .objValue _ _ :: st, ⟨t, r', e, ht, hr⟩ =>
    exact ⟨c :: t, r', by rw [e]; rfl, JsonMembers_ws c t hc ht, hr⟩
  | .objNext _ :: st, ⟨t, r', e, ht, hr⟩ =>
    exact ⟨c :: t, r', by rw [e]; rfl, JsonMembers_ws c t hc ht, hr⟩
  | .objKey _ :: st, ⟨w1, w2, v, t, r', e, h1, h2, hv, ht, hr⟩ =>
    exact ⟨c :: w1, w2, v, t, r', by rw [e]; rfl, JsonWs_cons c w1 hc h1, h2, hv, ht, hr⟩
  | .objColon _ _ :: st, ⟨w1, w2, v, t, r', e, h1, h2, hv, ht, hr⟩ =>
    exact ⟨c :: w1, w2, v, t, r', by rw [e]; rfl, JsonWs_cons c w1 hc h1, h2, hv, ht, hr⟩

theorem attach_step (s : Scanner) (v : Value) : (s.attach v).step = .endValue := by
  unfold Scanner.attach
  split <;> rfl

/-- A complete value changes nothing in what the open arrays and objects still
need. -/
theorem After_attach (s : Scanner) (v : Value) (w : Bytes) :
    After (s.attach v).parseState w ↔ After s.parseState w := by
  unfold Scanner.attach
  split
  · rename_i h; simp only [h]
  · rename_i h; simp only [h]; exact Iff.rfl
  · rename_i h; simp only [h]; exact Iff.rfl
  · exact Iff.rfl

theorem Lang_attach (s : Scanner) (v : Value) (w : Bytes) :
    Lang (s.attach v).step (s.attach v).parseState w ↔ After s.parseState w := by
  rw [attach_step]
  exact After_attach s v w

theorem attachNumber_step (L : Lib) (s : Scanner) (raw : Bytes) :
    (s.attachNumber L raw).step = .endValue := by
  unfold Scanner.attachNumber
  split
  · exact attach_step s _
  · exact attach_step s _

theorem After_attachNumber (L : Lib) (s : Scanner) (raw : Bytes) (w : Bytes) :
    After (s.attachNumber L raw).parseState w ↔ After s.parseState w := by
  unfold Scanner.attachNumber
  split
  · exact After_attach s _ w
  · exact After_attach s _ w

theorem Lang_attachString (L : Lib) (s : Scanner) (raw : Bytes) (simple : Bool) (w : Bytes) :
    Lang (s.attachString L raw simple).step (s.attachString L raw simple).parseState w
      ↔ After s.parseState w := by
  unfold Scanner.attachString
  generalize (if simple = true then raw.reverse else L.jsonUnquote raw.reverse) = str
  simp only []
  split
  · rename_i h; simp only [h]; exact Iff.rfl
  · exact Lang_attach s _ w

/-- A step of `stateEndValue`: what the scanner expected after a complete
value is the byte read and what it expects from there. -/
theorem endValue_step (s s1 : Scanner) (c : Byte) (cs : Bytes)
    (h : stateEndValue s c = .ok s1) (hl : Lang s1.step s1.parseState cs) :
    After s.parseState (c :: cs) := by
  unfold stateEndValue at h
  cases hst : s.parseState with
  | nil =>
    rw [hst] at h
    simp only at h
    by_cases hsp : isSpace c = true
    · rw [if_pos hsp] at h
      obtain rfl := Except.ok.inj h
      exact JsonWs_cons c cs hsp hl
    · rw [if_neg hsp] at h
      cases h
  | cons f st =>
    rw [hst] at h
    simp only at h
    by_cases hsp : isSpace c = true
    · rw [if_pos hsp] at h
      obtain rfl := Except.ok.inj h
      exact After_ws c hsp _ _ hl
    · rw [if_neg hsp] at h
      cases f with
      | arr items =>
        simp only at h
        by_cases h44 : c = 44
        · rw [if_pos h44] at h
          obtain rfl := Except.ok.inj h
          have hl' : BeginValue (.arr items :: st) cs := hl
          obtain ⟨w0, v, r, e, hw0, hv, t, r', e', ht, hr⟩ := hl'
          refine ⟨[] ++ (44 :: (w0 ++ (v ++ t))), r', ?_, .more [] w0 v t JsonWs_nil hw0 hv ht, hr⟩
          rw [h44, e, e']
          simp
        · rw [if_neg h44] at h
          by_cases h93 : c = 93
          · rw [if_pos h93] at h
            obtain rfl := Except.ok.inj h
            rw [Lang_attach] at hl
            exact ⟨[], cs, by rw [h93]; rfl, .done [] JsonWs_nil, hl⟩
          · rw [if_neg h93] at h
            cases h
      | objKey m => cases h
      | objColon m k =>
        simp only at h
        by_cases h58 : c = 58
        · rw [if_pos h58] at h
          obtain rfl := Except.ok.inj h
          have hl' : BeginValue (.objValue m k :: st) cs := hl
          obtain ⟨w0, v, r, e, hw0, hv, t, r', e', ht, hr⟩ := hl'
          refine ⟨[], w0, v, t, r', ?_, JsonWs_nil, hw0, hv, ht, hr⟩
          rw [h58, e, e']
          simp
        · rw [if_neg h58] at h
          cases h
      | objValue m k => cases h
      | objNext m =>
        simp only at h
        by_cases h44 : c = 44
        · rw [if_pos h44] at h
          obtain rfl := Except.ok.inj h
          have hl' : BeginString (.objKey m :: st) cs := hl
          obtain ⟨w0, k, r, e, hw0, hk, w1, w2, v, t, r', e', h1, h2, hv, ht, hr⟩ := hl'
          refine ⟨[] ++ (44 :: (w0 ++ (34 :: (k ++ (w1 ++ (58 :: (w2 ++ (v ++ t)))))))), r', ?_,
            .more [] w0 k w1 w2 v t JsonWs_nil hw0 hk h1 h2 hv ht, hr⟩
          rw [h44, e, e']
          simp
        · rw [if_neg h44] at h
          by_cases h125 : c = 125
          · rw [if_pos h125] at h
            obtain rfl := Except.ok.inj h
            rw [Lang_attach] at hl
            exact ⟨[], cs, by rw [h125]; rfl, .done [] JsonWs_nil, hl⟩
          · rw [if_neg h125] at h
            cases h

theorem pushParseState_ok (s s1 : Scanner) (f : Frame) (next : Lex)
    (h : pushParseState s f next = .ok s1) :
    s1.step = next ∧ s1.parseState = f :: s.parseState := by
  unfold pushParseState at h
  split_ifs at h
  obtain rfl := Except.ok.inj h
  exact ⟨rfl, rfl⟩

/-- A step of `stateBeginValue` on a byte that is not white space: the byte
read starts a value. -/
theorem beginValue_step (s s1 : Scanner) (c : Byte) (cs : Bytes)
    (h : stateBeginValue s c = .ok s1) (hsp : isSpace c = false)
    (hl : Lang s1.step s1.parseState cs) : BeginValue s.parseState (c :: cs) := by
  unfold stateBeginValue at h
  rw [hsp] at h
  simp only [Bool.false_eq_true, if_false] at h
  by_cases h123 : c = 123
  · rw [if_pos h123] at h
    obtain ⟨e1, e2⟩ := pushParseState_ok _ _ _ _ h
    rw [e1, e2] at hl
    rcases hl with ⟨w0, k, r, e, hw0, hk, w1, w2, v, t, r', e', h1, h2, hv, ht, hr⟩
      | ⟨m, st', w0, r, est, e, hw0, hr⟩
    · refine ⟨[], _, r', ?_, JsonWs_nil, .object w0 k w1 w2 v t hw0 hk h1 h2 hv ht, hr⟩
      rw [h123, e, e']
      simp
    · obtain ⟨_, rfl⟩ := List.cons.inj est
      refine ⟨[], _, r, ?_, JsonWs_nil, .emptyObject w0 hw0, hr⟩
      rw [h123, e]
      simp
  rw [if_neg h123] at h
  by_cases h91 : c = 91
  · rw [if_pos h91] at h
    obtain ⟨e1, e2⟩ := pushParseState_ok _ _ _ _ h
    rw [e1, e2] at hl
    rcases hl with ⟨w0, v, r, e, hw0, hv, t, r', e', ht, hr⟩
      | ⟨m, st', w0, r, est, e, hw0, hr⟩
    · refine ⟨[], _, r', ?_, JsonWs_nil, .array w0 v t hw0 hv ht, hr⟩
      rw [h91, e, e']
      simp
    · obtain ⟨_, rfl⟩ := List.cons.inj est
      refine ⟨[], _, r, ?_, JsonWs_nil, .emptyArray w0 hw0, hr⟩
      rw [h91, e]
      simp
  rw [if_neg h91] at h
  by_cases h34 : c = 34
  · rw [if_pos h34] at h
    obtain rfl := Except.ok.inj h
    obtain ⟨t, r, e, ht, hr⟩ := hl
    exact ⟨[], _, r, by rw [h34, e]; rfl, JsonWs_nil, .string t ht, hr⟩
  rw [if_neg h34] at h
  by_cases h45 : c = 45
  · rw [if_pos h45] at h
    obtain rfl := Except.ok.inj h
    obtain ⟨t, r, e, ⟨i, f, x, et, hi, hf, hx⟩, hr⟩ := hl
    refine ⟨[], 45 :: t, r, by rw [h45, e]; rfl, JsonWs_nil, .number _ ?_, hr⟩
    exact ⟨[45], i, f, x, by rw [et]; rfl, Or.inr rfl, hi, hf, hx⟩
  rw [if_neg h45] at h
  by_cases h48 : c = 48
  · rw [if_pos h48] at h
    obtain rfl := Except.ok.inj h
    obtain ⟨t, r, e, ⟨f, x, et, hf, hx⟩, hr⟩ := hl
    refine ⟨[], 48 :: t, r, by rw [h48, e]; rfl, JsonWs_nil, .number _ ?_, hr⟩
    exact ⟨[], [48], f, x, by rw [et]; rfl, Or.inl rfl, Or.inl rfl, hf, hx⟩
  rw [if_neg h48] at h
  by_cases h116 : c = 116
  · rw [if_pos h116] at h
    obtain rfl := Except.ok.inj h
    obtain ⟨t, r, e, et, hr⟩ := hl
    refine ⟨[], [116, 114, 117, 101], r, ?_, JsonWs_nil, .true, hr⟩
    rw [h116, e, et]
    rfl
  rw [if_neg h116] at h
  by_cases h102 : c = 102
  · rw [if_pos h102] at h
    obtain rfl := Except.ok.inj h
    obtain ⟨t, r, e, et, hr⟩ := hl
    refine ⟨[], [102, 97, 108, 115, 101], r, ?_, JsonWs_nil, .false, hr⟩
    rw [h102, e, et]
    rfl
  rw [if_neg h102] at h
  by_cases h110 : c = 110
  · rw [if_pos h110] at h
    obtain rfl := Except.ok.inj h
    obtain ⟨t, r, e, et, hr⟩ := hl
    refine ⟨[], [110, 117, 108, 108], r, ?_, JsonWs_nil, .null, hr⟩
    rw [h110, e, et]
    rfl
  rw [if_neg h110] at h
  by_cases hd : isDigit c = true
  · rw [if_pos hd] at h
    obtain rfl := Except.ok.inj h
    obtain ⟨t, r, e, ⟨ds, f, x, et, hds, hf, hx⟩, hr⟩ := hl
    refine ⟨[], c :: t, r, by rw [e]; rfl, JsonWs_nil, .number _ ?_, hr⟩
    have hc := isJsonDigit_of_isDigit c hd
    have hne : c.val ≠ 48 := fun hv => h48 (Fin.ext hv)
    refine ⟨[], c :: ds, f, x, by rw [et]; rfl, Or.inl rfl, Or.inr ⟨c, ds, rfl, ?_, hc.2, hds⟩,
      hf, hx⟩
    have := hc.1
    omega
  · rw [if_neg hd] at h
    cases h

theorem beginString_step (s s1 : Scanner) (c : Byte) (cs : Bytes)
    (h : stateBeginString s c = .ok s1) (hsp : isSpace c = false)
    (hl : Lang s1.step s1.parseState cs) : BeginString s.parseState (c :: cs) := by
  unfold stateBeginString at h
  rw [hsp] at h
  simp only [Bool.false_eq_true, if_false] at h
  by_cases h34 : c = 34
  · rw [if_pos h34] at h
    obtain rfl := Except.ok.inj h
    obtain ⟨t, r, e, ht, hr⟩ := hl
    exact ⟨[], t, r, by rw [h34, e]; rfl, JsonWs_nil, ht, hr⟩
  · rw [if_neg h34] at h
    cases h

theorem BeginValue_ws (c : Byte) (hc : isSpace c = true) (st : List Frame) (w : Bytes)
    (h : BeginValue st w) : BeginValue st (c :: w) := by
  obtain ⟨w0, v, r, e, hw0, hv, hr⟩ := h
  exact ⟨c :: w0, v, r, by rw [e]; rfl, JsonWs_cons c w0 hc hw0, hv, hr⟩

theorem BeginString_ws (c : Byte) (hc : isSpace c = true) (st : List Frame) (w : Bytes)
    (h : BeginString st w) : BeginString st (c :: w) := by
  obtain ⟨w0, k, r, e, hw0, hk, hr⟩ := h
  exact ⟨c :: w0, k, r, by rw [e]; rfl, JsonWs_cons c w0 hc hw0, hk, hr⟩

/-- The end of a number: the byte read is what follows the number. -/
theorem number_end (L : Lib) (s s1 : Scanner) (raw : Bytes) (c : Byte) (cs : Bytes)
    (tail : Bytes → Prop) (h0 : tail [])
    (h : stateEndValue (s.attachNumber L raw) c = .ok s1)
    (hl : Lang s1.step s1.parseState cs) : TokenRest tail s.parseState (c :: cs) :=
  ⟨[], c :: cs, rfl, h0, (After_attachNumber L s raw _).mp (endValue_step _ _ _ _ h hl)⟩

theorem JsonExp_nil : JsonExp [] := Or.inl rfl

theorem JsonFrac_nil : JsonFrac [] := Or.inl rfl

theorem isSpace_false_of_ne (c : Byte) (h : ¬ isSpace c = true) : isSpace c = false := by
  cases hc : isSpace c with
  | true => exact absurd hc h
  | false => rfl

/-- One step of the scanner: what it expected before the byte is the byte and
what it expects after it. -/
theorem scanStep_Lang (L : Lib) (s s1 : Scanner) (c : Byte) (cs : Bytes)
    (h : scanStep L s c = .ok s1) (hl : Lang s1.step s1.parseState cs) :
    Lang s.step s.parseState (c :: cs) := by
  unfold scanStep at h
  cases hstep : s.step with
  | beginValue =>
    rw [hstep] at h
    simp only at h
    by_cases hsp : isSpace c = true
    · have hs : stateBeginValue s c = .ok s := by unfold stateBeginValue; rw [if_pos hsp]
      rw [hs] at h
      obtain rfl := Except.ok.inj h
      rw [hstep] at hl
      exact BeginValue_ws c hsp _ _ hl
    · exact beginValue_step s s1 c cs h (isSpace_false_of_ne c hsp) hl
  | beginValueOrEmpty =>
    rw [hstep] at h
    simp only at h
    by_cases hsp : isSpace c = true
    · rw [if_pos hsp] at h
      obtain rfl := Except.ok.inj h
      rw [hstep] at hl
      rcases hl with hl | ⟨items, st', w0, r, est, e, hw0, hr⟩
      · exact Or.inl (BeginValue_ws c hsp _ _ hl)
      · exact Or.inr ⟨items, st', c :: w0, r, est, by rw [e]; rfl, JsonWs_cons c w0 hsp hw0, hr⟩
    · rw [if_neg hsp] at h
      by_cases h93 : c = 93
      · rw [if_pos h93] at h
        unfold stateEndValue at h
        cases hst : s.parseState with
        | nil =>
          rw [hst] at h
          simp only [if_neg hsp] at h
          cases h
        | cons f st =>
          rw [hst] at h
          simp only [if_neg hsp] at h
          have h44 : c ≠ 44 := by rw [h93]; decide
          have h125 : c ≠ 125 := by rw [h93]; decide
          have h58 : c ≠ 58 := by rw [h93]; decide
          cases f with
          | arr items =>
            simp only [if_neg h44, if_pos h93] at h
            obtain rfl := Except.ok.inj h
            rw [Lang_attach] at hl
            exact Or.inr ⟨items, st, [], cs, rfl, by rw [h93]; rfl, JsonWs_nil, hl⟩
          | objKey m => cases h
          | objColon m k => simp only [if_neg h58] at h; cases h
          | objValue m k => cases h
          | objNext m => simp only [if_neg h44, if_neg h125] at h; cases h
      · rw [if_neg h93] at h
        exact Or.inl (beginValue_step s s1 c cs h (isSpace_false_of_ne c hsp) hl)
  | beginStringOrEmpty =>
    rw [hstep] at h
    simp only at h
    by_cases hsp : isSpace c = true
    · rw [if_pos hsp] at h
      obtain rfl := Except.ok.inj h
      rw [hstep] at hl
      rcases hl with hl | ⟨m, st', w0, r, est, e, hw0, hr⟩
      · exact Or.inl (BeginString_ws c hsp _ _ hl)
      · exact Or.inr ⟨m, st', c :: w0, r, est, by rw [e]; rfl, JsonWs_cons c w0 hsp hw0, hr⟩
    · rw [if_neg hsp] at h
      by_cases h125 : c = 125
      · rw [if_pos h125] at h
        have h44 : c ≠ 44 := by rw [h125]; decide
        cases hst : s.parseState with
        | nil => rw [hst] at h; cases h
        | cons f st =>
          rw [hst] at h
          cases f with
          | objKey m =>
            simp only [stateEndValue, if_neg hsp, if_neg h44, if_pos h125] at h
            obtain rfl := Except.ok.inj h
            rw [Lang_attach] at hl
            exact Or.inr ⟨m, st, [], cs, rfl, by rw [h125]; rfl, JsonWs_nil, hl⟩
          | arr items => cases h
          | objColon m k => cases h
          | objValue m k => cases h
          | objNext m => cases h
      · rw [if_neg h125] at h
        exact Or.inl (beginString_step s s1 c cs h (isSpace_false_of_ne c hsp) hl)
  | beginString =>
    rw [hstep] at h
    simp only at h
    by_cases hsp : isSpace c = true
    · have hs : stateBeginString s c = .ok s := by unfold stateBeginString; rw [if_pos hsp]
      rw [hs] at h
      obtain rfl := Except.ok.inj h
      rw [hstep] at hl
      exact BeginString_ws c hsp _ _ hl
    · exact beginString_step s s1 c cs h (isSpace_false_of_ne c hsp) hl
  | endValue =>
    rw [hstep] at h
    exact endValue_step s s1 c cs h hl
  | endTop =>
    rw [hstep] at h
    simp only at h
    by_cases hsp : isSpace c = true
    · rw [if_pos hsp] at h
      obtain rfl := Except.ok.inj h
      rw [hstep] at hl
      exact JsonWs_cons c cs hsp hl
    · rw [if_neg hsp] at h
      cases h
  | inString raw simple =>
    rw [hstep] at h
    simp only at h
    by_cases h34 : c = 34
    · rw [if_pos h34] at h
      obtain rfl := Except.ok.inj h
      rw [Lang_attachString] at hl
      exact ⟨[34], cs, by rw [h34]; rfl, .quote, hl⟩
    rw [if_neg h34] at h
    by_cases h92 : c = 92
    · rw [if_pos h92] at h
      obtain rfl := Except.ok.inj h
      obtain ⟨t, r, e, ht, hr⟩ := hl
      exact ⟨92 :: t, r, by rw [h92, e]; rfl, ht, hr⟩
    rw [if_neg h92] at h
    by_cases h32 : c.val < 32
    · rw [if_pos h32] at h
      cases h
    rw [if_neg h32] at h
    obtain rfl := Except.ok.inj h
    obtain ⟨t, r, e, ht, hr⟩ := hl
    exact ⟨c :: t, r, by rw [e]; rfl, .char c t (by omega) h34 h92 ht, hr⟩
  | inStringEsc raw =>
    rw [hstep] at h
    simp only at h
    by_cases hesc : (c = 98 || c = 102 || c = 110 || c = 114 || c = 116 || c = 92 || c = 47
        || c = 34) = true
    · rw [if_pos hesc] at h
      obtain rfl := Except.ok.inj h
      obtain ⟨t, r, e, ht, hr⟩ := hl
      refine ⟨c :: t, r, by rw [e]; rfl, .escape c t ?_ ht, hr⟩
      simp only [Bool.or_eq_true, decide_eq_true_eq] at hesc
      unfold isJsonEscape
      tauto
    rw [if_neg hesc] at h
    by_cases h117 : c = 117
    · rw [if_pos h117] at h
      obtain rfl := Except.ok.inj h
      obtain ⟨t, r, e, ⟨hs, t', et, hlen, hhex, ht'⟩, hr⟩ := hl
      refine ⟨c :: t, r, by rw [e]; rfl, ?_, hr⟩
      rcases hs with _ | ⟨h1, _ | ⟨h2, _ | ⟨h3, _ | ⟨h4, _ | ⟨h5, hs⟩⟩⟩⟩⟩
      all_goals try (simp at hlen; done)
      rw [h117, et]
      exact .unicode h1 h2 h3 h4 t' (hhex h1 (by simp)) (hhex h2 (by simp)) (hhex h3 (by simp))
        (hhex h4 (by simp)) ht'
    · rw [if_neg h117] at h
      cases h
  | inStringEscU raw k =>
    rw [hstep] at h
    simp only at h
    by_cases hhex : isHex c = true
    · rw [if_pos hhex] at h
      by_cases hk : k ≤ 1
      · rw [if_pos hk] at h
        obtain rfl := Except.ok.inj h
        obtain ⟨t, r, e, ht, hr⟩ := hl
        refine ⟨c :: t, r, by rw [e]; rfl, ⟨[c], t, rfl, by simp; omega, ?_, ht⟩, hr⟩
        intro x hx
        rw [List.mem_singleton.mp hx]
        exact isJsonHex_of_isHex c hhex
      · rw [if_neg hk] at h
        obtain rfl := Except.ok.inj h
        obtain ⟨t, r, e, ⟨hs, t', et, hlen, hh, ht'⟩, hr⟩ := hl
        refine ⟨c :: t, r, by rw [e]; rfl, ⟨c :: hs, t', by rw [et]; rfl, ?_, ?_, ht'⟩, hr⟩
        · simp only [List.length_cons]
          have : hs.length = k - 1 - 1 + 1 := hlen
          omega
        · intro x hx
          rcases List.mem_cons.mp hx with rfl | hx
          · exact isJsonHex_of_isHex _ hhex
          · exact hh x hx
    · rw [if_neg hhex] at h
      cases h
  | neg raw =>
    rw [hstep] at h
    simp only at h
    by_cases h48 : c = 48
    · rw [if_pos h48] at h
      obtain rfl := Except.ok.inj h
      obtain ⟨t, r, e, ⟨f, x, et, hf, hx⟩, hr⟩ := hl
      exact ⟨c :: t, r, by rw [e]; rfl, ⟨[48], f, x, by rw [h48, et]; rfl, Or.inl rfl, hf, hx⟩, hr⟩
    rw [if_neg h48] at h
    by_cases hd : isDigit c = true
    · rw [if_pos hd] at h
      obtain rfl := Except.ok.inj h
      obtain ⟨t, r, e, ⟨ds, f, x, et, hds, hf, hx⟩, hr⟩ := hl
      have hc := isJsonDigit_of_isDigit c hd
      have hne : c.val ≠ 48 := fun hv => h48 (Fin.ext hv)
      refine ⟨c :: t, r, by rw [e]; rfl,
        ⟨c :: ds, f, x, by rw [et]; rfl, Or.inr ⟨c, ds, rfl, ?_, hc.2, hds⟩, hf, hx⟩, hr⟩
      have := hc.1
      omega
    · rw [if_neg hd] at h
      cases h
  | zero raw =>
    rw [hstep] at h
    simp only at h
    by_cases h46 : c = 46
    · rw [if_pos h46] at h
      obtain rfl := Except.ok.inj h
      obtain ⟨t, r, e, ⟨d, ds, x, et, hd, hds, hx⟩, hr⟩ := hl
      exact ⟨c :: t, r, by rw [e]; rfl,
        ⟨46 :: d :: ds, x, by rw [h46, et]; rfl, Or.inr ⟨d, ds, rfl, hd, hds⟩, hx⟩, hr⟩
    rw [if_neg h46] at h
    by_cases he : (c = 101 || c = 69) = true
    · rw [if_pos he] at h
      obtain rfl := Except.ok.inj h
      obtain ⟨t, r, e, ⟨sign, d, ds, et, hsign, hd, hds⟩, hr⟩ := hl
      simp only [Bool.or_eq_true, decide_eq_true_eq] at he
      exact ⟨c :: t, r, by rw [e]; rfl,
        ⟨[], c :: t, rfl, JsonFrac_nil, Or.inr ⟨c, sign, d, ds, by rw [et], he, hsign, hd, hds⟩⟩,
        hr⟩
    rw [if_neg he] at h
    exact number_end L s s1 raw c cs _ ⟨[], [], rfl, JsonFrac_nil, JsonExp_nil⟩ h hl
  | one raw =>
    rw [hstep] at h
    simp only at h
    by_cases hd : isDigit c = true
    · rw [if_pos hd] at h
      obtain rfl := Except.ok.inj h
      obtain ⟨t, r, e, ⟨ds, f, x, et, hds, hf, hx⟩, hr⟩ := hl
      exact ⟨c :: t, r, by rw [e]; rfl,
        ⟨c :: ds, f, x, by rw [et]; rfl, JsonDigits_cons c ds hd hds, hf, hx⟩, hr⟩
    rw [if_neg hd] at h
    by_cases h46 : c = 46
    · rw [if_pos h46] at h
      obtain rfl := Except.ok.inj h
      obtain ⟨t, r, e, ⟨d, ds, x, et, hd, hds, hx⟩, hr⟩ := hl
      exact ⟨c :: t, r, by rw [e]; rfl,
        ⟨[], 46 :: d :: ds, x, by rw [h46, et]; rfl, JsonDigits_nil,
          Or.inr ⟨d, ds, rfl, hd, hds⟩, hx⟩, hr⟩
    rw [if_neg h46] at h
    by_cases he : (c = 101 || c = 69) = true
    · rw [if_pos he] at h
      obtain rfl := Except.ok.inj h
      obtain ⟨t, r, e, ⟨sign, d, ds, et, hsign, hd, hds⟩, hr⟩ := hl
      simp only [Bool.or_eq_true, decide_eq_true_eq] at he
      exact ⟨c :: t, r, by rw [e]; rfl,
        ⟨[], [], c :: t, rfl, JsonDigits_nil, JsonFrac_nil,
          Or.inr ⟨c, sign, d, ds, by rw [et], he, hsign, hd, hds⟩⟩, hr⟩
    rw [if_neg he] at h
    exact number_end L s s1 raw c cs _ ⟨[], [], [], rfl, JsonDigits_nil, JsonFrac_nil, JsonExp_nil⟩
      h hl
  | dot raw =>
    rw [hstep] at h
    simp only at h
    by_cases hd : isDigit c = true
    · rw [if_pos hd] at h
      obtain rfl := Except.ok.inj h
      obtain ⟨t, r, e, ⟨ds, x, et, hds, hx⟩, hr⟩ := hl
      exact ⟨c :: t, r, by rw [e]; rfl,
        ⟨c, ds, x, by rw [et], isJsonDigit_of_isDigit c hd, hds, hx⟩, hr⟩
    · rw [if_neg hd] at h
      cases h
  | dot0 raw =>
    rw [hstep] at h
    simp only at h
    by_cases hd : isDigit c = true
    · rw [if_pos hd] at h
      obtain rfl := Except.ok.inj h
      obtain ⟨t, r, e, ⟨ds, x, et, hds, hx⟩, hr⟩ := hl
      exact ⟨c :: t, r, by rw [e]; rfl,
        ⟨c :: ds, x, by rw [et]; rfl, JsonDigits_cons c ds hd hds, hx⟩, hr⟩
    rw [if_neg hd] at h
    by_cases he : (c = 101 || c = 69) = true
    · rw [if_pos he] at h
      obtain rfl := Except.ok.inj h
      obtain ⟨t, r, e, ⟨sign, d, ds, et, hsign, hd, hds⟩, hr⟩ := hl
      simp only [Bool.or_eq_true, decide_eq_true_eq] at he
      exact ⟨c :: t, r, by rw [e]; rfl,
        ⟨[], c :: t, rfl, JsonDigits_nil, Or.inr ⟨c, sign, d, ds, by rw [et], he, hsign, hd, hds⟩⟩,
        hr⟩
    rw [if_neg he] at h
    exact number_end L s s1 raw c cs _ ⟨[], [], rfl, JsonDigits_nil, JsonExp_nil⟩ h hl
  | e raw =>
    rw [hstep] at h
    simp only at h
    by_cases hs : (c = 43 || c = 45) = true
    · rw [if_pos hs] at h
      obtain rfl := Except.ok.inj h
      obtain ⟨t, r, e, ⟨d, ds, et, hd, hds⟩, hr⟩ := hl
      simp only [Bool.or_eq_true, decide_eq_true_eq] at hs
      refine ⟨c :: t, r, by rw [e]; rfl, ⟨[c], d, ds, by rw [et]; rfl, ?_, hd, hds⟩, hr⟩
      rcases hs with hs | hs
      · exact Or.inr (Or.inl (by rw [hs]))
      · exact Or.inr (Or.inr (by rw [hs]))
    rw [if_neg hs] at h
    by_cases hd : isDigit c = true
    · rw [if_pos hd] at h
      obtain rfl := Except.ok.inj h
      obtain ⟨t, r, e, ht, hr⟩ := hl
      exact ⟨c :: t, r, by rw [e]; rfl,
        ⟨[], c, t, rfl, Or.inl rfl, isJsonDigit_of_isDigit c hd, ht⟩, hr⟩
    · rw [if_neg hd] at h
      cases h
  | eSign raw =>
    rw [hstep] at h
    simp only at h
    by_cases hd : isDigit c = true
    · rw [if_pos hd] at h
      obtain rfl := Except.ok.inj h
      obtain ⟨t, r, e, ht, hr⟩ := hl
      exact ⟨c :: t, r, by rw [e]; rfl, ⟨c, t, rfl, isJsonDigit_of_isDigit c hd, ht⟩, hr⟩
    · rw [if_neg hd] at h
      cases h
  | e0 raw =>
    rw [hstep] at h
    simp only at h
    by_cases hd : isDigit c = true
    · rw [if_pos hd] at h
      obtain rfl := Except.ok.inj h
      obtain ⟨t, r, e, ht, hr⟩ := hl
      exact ⟨c :: t, r, by rw [e]; rfl, JsonDigits_cons c t hd ht, hr⟩
    rw [if_neg hd] at h
    exact number_end L s s1 raw c cs _ JsonDigits_nil h hl
  | word rest v =>
    rw [hstep] at h
    simp only at h
    cases rest with
    | nil => cases h
    | cons x xs =>
      simp only at h
      by_cases hx : c = x
      · rw [if_pos hx] at h
        cases xs with
        | nil =>
          simp only at h
          obtain rfl := Except.ok.inj h
          rw [Lang_attach] at hl
          exact ⟨[x], cs, by rw [hx]; rfl, rfl, hl⟩
        | cons y ys =>
          simp only at h
          obtain rfl := Except.ok.inj h
          obtain ⟨t, r, e, et, hr⟩ := hl
          exact ⟨x :: t, r, by rw [hx, e]; rfl, by rw [et], hr⟩
      · rw [if_neg hx] at h
        cases h

/-- The scanner run over `w`: what it expected before is `w` and what it
expects after it. -/
theorem scanAll_Lang (L : Lib) : ∀ (w tail : Bytes) (s s1 : Scanner),
    scanAll L s w = .ok s1 → Lang s1.step s1.parseState tail →
    Lang s.step s.parseState (w ++ tail) := by
  intro w
  induction w with
  | nil =>
    intro tail s s1 h hl
    unfold scanAll at h
    obtain rfl := Except.ok.inj h
    exact hl
  | cons c cs ih =>
    intro tail s s1 h hl
    rw [scanAll] at h
    cases hstep : scanStep L s c with
    | error e => rw [hstep] at h; cases h
    | ok s' =>
      rw [hstep] at h
      exact scanStep_Lang L s s' c (cs ++ tail) hstep (ih tail s' s1 h hl)

theorem attach_Good (s : Scanner) (v : Value) (h : s.result = none) : (s.attach v).Good := by
  unfold Scanner.attach
  split
  · exact Or.inr ⟨by assumption, Or.inl rfl⟩
  · exact Or.inl h
  · exact Or.inl h
  · exact Or.inl h

theorem attach_result (s : Scanner) (v : Value) (h : s.result = none)
    (hst : s.parseState ≠ []) : (s.attach v).result = none ∧ (s.attach v).parseState ≠ [] := by
  unfold Scanner.attach
  split
  · rename_i h0; exact absurd h0 hst
  · exact ⟨h, by simp⟩
  · exact ⟨h, by simp⟩
  · exact ⟨h, hst⟩

theorem attachNumber_Good (L : Lib) (s : Scanner) (raw : Bytes) (h : s.result = none) :
    (s.attachNumber L raw).Good := by
  unfold Scanner.attachNumber
  split
  · exact attach_Good s _ h
  · exact attach_Good s _ h

theorem attachString_Good (L : Lib) (s : Scanner) (raw : Bytes) (simple : Bool)
    (h : s.result = none) : (s.attachString L raw simple).Good := by
  unfold Scanner.attachString
  generalize (if simple = true then raw.reverse else L.jsonUnquote raw.reverse) = str
  simp only []
  split
  · exact Or.inl h
  · exact attach_Good s _ h

theorem stateEndValue_Good (s s1 : Scanner) (c : Byte) (h : stateEndValue s c = .ok s1)
    (hg : s.Good) : s1.Good := by
  unfold stateEndValue at h
  cases hst : s.parseState with
  | nil =>
    rw [hst] at h
    simp only at h
    by_cases hsp : isSpace c = true
    · rw [if_pos hsp] at h
      obtain rfl := Except.ok.inj h
      exact Or.inr ⟨rfl, Or.inr rfl⟩
    · rw [if_neg hsp] at h
      cases h
  | cons f st =>
    have hres : s.result = none := by
      rcases hg with hg | ⟨hg, _⟩
      · exact hg
      · rw [hst] at hg; cases hg
    rw [hst] at h
    simp only at h
    by_cases hsp : isSpace c = true
    · rw [if_pos hsp] at h
      obtain rfl := Except.ok.inj h
      exact Or.inl hres
    · rw [if_neg hsp] at h
      cases f with
      | arr items =>
        simp only at h
        by_cases h44 : c = 44
        · rw [if_pos h44] at h
          obtain rfl := Except.ok.inj h
          exact Or.inl hres
        · rw [if_neg h44] at h
          by_cases h93 : c = 93
          · rw [if_pos h93] at h
            obtain rfl := Except.ok.inj h
            exact attach_Good _ _ hres
          · rw [if_neg h93] at h
            cases h
      | objKey m => cases h
      | objColon m k =>
        simp only at h
        by_cases h58 : c = 58
        · rw [if_pos h58] at h
          obtain rfl := Except.ok.inj h
          exact Or.inl hres
        · rw [if_neg h58] at h
          cases h
      | objValue m k => cases h
      | objNext m =>
        simp only at h
        by_cases h44 : c = 44
        · rw [if_pos h44] at h
          obtain rfl := Except.ok.inj h
          exact Or.inl hres
        · rw [if_neg h44] at h
          by_cases h125 : c = 125
          · rw [if_pos h125] at h
            obtain rfl := Except.ok.inj h
            exact attach_Good _ _ hres
          · rw [if_neg h125] at h
            cases h

theorem pushParseState_result (s s1 : Scanner) (f : Frame) (next : Lex)
    (h : pushParseState s f next = .ok s1) : s1.result = s.result := by
  unfold pushParseState at h
  split_ifs at h
  obtain rfl := Except.ok.inj h
  rfl

theorem stateBeginValue_Good (s s1 : Scanner) (c : Byte) (h : stateBeginValue s c = .ok s1)
    (hres : s.result = none) : s1.Good := by
  unfold stateBeginValue at h
  by_cases h0 : isSpace c = true
  · rw [if_pos h0] at h
    obtain rfl := Except.ok.inj h
    exact Or.inl hres
  rw [if_neg h0] at h
  by_cases h1 : c = 123
  · rw [if_pos h1] at h
    exact Or.inl ((pushParseState_result _ _ _ _ h).trans hres)
  rw [if_neg h1] at h
  by_cases h2 : c = 91
  · rw [if_pos h2] at h
    exact Or.inl ((pushParseState_result _ _ _ _ h).trans hres)
  rw [if_neg h2] at h
  by_cases h3 : c = 34
  · rw [if_pos h3] at h
    obtain rfl := Except.ok.inj h
    exact Or.inl hres
  rw [if_neg h3] at h
  by_cases h4 : c = 45
  · rw [if_pos h4] at h
    obtain rfl := Except.ok.inj h
    exact Or.inl hres
  rw [if_neg h4] at h
  by_cases h5 : c = 48
  · rw [if_pos h5] at h
    obtain rfl := Except.ok.inj h
    exact Or.inl hres
  rw [if_neg h5] at h
  by_cases h6 : c = 116
  · rw [if_pos h6] at h
    obtain rfl := Except.ok.inj h
    exact Or.inl hres
  rw [if_neg h6] at h
  by_cases h7 : c = 102
  · rw [if_pos h7] at h
    obtain rfl := Except.ok.inj h
    exact Or.inl hres
  rw [if_neg h7] at h
  by_cases h8 : c = 110
  · rw [if_pos h8] at h
    obtain rfl := Except.ok.inj h
    exact Or.inl hres
  rw [if_neg h8] at h
  by_cases h9 : isDigit c = true
  · rw [if_pos h9] at h
    obtain rfl := Except.ok.inj h
    exact Or.inl hres
  · rw [if_neg h9] at h
    cases h

theorem stateBeginString_Good (s s1 : Scanner) (c : Byte) (h : stateBeginString s c = .ok s1)
    (hres : s.result = none) : s1.Good := by
  unfold stateBeginString at h
  split_ifs at h
  all_goals (obtain rfl := Except.ok.inj h; exact Or.inl hres)

theorem scanStep_Good (L : Lib) (s s1 : Scanner) (c : Byte) (h : scanStep L s c = .ok s1)
    (hg : s.Good) : s1.Good := by
  have hres : (s.step ≠ .endValue ∧ s.step ≠ .endTop) → s.result = none := by
    rintro ⟨h1, h2⟩
    rcases hg with hg | ⟨_, hg | hg⟩
    · exact hg
    · exact absurd hg h1
    · exact absurd hg h2
  unfold scanStep at h
  cases hstep : s.step with
  | endValue =>
    rw [hstep] at h
    exact stateEndValue_Good s s1 c h hg
  | endTop =>
    rw [hstep] at h
    simp only at h
    split_ifs at h
    obtain rfl := Except.ok.inj h
    exact hg
  | beginValue =>
    have hr := hres (by rw [hstep]; exact ⟨by simp, by simp⟩)
    rw [hstep] at h
    exact stateBeginValue_Good s s1 c h hr
  | beginValueOrEmpty =>
    have hr := hres (by rw [hstep]; exact ⟨by simp, by simp⟩)
    rw [hstep] at h
    simp only at h
    split_ifs at h
    · obtain rfl := Except.ok.inj h; exact hg
    · exact stateEndValue_Good s s1 c h hg
    · exact stateBeginValue_Good s s1 c h hr
  | beginStringOrEmpty =>
    have hr := hres (by rw [hstep]; exact ⟨by simp, by simp⟩)
    rw [hstep] at h
    simp only at h
    split_ifs at h
    · obtain rfl := Except.ok.inj h; exact hg
    · split at h
      · exact stateEndValue_Good _ s1 c h (Or.inl hr)
      · cases h
    · exact stateBeginString_Good s s1 c h hr
  | beginString =>
    have hr := hres (by rw [hstep]; exact ⟨by simp, by simp⟩)
    rw [hstep] at h
    exact stateBeginString_Good s s1 c h hr
  | inString raw simple =>
    have hr := hres (by rw [hstep]; exact ⟨by simp, by simp⟩)
    rw [hstep] at h
    simp only at h
    split_ifs at h
    · obtain rfl := Except.ok.inj h; exact attachString_Good L s raw simple hr
    · obtain rfl := Except.ok.inj h; exact Or.inl hr
    · obtain rfl := Except.ok.inj h; exact Or.inl hr
  | inStringEsc raw =>
    have hr := hres (by rw [hstep]; exact ⟨by simp, by simp⟩)
    rw [hstep] at h
    simp only at h
    split_ifs at h
    · obtain rfl := Except.ok.inj h; exact Or.inl hr
    · obtain rfl := Except.ok.inj h; exact Or.inl hr
  | inStringEscU raw k =>
    have hr := hres (by rw [hstep]; exact ⟨by simp, by simp⟩)
    rw [hstep] at h
    simp only at h
    split_ifs at h
    · obtain rfl := Except.ok.inj h; exact Or.inl hr
    · obtain rfl := Except.ok.inj h; exact Or.inl hr
  | neg raw =>
    have hr := hres (by rw [hstep]; exact ⟨by simp, by simp⟩)
    rw [hstep] at h
    simp only at h
    split_ifs at h
    · obtain rfl := Except.ok.inj h; exact Or.inl hr
    · obtain rfl := Except.ok.inj h; exact Or.inl hr
  | zero raw =>
    have hr := hres (by rw [hstep]; exact ⟨by simp, by simp⟩)
    rw [hstep] at h
    simp only at h
    split_ifs at h
    · obtain rfl := Except.ok.inj h; exact Or.inl hr
    · obtain rfl := Except.ok.inj h; exact Or.inl hr
    · exact stateEndValue_Good _ s1 c h (attachNumber_Good L s raw hr)
  | one raw =>
    have hr := hres (by rw [hstep]; exact ⟨by simp, by simp⟩)
    rw [hstep] at h
    simp only at h
    split_ifs at h
    · obtain rfl := Except.ok.inj h; exact Or.inl hr
    · obtain rfl := Except.ok.inj h; exact Or.inl hr
    · obtain rfl := Except.ok.inj h; exact Or.inl hr
    · exact stateEndValue_Good _ s1 c h (attachNumber_Good L s raw hr)
  | dot raw =>
    have hr := hres (by rw [hstep]; exact ⟨by simp, by simp⟩)
    rw [hstep] at h
    simp only at h
    split_ifs at h
    obtain rfl := Except.ok.inj h; exact Or.inl hr
  | dot0 raw =>
    have hr := hres (by rw [hstep]; exact ⟨by simp, by simp⟩)
    rw [hstep] at h
    simp only at h
    split_ifs at h
    · obtain rfl := Except.ok.inj h; exact Or.inl hr
    · obtain rfl := Except.ok.inj h; exact Or.inl hr
    · exact stateEndValue_Good _ s1 c h (attachNumber_Good L s raw hr)
  | e raw =>
    have hr := hres (by rw [hstep]; exact ⟨by simp, by simp⟩)
    rw [hstep] at h
    simp only at h
    split_ifs at h
    · obtain rfl := Except.ok.inj h; exact Or.inl hr
    · obtain rfl := Except.ok.inj h; exact Or.inl hr
  | eSign raw =>
    have hr := hres (by rw [hstep]; exact ⟨by simp, by simp⟩)
    rw [hstep] at h
    simp only at h
    split_ifs at h
    obtain rfl := Except.ok.inj h; exact Or.inl hr
  | e0 raw =>
    have hr := hres (by rw [hstep]; exact ⟨by simp, by simp⟩)
    rw [hstep] at h
    simp only at h
    split_ifs at h
    · obtain rfl := Except.ok.inj h; exact Or.inl hr
    · exact stateEndValue_Good _ s1 c h (attachNumber_Good L s raw hr)
  | word rest v =>
    have hr := hres (by rw [hstep]; exact ⟨by simp, by simp⟩)
    rw [hstep] at h
    simp only at h
    split at h
    · cases h
    · split_ifs at h
      split at h
      · obtain rfl := Except.ok.inj h; exact attach_Good s v hr
      · obtain rfl := Except.ok.inj h; exact Or.inl hr

theorem scanAll_Good (L : Lib) : ∀ (w : Bytes) (s s1 : Scanner),
    scanAll L s w = .ok s1 → s.Good → s1.Good := by
  intro w
  induction w with
  | nil =>
    intro s s1 h hg
    unfold scanAll at h
    obtain rfl := Except.ok.inj h
    exact hg
  | cons c cs ih =>
    intro s s1 h hg
    rw [scanAll] at h
    cases hstep : scanStep L s c with
    | error e => rw [hstep] at h; cases h
    | ok s' =>
      rw [hstep] at h
      exact ih s' s1 h (scanStep_Good L s s' c hstep hg)

theorem JsonChars_last : ∀ (s : Bytes), JsonChars s → ∃ u, s = u ++ [34] := by
  intro s h
  induction h with
  | quote => exact ⟨[], rfl⟩
  | char c s _ _ _ _ ih =>
    obtain ⟨u, e⟩ := ih
    exact ⟨c :: u, by rw [e]; rfl⟩
  | escape c s _ _ ih =>
    obtain ⟨u, e⟩ := ih
    exact ⟨92 :: c :: u, by rw [e]; rfl⟩
  | unicode h1 h2 h3 h4 s _ _ _ _ _ ih =>
    obtain ⟨u, e⟩ := ih
    exact ⟨92 :: 117 :: h1 :: h2 :: h3 :: h4 :: u, by rw [e]; rfl⟩

theorem isJsonDigit_ne_space (c : Byte) (h : isJsonDigit c) : c ≠ 32 := by
  intro e
  rw [e] at h
  have := h.1
  revert this
  decide

/-- A number is not empty, starts with `-` or a digit, and has no space. -/
theorem JsonNumber_bytes (s : Bytes) (h : JsonNumber s) :
    (∃ x u, s = x :: u ∧ (x = 45 ∨ isJsonDigit x)) ∧ ∀ c ∈ s, c ≠ 32 := by
  obtain ⟨sign, i, f, e, rfl, hsign, hi, hf, he⟩ := h
  have hi2 : (∃ x u, i = x :: u ∧ isJsonDigit x) ∧ ∀ c ∈ i, c ≠ 32 := by
    rcases hi with rfl | ⟨d, ds, rfl, h1, h2, hds⟩
    · refine ⟨⟨48, [], rfl, by unfold isJsonDigit; decide⟩, ?_⟩
      intro c hc
      rw [List.mem_singleton.mp hc]
      decide
    · refine ⟨⟨d, ds, rfl, by unfold isJsonDigit; omega⟩, ?_⟩
      intro c hc
      rcases List.mem_cons.mp hc with rfl | hc
      · exact isJsonDigit_ne_space _ (by unfold isJsonDigit; omega)
      · exact isJsonDigit_ne_space _ (hds c hc)
  have hf2 : ∀ c ∈ f, c ≠ 32 := by
    rcases hf with rfl | ⟨d, ds, rfl, hd, hds⟩
    · intro c hc; cases hc
    · intro c hc
      rcases List.mem_cons.mp hc with rfl | hc
      · decide
      · rcases List.mem_cons.mp hc with rfl | hc
        · exact isJsonDigit_ne_space _ hd
        · exact isJsonDigit_ne_space _ (hds c hc)
  have he2 : ∀ c ∈ e, c ≠ 32 := by
    rcases he with rfl | ⟨x, sg, d, ds, rfl, hx, hsg, hd, hds⟩
    · intro c hc; cases hc
    · intro c hc
      rcases List.mem_cons.mp hc with rfl | hc
      · rcases hx with rfl | rfl <;> decide
      · rcases List.mem_append.mp hc with hc | hc
        · rcases hsg with rfl | rfl | rfl
          · cases hc
          · rw [List.mem_singleton.mp hc]; decide
          · rw [List.mem_singleton.mp hc]; decide
        · rcases List.mem_cons.mp hc with rfl | hc
          · exact isJsonDigit_ne_space _ hd
          · exact isJsonDigit_ne_space _ (hds c hc)
  obtain ⟨⟨x, u, rfl, hx⟩, hi3⟩ := hi2
  constructor
  · rcases hsign with rfl | rfl
    · exact ⟨x, u ++ (f ++ e), rfl, Or.inr hx⟩
    · exact ⟨45, (x :: u) ++ (f ++ e), rfl, Or.inl rfl⟩
  · intro c hc
    rcases List.mem_append.mp hc with hc | hc
    · rcases hsign with rfl | rfl
      · cases hc
      · rw [List.mem_singleton.mp hc]; decide
    · rcases List.mem_append.mp hc with hc | hc
      · exact hi3 c hc
      · rcases List.mem_append.mp hc with hc | hc
        · exact hf2 c hc
        · exact he2 c hc

/-- A value does not end with a space. -/
theorem JsonValue_last (v : Bytes) (h : JsonValue v) : ∃ u x, v = u ++ [x] ∧ x ≠ 32 := by
  cases h with
  | null => exact ⟨[110, 117, 108], 108, rfl, by decide⟩
  | true => exact ⟨[116, 114, 117], 101, rfl, by decide⟩
  | false => exact ⟨[102, 97, 108, 115], 101, rfl, by decide⟩
  | number _ hn =>
    obtain ⟨⟨x, u, e, _⟩, hall⟩ := JsonNumber_bytes v hn
    rcases List.eq_nil_or_concat v with h0 | ⟨u', y, e'⟩
    · rw [h0] at e; cases e
    · rw [List.concat_eq_append] at e'
      exact ⟨u', y, e', hall y (by rw [e']; simp)⟩
  | string s hs =>
    obtain ⟨u, e⟩ := JsonChars_last s hs
    exact ⟨34 :: u, 34, by rw [e]; rfl, by decide⟩
  | emptyArray w _ => exact ⟨91 :: w, 93, rfl, by decide⟩
  | array w v t _ _ _ => exact ⟨91 :: (w ++ (v ++ t)), 93, by simp, by decide⟩
  | emptyObject w _ => exact ⟨123 :: w, 125, rfl, by decide⟩
  | object w k w1 w2 v t _ _ _ _ _ _ =>
    exact ⟨123 :: (w ++ (34 :: (k ++ (w1 ++ (58 :: (w2 ++ (v ++ t))))))), 125, by simp, by decide⟩

/-- A text that is well formed with a space after it is well formed. -/
theorem WellFormedJSON_of_space (data : Bytes) (h : BeginValue [] (data ++ [32])) :
    WellFormedJSON data := by
  obtain ⟨w0, v, r, e, hw0, hv, hr⟩ := h
  rcases List.eq_nil_or_concat r with rfl | ⟨r0, y, hr0⟩
  · obtain ⟨u, x, rfl, hx⟩ := JsonValue_last v hv
    have e1 : data ++ [32] = (w0 ++ u) ++ [x] := by rw [e]; simp
    have := (List.append_inj' e1 rfl).2
    exact absurd (List.singleton_inj.mp this).symm hx
  · rw [List.concat_eq_append] at hr0
    subst hr0
    have e1 : data ++ [32] = (w0 ++ (v ++ r0)) ++ [y] := by rw [e]; simp
    have e2 := (List.append_inj' e1 rfl).1
    refine ⟨w0, v, r0, e2, hw0, hv, ?_⟩
    intro c hc
    exact hr c (by simp [hc])

/-- Whatever `json.Unmarshal` into an `interface{}` accepts is a JSON text of
the grammar. -/
theorem jsonUnmarshal_wellFormed (L : Lib) (data : Bytes) (v : Value)
    (h : jsonUnmarshal L data = .ok v) : WellFormedJSON data := by
  unfold jsonUnmarshal at h
  cases h1 : scanAll L ⟨.beginValue, [], none, none⟩ data with
  | error e => rw [h1] at h; cases h
  | ok s =>
    rw [h1] at h
    simp only at h
    cases h2 : scanStep L s 32 with
    | error e => rw [h2] at h; cases h
    | ok s' =>
      rw [h2] at h
      simp only at h
      have hg : s'.Good :=
        scanStep_Good L s s' 32 h2 (scanAll_Good L data _ s h1 (Or.inl rfl))
      cases hres : s'.result with
      | none => rw [hres] at h; cases h
      | some v' =>
        cases hst : s'.parseState with
        | cons f st => rw [hres, hst] at h; cases h
        | nil =>
          have hend : Lang s'.step s'.parseState [] := by
            rcases hg with hg | ⟨_, hg | hg⟩
            · rw [hres] at hg; cases hg
            · rw [hg, hst]; exact JsonWs_nil
            · rw [hg]; exact JsonWs_nil
          have hl := scanAll_Lang L data [32] _ s h1 (scanStep_Lang L s s' 32 [] h2 hend)
          exact WellFormedJSON_of_space data hl

/-- A value that starts with `{` ends with `}`. -/
theorem JsonValue_brace (u : Bytes) (h : JsonValue (123 :: u)) : ∃ u', u = u' ++ [125] := by
  generalize hv : 123 :: u = v at h
  cases h with
  | null => cases hv
  | true => cases hv
  | false => cases hv
  | number _ hn =>
    obtain ⟨⟨x, u1, e, hx⟩, _⟩ := JsonNumber_bytes _ hn
    rw [← hv] at e
    obtain ⟨rfl, _⟩ := List.cons.inj e
    rcases hx with hx | hx
    · exact absurd hx (by decide)
    · exact absurd hx.2 (by decide)
  | string s _ =>
    exact absurd (List.cons.inj hv).1 (by decide)
  | emptyArray w _ =>
    exact absurd (List.cons.inj hv).1 (by decide)
  | array w v t _ _ _ =>
    exact absurd (List.cons.inj hv).1 (by decide)
  | emptyObject w _ => exact ⟨w, (List.cons.inj hv).2⟩
  | object w k w1 w2 v t _ _ _ _ _ _ =>
    exact ⟨w ++ (34 :: (k ++ (w1 ++ (58 :: (w2 ++ (v ++ t)))))), by
      rw [(List.cons.inj hv).2]; simp⟩

/-- The truncated JSON `{"a":1` is not a JSON text. -/
theorem jsonTruncated_not_wellFormed : ¬ WellFormedJSON jsonTruncated := by
  rintro ⟨w1, v, w2, e, hw1, hv, hw2⟩
  have hs : jsonTruncated = [123, 34, 97, 34, 58, 49] := by rfl
  rw [hs] at e
  cases w1 with
  | cons y w1 =>
    have hy := hw1 y (by simp)
    have : y = 123 := (List.cons.inj e).1.symm
    rw [this] at hy
    revert hy; decide
  | nil =>
    rw [List.nil_append] at e
    rcases List.eq_nil_or_concat w2 with rfl | ⟨w2', y, hw2'⟩
    · rw [List.append_nil] at e
      rw [← e] at hv
      obtain ⟨u', hu⟩ := JsonValue_brace _ hv
      have e1 : ([34, 97, 34, 58] : Bytes) ++ [49] = u' ++ [125] := hu
      have := (List.singleton_inj.mp (List.append_inj' e1 rfl).2)
      revert this; decide
    · rw [List.concat_eq_append] at hw2'
      subst hw2'
      have hy := hw2 y (by simp)
      have e1 : ([123, 34, 97, 34, 58] : Bytes) ++ [49] = (v ++ w2') ++ [y] := by
        rw [← List.append_assoc] at e
        exact e
      have := (List.singleton_inj.mp (List.append_inj' e1 rfl).2)
      rw [← this] at hy
      revert hy; decide

/-- An input that `json.Unmarshal` does not reject is a JSON text: what is not
one is rejected. -/
theorem jsonUnmarshal_rejects (L : Lib) (data : Bytes) (h : ¬ WellFormedJSON data) :
    ∃ cause, jsonUnmarshal L data = .error cause := by
  cases hj : jsonUnmarshal L data with
  | error cause => exact ⟨cause, rfl⟩
  | ok v => exact absurd (jsonUnmarshal_wellFormed L data v hj) h


theorem decode_of_decoderRejects (L : Lib) (src data : Bytes) (e : ConvertError)
    (h : decoderRejects L src data e) : decode L src data = .error e := by
  rcases h with ⟨hs, cause, hc, he⟩ | ⟨hs, cause, hc, he⟩ | ⟨hs, cause, hc, he⟩
  · subst hs; subst he; simp [decode, hc]
  · subst hs; subst he
    have h1 : fmtYAML ≠ fmtJSON := by decide
    simp [decode, hc, h1]
  · subst hs; subst he
    have h1 : fmtXML ≠ fmtJSON := by decide
    have h2 : fmtXML ≠ fmtYAML := by decide
    simp [decode, hc, h1, h2]

/-- C2, counterexample: `<a></a><` is not well-formed XML, and with `from=xml`,
`to=json` the call returns no error and writes `null`. -/
theorem Convert_accepts_malformed_xml :
    xmlTrailing = ascii "<a></a><"
      ∧ ∀ L : Lib, Converter.Convert L ⟨NewReader xmlTrailing, NewBuffer⟩ fmtXML fmtJSON 2
          = (.ok, ⟨⟨[], none⟩, ⟨[ascii "null"], none⟩⟩) :=
  ⟨rfl, fun _ => rfl⟩

theorem Convert_of_decoderRejects (L : Lib) (c : Converter) (src dst : Bytes) (indent : Int)
    (e : ConvertError) (hne : normalize src ≠ normalize dst) (hr : c.reader.failure = none)
    (hd : decoderRejects L (normalize src) c.reader.pending.flatten e) :
    Converter.Convert L c src dst indent = (.error e, ⟨c.reader.drained, c.writer⟩) := by
  have hdec := decode_of_decoderRejects L _ _ e hd
  unfold Converter.Convert
  simp only [hne, if_false, ioReadAll, hr, hdec]

/-- C2, amended: for distinct source and target formats and a reader that
delivers its input, `Convert` with source `json` returns a JSON decode error
and writes nothing for every input that is not a JSON text by the grammar of
RFC 8259 (white space, one value, white space); with source `yaml`, `yml` or
`xml` the same holds of the inputs the library decoder rejects, which for XML
are not all the malformed ones. -/
theorem Convert_decode_error (L : Lib) (c : Converter) (src dst : Bytes) (indent : Int)
    (hne : normalize src ≠ normalize dst) (hr : c.reader.failure = none) :
    (normalize src = fmtJSON → ¬ WellFormedJSON c.reader.pending.flatten →
        ∃ cause, Converter.Convert L c src dst indent
          = (.error (.parseJSON cause), ⟨c.reader.drained, c.writer⟩))
      ∧ (∀ e, decoderRejects L (normalize src) c.reader.pending.flatten e →
          Converter.Convert L c src dst indent = (.error e, ⟨c.reader.drained, c.writer⟩)) := by
  refine ⟨fun hs hw => ?_, fun e hd => Convert_of_decoderRejects L c src dst indent e hne hr hd⟩
  obtain ⟨cause, hc⟩ := jsonUnmarshal_rejects L _ hw
  exact ⟨cause, Convert_of_decoderRejects L c src dst indent _ hne hr
    (Or.inl ⟨hs, cause, hc, rfl⟩)⟩

/-- C2, amended, at the truncated JSON `{"a":1` with `from=json`, `to=yaml`:
the input is not a JSON text, and the call returns a JSON decode error with no
output. -/
theorem Convert_decode_error_witness :
    jsonTruncated = ascii "\x7b\"a\":1"
      ∧ ¬ WellFormedJSON (NewReader jsonTruncated).pending.flatten
      ∧ ∃ cause, Converter.Convert Lib.failing ⟨NewReader jsonTruncated, NewBuffer⟩
          fmtJSON fmtYAML 2
        = (.error (.parseJSON cause), ⟨(NewReader jsonTruncated).drained, NewBuffer⟩) :=
  ⟨rfl, jsonTruncated_not_wellFormed,
    (Convert_decode_error Lib.failing ⟨NewReader jsonTruncated, NewBuffer⟩ fmtJSON fmtYAML 2
      (by decide) rfl).1 rfl jsonTruncated_not_wellFormed⟩

/-- C3: when the source or the target identifier, in lower case, is not one of
`json`, `yaml`, `yml`, `xml`, the command reports the unsupported format on
standard error and exits with status 1; nothing is read from standard input,
nothing is written to standard output, no file is opened or created. -/
theorem convertRun_unsupported (L : Lib) (env : Env) (src dst : Bytes) (rest : List Bytes)
    (outputFile : Bytes) (indent : Int)
    (h : ToLower L src ∉ [fmtJSON, fmtYAML, fmtYML, fmtXML]
      ∨ ToLower L dst ∉ [fmtJSON, fmtYAML, fmtYML, fmtXML]) :
    (convertRun L env src dst rest outputFile indent).exit = .exit 1
      ∧ ((convertRun L env src dst rest outputFile indent).stderr
            = [.unsupportedSource (ToLower L src)]
          ∨ (convertRun L env src dst rest outputFile indent).stderr
            = [.unsupportedTarget (ToLower L dst)])
      ∧ (convertRun L env src dst rest outputFile indent).stdin = env.stdin
      ∧ (convertRun L env src dst rest outputFile indent).stdout = env.stdout
      ∧ (convertRun L env src dst rest outputFile indent).opened = none
      ∧ (convertRun L env src dst rest outputFile indent).created = none := by
  have hsup : ∀ f : Bytes, f ∉ [fmtJSON, fmtYAML, fmtYML, fmtXML] → supportedFormats f = false := by
    intro f hf
    simp only [List.mem_cons, List.mem_singleton, not_or] at hf
    simp [supportedFormats, hf]
  unfold convertRun
  by_cases hs : supportedFormats (ToLower L src) = true
  · have hd : supportedFormats (ToLower L dst) = false := by
      rcases h with h | h
      · rw [hsup _ h] at hs; cases hs
      · exact hsup _ h
    simp [hs, hd]
  · simp [hs]

/-- C3, at the identifier `toml` as the target of a conversion from JSON. -/
theorem convertRun_unsupported_witness :
    (convertRun Lib.failing ⟨NewReader jsonPerson, NewBuffer, fun _ => .error ⟨"no file"⟩,
        fun _ => .error ⟨"no file"⟩⟩ (ascii "json") (ascii "toml") [] [] 2).exit = .exit 1
      ∧ (convertRun Lib.failing ⟨NewReader jsonPerson, NewBuffer, fun _ => .error ⟨"no file"⟩,
        fun _ => .error ⟨"no file"⟩⟩ (ascii "json") (ascii "toml") [] [] 2).stdin
          = NewReader jsonPerson :=
  have h := convertRun_unsupported Lib.failing ⟨NewReader jsonPerson, NewBuffer,
    fun _ => .error ⟨"no file"⟩, fun _ => .error ⟨"no file"⟩⟩ (ascii "json") (ascii "toml") [] [] 2
    (Or.inr (by decide))
  ⟨h.1, h.2.2.1⟩

/-- C4: `Convert` treats `yml` as `yaml`, as the source and as the target, and
from `yml` to `yaml` it is the byte copy of the same-format path. -/
theorem Convert_yml_is_yaml (L : Lib) (c : Converter) (g : Bytes) (indent : Int) :
    Converter.Convert L c fmtYML g indent = Converter.Convert L c fmtYAML g indent
      ∧ Converter.Convert L c g fmtYML indent = Converter.Convert L c g fmtYAML indent
      ∧ Converter.Convert L c fmtYML fmtYAML indent
          = ((match (ioCopy c.writer c.reader).2.1 with
              | some e => .error (.copy e)
              | none => .ok), ⟨(ioCopy c.writer c.reader).2.2, (ioCopy c.writer c.reader).1⟩) := by
  have h1 : normalize fmtYML = fmtYAML := by decide
  have h2 : normalize fmtYAML = fmtYAML := by decide
  refine ⟨?_, ?_, ?_⟩
  · unfold Converter.Convert; simp only [h1, h2]
  · unfold Converter.Convert; simp only [h1, h2]
  · unfold Converter.Convert
    simp only [h1, h2, if_true]
    rcases hcp : ioCopy c.writer c.reader with ⟨w, e, r⟩
    cases e <;> rfl

/-- C5: with distinct source and target formats, a call that returns no error
has given the writer the complete encoded output in one `Write`; a call whose
read, decoding or encoding fails returns an error and leaves the writer as it
was. -/
theorem Convert_all_or_nothing (L : Lib) (c : Converter) (src dst : Bytes) (indent : Int)
    (hne : normalize src ≠ normalize dst) :
    ((Converter.Convert L c src dst indent).1 = .ok →
        ∃ obj output, c.reader.failure = none
          ∧ decode L (normalize src) c.reader.pending.flatten = .ok obj
          ∧ encode L (normalize dst) obj indent = some (.ok output)
          ∧ (Converter.Convert L c src dst indent).2.writer.writes = c.writer.writes ++ [output])
      ∧ ((c.reader.failure ≠ none
            ∨ (∃ e, decode L (normalize src) c.reader.pending.flatten = .error e)
            ∨ (∃ obj e, decode L (normalize src) c.reader.pending.flatten = .ok obj
                ∧ encode L (normalize dst) obj indent = some (.error e))) →
          (∃ e, (Converter.Convert L c src dst indent).1 = .error e)
            ∧ (Converter.Convert L c src dst indent).2.writer = c.writer) := by
  unfold Converter.Convert
  simp only [hne, if_false, ioReadAll]
  cases hf : c.reader.failure with
  | some e0 => simp
  | none =>
    cases hd : decode L (normalize src) c.reader.pending.flatten with
    | error e => simp only [hd]; simp
    | ok obj =>
      cases he : encode L (normalize dst) obj indent with
      | none => simp only [hd, he]; simp [he]
      | some enc =>
        cases enc with
        | error e => simp only [hd, he]; simp [he]
        | ok output =>
          cases hw : c.writer.Write output with
          | mk w e =>
            cases e with
            | some e1 => simp only [hd, he, hw]; simp [he]
            | none =>
              have := Writer.writes_of_Write_ok c.writer output (by rw [hw])
              rw [hw] at this
              simp only [hd, he, hw]
              simp only at this
              simp [he, this]

/-- C5, at the key-order scenario, whose formats JSON and YAML differ: the
call returns no error and the writer has the encoded output as its one write. -/
theorem Convert_all_or_nothing_witness :
    ∃ obj output, (NewReader jsonPerson).failure = none
      ∧ decode Lib.failing (normalize fmtJSON) (NewReader jsonPerson).pending.flatten = .ok obj
      ∧ encode Lib.failing (normalize fmtYAML) obj 2 = some (.ok output)
      ∧ (Converter.Convert Lib.failing ⟨NewReader jsonPerson, NewBuffer⟩ fmtJSON fmtYAML 2).2.writer.writes
          = NewBuffer.writes ++ [output] :=
  (Convert_all_or_nothing Lib.failing ⟨NewReader jsonPerson, NewBuffer⟩ fmtJSON fmtYAML 2
    (by decide)).1 rfl

/-- C7, counterexample: for the JSON object with the keys `name`, `age`,
`city` in this order, the YAML output does not have `name: John`, `age: 30`,
`city: New York` in this order. -/
theorem Convert_json_yaml_not_source_order :
    ¬ ∃ L : Lib, occursInOrder [ascii "name: John", ascii "age: 30", ascii "city: New York"]
        (Converter.Convert L ⟨NewReader jsonPerson, NewBuffer⟩ fmtJSON fmtYAML 2).2.writer.content
          = true := by
  rintro ⟨L, h⟩
  have e : (Converter.Convert L ⟨NewReader jsonPerson, NewBuffer⟩ fmtJSON fmtYAML 2).2.writer.content
      = ascii "age: 30\ncity: New York\nname: John\n" := rfl
  rw [e] at h
  revert h
  decide

/-- C7, amended: for that JSON object the call returns no error and the YAML
output is the three entries in ascending order of their keys, `age: 30`,
`city: New York`, `name: John`, one a line. -/
theorem Convert_json_yaml_sorted_keys (L : Lib) :
    Converter.Convert L ⟨NewReader jsonPerson, NewBuffer⟩ fmtJSON fmtYAML 2
        = (.ok, ⟨⟨[], none⟩, ⟨[ascii "age: 30\ncity: New York\nname: John\n"], none⟩⟩)
      ∧ occursInOrder [ascii "age: 30", ascii "city: New York", ascii "name: John"]
          (ascii "age: 30\ncity: New York\nname: John\n") = true :=
  ⟨rfl, by decide⟩

/-- C8: for the XML document of the scenario, `from=xml`, `to=json`, the call
returns no error and the output is `null`; for every input from XML to JSON
the writer receives nothing or `null`, never the content of an element. -/
theorem Convert_xml_json_writes_null (L : Lib) :
    Converter.Convert L ⟨NewReader xmlPerson, NewBuffer⟩ fmtXML fmtJSON 2
        = (.ok, ⟨⟨[], none⟩, ⟨[ascii "null"], none⟩⟩)
      ∧ ∀ (r : Reader) (indent : Int),
          (Converter.Convert L ⟨r, NewBuffer⟩ fmtXML fmtJSON indent).2.writer.writes = []
            ∨ (Converter.Convert L ⟨r, NewBuffer⟩ fmtXML fmtJSON indent).2.writer.writes
                = [ascii "null"] := by
  refine ⟨rfl, ?_⟩
  intro r indent
  have hne : normalize fmtXML ≠ normalize fmtJSON := by decide
  have hx : normalize fmtXML = fmtXML := by decide
  have hj : normalize fmtJSON = fmtJSON := by decide
  have h1 : fmtXML ≠ fmtJSON := by decide
  have h2 : fmtXML ≠ fmtYAML := by decide
  unfold Converter.Convert
  simp only [hne, if_false, ioReadAll, hx, hj]
  cases hf : r.failure with
  | some e0 => left; rfl
  | none =>
    simp only [decode, h1, h2, if_false, if_true]
    cases hu : xmlUnmarshal L r.pending.flatten with
    | some e => left; rfl
    | none =>
      simp only [encode, if_true, jsonMarshalIndent]
      cases hi : repeatSpace indent with
      | none => left; rfl
      | some sp => right; rfl

set_option maxRecDepth 100000 in
theorem lowerByte_ascii : ∀ c : Byte, c.val < 128 → (lowerByte c).val < 128 := by decide

set_option maxRecDepth 100000 in
theorem lowerByte_idem : ∀ c : Byte, lowerByte (lowerByte c) = lowerByte c := by decide

theorem ToLower_of_isASCII (L : Lib) (s : Bytes) (h : isASCII s) :
    ToLower L s = s.map lowerByte := by
  unfold isASCII at h
  simp [ToLower, h]

theorem isASCII_map_lowerByte (s : Bytes) (h : isASCII s) : isASCII (s.map lowerByte) := by
  unfold isASCII at h ⊢
  rw [List.all_eq_true] at h ⊢
  intro c hc
  rw [List.mem_map] at hc
  obtain ⟨d, hd, rfl⟩ := hc
  have := h d hd
  simp only [decide_eq_true_eq] at this ⊢
  exact lowerByte_ascii d this

theorem ToLower_idem (L : Lib) (s : Bytes) (h : isASCII s) :
    ToLower L (ToLower L s) = ToLower L s := by
  rw [ToLower_of_isASCII L s h, ToLower_of_isASCII L _ (isASCII_map_lowerByte s h)]
  simp [List.map_map, Function.comp_def, lowerByte_idem]

/-- C9: the command treats a format identifier in any letter case as its
lower-case form: for ASCII identifiers, every input and every indent, the run
with the identifiers as written is the run with them in lower case. -/
theorem convertRun_case_insensitive (L : Lib) (env : Env) (src dst : Bytes)
    (rest : List Bytes) (outputFile : Bytes) (indent : Int)
    (hs : isASCII src) (hd : isASCII dst) :
    convertRun L env src dst rest outputFile indent
      = convertRun L env (ToLower L src) (ToLower L dst) rest outputFile indent := by
  unfold convertRun
  simp only [ToLower_idem L src hs, ToLower_idem L dst hd]

/-- C9, at `JSON` and `Yaml`: the run is the run with `json` and `yaml`. -/
theorem convertRun_case_insensitive_witness :
    convertRun Lib.failing ⟨NewReader jsonPerson, NewBuffer, fun _ => .error ⟨"no file"⟩,
        fun _ => .error ⟨"no file"⟩⟩ (ascii "JSON") (ascii "Yaml") [] [] 2
      = convertRun Lib.failing ⟨NewReader jsonPerson, NewBuffer, fun _ => .error ⟨"no file"⟩,
        fun _ => .error ⟨"no file"⟩⟩ (ascii "json") (ascii "yaml") [] [] 2 :=
  convertRun_case_insensitive Lib.failing _ (ascii "JSON") (ascii "Yaml") [] [] 2
    rfl rfl

/-! ## Theorems: Base64 -/

theorem and63 (x : Nat) : x &&& 0x3F = x % 64 := by
  simpa using Nat.and_pow_two_sub_one_eq_mod x 6

theorem shl_or (a b i : Nat) (hb : b < 2 ^ i) : a <<< i ||| b = a * 2 ^ i + b := by
  rw [Nat.shiftLeft_eq, Nat.mul_comm a, Nat.mul_add_lt_is_or hb]

theorem or3 (a b c : Nat) (hb : b < 256) (hc : c < 256) :
    a <<< 16 ||| b <<< 8 ||| c = a * 65536 + b * 256 + c := by
  have hb8 : b <<< 8 = b * 256 := by rw [Nat.shiftLeft_eq]
  have h1 : a <<< 16 ||| b <<< 8 = (a * 256 + b) <<< 8 := by
    rw [shl_or a (b <<< 8) 16 (by rw [hb8]; omega), hb8, Nat.shiftLeft_eq]
    omega
  rw [h1, shl_or _ c 8 (by omega)]
  omega

theorem or4 (w x y z : Nat) (hx : x < 64) (hy : y < 64) (hz : z < 64) :
    w <<< 18 ||| x <<< 12 ||| y <<< 6 ||| z = w * 262144 + x * 4096 + y * 64 + z := by
  have hx12 : x <<< 12 = x * 4096 := by rw [Nat.shiftLeft_eq]
  have hy6 : y <<< 6 = y * 64 := by rw [Nat.shiftLeft_eq]
  have h1 : w <<< 18 ||| x <<< 12 = (w * 64 + x) <<< 12 := by
    rw [shl_or w (x <<< 12) 18 (by rw [hx12]; omega), hx12, Nat.shiftLeft_eq]
    omega
  have h2 : (w * 64 + x) <<< 12 ||| y <<< 6 = (w * 4096 + x * 64 + y) <<< 6 := by
    rw [shl_or _ (y <<< 6) 12 (by rw [hy6]; omega), hy6, Nat.shiftLeft_eq]
    omega
  rw [h1, h2, shl_or _ z 6 (by omega)]
  omega

theorem byte_ofNat (n : Nat) (a : Byte) (h : n % 256 = a.val) : (Fin.ofNat n : Byte) = a :=
  Fin.ext h

theorem quantumBytes_three (a b c : Byte) :
    quantumBytes (sextets (a.val <<< 16 ||| b.val <<< 8 ||| c.val)) = [a, b, c] := by
  have ha := a.isLt
  have hb := b.isLt
  have hc := c.isLt
  simp only [sextets, quantumBytes, and63, or3 a.val b.val c.val hb hc, Nat.shiftRight_eq_div_pow,
    List.getD_cons_zero, List.getD_cons_succ, List.length_cons, List.length_nil]
  rw [or4 _ _ _ _ (Nat.mod_lt _ (by norm_num)) (Nat.mod_lt _ (by norm_num)) (Nat.mod_lt _ (by norm_num))]
  simp only [List.take, Nat.reduceAdd, Nat.reduceSub, Nat.reducePow]
  have hv : (a.val * 65536 + b.val * 256 + c.val) / 262144 % 64 * 262144
      + (a.val * 65536 + b.val * 256 + c.val) / 4096 % 64 * 4096
      + (a.val * 65536 + b.val * 256 + c.val) / 64 % 64 * 64
      + (a.val * 65536 + b.val * 256 + c.val) % 64 = a.val * 65536 + b.val * 256 + c.val := by
    omega
  rw [hv]
  rw [byte_ofNat _ a (by omega), byte_ofNat _ b (by omega), byte_ofNat _ c (by omega)]

theorem quantumBytes_two (a b : Byte) :
    quantumBytes ((sextets (a.val <<< 16 ||| b.val <<< 8)).take 3) = [a, b] := by
  have ha := a.isLt
  have hb := b.isLt
  have h0 : a.val <<< 16 ||| b.val <<< 8 = a.val * 65536 + b.val * 256 := by
    have := or3 a.val b.val 0 hb (by norm_num)
    simpa using this
  simp only [sextets, List.take, quantumBytes, and63, h0, Nat.shiftRight_eq_div_pow,
    List.getD_cons_zero, List.getD_cons_succ, List.length_cons, List.length_nil, List.getD_nil]
  rw [or4 _ _ _ _ (Nat.mod_lt _ (by norm_num)) (Nat.mod_lt _ (by norm_num)) (by norm_num)]
  simp only [List.take, Nat.reduceAdd, Nat.reduceSub, Nat.reducePow]
  rw [byte_ofNat _ a (by omega), byte_ofNat _ b (by omega)]

theorem quantumBytes_one (a : Byte) :
    quantumBytes ((sextets (a.val <<< 16)).take 2) = [a] := by
  have ha := a.isLt
  have h0 : a.val <<< 16 = a.val * 65536 := by rw [Nat.shiftLeft_eq]
  simp only [sextets, List.take, quantumBytes, and63, h0, Nat.shiftRight_eq_div_pow,
    List.getD_cons_zero, List.getD_cons_succ, List.length_cons, List.length_nil, List.getD_nil]
  rw [or4 _ _ _ _ (Nat.mod_lt _ (by norm_num)) (by norm_num) (by norm_num)]
  simp only [List.take, Nat.reduceAdd, Nat.reduceSub, Nat.reducePow]
  rw [byte_ofNat _ a (by omega)]

set_option maxRecDepth 100000 in
theorem goodAlphabet_encodeStd : goodAlphabet encodeStd := by
  refine ⟨by decide, by decide, by decide⟩

set_option maxRecDepth 100000 in
theorem goodAlphabet_encodeURL : goodAlphabet encodeURL := by
  refine ⟨by decide, by decide, by decide⟩

theorem decodeMap_encodeAt (enc : Bytes) (h : goodAlphabet enc) (v : Nat) :
    decodeMap enc (encodeAt enc (v &&& 0x3F)) = some (v &&& 0x3F) := by
  have hlt : v &&& 0x3F < 64 := by rw [and63]; omega
  exact h.1 ⟨v &&& 0x3F, hlt⟩

theorem encodeAt_plain (enc : Bytes) (h : goodAlphabet enc) (v : Nat) :
    (encodeAt enc (v &&& 0x3F)).val < 128 ∧ asciiSpace (encodeAt enc (v &&& 0x3F)) = false := by
  have hlt : v &&& 0x3F < 64 := by rw [and63]; omega
  exact h.2.1 ⟨v &&& 0x3F, hlt⟩

/-- The encoding of the first three bytes is decoded by one quantum. -/
theorem decodeQuantum_full (enc : Bytes) (h : goodAlphabet enc) (v : Nat) (rest : Bytes) :
    decodeQuantum enc [] (encodeAt enc (v >>> 18 &&& 0x3F) :: encodeAt enc (v >>> 12 &&& 0x3F)
        :: encodeAt enc (v >>> 6 &&& 0x3F) :: encodeAt enc (v &&& 0x3F) :: rest)
      = .ok (quantumBytes (sextets v), rest) := by
  simp [decodeQuantum, decodeMap_encodeAt enc h, sextets]

theorem decodeQuantum_pad1 (enc : Bytes) (h : goodAlphabet enc) (v : Nat) :
    decodeQuantum enc [] [encodeAt enc (v >>> 18 &&& 0x3F), encodeAt enc (v >>> 12 &&& 0x3F),
        encodeAt enc (v >>> 6 &&& 0x3F), padChar]
      = .ok (quantumBytes ((sextets v).take 3), []) := by
  have hp : decodeMap enc 61 = none := h.2.2
  simp [decodeQuantum, decodeMap_encodeAt enc h, sextets, hp, skipNewlines, padChar]

theorem decodeQuantum_pad2 (enc : Bytes) (h : goodAlphabet enc) (v : Nat) :
    decodeQuantum enc [] [encodeAt enc (v >>> 18 &&& 0x3F), encodeAt enc (v >>> 12 &&& 0x3F),
        padChar, padChar]
      = .ok (quantumBytes ((sextets v).take 2), []) := by
  have hp : decodeMap enc 61 = none := h.2.2
  simp [decodeQuantum, decodeMap_encodeAt enc h, sextets, hp, skipNewlines, padChar]

theorem EncodeToString_nil (enc : Bytes) : EncodeToString enc [] = [] := by
  simp [EncodeToString]

/-- Induction over a byte string three bytes at a time. -/
theorem induction_by_three (P : Bytes → Prop) (h0 : P []) (h1 : ∀ a, P [a])
    (h2 : ∀ a b, P [a, b]) (h3 : ∀ a b c rest, P rest → P (a :: b :: c :: rest)) :
    ∀ x, P x
  | [] => h0
  | [a] => h1 a
  | [a, b] => h2 a b
  | a :: b :: c :: rest => h3 a b c rest (induction_by_three P h0 h1 h2 h3 rest)

/-- Decoding undoes encoding, for every alphabet of the two encodings. -/
theorem decodeLoop_EncodeToString (enc : Bytes) (h : goodAlphabet enc) :
    ∀ x : Bytes, ∀ fuel, (EncodeToString enc x).length ≤ fuel →
      decodeLoop enc fuel (EncodeToString enc x) = .ok x := by
  apply induction_by_three
  · intro fuel _
    simp [EncodeToString, decodeLoop]
  · intro a fuel hf
    simp only [EncodeToString, List.length_cons, List.length_nil] at hf ⊢
    obtain ⟨f, rfl⟩ : ∃ f, fuel = f + 1 := ⟨fuel - 1, by omega⟩
    simp only [decodeLoop, decodeQuantum_pad2 enc h, quantumBytes_one]
    simp
  · intro a b fuel hf
    simp only [EncodeToString, List.length_cons, List.length_nil] at hf ⊢
    obtain ⟨f, rfl⟩ : ∃ f, fuel = f + 1 := ⟨fuel - 1, by omega⟩
    simp only [decodeLoop, decodeQuantum_pad1 enc h, quantumBytes_two]
    simp
  · intro a b c rest ih fuel hf
    simp only [EncodeToString, List.length_cons, List.length_append, List.cons_append,
      List.nil_append] at hf ⊢
    obtain ⟨f, rfl⟩ : ∃ f, fuel = f + 1 := ⟨fuel - 1, by omega⟩
    simp only [decodeLoop, decodeQuantum_full enc h, quantumBytes_three]
    rw [ih f (by omega)]
    simp

/-- Every byte of an encoding is an ASCII byte and no space. -/
theorem EncodeToString_plain (enc : Bytes) (h : goodAlphabet enc) :
    ∀ x : Bytes, ∀ c ∈ EncodeToString enc x, c.val < 128 ∧ asciiSpace c = false := by
  have hp : padChar.val < 128 ∧ asciiSpace padChar = false := by decide
  apply induction_by_three
  · intro c hc
    simp [EncodeToString] at hc
  · intro a c hc
    simp only [EncodeToString, List.mem_cons, List.mem_singleton] at hc
    rcases hc with rfl | rfl | rfl | rfl | hc
    · exact encodeAt_plain enc h _
    · exact encodeAt_plain enc h _
    · exact hp
    · exact hp
    · simp at hc
  · intro a b c hc
    simp only [EncodeToString, List.mem_cons, List.mem_singleton] at hc
    rcases hc with rfl | rfl | rfl | rfl | hc
    · exact encodeAt_plain enc h _
    · exact encodeAt_plain enc h _
    · exact encodeAt_plain enc h _
    · exact hp
    · simp at hc
  · intro a b c rest ih d hd
    simp only [EncodeToString, List.cons_append, List.nil_append, List.mem_cons] at hd
    rcases hd with rfl | rfl | rfl | rfl | hd
    · exact encodeAt_plain enc h _
    · exact encodeAt_plain enc h _
    · exact encodeAt_plain enc h _
    · exact encodeAt_plain enc h _
    · exact ih d hd

theorem trimSpaceStop_plain (c : Byte) (cs : Bytes) (h : c.val < 128 ∧ asciiSpace c = false) :
    trimSpaceStop (c :: cs) = (c :: cs).reverse := by
  have h1 : ¬ c.val ≥ 0x80 := by omega
  simp [trimSpaceStop, h1, h.2]

/-- `TrimSpace` takes the final newline off a string of ASCII bytes that are
no spaces, and nothing else. -/
theorem TrimSpace_plain_newline (s : Bytes) (h : ∀ c ∈ s, c.val < 128 ∧ asciiSpace c = false) :
    TrimSpace (s ++ [10]) = s := by
  cases s with
  | nil => rfl
  | cons c cs =>
    have hc := h c (List.mem_cons_self _ _)
    have h1 : ¬ c.val ≥ 0x80 := by omega
    simp only [List.cons_append, TrimSpace, h1, if_false, hc.2, List.append_eq,
      Bool.false_eq_true]
    have hrev : (c :: (cs ++ [10])).reverse = 10 :: (c :: cs).reverse := by simp
    rw [hrev]
    have h10 : trimSpaceStop (10 :: (c :: cs).reverse) = trimSpaceStop (c :: cs).reverse := rfl
    rw [h10]
    cases hr : (c :: cs).reverse with
    | nil => simp at hr
    | cons d ds =>
      have hd : d ∈ c :: cs := by
        rw [← List.mem_reverse, hr]; exact List.mem_cons_self _ _
      rw [trimSpaceStop_plain d ds (h d hd), ← hr, List.reverse_reverse]

/-- C10: `Base64Decode` undoes `Base64Encode`: for every byte string and each
value of `urlSafe`, encoding returns no error, and decoding all that encoding
wrote, the final newline included, returns no error and writes the byte string
in one `Write`. -/
theorem Base64Decode_Base64Encode (x : Bytes) (urlSafe : Bool) :
    (Encoder.Base64Encode (NewEncoder (NewReader x) NewBuffer) urlSafe).1 = none
      ∧ (Encoder.Base64Decode (NewEncoder (NewReader
            (Encoder.Base64Encode (NewEncoder (NewReader x) NewBuffer) urlSafe).2.writer.content)
            NewBuffer) urlSafe).1 = none
      ∧ (Encoder.Base64Decode (NewEncoder (NewReader
            (Encoder.Base64Encode (NewEncoder (NewReader x) NewBuffer) urlSafe).2.writer.content)
            NewBuffer) urlSafe).2.writer.writes = [x] := by
  have key : ∀ enc : Bytes, goodAlphabet enc →
      DecodeString enc (TrimSpace (EncodeToString enc x ++ [10])) = .ok x := by
    intro enc h
    rw [TrimSpace_plain_newline _ (EncodeToString_plain enc h x)]
    exact decodeLoop_EncodeToString enc h x _ (Nat.le_refl _)
  cases urlSafe with
  | false =>
    have k := key encodeStd goodAlphabet_encodeStd
    simp [Encoder.Base64Encode, Encoder.Base64Decode, NewEncoder, NewReader, NewBuffer, ioReadAll,
      Fprintln, Writer.Write, Writer.content, Reader.drained, k]
  | true =>
    have k := key encodeURL goodAlphabet_encodeURL
    simp [Encoder.Base64Encode, Encoder.Base64Decode, NewEncoder, NewReader, NewBuffer, ioReadAll,
      Fprintln, Writer.Write, Writer.content, Reader.drained, k]

/-! ## Theorems: Base64 against RFC 4648 -/

set_option maxRecDepth 100000 in
theorem encodeStd_eq_rfc4648 : ∀ i : Fin 64, encodeAt encodeStd i.val = rfc4648Alphabet false i.val := by
  decide

set_option maxRecDepth 100000 in
theorem encodeURL_eq_rfc4648 : ∀ i : Fin 64, encodeAt encodeURL i.val = rfc4648Alphabet true i.val := by
  decide

theorem encodeAt_eq_rfc4648 (urlSafe : Bool) (v : Nat) :
    encodeAt (if urlSafe then encodeURL else encodeStd) (v &&& 0x3F)
      = rfc4648Alphabet urlSafe (v &&& 0x3F) := by
  have hlt : v &&& 0x3F < 64 := by rw [and63]; omega
  cases urlSafe with
  | false => exact encodeStd_eq_rfc4648 ⟨_, hlt⟩
  | true => exact encodeURL_eq_rfc4648 ⟨_, hlt⟩

theorem bitsValue_six (p q r s t u : Nat) :
    bitsValue [p, q, r, s, t, u] = 32 * p + 16 * q + 8 * r + 4 * s + 2 * t + u := by
  simp only [bitsValue, List.foldl]
  omega

theorem sextet_first (a : Nat) :
    32 * (a / 128 % 2) + 16 * (a / 64 % 2) + 8 * (a / 32 % 2) + 4 * (a / 16 % 2)
      + 2 * (a / 8 % 2) + a / 4 % 2 = a / 4 % 64 := by
  omega

theorem sextet_second (a b : Nat) :
    32 * (a / 2 % 2) + 16 * (a % 2) + 8 * (b / 128 % 2) + 4 * (b / 64 % 2) + 2 * (b / 32 % 2)
      + b / 16 % 2 = a % 4 * 16 + b / 16 % 16 := by
  omega

theorem sextet_third (b c : Nat) :
    32 * (b / 8 % 2) + 16 * (b / 4 % 2) + 8 * (b / 2 % 2) + 4 * (b % 2) + 2 * (c / 128 % 2)
      + c / 64 % 2 = b % 16 * 4 + c / 64 % 4 := by
  omega

theorem sextet_fourth (c : Nat) :
    32 * (c / 32 % 2) + 16 * (c / 16 % 2) + 8 * (c / 8 % 2) + 4 * (c / 4 % 2) + 2 * (c / 2 % 2)
      + c % 2 = c % 64 := by
  omega

theorem sextet_second_short (a : Nat) :
    32 * (a / 2 % 2) + 16 * (a % 2) + 8 * 0 + 4 * 0 + 2 * 0 + 0 = a % 4 * 16 := by
  omega

theorem sextet_third_short (b : Nat) :
    32 * (b / 8 % 2) + 16 * (b / 4 % 2) + 8 * (b / 2 % 2) + 4 * (b % 2) + 2 * 0 + 0
      = b % 16 * 4 := by
  omega

theorem sextets_three (a b c : Byte) :
    sextets (a.val <<< 16 ||| b.val <<< 8 ||| c.val)
      = (sixBitGroups (bitsOfByte a ++ bitsOfByte b ++ bitsOfByte c)).map bitsValue := by
  have ha := a.isLt
  have hb := b.isLt
  have hc := c.isLt
  simp only [sextets, and63, or3 a.val b.val c.val hb hc, Nat.shiftRight_eq_div_pow, bitsOfByte,
    List.cons_append, List.nil_append, sixBitGroups, List.map, bitsValue_six,
    sextet_first, sextet_second, sextet_third, sextet_fourth]
  simp only [List.cons.injEq, and_true]
  refine ⟨?_, ?_, ?_, ?_⟩ <;> omega

theorem sextets_two (a b : Byte) :
    (sextets (a.val <<< 16 ||| b.val <<< 8)).take 3
      = (sixBitGroups (bitsOfByte a ++ bitsOfByte b)).map bitsValue := by
  have ha := a.isLt
  have hb := b.isLt
  have h0 : a.val <<< 16 ||| b.val <<< 8 = a.val * 65536 + b.val * 256 := by
    have := or3 a.val b.val 0 hb (by norm_num)
    simpa using this
  simp only [sextets, and63, h0, Nat.shiftRight_eq_div_pow, bitsOfByte,
    List.cons_append, List.nil_append, sixBitGroups, List.map, List.take,
    List.length_cons, List.length_nil, List.replicate, bitsValue_six,
    sextet_first, sextet_second, sextet_third_short]
  simp only [List.cons.injEq, and_true]
  refine ⟨?_, ?_, ?_⟩ <;> omega

theorem sextets_one (a : Byte) :
    (sextets (a.val <<< 16)).take 2 = (sixBitGroups (bitsOfByte a)).map bitsValue := by
  have ha := a.isLt
  have h0 : a.val <<< 16 = a.val * 65536 := by rw [Nat.shiftLeft_eq]
  simp only [sextets, and63, h0, Nat.shiftRight_eq_div_pow, bitsOfByte,
    List.cons_append, List.nil_append, sixBitGroups, List.map, List.take,
    List.length_cons, List.length_nil, List.replicate, bitsValue_six,
    sextet_first, sextet_second_short]
  simp only [List.cons.injEq, and_true]
  refine ⟨?_, ?_⟩ <;> omega

theorem rfc4648Chars_eq (urlSafe : Bool) (bits : List Nat) :
    rfc4648Chars urlSafe bits
      = ((sixBitGroups bits).map bitsValue).map (rfc4648Alphabet urlSafe) := by
  simp [rfc4648Chars, List.map_map, Function.comp_def]

/-- The encoder of `encoding/base64` computes the encoding of RFC 4648. -/
theorem EncodeToString_eq_rfc4648 (urlSafe : Bool) :
    ∀ x : Bytes, EncodeToString (if urlSafe then encodeURL else encodeStd) x
      = rfc4648Encode urlSafe x := by
  apply induction_by_three
  · simp [EncodeToString, rfc4648Encode]
  · intro a
    have h := sextets_one a
    simp only [sextets, List.take] at h
    simp only [EncodeToString, rfc4648Encode, rfc4648Chars_eq, ← h, encodeAt_eq_rfc4648]
    simp [padChar]
  · intro a b
    have h := sextets_two a b
    simp only [sextets, List.take] at h
    simp only [EncodeToString, rfc4648Encode, rfc4648Chars_eq, ← h, encodeAt_eq_rfc4648]
    simp [padChar]
  · intro a b c rest ih
    have h := sextets_three a b c
    simp only [sextets] at h
    simp only [EncodeToString, rfc4648Encode, rfc4648Chars_eq, ← h, encodeAt_eq_rfc4648, ih]
    simp

theorem EncodeToString_length (enc : Bytes) :
    ∀ x : Bytes, (EncodeToString enc x).length = 4 * ((x.length + 2) / 3) := by
  apply induction_by_three
  · simp [EncodeToString]
  · intro a; simp [EncodeToString]
  · intro a b; simp [EncodeToString]
  · intro a b c rest ih
    simp only [EncodeToString, List.length_append, List.length_cons, List.length_nil, ih]
    omega

/-- C11: for every byte string, `Base64Encode` returns no error and writes, in
one `Write`, the padded encoding of RFC 4648 and one newline, in the standard
alphabet when `urlSafe` is false and in the URL-safe alphabet when it is true;
the encoded part is `4 * ceil(len / 3)` bytes long; `Hello, World!` gives
`SGVsbG8sIFdvcmxkIQ==`. -/
theorem Base64Encode_rfc4648 (x : Bytes) (urlSafe : Bool) :
    Encoder.Base64Encode (NewEncoder (NewReader x) NewBuffer) urlSafe
        = (none, ⟨(NewReader x).drained, ⟨[rfc4648Encode urlSafe x ++ [10]], none⟩⟩)
      ∧ (rfc4648Encode urlSafe x).length = 4 * ((x.length + 2) / 3)
      ∧ rfc4648Encode false (ascii "Hello, World!") = ascii "SGVsbG8sIFdvcmxkIQ==" := by
  refine ⟨?_, ?_, by decide⟩
  · have h := EncodeToString_eq_rfc4648 urlSafe x
    cases urlSafe with
    | false =>
      simp only [Bool.false_eq_true, if_false] at h
      simp [Encoder.Base64Encode, NewEncoder, NewReader, NewBuffer, ioReadAll, Fprintln,
        Writer.Write, Reader.drained, h]
    | true =>
      simp only [if_true] at h
      simp [Encoder.Base64Encode, NewEncoder, NewReader, NewBuffer, ioReadAll, Fprintln,
        Writer.Write, Reader.drained, h]
  · rw [← EncodeToString_eq_rfc4648 urlSafe x]
    exact EncodeToString_length _ x

/-! ## Theorems: URL encoding -/

set_option maxRecDepth 100000 in
theorem escapeByte_eq_spec : ∀ c : Byte, escapeByte c
    = (if isUnreserved c then [c]
       else if c = 32 then [43]
       else [37, hexDigitUpper (c.val / 16), hexDigitUpper (c.val % 16)]) := by
  decide

theorem QueryEscape_eq_spec (s : Bytes) : QueryEscape s = queryEscapeSpec s := by
  unfold QueryEscape queryEscapeSpec
  congr 1
  apply List.map_congr_left
  intro c _
  exact escapeByte_eq_spec c

set_option maxRecDepth 100000 in
theorem escapeByte_cases : ∀ c : Byte,
    (escapeByte c = [c] ∧ isUnreserved c = true ∧ c ≠ 37 ∧ c ≠ 43)
      ∨ (escapeByte c = [43] ∧ c = 32)
      ∨ (∃ h1 h2, escapeByte c = [37, h1, h2] ∧ isHexUpper h1 = true ∧ isHexUpper h2 = true
          ∧ ishex h1 = true ∧ ishex h2 = true
          ∧ (Fin.ofNat ((unhex h1).val <<< 4 ||| (unhex h2).val) : Byte) = c) := by
  intro c
  by_cases h1 : isUnreserved c = true
  · left
    revert h1
    revert c
    decide
  · by_cases h2 : c = 32
    · right; left
      subst h2
      decide
    · right; right
      refine ⟨upperhex.getD (c.val >>> 4) 0, upperhex.getD (c.val &&& 15) 0, ?_⟩
      revert h1 h2
      revert c
      decide

set_option maxRecDepth 100000 in
theorem escapeByte_all_plain : ∀ c : Byte,
    (escapeByte c).all (fun b => decide (b.val < 128) && !asciiSpace b) = true := by
  decide

theorem escapeByte_plain (c : Byte) : ∀ b ∈ escapeByte c, b.val < 128 ∧ asciiSpace b = false := by
  have h := escapeByte_all_plain c
  rw [List.all_eq_true] at h
  intro b hb
  simpa using h b hb

theorem isEscapedForm_cons (c : Byte) (cs : Bytes) (h : c ≠ 37) :
    isEscapedForm (c :: cs) = ((isUnreserved c || c = 43) && isEscapedForm cs) := by
  rw [isEscapedForm.eq_def]
  simp [h]

theorem checkEscapes_cons (c : Byte) (cs : Bytes) (h : c ≠ 37) :
    checkEscapes (c :: cs) = checkEscapes cs := by
  rw [checkEscapes.eq_def]
  simp [h]

theorem unescapeLoop_cons (c : Byte) (cs : Bytes) (h : c ≠ 37) :
    unescapeLoop (c :: cs) = (if c = 43 then 32 else c) :: unescapeLoop cs := by
  rw [unescapeLoop.eq_def]
  by_cases h43 : c = 43 <;> simp [h, h43]

theorem QueryEscape_cons (c : Byte) (s : Bytes) :
    QueryEscape (c :: s) = escapeByte c ++ QueryEscape s := by
  simp [QueryEscape]

theorem QueryEscape_plain (s : Bytes) :
    ∀ b ∈ QueryEscape s, b.val < 128 ∧ asciiSpace b = false := by
  induction s with
  | nil => intro b hb; simp [QueryEscape] at hb
  | cons c s ih =>
    intro b hb
    rw [QueryEscape_cons, List.mem_append] at hb
    rcases hb with hb | hb
    · exact escapeByte_plain c b hb
    · exact ih b hb

theorem isEscapedForm_QueryEscape (s : Bytes) : isEscapedForm (QueryEscape s) = true := by
  induction s with
  | nil => rfl
  | cons c s ih =>
    rw [QueryEscape_cons]
    rcases escapeByte_cases c with ⟨h, hu, h37, _⟩ | ⟨h, _⟩ | ⟨h1, h2, h, u1, u2, _⟩
    · rw [h]
      simp [isEscapedForm_cons c _ h37, hu, ih]
    · rw [h]
      simp [isEscapedForm_cons 43 _ (by decide), ih]
    · rw [h]
      simp [isEscapedForm, u1, u2, ih]

theorem checkEscapes_QueryEscape (s : Bytes) : checkEscapes (QueryEscape s) = none := by
  induction s with
  | nil => rfl
  | cons c s ih =>
    rw [QueryEscape_cons]
    rcases escapeByte_cases c with ⟨h, _, h37, _⟩ | ⟨h, _⟩ | ⟨h1, h2, h, _, _, x1, x2, _⟩
    · rw [h]
      simp [checkEscapes_cons c _ h37, ih]
    · rw [h]
      simp [checkEscapes_cons 43 _ (by decide), ih]
    · rw [h]
      simp [checkEscapes, x1, x2, ih]

theorem unescapeLoop_QueryEscape (s : Bytes) : unescapeLoop (QueryEscape s) = s := by
  induction s with
  | nil => rfl
  | cons c s ih =>
    rw [QueryEscape_cons]
    rcases escapeByte_cases c with ⟨h, _, h37, h43⟩ | ⟨h, hc⟩ | ⟨h1, h2, h, _, _, _, _, hv⟩
    · rw [h]
      simp [unescapeLoop_cons c _ h37, h43, ih]
    · rw [h, hc]
      simp [unescapeLoop_cons 43 _ (by decide), ih]
    · rw [h]
      simp [unescapeLoop, hv, ih]

/-- Unescaping undoes escaping. -/
theorem QueryUnescape_QueryEscape (s : Bytes) : QueryUnescape (QueryEscape s) = .ok s := by
  simp [QueryUnescape, checkEscapes_QueryEscape, unescapeLoop_QueryEscape]

/-- C13: `URLDecode` undoes `URLEncode`: for every byte string, with leading or
trailing white space and non-ASCII bytes or without, encoding returns no error,
and decoding all that encoding wrote returns no error and writes the byte
string and one newline, in one `Write`. -/
theorem URLDecode_URLEncode (s : Bytes) :
    (Encoder.URLEncode (NewEncoder (NewReader s) NewBuffer)).1 = none
      ∧ (Encoder.URLDecode (NewEncoder (NewReader
            (Encoder.URLEncode (NewEncoder (NewReader s) NewBuffer)).2.writer.content)
            NewBuffer)).1 = none
      ∧ (Encoder.URLDecode (NewEncoder (NewReader
            (Encoder.URLEncode (NewEncoder (NewReader s) NewBuffer)).2.writer.content)
            NewBuffer)).2.writer.writes = [s ++ [10]] := by
  have k : QueryUnescape (TrimSpace (QueryEscape s ++ [10])) = .ok s := by
    rw [TrimSpace_plain_newline _ (QueryEscape_plain s)]
    exact QueryUnescape_QueryEscape s
  simp [Encoder.URLEncode, Encoder.URLDecode, NewEncoder, NewReader, NewBuffer, ioReadAll,
    Fprintln, Writer.Write, Writer.content, Reader.drained, k]

/-- C14: for every byte string, `URLEncode` returns no error and writes, in
one `Write`, the query escaping and one newline: unreserved bytes copied, a
space as `+`, any other byte as `%` and two upper-case hexadecimal digits; the
escaping has unreserved characters, `+` and `%XX` triples only. -/
theorem URLEncode_spec (s : Bytes) :
    Encoder.URLEncode (NewEncoder (NewReader s) NewBuffer)
        = (none, ⟨(NewReader s).drained, ⟨[queryEscapeSpec s ++ [10]], none⟩⟩)
      ∧ isEscapedForm (queryEscapeSpec s) = true
      ∧ queryEscapeSpec (ascii "Hello, World!") = ascii "Hello%2C+World%21"
      ∧ queryEscapeSpec [0xD1, 0x82, 0xD0, 0xB5, 0xD1, 0x81, 0xD1, 0x82]
          = ascii "%D1%82%D0%B5%D1%81%D1%82" := by
  refine ⟨?_, ?_, by decide, by decide⟩
  · simp [Encoder.URLEncode, NewEncoder, NewReader, NewBuffer, ioReadAll, Fprintln,
      Writer.Write, Reader.drained, QueryEscape_eq_spec]
  · rw [← QueryEscape_eq_spec]
    exact isEscapedForm_QueryEscape s
theorem checkEscapes_percent (cs : Bytes) :
    checkEscapes (37 :: cs)
      = (match cs with
         | h1 :: h2 :: rest => if ishex h1 && ishex h2 then checkEscapes rest else some [37, h1, h2]
         | _ => some (37 :: cs)) := by
  rcases cs with _ | ⟨h1, _ | ⟨h2, rest⟩⟩ <;> simp [checkEscapes]

set_option maxRecDepth 100000 in
theorem ishex_percent : ishex 37 = false := by decide

/-- The first loop of `unescape` finds an escape exactly when the string has a
`%` without two hexadecimal digits after it. -/
theorem checkEscapes_isSome_iff : ∀ (n : Nat) (s : Bytes), s.length = n →
    ((checkEscapes s).isSome = true ↔ hasBadEscape s) := by
  intro n
  induction n using Nat.strong_induction_on with
  | _ n ih =>
    intro s hn
    cases s with
    | nil =>
      constructor
      · intro h; simp [checkEscapes] at h
      · rintro ⟨pre, post, h, _⟩
        simp at h
    | cons c cs =>
      by_cases hc : c = 37
      · subst hc
        rw [checkEscapes_percent]
        by_cases h2 : twoHex cs = true
        · -- two hexadecimal digits follow
          match cs, h2, hn with
          | h1 :: h2' :: rest, h2, hn =>
            simp only [twoHex] at h2
            simp only [h2, if_true]
            have hlen : rest.length < n := by simp at hn; omega
            rw [ih rest.length hlen rest rfl]
            simp only [Bool.and_eq_true] at h2
            constructor
            · rintro ⟨pre, post, h, hb⟩
              exact ⟨37 :: h1 :: h2' :: pre, post, by simp [h], hb⟩
            · rintro ⟨pre, post, h, hb⟩
              match pre, h with
              | [], h =>
                simp only [List.nil_append, List.cons.injEq, true_and] at h
                rw [← h] at hb
                simp [twoHex, h2.1, h2.2] at hb
              | [x], h =>
                simp only [List.cons_append, List.nil_append, List.cons.injEq] at h
                obtain ⟨_, h37, _⟩ := h
                rw [h37] at h2
                simp [ishex_percent] at h2
              | [x, y], h =>
                simp only [List.cons_append, List.nil_append, List.cons.injEq] at h
                obtain ⟨_, _, h37, _⟩ := h
                rw [h37] at h2
                simp [ishex_percent] at h2
              | x :: y :: z :: pre', h =>
                simp only [List.cons_append, List.cons.injEq] at h
                obtain ⟨_, _, _, h⟩ := h
                exact ⟨pre', post, h, hb⟩
        · -- the escape is malformed here
          have h2' : twoHex cs = false := by simpa using h2
          constructor
          · intro _
            exact ⟨[], cs, rfl, h2'⟩
          · intro _
            match cs, h2' with
            | [], _ => simp
            | [x], _ => simp
            | x :: y :: rest, h2' =>
              simp only [twoHex] at h2'
              simp [h2']
      · rw [checkEscapes_cons c cs hc]
        have hlen : cs.length < n := by simp at hn; omega
        rw [ih cs.length hlen cs rfl]
        constructor
        · rintro ⟨pre, post, h, hb⟩
          exact ⟨c :: pre, post, by simp [h], hb⟩
        · rintro ⟨pre, post, h, hb⟩
          match pre, h with
          | [], h =>
            simp only [List.nil_append, List.cons.injEq] at h
            exact absurd h.1 hc
          | x :: pre', h =>
            simp only [List.cons_append, List.cons.injEq] at h
            exact ⟨pre', post, h.2, hb⟩

theorem QueryUnescape_error_iff (s : Bytes) :
    (∃ err, QueryUnescape s = .error err) ↔ hasBadEscape s := by
  rw [← checkEscapes_isSome_iff s.length s rfl]
  unfold QueryUnescape
  cases h : checkEscapes s <;> simp

theorem QueryUnescape_ok_of_not_bad (s : Bytes) (h : ¬ hasBadEscape s) :
    QueryUnescape s = .ok (unescapeLoop s) := by
  rw [← checkEscapes_isSome_iff s.length s rfl] at h
  unfold QueryUnescape
  cases hc : checkEscapes s with
  | none => rfl
  | some b => rw [hc] at h; simp at h

set_option maxRecDepth 100000 in
theorem hexDigitValue_unhex_all :
    (List.finRange 256).all (fun c : Byte =>
      if ishex c then decide (hexDigitValue c = some (unhex c).val) && decide ((unhex c).val < 16)
      else decide (hexDigitValue c = none)) = true := by
  decide

theorem hexDigitValue_of_ishex (c : Byte) (h : ishex c = true) :
    hexDigitValue c = some (unhex c).val ∧ (unhex c).val < 16 := by
  have := List.all_eq_true.mp hexDigitValue_unhex_all c (List.mem_finRange c)
  simp only [h, if_true, Bool.and_eq_true, decide_eq_true_eq] at this
  exact this

theorem hexDigitValue_of_not_ishex (c : Byte) (h : ishex c = false) : hexDigitValue c = none := by
  have := List.all_eq_true.mp hexDigitValue_unhex_all c (List.mem_finRange c)
  simp only [h, Bool.false_eq_true, if_false, decide_eq_true_eq] at this
  exact this

theorem shift_or_hex : ∀ a b : Fin 16, a.val <<< 4 ||| b.val = 16 * a.val + b.val := by decide

theorem queryUnescapeSpec_percent (h1 h2 : Byte) (rest : Bytes) :
    queryUnescapeSpec (37 :: h1 :: h2 :: rest)
      = match hexDigitValue h1, hexDigitValue h2, queryUnescapeSpec rest with
        | some x, some y, some tail => some (Fin.ofNat (16 * x + y) :: tail)
        | _, _, _ => none := by
  rw [queryUnescapeSpec.eq_def]
  simp

theorem queryUnescapeSpec_short (cs : Bytes) (h : cs.length < 2) :
    queryUnescapeSpec (37 :: cs) = none := by
  rw [queryUnescapeSpec.eq_def]
  rcases cs with _ | ⟨h1, _ | ⟨h2, rest⟩⟩
  · simp
  · simp
  · simp at h
    omega

theorem queryUnescapeSpec_other (c : Byte) (cs : Bytes) (hc : c ≠ 37) :
    queryUnescapeSpec (c :: cs)
      = match queryUnescapeSpec cs with
        | some tail => some ((if c = 43 then 32 else c) :: tail)
        | none => none := by
  rw [queryUnescapeSpec.eq_def]
  simp [hc]

theorem unescapeLoop_percent (h1 h2 : Byte) (rest : Bytes) :
    unescapeLoop (37 :: h1 :: h2 :: rest)
      = Fin.ofNat ((unhex h1).val <<< 4 ||| (unhex h2).val) :: unescapeLoop rest := by
  rw [unescapeLoop.eq_def]
  simp

/-- The two loops of `unescape` against the unescaped string of the claim: a
string the first loop passes has the unescaped string the second loop gives,
and a string the first loop stops at has none. -/
theorem queryUnescapeSpec_eq : ∀ (n : Nat) (s : Bytes), s.length = n →
    (checkEscapes s = none → queryUnescapeSpec s = some (unescapeLoop s))
      ∧ (∀ b, checkEscapes s = some b → queryUnescapeSpec s = none) := by
  intro n
  induction n using Nat.strong_induction_on with
  | _ n ih =>
    intro s hn
    cases s with
    | nil =>
      refine ⟨fun _ => rfl, fun b h => ?_⟩
      simp [checkEscapes] at h
    | cons c cs =>
      by_cases hc : c = 37
      · subst hc
        rcases cs with _ | ⟨h1, _ | ⟨h2, rest⟩⟩
        · refine ⟨fun h => ?_, fun b _ => queryUnescapeSpec_short [] (by simp)⟩
          simp [checkEscapes] at h
        · refine ⟨fun h => ?_, fun b _ => queryUnescapeSpec_short [h1] (by simp)⟩
          simp [checkEscapes] at h
        · have ihr := ih rest.length (by simp at hn; omega) rest rfl
          by_cases hh : (ishex h1 && ishex h2) = true
          · have hh' := hh
            simp only [Bool.and_eq_true] at hh'
            obtain ⟨v1, l1⟩ := hexDigitValue_of_ishex h1 hh'.1
            obtain ⟨v2, l2⟩ := hexDigitValue_of_ishex h2 hh'.2
            have hval : 16 * (unhex h1).val + (unhex h2).val
                = (unhex h1).val <<< 4 ||| (unhex h2).val :=
              (shift_or_hex ⟨(unhex h1).val, l1⟩ ⟨(unhex h2).val, l2⟩).symm
            have hce : checkEscapes (37 :: h1 :: h2 :: rest) = checkEscapes rest := by
              simp only [checkEscapes, if_true, hh]
            rw [hce]
            constructor
            · intro h
              rw [queryUnescapeSpec_percent, unescapeLoop_percent, v1, v2, ihr.1 h]
              simp only [hval]
            · intro b h
              rw [queryUnescapeSpec_percent, v1, v2, ihr.2 b h]
          · have hce : checkEscapes (37 :: h1 :: h2 :: rest) = some [37, h1, h2] := by
              simp only [checkEscapes, if_true, hh, Bool.false_eq_true, if_false]
            rw [hce]
            refine ⟨fun h => Option.noConfusion h, fun b _ => ?_⟩
            have hnone : hexDigitValue h1 = none ∨ hexDigitValue h2 = none := by
              cases e1 : ishex h1 with
              | false => exact Or.inl (hexDigitValue_of_not_ishex h1 e1)
              | true =>
                cases e2 : ishex h2 with
                | false => exact Or.inr (hexDigitValue_of_not_ishex h2 e2)
                | true => rw [e1, e2] at hh; simp at hh
            rw [queryUnescapeSpec_percent]
            rcases hnone with h | h
            · rw [h]
            · rw [h]
              cases hexDigitValue h1 <;> rfl
      · have ihr := ih cs.length (by simp at hn; omega) cs rfl
        have hce : checkEscapes (c :: cs) = checkEscapes cs := checkEscapes_cons c cs hc
        rw [hce]
        constructor
        · intro h
          rw [queryUnescapeSpec_other c cs hc, unescapeLoop_cons c cs hc, ihr.1 h]
        · intro b h
          rw [queryUnescapeSpec_other c cs hc, ihr.2 b h]

theorem queryUnescapeSpec_of_not_bad (s : Bytes) (h : ¬ hasBadEscape s) :
    queryUnescapeSpec s = some (unescapeLoop s) := by
  rw [← checkEscapes_isSome_iff s.length s rfl] at h
  cases hc : checkEscapes s with
  | none => exact (queryUnescapeSpec_eq s.length s rfl).1 hc
  | some b => rw [hc] at h; simp at h

theorem queryUnescapeSpec_none_iff (s : Bytes) :
    queryUnescapeSpec s = none ↔ hasBadEscape s := by
  rw [← checkEscapes_isSome_iff s.length s rfl]
  cases hc : checkEscapes s with
  | none =>
    rw [(queryUnescapeSpec_eq s.length s rfl).1 hc]
    simp
  | some b =>
    rw [(queryUnescapeSpec_eq s.length s rfl).2 b hc]
    simp

set_option maxRecDepth 100000 in
/-- C15: `URLDecode` returns an error exactly when the input, trimmed of white
space, has a `%` that is not followed by two hexadecimal digits, as `%ZZ`, and
then writes nothing; for every other input it returns no error and writes the
unescaped string and a newline: each `%XY` replaced by the byte of that
hexadecimal value, in either case of the digits, each `+` by a space, and the
other bytes kept, as `a/b cA` for `a%2fb+c%41`. -/
theorem URLDecode_error_iff (data : Bytes) :
    ((∃ err, (Encoder.URLDecode (NewEncoder (NewReader data) NewBuffer)).1
          = some (.decodeURL err)) ↔ hasBadEscape (TrimSpace data))
      ∧ (hasBadEscape (TrimSpace data) →
          (Encoder.URLDecode (NewEncoder (NewReader data) NewBuffer)).1 ≠ none
            ∧ (Encoder.URLDecode (NewEncoder (NewReader data) NewBuffer)).2.writer = NewBuffer)
      ∧ (¬ hasBadEscape (TrimSpace data) →
          ∃ x, queryUnescapeSpec (TrimSpace data) = some x
            ∧ (Encoder.URLDecode (NewEncoder (NewReader data) NewBuffer)).1 = none
            ∧ (Encoder.URLDecode (NewEncoder (NewReader data) NewBuffer)).2.writer.writes
                = [x ++ [10]])
      ∧ (queryUnescapeSpec (TrimSpace data) = none ↔ hasBadEscape (TrimSpace data))
      ∧ Encoder.URLDecode (NewEncoder (NewReader (ascii "%ZZ")) NewBuffer)
          = (some (.decodeURL errEscape), ⟨(NewReader (ascii "%ZZ")).drained, NewBuffer⟩)
      ∧ queryUnescapeSpec (ascii "a%2fb+c%41") = some (ascii "a/b cA")
      ∧ Encoder.URLDecode (NewEncoder (NewReader (ascii "a%2fb+c%41\n")) NewBuffer)
          = (none, ⟨(NewReader (ascii "a%2fb+c%41\n")).drained, ⟨[ascii "a/b cA\n"], none⟩⟩) := by
  have hdata : (ioReadAll (NewReader data)) = (data, none, (NewReader data).drained) := by
    simp [ioReadAll, NewReader]
  by_cases hb : hasBadEscape (TrimSpace data)
  · obtain ⟨err, he⟩ := (QueryUnescape_error_iff _).mpr hb
    have hrun : Encoder.URLDecode (NewEncoder (NewReader data) NewBuffer)
        = (some (.decodeURL err), ⟨(NewReader data).drained, NewBuffer⟩) := by
      simp [Encoder.URLDecode, NewEncoder, hdata, he]
    rw [hrun]
    refine ⟨⟨fun _ => hb, fun _ => ⟨err, rfl⟩⟩, fun _ => ⟨by simp, rfl⟩, fun h => absurd hb h,
      queryUnescapeSpec_none_iff _, rfl, by rfl, by rfl⟩
  · have he := QueryUnescape_ok_of_not_bad _ hb
    have hrun : Encoder.URLDecode (NewEncoder (NewReader data) NewBuffer)
        = (none, ⟨(NewReader data).drained, ⟨[unescapeLoop (TrimSpace data) ++ [10]], none⟩⟩) := by
      simp [Encoder.URLDecode, NewEncoder, hdata, he, Fprintln, Writer.Write, NewBuffer]
    rw [hrun]
    refine ⟨⟨fun ⟨_, h⟩ => by simp at h, fun h => absurd h hb⟩, fun h => absurd h hb,
      fun _ => ⟨_, queryUnescapeSpec_of_not_bad _ hb, rfl, rfl⟩,
      queryUnescapeSpec_none_iff _, rfl, by rfl, by rfl⟩

/-! ## Theorems: the inputs `Base64Decode` accepts -/

set_option maxRecDepth 100000 in
theorem paddedAlphabet_encodeStd : paddedAlphabet encodeStd := by
  refine ⟨by decide, by decide, by decide⟩

set_option maxRecDepth 100000 in
theorem paddedAlphabet_encodeURL : paddedAlphabet encodeURL := by
  refine ⟨by decide, by decide, by decide⟩

theorem dropNewlines_cons_newline (c : Byte) (cs : Bytes) (h : isNewline c = true) :
    dropNewlines (c :: cs) = dropNewlines cs := by
  simp [dropNewlines, h]

theorem dropNewlines_cons_other (c : Byte) (cs : Bytes) (h : isNewline c = false) :
    dropNewlines (c :: cs) = c :: dropNewlines cs := by
  simp [dropNewlines, h]

theorem isNewline_iff (c : Byte) : isNewline c = true ↔ (c = 10 ∨ c = 13) := by
  simp [isNewline]

theorem skipNewlines_cons_newline (c : Byte) (cs : Bytes) (h : isNewline c = true) :
    skipNewlines (c :: cs) = skipNewlines cs := by
  have := (isNewline_iff c).mp h
  rcases this with rfl | rfl <;> simp [skipNewlines]

theorem skipNewlines_cons_other (c : Byte) (cs : Bytes) (h : isNewline c = false) :
    skipNewlines (c :: cs) = c :: cs := by
  have h' : ¬ (c = 10 ∨ c = 13) := by rw [← isNewline_iff]; simp [h]
  simp only [not_or] at h'
  simp [skipNewlines, h'.1, h'.2]

/-- After the newlines skipped, the first byte is the first byte that is no
newline. -/
theorem dropNewlines_skipNewlines (s : Bytes) : dropNewlines (skipNewlines s) = dropNewlines s := by
  induction s with
  | nil => rfl
  | cons c cs ih =>
    cases h : isNewline c with
    | true => rw [skipNewlines_cons_newline c cs h, dropNewlines_cons_newline c cs h, ih]
    | false => rw [skipNewlines_cons_other c cs h]

theorem skipNewlines_head (s : Bytes) (d : Byte) (ds : Bytes) (h : skipNewlines s = d :: ds) :
    isNewline d = false := by
  induction s with
  | nil => simp [skipNewlines] at h
  | cons c cs ih =>
    cases hc : isNewline c with
    | true => rw [skipNewlines_cons_newline c cs hc] at h; exact ih h
    | false =>
      rw [skipNewlines_cons_other c cs hc] at h
      simp only [List.cons.injEq] at h
      rw [← h.1]; exact hc

theorem skipNewlines_dropNewlines (s : Bytes) : skipNewlines (dropNewlines s) = dropNewlines s := by
  induction s with
  | nil => rfl
  | cons c cs ih =>
    cases h : isNewline c with
    | true => rw [dropNewlines_cons_newline c cs h, ih]
    | false => rw [dropNewlines_cons_other c cs h, skipNewlines_cons_other c _ h]

theorem skipNewlines_eq_nil_iff (s : Bytes) : skipNewlines s = [] ↔ dropNewlines s = [] := by
  constructor
  · intro h
    rw [← dropNewlines_skipNewlines, h]; rfl
  · intro h
    cases hs : skipNewlines s with
    | nil => rfl
    | cons d ds =>
      have hd := skipNewlines_head s d ds hs
      rw [← dropNewlines_skipNewlines, hs, dropNewlines_cons_other d ds hd] at h
      simp at h

theorem decodeQuantum_nil (enc : Bytes) (dbuf : List Nat) :
    decodeQuantum enc dbuf [] = if dbuf.length = 0 then .ok ([], []) else .error errCorruptInput := by
  simp [decodeQuantum]

theorem decodeQuantum_cons_newline (enc : Bytes) (h : paddedAlphabet enc) (dbuf : List Nat)
    (c : Byte) (cs : Bytes) (hc : isNewline c = true) :
    decodeQuantum enc dbuf (c :: cs) = decodeQuantum enc dbuf cs := by
  rcases (isNewline_iff c).mp hc with rfl | rfl
  · simp [decodeQuantum, h.1]
  · simp [decodeQuantum, h.2.1]

theorem decodeQuantum_cons_some (enc : Bytes) (dbuf : List Nat) (c : Byte) (cs : Bytes)
    (out : Nat) (hc : decodeMap enc c = some out) :
    decodeQuantum enc dbuf (c :: cs)
      = if dbuf.length + 1 = 4 then .ok (quantumBytes (dbuf ++ [out]), cs)
        else decodeQuantum enc (dbuf ++ [out]) cs := by
  simp [decodeQuantum, hc]

theorem decodeQuantum_cons_none (enc : Bytes) (dbuf : List Nat) (c : Byte) (cs : Bytes)
    (hc : decodeMap enc c = none) (hn : isNewline c = false) :
    decodeQuantum enc dbuf (c :: cs)
      = if c ≠ padChar then .error errCorruptInput
        else if dbuf.length < 2 then .error errCorruptInput
        else if dbuf.length = 2 then
          match skipNewlines cs with
          | [] => .error errCorruptInput
          | d :: ds =>
            if d ≠ padChar then .error errCorruptInput
            else if (skipNewlines ds).length > 0 then .error errCorruptInput
            else .ok (quantumBytes dbuf, [])
        else if (skipNewlines cs).length > 0 then .error errCorruptInput
        else .ok (quantumBytes dbuf, []) := by
  have h' : ¬ (c = 10 ∨ c = 13) := by rw [← isNewline_iff]; simp [hn]
  simp only [not_or] at h'
  rw [decodeQuantum]
  simp only [hc, h'.1, h'.2, Bool.or_self, Bool.false_eq_true, if_false, decide_False]

theorem dropNewlines_eq_nil_of_skip (s : Bytes) (h : skipNewlines s = []) :
    dropNewlines s = [] := (skipNewlines_eq_nil_iff s).mp h

theorem skipNewlines_length_pos_iff (s : Bytes) :
    (skipNewlines s).length > 0 ↔ (skipNewlines (dropNewlines s)).length > 0 := by
  rw [skipNewlines_dropNewlines]
  constructor
  · intro h
    cases hs : skipNewlines s with
    | nil => rw [hs] at h; simp at h
    | cons d ds =>
      have hd := skipNewlines_head s d ds hs
      rw [← dropNewlines_skipNewlines, hs, dropNewlines_cons_other d ds hd]
      simp
  · intro h
    cases hs : skipNewlines s with
    | nil => rw [(skipNewlines_eq_nil_iff s).mp hs] at h; simp at h
    | cons d ds => simp

/-- A quantum reads through the newlines: on the input without its newlines it
gives the same bytes or the same error, and leaves the same input but for the
newlines. -/
theorem decodeQuantum_dropNewlines (enc : Bytes) (h : paddedAlphabet enc) (s : Bytes) :
    ∀ dbuf, dropRest (decodeQuantum enc dbuf s) = decodeQuantum enc dbuf (dropNewlines s) := by
  induction s with
  | nil => intro dbuf; simp [dropNewlines, decodeQuantum_nil]; split <;> rfl
  | cons c cs ih =>
    intro dbuf
    cases hn : isNewline c with
    | true =>
      rw [decodeQuantum_cons_newline enc h dbuf c cs hn, dropNewlines_cons_newline c cs hn]
      exact ih dbuf
    | false =>
      rw [dropNewlines_cons_other c cs hn]
      cases hc : decodeMap enc c with
      | some out =>
        rw [decodeQuantum_cons_some enc dbuf c cs out hc,
          decodeQuantum_cons_some enc dbuf c _ out hc]
        by_cases h4 : dbuf.length + 1 = 4
        · simp only [if_pos h4]; rfl
        · simp only [if_neg h4]; exact ih _
      | none =>
        rw [decodeQuantum_cons_none enc dbuf c cs hc hn,
          decodeQuantum_cons_none enc dbuf c _ hc hn]
        by_cases hp : c ≠ padChar
        · simp only [if_pos hp]; rfl
        simp only [if_neg hp]
        by_cases h2 : dbuf.length < 2
        · simp only [if_pos h2]; rfl
        simp only [if_neg h2]
        by_cases h3 : dbuf.length = 2
        · simp only [if_pos h3]
          rw [skipNewlines_dropNewlines]
          cases hs : skipNewlines cs with
          | nil =>
            rw [(skipNewlines_eq_nil_iff cs).mp hs]; rfl
          | cons d ds =>
            have hd := skipNewlines_head cs d ds hs
            have : dropNewlines cs = d :: dropNewlines ds := by
              rw [← dropNewlines_skipNewlines, hs, dropNewlines_cons_other d ds hd]
            rw [this]
            simp only []
            by_cases hdp : d ≠ padChar
            · simp only [if_pos hdp]; rfl
            simp only [if_neg hdp]
            by_cases hl : (skipNewlines ds).length > 0
            · have hl' := (skipNewlines_length_pos_iff ds).mp hl
              simp only [if_pos hl, if_pos hl']; rfl
            · have hl' : ¬ (skipNewlines (dropNewlines ds)).length > 0 :=
                fun x => hl ((skipNewlines_length_pos_iff ds).mpr x)
              simp only [if_neg hl, if_neg hl']; rfl
        · simp only [if_neg h3]
          by_cases hl : (skipNewlines cs).length > 0
          · have hl' := (skipNewlines_length_pos_iff cs).mp hl
            simp only [if_pos hl, if_pos hl']; rfl
          · have hl' : ¬ (skipNewlines (dropNewlines cs)).length > 0 :=
              fun x => hl ((skipNewlines_length_pos_iff cs).mpr x)
            simp only [if_neg hl, if_neg hl']; rfl

/-- A quantum that succeeds on a non-empty input takes at least one byte. -/
theorem decodeQuantum_rest_lt (enc : Bytes) (s : Bytes) :
    ∀ dbuf out rest, decodeQuantum enc dbuf s = .ok (out, rest) → s ≠ [] →
      rest.length < s.length := by
  induction s with
  | nil => intro dbuf out rest _ hne; exact absurd rfl hne
  | cons c cs ih =>
    intro dbuf out rest hq _
    have ih' : ∀ dbuf, decodeQuantum enc dbuf cs = .ok (out, rest) →
        rest.length < (c :: cs).length := by
      intro dbuf hq
      cases cs with
      | nil =>
        rw [decodeQuantum_nil] at hq
        split at hq
        · simp only [Except.ok.injEq, Prod.mk.injEq] at hq; rw [← hq.2]; simp
        · simp at hq
      | cons c2 cs2 =>
        have := ih dbuf out rest hq (by simp)
        simp only [List.length_cons] at this ⊢; omega
    rw [decodeQuantum] at hq
    split at hq
    · split at hq
      · simp only [Except.ok.injEq, Prod.mk.injEq] at hq; rw [← hq.2]; simp
      · exact ih' _ hq
    · split at hq
      · exact ih' _ hq
      · split at hq
        · simp at hq
        · split at hq
          · simp at hq
          · split at hq
            · split at hq
              · simp at hq
              · split at hq
                · simp at hq
                · split at hq
                  · simp at hq
                  · simp only [Except.ok.injEq, Prod.mk.injEq] at hq; rw [← hq.2]; simp
            · split at hq
              · simp at hq
              · simp only [Except.ok.injEq, Prod.mk.injEq] at hq; rw [← hq.2]; simp

theorem decodeLoop_nil (enc : Bytes) (fuel : Nat) : decodeLoop enc fuel [] = .ok [] := by
  cases fuel <;> rfl

/-- The fuel of `decodeLoop` is enough as soon as it is the length of the
input. -/
theorem decodeLoop_fuel (enc : Bytes) :
    ∀ n s fuel, s.length ≤ n → s.length ≤ fuel →
      decodeLoop enc fuel s = decodeLoop enc s.length s := by
  intro n
  induction n with
  | zero =>
    intro s fuel hn _
    have : s = [] := List.length_eq_zero.mp (by omega)
    subst this
    rw [decodeLoop_nil, decodeLoop_nil]
  | succ n ih =>
    intro s fuel hn hf
    cases s with
    | nil => rw [decodeLoop_nil, decodeLoop_nil]
    | cons c cs =>
      cases fuel with
      | zero => simp at hf
      | succ f =>
        simp only [List.length_cons] at hn hf ⊢
        rw [decodeLoop, decodeLoop]
        cases hq : decodeQuantum enc [] (c :: cs) with
        | error e => rfl
        | ok p =>
          obtain ⟨out, rest⟩ := p
          have hlt := decodeQuantum_rest_lt enc (c :: cs) [] out rest hq (by simp)
          simp only [List.length_cons] at hlt
          simp only []
          rw [ih rest f (by omega) (by omega), ih rest cs.length (by omega) (by omega)]

/-- The loop reads through the newlines. -/
theorem decodeLoop_dropNewlines (enc : Bytes) (h : paddedAlphabet enc) :
    ∀ n s, s.length ≤ n →
      decodeLoop enc s.length s
        = decodeLoop enc (dropNewlines s).length (dropNewlines s) := by
  intro n
  induction n with
  | zero =>
    intro s hn
    have : s = [] := List.length_eq_zero.mp (by omega)
    subst this
    rfl
  | succ n ih =>
    intro s hn
    cases s with
    | nil => rfl
    | cons c cs =>
      have hQ := decodeQuantum_dropNewlines enc h (c :: cs) []
      simp only [List.length_cons] at hn
      rw [List.length_cons, decodeLoop]
      cases hq : decodeQuantum enc [] (c :: cs) with
      | error e =>
        rw [hq] at hQ
        simp only [dropRest] at hQ
        cases hd : dropNewlines (c :: cs) with
        | nil => rw [hd, decodeQuantum_nil] at hQ; simp at hQ
        | cons c2 cs2 =>
          rw [hd] at hQ
          rw [List.length_cons, decodeLoop, ← hQ]
      | ok p =>
        obtain ⟨out, rest⟩ := p
        have hlt := decodeQuantum_rest_lt enc (c :: cs) [] out rest hq (by simp)
        simp only [List.length_cons] at hlt
        rw [hq] at hQ
        simp only [dropRest] at hQ
        simp only []
        rw [decodeLoop_fuel enc rest.length rest cs.length (le_refl _) (by omega),
          ih rest (by omega)]
        cases hd : dropNewlines (c :: cs) with
        | nil =>
          rw [hd, decodeQuantum_nil] at hQ
          simp only [List.length_nil, if_true, Except.ok.injEq, Prod.mk.injEq] at hQ
          rw [hQ.1, hQ.2]
          rfl
        | cons c2 cs2 =>
          rw [hd] at hQ
          have hlt2 := decodeQuantum_rest_lt enc (c2 :: cs2) [] out (dropNewlines rest)
            hQ.symm (by simp)
          simp only [List.length_cons] at hlt2
          rw [List.length_cons, decodeLoop, ← hQ]
          simp only []
          rw [decodeLoop_fuel enc (dropNewlines rest).length (dropNewlines rest) cs2.length
            (le_refl _) (by omega)]

theorem skipNewlines_clean (s : Bytes) (h : ∀ x ∈ s, isNewline x = false) :
    skipNewlines s = s := by
  cases s with
  | nil => rfl
  | cons c cs => exact skipNewlines_cons_other c cs (h c (by simp))

theorem isNewline_false (c : Byte) (h : isNewline c = false) : c ≠ 10 ∧ c ≠ 13 := by
  have h' : ¬ (c = 10 ∨ c = 13) := by rw [← isNewline_iff]; simp [h]
  simpa only [not_or] using h'

/-- On an input without newlines the loop succeeds exactly on the valid padded
Base64 strings. -/
theorem decodeLoop_ok_iff_valid (enc : Bytes) (h : paddedAlphabet enc) :
    ∀ n t, t.length ≤ n → (∀ x ∈ t, isNewline x = false) →
      ((∃ out, decodeLoop enc t.length t = .ok out) ↔ validBase64 enc t = true) := by
  intro n
  induction n using Nat.strong_induction_on with
  | _ n ih =>
    intro t hn hnl
    match t, hn, hnl with
    | [], _, _ => simp [decodeLoop, validBase64]
    | [a], _, hnl =>
      have ha := isNewline_false a (hnl a (by simp))
      cases hda : decodeMap enc a <;>
        simp [decodeLoop, decodeQuantum, validBase64, hda, ha.1, ha.2]
    | [a, b], _, hnl =>
      have ha := isNewline_false a (hnl a (by simp))
      have hb := isNewline_false b (hnl b (by simp))
      cases hda : decodeMap enc a <;> cases hdb : decodeMap enc b <;>
        simp [decodeLoop, decodeQuantum, validBase64, hda, hdb, ha.1, ha.2, hb.1, hb.2]
    | [a, b, c], _, hnl =>
      have ha := isNewline_false a (hnl a (by simp))
      have hb := isNewline_false b (hnl b (by simp))
      have hc := isNewline_false c (hnl c (by simp))
      cases hda : decodeMap enc a <;> cases hdb : decodeMap enc b <;>
        cases hdc : decodeMap enc c <;>
        simp [decodeLoop, decodeQuantum, validBase64, skipNewlines, hda, hdb, hdc,
          ha.1, ha.2, hb.1, hb.2, hc.1, hc.2]
    | a :: b :: c :: d :: rest, hn, hnl =>
      have ha := isNewline_false a (hnl a (by simp))
      have hb := isNewline_false b (hnl b (by simp))
      have hc := isNewline_false c (hnl c (by simp))
      have hd := isNewline_false d (hnl d (by simp))
      have hrest : ∀ x ∈ rest, isNewline x = false := fun x hx => hnl x (by simp [hx])
      have hsr := skipNewlines_clean rest hrest
      have hsd := skipNewlines_cons_other d rest (hnl d (by simp))
      simp only [List.length_cons] at hn
      have hih := ih rest.length (by omega) rest (le_refl _) hrest
      have hfuel := decodeLoop_fuel enc rest.length rest (rest.length + 3) (le_refl _) (by omega)
      have hpad : decodeMap enc padChar = none := h.2.2
      rw [List.length_cons, decodeLoop]
      cases hda : decodeMap enc a <;> cases hdb : decodeMap enc b <;>
        cases hdc : decodeMap enc c <;> cases hdd : decodeMap enc d <;>
        simp [decodeQuantum, validBase64, inAlphabet, hsr, hsd, hda, hdb, hdc, hdd,
          ha.1, ha.2, hb.1, hb.2, hc.1, hc.2, hd.1, hd.2, hfuel]
      · by_cases hcp : c = padChar <;> by_cases hdp : d = padChar <;>
          by_cases hr : rest = [] <;> simp [hcp, hdp, hr, decodeLoop_nil, List.length_pos]
      · have hdp : d ≠ padChar := by
          intro e; rw [e, hpad] at hdd; cases hdd
        by_cases hcp : c = padChar <;> simp [hcp, hdp]
      · have hcp : c ≠ padChar := by
          intro e; rw [e, hpad] at hdc; cases hdc
        by_cases hdp : d = padChar <;>
          by_cases hr : rest = [] <;> simp [hcp, hdp, hr, decodeLoop_nil, List.length_pos]
      · rw [← hih]
        by_cases hr : rest = []
        · simp [hr, decodeLoop_nil]
        · cases hl : decodeLoop enc rest.length rest <;> simp [hr]

/-! ## Theorems: `strings.TrimSpace` and white space -/

theorem spaceShape_spaceEncodings : spaceEncodings.all spaceShape = true := by rfl

theorem spaceShape_of_mem (e : Bytes) (h : e ∈ spaceEncodings) : spaceShape e = true :=
  List.all_eq_true.mp spaceShape_spaceEncodings e h

set_option maxRecDepth 100000 in
theorem IsSpace_ascii_all :
    (List.finRange 256).all
      (fun c : Byte => decide (c.val < 128 → IsSpace c.val = asciiSpace c)) = true := by
  decide

theorem IsSpace_ascii (c : Byte) (h : c.val < 128) : IsSpace c.val = asciiSpace c := by
  have := List.all_eq_true.mp IsSpace_ascii_all c (List.mem_finRange c)
  exact (of_decide_eq_true this) h

theorem DecodeRune_ascii (c : Byte) (t : Bytes) (h : c.val < 128) :
    DecodeRune (c :: t) = (c.val, 1) := by
  have : c.val < 0x80 := h
  simp [DecodeRune, this]

theorem DecodeRune_two (b0 b1 : Byte) (t : Bytes) (h : (DecodeRune [b0, b1]).2 = 2) :
    DecodeRune (b0 :: b1 :: t) = DecodeRune [b0, b1] := by
  simp only [DecodeRune] at h ⊢
  split_ifs at h ⊢ <;> simp_all

theorem DecodeRune_three (b0 b1 b2 : Byte) (t : Bytes)
    (h : (DecodeRune [b0, b1, b2]).2 = 3) :
    DecodeRune (b0 :: b1 :: b2 :: t) = DecodeRune [b0, b1, b2] := by
  simp only [DecodeRune] at h ⊢
  split_ifs at h ⊢ <;> simp_all

/-- Decoding forwards, the encoding of a white space character at the start of
a string is found as such. -/
theorem DecodeRune_space (e : Bytes) (h : spaceShape e = true) (t : Bytes) :
    IsSpace (DecodeRune (e ++ t)).1 = true ∧ (DecodeRune (e ++ t)).2 = e.length
      ∧ 0 < e.length := by
  match e, h with
  | [a], h =>
    simp only [spaceShape, Bool.and_eq_true, decide_eq_true_eq] at h
    rw [List.singleton_append, DecodeRune_ascii a t h.1]
    exact ⟨by rw [IsSpace_ascii a h.1]; exact h.2, rfl, by simp⟩
  | [b0, b1], h =>
    simp only [spaceShape, Bool.and_eq_true, decide_eq_true_eq] at h
    have : [b0, b1] ++ t = b0 :: b1 :: t := rfl
    rw [this, DecodeRune_two b0 b1 t h.2]
    exact ⟨h.1.2, h.2, by simp⟩
  | [b0, b1, b2], h =>
    simp only [spaceShape, Bool.and_eq_true, decide_eq_true_eq] at h
    have : [b0, b1, b2] ++ t = b0 :: b1 :: b2 :: t := rfl
    rw [this, DecodeRune_three b0 b1 b2 t h.2]
    exact ⟨h.1.2, h.2, by simp⟩
  | [], h => simp [spaceShape] at h
  | _ :: _ :: _ :: _ :: _, h => simp [spaceShape] at h

theorem DecodeLastRune_ascii (p : Bytes) (a : Byte) (h : a.val < 0x80) :
    DecodeLastRune (p ++ [a]) = (a.val, 1) := by
  have hg : (p ++ [a]).getD p.length 0 = a := by
    rw [List.getD_append_right _ _ _ _ (le_refl _)]; simp
  simp [DecodeLastRune, hg, h]

theorem DecodeLastRune_two (p : Bytes) (b0 b1 : Byte) (h1 : b1.val ≥ 0x80)
    (hs : RuneStart b0 = true) (hw : (DecodeRune [b0, b1]).2 = 2) :
    DecodeLastRune (p ++ [b0, b1]) = DecodeRune [b0, b1] := by
  have hlen : (p ++ [b0, b1]).length = p.length + 2 := by simp
  have hg1 : (p ++ [b0, b1]).getD (p.length + 1) 0 = b1 := by
    rw [List.getD_append_right _ _ _ _ (by omega)]; simp
  have hg0 : (p ++ [b0, b1]).getD p.length 0 = b0 := by
    rw [List.getD_append_right _ _ _ _ (le_refl _)]; simp
  have hn : ¬ b1.val < 0x80 := by omega
  obtain ⟨m, hm⟩ : ∃ m, p.length + 1 - (p.length + 2 - 4) = m + 1 :=
    ⟨p.length + 1 - (p.length + 2 - 4) - 1, by omega⟩
  have hle : ¬ p.length + 1 ≤ p.length + 2 - 4 := by omega
  have hd : List.drop p.length (p ++ [b0, b1]) = [b0, b1] := List.drop_left _ _
  simp only [DecodeLastRune, hlen, Nat.add_sub_cancel, Nat.add_one_ne_zero, if_false]
  have e1 : p.length + 2 - 1 = p.length + 1 := by omega
  simp only [e1, hg1, hn, if_false, if_neg hle, hm, lastRuneStart, hg0, hs, if_true, hd, hw,
    ne_eq, not_true_eq_false]

theorem DecodeLastRune_three (p : Bytes) (b0 b1 b2 : Byte) (h2 : b2.val ≥ 0x80)
    (hs : RuneStart b0 = true) (hs1 : RuneStart b1 = false)
    (hw : (DecodeRune [b0, b1, b2]).2 = 3) :
    DecodeLastRune (p ++ [b0, b1, b2]) = DecodeRune [b0, b1, b2] := by
  have hlen : (p ++ [b0, b1, b2]).length = p.length + 3 := by simp
  have hg2 : (p ++ [b0, b1, b2]).getD (p.length + 2) 0 = b2 := by
    rw [List.getD_append_right _ _ _ _ (by omega)]; simp
  have hg1 : (p ++ [b0, b1, b2]).getD (p.length + 1) 0 = b1 := by
    rw [List.getD_append_right _ _ _ _ (by omega)]; simp
  have hg0 : (p ++ [b0, b1, b2]).getD p.length 0 = b0 := by
    rw [List.getD_append_right _ _ _ _ (le_refl _)]; simp
  have hn : ¬ b2.val < 0x80 := by omega
  obtain ⟨m, hm⟩ : ∃ m, p.length + 2 - (p.length + 3 - 4) = m + 1 + 1 :=
    ⟨p.length + 2 - (p.length + 3 - 4) - 2, by omega⟩
  have hle : ¬ p.length + 2 ≤ p.length + 3 - 4 := by omega
  have hd : List.drop p.length (p ++ [b0, b1, b2]) = [b0, b1, b2] := List.drop_left _ _
  have e1 : p.length + 3 - 1 = p.length + 2 := by omega
  have e2 : p.length + 3 - 2 = p.length + 1 := by omega
  simp only [DecodeLastRune, hlen, Nat.add_one_ne_zero, if_false]
  simp only [e1, e2, hg2, hn, if_false, if_neg hle, hm, lastRuneStart, hg1, hs1, hg0, hs,
    if_true, hd, hw, ne_eq, not_true_eq_false, Nat.add_sub_cancel, Nat.add_one_ne_zero,
    Bool.false_eq_true]

/-- Decoding backwards, the encoding of a white space character at the end of
a string is found as such. -/
theorem DecodeLastRune_space (e : Bytes) (h : spaceShape e = true) (p : Bytes) :
    IsSpace (DecodeLastRune (p ++ e)).1 = true ∧ (DecodeLastRune (p ++ e)).2 = e.length := by
  match e, h with
  | [a], h =>
    simp only [spaceShape, Bool.and_eq_true, decide_eq_true_eq] at h
    rw [DecodeLastRune_ascii p a h.1]
    exact ⟨by rw [IsSpace_ascii a h.1]; exact h.2, rfl⟩
  | [b0, b1], h =>
    simp only [spaceShape, Bool.and_eq_true, decide_eq_true_eq] at h
    rw [DecodeLastRune_two p b0 b1 h.1.1.1.2 h.1.1.2 h.2]
    exact ⟨h.1.2, h.2⟩
  | [b0, b1, b2], h =>
    simp only [spaceShape, Bool.and_eq_true, decide_eq_true_eq, Bool.not_eq_true'] at h
    rw [DecodeLastRune_three p b0 b1 b2 h.1.1.1.1.2 h.1.1.1.2 h.1.1.2 h.2]
    exact ⟨h.1.2, h.2⟩
  | [], h => simp [spaceShape] at h
  | _ :: _ :: _ :: _ :: _, h => simp [spaceShape] at h

theorem length_le_flatten (l : List Bytes) (hl : ∀ e ∈ l, spaceShape e = true) :
    l.length ≤ l.flatten.length := by
  induction l with
  | nil => simp
  | cons e l ih =>
    have he := (DecodeRune_space e (hl e (by simp)) []).2.2
    have := ih (fun x hx => hl x (by simp [hx]))
    simp only [List.flatten_cons, List.length_append, List.length_cons]
    omega

/-- The loop of `lastIndexFunc` steps back over the white space at the end. -/
theorem lastNonSpace_space (v : Bytes) (l : List Bytes) :
    (∀ e ∈ l, spaceShape e = true) → ∀ (tail : Bytes) (fuel : Nat),
      lastNonSpace (v ++ l.flatten ++ tail) (fuel + l.length) (v.length + l.flatten.length)
        = lastNonSpace (v ++ l.flatten ++ tail) fuel v.length := by
  induction l using List.reverseRecOn with
  | nil => intro _ tail fuel; simp
  | append_singleton l e ih =>
    intro hl tail fuel
    have he := hl e (by simp)
    have hpos := (DecodeRune_space e he []).2.2
    have hf : fuel + (l ++ [e]).length = (fuel + l.length) + 1 := by
      simp only [List.length_append, List.length_singleton]; omega
    have hs : v ++ (l ++ [e]).flatten ++ tail = v ++ l.flatten ++ (e ++ tail) := by
      simp [List.flatten_append]
    have hi : v.length + (l ++ [e]).flatten.length = (v ++ l.flatten ++ e).length := by
      simp [List.flatten_append, Nat.add_assoc]
    have ht : List.take (v ++ l.flatten ++ e).length (v ++ l.flatten ++ (e ++ tail))
        = v ++ l.flatten ++ e := by
      rw [← List.append_assoc (v ++ l.flatten) e tail]; exact List.take_left _ _
    have hne : ¬ (v ++ l.flatten ++ e).length = 0 := by
      simp only [List.length_append]; omega
    have hd := DecodeLastRune_space e he (v ++ l.flatten)
    rw [hf, hs, hi, lastNonSpace]
    simp only [if_neg hne, ht, hd.1, hd.2, if_true]
    have : (v ++ l.flatten ++ e).length - e.length = v.length + l.flatten.length := by
      simp only [List.length_append]; omega
    rw [this]
    exact ih (fun x hx => hl x (by simp [hx])) (e ++ tail) fuel

theorem IsSpace_plain (c : Byte) (hc : isPlain c) : IsSpace c.val = false := by
  rw [IsSpace_ascii c hc.1]; exact hc.2

theorem lastNonSpace_plain (v : Bytes) (c : Byte) (hc : isPlain c) (tail : Bytes)
    (fuel : Nat) :
    lastNonSpace (v ++ [c] ++ tail) (fuel + 1) (v ++ [c]).length = some v.length := by
  have hne : ¬ (v ++ [c]).length = 0 := by simp
  have hc1 : c.val < 0x80 := hc.1
  rw [lastNonSpace]
  simp only [if_neg hne, List.take_left, DecodeLastRune_ascii v c hc1, IsSpace_plain c hc,
    Bool.false_eq_true, if_false]
  simp

/-- The function `TrimRightFunc` takes the white space off the end of a string that
ends in a plain byte. -/
theorem trimRightSpace_plain_space (v : Bytes) (c : Byte) (hc : isPlain c) (l : List Bytes)
    (hl : ∀ e ∈ l, spaceShape e = true) :
    trimRightSpace (v ++ [c] ++ l.flatten) = v ++ [c] := by
  have hlen := length_le_flatten l hl
  have h1 : (v ++ [c] ++ l.flatten).length + 1
      = ((v ++ [c]).length + l.flatten.length - l.length + 1) + l.length := by
    simp only [List.length_append]; omega
  have h2 : (v ++ [c] ++ l.flatten).length = (v ++ [c]).length + l.flatten.length := by
    simp only [List.length_append]
  have hk := lastNonSpace_space (v ++ [c]) l hl []
    ((v ++ [c]).length + l.flatten.length - l.length + 1)
  rw [List.append_nil] at hk
  have hp := lastNonSpace_plain v c hc l.flatten
    ((v ++ [c]).length + l.flatten.length - l.length)
  have hg : (v ++ [c] ++ l.flatten).getD v.length 0 = c := by
    rw [List.append_assoc, List.getD_append_right _ _ _ _ (le_refl _)]; simp
  have hc1 : ¬ c.val ≥ 0x80 := by have := hc.1; omega
  rw [trimRightSpace]
  rw [h1]
  rw [h2, hk, hp]
  simp only [hg, if_neg hc1]
  have : v.length + 1 = (v ++ [c]).length := by simp
  rw [this, List.take_left]

/-- The function `TrimRightFunc` leaves nothing of a string of white space. -/
theorem trimRightSpace_space (l : List Bytes) (hl : ∀ e ∈ l, spaceShape e = true) :
    trimRightSpace l.flatten = [] := by
  have hlen := length_le_flatten l hl
  have h1 : l.flatten.length + 1 = (l.flatten.length - l.length + 1) + l.length := by omega
  have hk := lastNonSpace_space [] l hl [] (l.flatten.length - l.length + 1)
  simp only [List.append_nil, List.nil_append, List.length_nil, Nat.zero_add] at hk
  rw [trimRightSpace, h1]
  rw [← h1, h1, hk]
  simp [lastNonSpace]

theorem trimLeftSpace_nil (fuel : Nat) : trimLeftSpace fuel [] = [] := by
  cases fuel <;> rfl

theorem trimLeftSpace_plain (c : Byte) (hc : isPlain c) (rest : Bytes) (fuel : Nat) :
    trimLeftSpace (fuel + 1) (c :: rest) = c :: rest := by
  rw [trimLeftSpace, DecodeRune_ascii c rest hc.1]
  simp [IsSpace_plain c hc]

/-- The function `TrimLeftFunc` takes the white space off the start. -/
theorem trimLeftSpace_space (l : List Bytes) :
    (∀ e ∈ l, spaceShape e = true) → ∀ (rest : Bytes) (fuel : Nat),
      trimLeftSpace (fuel + l.length) (l.flatten ++ rest) = trimLeftSpace fuel rest := by
  induction l with
  | nil => intro _ rest fuel; rfl
  | cons e l ih =>
    intro hl rest fuel
    have he := hl e (by simp)
    have hd := DecodeRune_space e he (l.flatten ++ rest)
    have hf : fuel + (e :: l).length = (fuel + l.length) + 1 := by
      simp only [List.length_cons]; omega
    have hs : (e :: l).flatten ++ rest = e ++ (l.flatten ++ rest) := by
      simp [List.flatten_cons]
    rw [hf, hs]
    cases e with
    | nil => simp at hd
    | cons c e1 =>
      rw [List.cons_append, trimLeftSpace]
      rw [← List.cons_append, hd.1, hd.2.1]
      simp only [if_true, List.drop_left]
      exact ih (fun x hx => hl x (by simp [hx])) rest fuel

/-- The second loop of `TrimSpace` takes the white space off the end of a
string that ends in a plain byte. -/
theorem trimSpaceStop_plain_space (v : Bytes) (c : Byte) (hc : isPlain c) (l : List Bytes) :
    (∀ e ∈ l, spaceShape e = true) →
      trimSpaceStop (v ++ [c] ++ l.flatten).reverse = v ++ [c] := by
  induction l using List.reverseRecOn with
  | nil =>
    intro _
    have : (v ++ [c] ++ ([] : List Bytes).flatten).reverse = c :: v.reverse := by simp
    rw [this, trimSpaceStop_plain c v.reverse hc]
    simp
  | append_singleton l e ih =>
    intro hl
    have he := hl e (by simp)
    have hl' : ∀ x ∈ l, spaceShape x = true := fun x hx => hl x (by simp [hx])
    have hr := trimRightSpace_plain_space v c hc (l ++ [e]) hl
    match e, he, hr with
    | [a], he, _ =>
      simp only [spaceShape, Bool.and_eq_true, decide_eq_true_eq] at he
      have : (v ++ [c] ++ (l ++ [[a]]).flatten).reverse
          = a :: (v ++ [c] ++ l.flatten).reverse := by simp [List.flatten_append]
      have h1 : ¬ a.val ≥ 0x80 := by omega
      rw [this, trimSpaceStop]
      simp only [if_neg h1, he.2, if_true]
      exact ih hl'
    | [b0, b1], he, hr =>
      simp only [spaceShape, Bool.and_eq_true, decide_eq_true_eq] at he
      have : (v ++ [c] ++ (l ++ [[b0, b1]]).flatten).reverse
          = b1 :: (v ++ [c] ++ l.flatten ++ [b0]).reverse := by simp [List.flatten_append]
      have h1 : b1.val ≥ 0x80 := he.1.1.1.2
      rw [this, trimSpaceStop]
      simp only [if_pos h1]
      rw [← this, List.reverse_reverse]
      exact hr
    | [b0, b1, b2], he, hr =>
      simp only [spaceShape, Bool.and_eq_true, decide_eq_true_eq] at he
      have : (v ++ [c] ++ (l ++ [[b0, b1, b2]]).flatten).reverse
          = b2 :: (v ++ [c] ++ l.flatten ++ [b0, b1]).reverse := by
        simp [List.flatten_append]
      have h1 : b2.val ≥ 0x80 := he.1.1.1.1.2
      rw [this, trimSpaceStop]
      simp only [if_pos h1]
      rw [← this, List.reverse_reverse]
      exact hr
    | [], he, _ => simp [spaceShape] at he
    | _ :: _ :: _ :: _ :: _, he, _ => simp [spaceShape] at he

/-- `TrimSpace` leaves nothing of a string of white space. -/
theorem TrimSpace_space (l : List Bytes) :
    (∀ e ∈ l, spaceShape e = true) → TrimSpace l.flatten = [] := by
  induction l with
  | nil => intro _; rfl
  | cons e l ih =>
    intro hl
    have he := hl e (by simp)
    have hl' : ∀ x ∈ l, spaceShape x = true := fun x hx => hl x (by simp [hx])
    have hlen := length_le_flatten (e :: l) hl
    have hleft := trimLeftSpace_space (e :: l) hl []
      ((e :: l).flatten.length + 1 - (e :: l).length)
    rw [List.append_nil, trimLeftSpace_nil] at hleft
    have hfuel : (e :: l).flatten.length + 1 - (e :: l).length + (e :: l).length
        = (e :: l).flatten.length + 1 := by omega
    rw [hfuel] at hleft
    match e, he, hleft with
    | [a], he, _ =>
      simp only [spaceShape, Bool.and_eq_true, decide_eq_true_eq] at he
      have h1 : ¬ a.val ≥ 0x80 := by omega
      have : ([a] :: l).flatten = a :: l.flatten := by simp
      rw [this, TrimSpace]
      simp only [if_neg h1, he.2, if_true]
      exact ih hl'
    | [b0, b1], he, hleft =>
      simp only [spaceShape, Bool.and_eq_true, decide_eq_true_eq] at he
      have h1 : b0.val ≥ 0x80 := he.1.1.1.1
      have : ([b0, b1] :: l).flatten = b0 :: (b1 :: l.flatten) := by simp
      rw [this] at hleft
      rw [this, TrimSpace]
      simp only [if_pos h1]
      simp only [List.length_cons] at hleft ⊢
      rw [hleft]; rfl
    | [b0, b1, b2], he, hleft =>
      simp only [spaceShape, Bool.and_eq_true, decide_eq_true_eq] at he
      have h1 : b0.val ≥ 0x80 := he.1.1.1.1.1
      have : ([b0, b1, b2] :: l).flatten = b0 :: (b1 :: b2 :: l.flatten) := by simp
      rw [this] at hleft
      rw [this, TrimSpace]
      simp only [if_pos h1]
      simp only [List.length_cons] at hleft ⊢
      rw [hleft]; rfl
    | [], he, _ => simp [spaceShape] at he
    | _ :: _ :: _ :: _ :: _, he, _ => simp [spaceShape] at he

/-- `TrimSpace` takes the white space off both ends of a string that starts and
ends in a plain byte. -/
theorem TrimSpace_plain_surrounded (c0 : Byte) (v0 : Bytes) (v1 : Bytes) (c1 : Byte)
    (hv : c0 :: v0 = v1 ++ [c1]) (h0 : isPlain c0) (h1 : isPlain c1) (l2 : List Bytes)
    (hl2 : ∀ e ∈ l2, spaceShape e = true) (l1 : List Bytes) :
    (∀ e ∈ l1, spaceShape e = true) →
      TrimSpace (l1.flatten ++ (c0 :: v0) ++ l2.flatten) = c0 :: v0 := by
  have hright := trimRightSpace_plain_space v1 c1 h1 l2 hl2
  have hstop := trimSpaceStop_plain_space v1 c1 h1 l2 hl2
  rw [← hv] at hright hstop
  induction l1 with
  | nil =>
    intro _
    have h80 : ¬ c0.val ≥ 0x80 := by have := h0.1; omega
    have : ([] : List Bytes).flatten ++ (c0 :: v0) ++ l2.flatten = c0 :: (v0 ++ l2.flatten) := by
      simp
    rw [this, TrimSpace]
    simp only [if_neg h80, h0.2, Bool.false_eq_true, if_false]
    rw [← List.cons_append]
    exact hstop
  | cons e l ih =>
    intro hl
    have he := hl e (by simp)
    have hl' : ∀ x ∈ l, spaceShape x = true := fun x hx => hl x (by simp [hx])
    have hlen := length_le_flatten (e :: l) hl
    have hleft := trimLeftSpace_space (e :: l) hl ((c0 :: v0) ++ l2.flatten)
      ((e :: l).flatten.length + v0.length + l2.flatten.length + 2 - (e :: l).length)
    have hfuel : (e :: l).flatten.length + v0.length + l2.flatten.length + 2 - (e :: l).length
        + (e :: l).length = (e :: l).flatten.length + v0.length + l2.flatten.length + 2 := by
      omega
    obtain ⟨k, hk⟩ : ∃ k, (e :: l).flatten.length + v0.length + l2.flatten.length + 2
        - (e :: l).length = k + 1 :=
      ⟨(e :: l).flatten.length + v0.length + l2.flatten.length + 2 - (e :: l).length - 1,
        by omega⟩
    have hplain : trimLeftSpace (k + 1) ((c0 :: v0) ++ l2.flatten) = (c0 :: v0) ++ l2.flatten :=
      trimLeftSpace_plain c0 h0 (v0 ++ l2.flatten) k
    rw [hfuel, hk, hplain, ← List.append_assoc] at hleft
    match e, he, hleft with
    | [a], he, _ =>
      simp only [spaceShape, Bool.and_eq_true, decide_eq_true_eq] at he
      have h80 : ¬ a.val ≥ 0x80 := by omega
      have : ([a] :: l).flatten ++ (c0 :: v0) ++ l2.flatten
          = a :: (l.flatten ++ (c0 :: v0) ++ l2.flatten) := by simp
      rw [this, TrimSpace]
      simp only [if_neg h80, he.2, if_true]
      exact ih hl'
    | [b0, b1], he, hleft =>
      simp only [spaceShape, Bool.and_eq_true, decide_eq_true_eq] at he
      have h80 : b0.val ≥ 0x80 := he.1.1.1.1
      have : ([b0, b1] :: l).flatten ++ (c0 :: v0) ++ l2.flatten
          = b0 :: (b1 :: (l.flatten ++ (c0 :: v0) ++ l2.flatten)) := by simp
      rw [this] at hleft
      rw [this, TrimSpace]
      simp only [if_pos h80]
      have hf2 : (b1 :: (l.flatten ++ (c0 :: v0) ++ l2.flatten)).length + 2
          = ([b0, b1] :: l).flatten.length + v0.length + l2.flatten.length + 2 := by
        simp; omega
      rw [hf2, hleft]
      exact hright
    | [b0, b1, b2], he, hleft =>
      simp only [spaceShape, Bool.and_eq_true, decide_eq_true_eq] at he
      have h80 : b0.val ≥ 0x80 := he.1.1.1.1.1
      have : ([b0, b1, b2] :: l).flatten ++ (c0 :: v0) ++ l2.flatten
          = b0 :: (b1 :: b2 :: (l.flatten ++ (c0 :: v0) ++ l2.flatten)) := by simp
      rw [this] at hleft
      rw [this, TrimSpace]
      simp only [if_pos h80]
      have hf2 : (b1 :: b2 :: (l.flatten ++ (c0 :: v0) ++ l2.flatten)).length + 2
          = ([b0, b1, b2] :: l).flatten.length + v0.length + l2.flatten.length + 2 := by
        simp; omega
      rw [hf2, hleft]
      exact hright
    | [], he, _ => simp [spaceShape] at he
    | _ :: _ :: _ :: _ :: _, he, _ => simp [spaceShape] at he

/-- `TrimSpace` gives back a string of plain bytes that white space surrounds. -/
theorem TrimSpace_surrounded (ws1 v ws2 : Bytes) (h1 : isWhitespace ws1)
    (h2 : isWhitespace ws2) (hv : ∀ c ∈ v, isPlain c) :
    TrimSpace (ws1 ++ v ++ ws2) = v := by
  obtain ⟨l1, hl1, rfl⟩ := h1
  obtain ⟨l2, hl2, rfl⟩ := h2
  have hs1 : ∀ e ∈ l1, spaceShape e = true := fun e he => spaceShape_of_mem e (hl1 e he)
  have hs2 : ∀ e ∈ l2, spaceShape e = true := fun e he => spaceShape_of_mem e (hl2 e he)
  cases v with
  | nil =>
    rw [List.append_nil, ← List.flatten_append]
    exact TrimSpace_space (l1 ++ l2) (fun e he => by
      rcases List.mem_append.mp he with h | h
      · exact hs1 e h
      · exact hs2 e h)
  | cons c0 v0 =>
    rcases List.eq_nil_or_concat (c0 :: v0) with h | ⟨v1, c1, h⟩
    · cases h
    · rw [List.concat_eq_append] at h
      have hc0 := hv c0 (by simp)
      have hc1 := hv c1 (by rw [h]; simp)
      exact TrimSpace_plain_surrounded c0 v0 v1 c1 h hc0 hc1 l2 hs2 l1 hs1

theorem dropNewlines_clean (s : Bytes) : ∀ x ∈ dropNewlines s, isNewline x = false := by
  intro x hx
  have := (List.mem_filter.mp hx).2
  simpa using this

theorem dropNewlines_of_clean (s : Bytes) (h : ∀ x ∈ s, isNewline x = false) :
    dropNewlines s = s := by
  apply List.filter_eq_self.mpr
  intro x hx
  simp [h x hx]

/-- The decoder accepts exactly the strings that are, their newlines dropped,
valid padded Base64. -/
theorem DecodeString_ok_iff (enc : Bytes) (h : paddedAlphabet enc) (s : Bytes) :
    (∃ out, DecodeString enc s = .ok out) ↔ validBase64 enc (dropNewlines s) = true := by
  unfold DecodeString
  rw [decodeLoop_dropNewlines enc h s.length s (le_refl _)]
  exact decodeLoop_ok_iff_valid enc h _ _ (le_refl _) (dropNewlines_clean s)

theorem paddedAlphabet_alphabetOf (urlSafe : Bool) : paddedAlphabet (alphabetOf urlSafe) := by
  cases urlSafe
  · exact paddedAlphabet_encodeStd
  · exact paddedAlphabet_encodeURL

set_option maxRecDepth 100000 in
theorem inAlphabet_plain_all (urlSafe : Bool) :
    (List.finRange 256).all (fun c : Byte =>
      !(inAlphabet (alphabetOf urlSafe) c || c == padChar)
        || (decide (c.val < 128) && !asciiSpace c)) = true := by
  cases urlSafe <;> decide

theorem inAlphabet_plain (urlSafe : Bool) (c : Byte)
    (h : inAlphabet (alphabetOf urlSafe) c = true ∨ c = padChar) : isPlain c := by
  have := List.all_eq_true.mp (inAlphabet_plain_all urlSafe) c (List.mem_finRange c)
  simp only [Bool.or_eq_true, Bool.not_eq_true', Bool.and_eq_true, decide_eq_true_eq,
    beq_iff_eq, Bool.or_eq_false_iff] at this
  rcases this with hn | hp
  · rcases h with h | h
    · rw [h] at hn; exact absurd hn.1 (by simp)
    · rw [h] at hn; exact absurd hn.2 (by simp)
  · exact ⟨hp.1, hp.2⟩

theorem validBase64_mem (enc : Bytes) :
    ∀ n (v : Bytes), v.length ≤ n → validBase64 enc v = true →
      ∀ x ∈ v, inAlphabet enc x = true ∨ x = padChar := by
  intro n
  induction n using Nat.strong_induction_on with
  | _ n ih =>
    intro v hn hv
    match v, hn, hv with
    | [], _, _ => intro x hx; simp at hx
    | [_], _, hv => simp [validBase64] at hv
    | [_, _], _, hv => simp [validBase64] at hv
    | [_, _, _], _, hv => simp [validBase64] at hv
    | a :: b :: c :: d :: rest, hn, hv =>
      simp only [List.length_cons] at hn
      have hrest := ih rest.length (by omega) rest (le_refl _)
      simp only [validBase64, Bool.and_eq_true, Bool.or_eq_true, decide_eq_true_eq] at hv
      intro x hx
      simp only [List.mem_cons] at hx
      obtain ⟨⟨ha, hb⟩, hcd⟩ := hv
      by_cases hr : rest.length = 0
      · have hnil : rest = [] := List.length_eq_zero.mp hr
        simp only [hr, if_true, Bool.or_eq_true, Bool.and_eq_true, decide_eq_true_eq] at hcd
        rcases hx with rfl | rfl | rfl | rfl | hx
        · exact Or.inl ha
        · exact Or.inl hb
        · rcases hcd with h | h
          · exact Or.inl h.1
          · exact Or.inr h.1
        · rcases hcd with h | h
          · exact h.2
          · exact Or.inr h.2
        · rw [hnil] at hx; simp at hx
      · simp only [hr, if_false, Bool.and_eq_true] at hcd
        rcases hx with rfl | rfl | rfl | rfl | hx
        · exact Or.inl ha
        · exact Or.inl hb
        · exact Or.inl hcd.1.1
        · exact Or.inl hcd.1.2
        · exact hrest hcd.2 x hx

theorem validBase64_plain (urlSafe : Bool) (v : Bytes)
    (hv : validBase64 (alphabetOf urlSafe) v = true) : ∀ c ∈ v, isPlain c :=
  fun c hc => inAlphabet_plain urlSafe c (validBase64_mem _ v.length v (le_refl _) hv c hc)

theorem isPlain_not_newline (c : Byte) (h : isPlain c) : isNewline c = false := by
  have h2 := h.2
  simp only [asciiSpace, Bool.or_eq_false_iff, decide_eq_false_iff_not] at h2
  simp [isNewline, h2.1.1.1.1.2, h2.1.2]

/-- What `Base64Decode` does with an input read in full, by the outcome of the
decoder. -/
theorem Base64Decode_run (data : Bytes) (urlSafe : Bool) :
    Encoder.Base64Decode (NewEncoder (NewReader data) NewBuffer) urlSafe
      = match DecodeString (alphabetOf urlSafe) (TrimSpace data) with
        | .error err => (some (.decodeBase64 err), ⟨(NewReader data).drained, NewBuffer⟩)
        | .ok out => (none, ⟨(NewReader data).drained, ⟨[out], none⟩⟩) := by
  have hdata : (ioReadAll (NewReader data)) = (data, none, (NewReader data).drained) := by
    simp [ioReadAll, NewReader]
  cases urlSafe <;>
    simp only [Encoder.Base64Decode, NewEncoder, hdata, alphabetOf, if_true, if_false,
      Bool.false_eq_true] <;>
    split <;> simp_all [Writer.Write, NewBuffer]

/-- C12, as stated, fails: the input `QU`, newline, `JD` has nothing to trim and
is not a valid padded Base64 string (five bytes, one of them outside the
alphabet), and `Base64Decode` returns no error and writes `ABC`: the decoder
of `encoding/base64` skips `\n` and `\r` wherever they stand. -/
theorem Base64Decode_accepts_inner_newline :
    TrimSpace (ascii "QU\nJD") = ascii "QU\nJD"
      ∧ validBase64 encodeStd (TrimSpace (ascii "QU\nJD")) = false
      ∧ Encoder.Base64Decode (NewEncoder (NewReader (ascii "QU\nJD")) NewBuffer) false
          = (none, ⟨(NewReader (ascii "QU\nJD")).drained, ⟨[ascii "ABC"], none⟩⟩) := by
  refine ⟨by rfl, by rfl, by rfl⟩

/-- C12, amended: `Base64Decode` returns an error exactly when the input,
trimmed of white space and with every `\n` and `\r` dropped, is not a valid
padded Base64 string in the selected alphabet, as `Invalid Base64!@#`, and
then writes nothing; for every other input it returns no error and makes one
`Write` of the decoded bytes.  A valid Base64 string `v` between white space
`ws1` and `ws2` (any characters of `unicode.IsSpace`) gives the same result
and the same writes as `v` alone, and no error. -/
theorem Base64Decode_error_iff (data : Bytes) (urlSafe : Bool) (ws1 v ws2 : Bytes)
    (h1 : isWhitespace ws1) (h2 : isWhitespace ws2)
    (hv : validBase64 (alphabetOf urlSafe) v = true) :
    ((∃ err, (Encoder.Base64Decode (NewEncoder (NewReader data) NewBuffer) urlSafe).1
          = some (.decodeBase64 err))
        ↔ validBase64 (alphabetOf urlSafe) (dropNewlines (TrimSpace data)) = false)
      ∧ (validBase64 (alphabetOf urlSafe) (dropNewlines (TrimSpace data)) = false →
          (Encoder.Base64Decode (NewEncoder (NewReader data) NewBuffer) urlSafe).1 ≠ none
            ∧ (Encoder.Base64Decode (NewEncoder (NewReader data) NewBuffer) urlSafe).2.writer
                = NewBuffer)
      ∧ (validBase64 (alphabetOf urlSafe) (dropNewlines (TrimSpace data)) = true →
          (Encoder.Base64Decode (NewEncoder (NewReader data) NewBuffer) urlSafe).1 = none
            ∧ ∃ out, DecodeString (alphabetOf urlSafe) (TrimSpace data) = .ok out
                ∧ (Encoder.Base64Decode (NewEncoder (NewReader data) NewBuffer)
                    urlSafe).2.writer.writes = [out])
      ∧ Encoder.Base64Decode (NewEncoder (NewReader (ascii "Invalid Base64!@#")) NewBuffer)
            false
          = (some (.decodeBase64 errCorruptInput),
              ⟨(NewReader (ascii "Invalid Base64!@#")).drained, NewBuffer⟩)
      ∧ (Encoder.Base64Decode (NewEncoder (NewReader v) NewBuffer) urlSafe).1 = none
      ∧ (Encoder.Base64Decode (NewEncoder (NewReader (ws1 ++ v ++ ws2)) NewBuffer) urlSafe).1
          = (Encoder.Base64Decode (NewEncoder (NewReader v) NewBuffer) urlSafe).1
      ∧ (Encoder.Base64Decode (NewEncoder (NewReader (ws1 ++ v ++ ws2)) NewBuffer)
            urlSafe).2.writer
          = (Encoder.Base64Decode (NewEncoder (NewReader v) NewBuffer) urlSafe).2.writer := by
  have hpl := validBase64_plain urlSafe v hv
  have hws : TrimSpace (ws1 ++ v ++ ws2) = TrimSpace v := by
    rw [TrimSpace_surrounded ws1 v ws2 h1 h2 hpl]
    have := TrimSpace_surrounded [] v [] ⟨[], by simp, rfl⟩ ⟨[], by simp, rfl⟩ hpl
    simp only [List.nil_append, List.append_nil] at this
    exact this.symm
  have hvt : TrimSpace v = v := by
    have := TrimSpace_surrounded [] v [] ⟨[], by simp, rfl⟩ ⟨[], by simp, rfl⟩ hpl
    simpa only [List.nil_append, List.append_nil] using this
  have hvd : dropNewlines v = v :=
    dropNewlines_of_clean v (fun x hx => isPlain_not_newline x (hpl x hx))
  have hiff := DecodeString_ok_iff (alphabetOf urlSafe) (paddedAlphabet_alphabetOf urlSafe)
  refine ⟨?_, ?_, ?_, by rfl, ?_, ?_, ?_⟩
  · rw [Base64Decode_run]
    cases hd : DecodeString (alphabetOf urlSafe) (TrimSpace data) with
    | error err =>
      have : ¬ validBase64 (alphabetOf urlSafe) (dropNewlines (TrimSpace data)) = true := by
        rw [← hiff]; rintro ⟨out, ho⟩; rw [hd] at ho; cases ho
      simp only [Bool.not_eq_true] at this
      exact ⟨fun _ => this, fun _ => ⟨err, rfl⟩⟩
    | ok out =>
      have : validBase64 (alphabetOf urlSafe) (dropNewlines (TrimSpace data)) = true :=
        (hiff _).mp ⟨out, hd⟩
      simp [this]
  · intro hfalse
    rw [Base64Decode_run]
    cases hd : DecodeString (alphabetOf urlSafe) (TrimSpace data) with
    | error err => exact ⟨by simp, rfl⟩
    | ok out =>
      have := (hiff _).mp ⟨out, hd⟩
      rw [hfalse] at this; cases this
  · intro htrue
    obtain ⟨out, ho⟩ := (hiff _).mpr htrue
    rw [Base64Decode_run, ho]
    exact ⟨rfl, out, rfl, rfl⟩
  · obtain ⟨out, ho⟩ := (hiff (TrimSpace v)).mpr (by rw [hvt, hvd]; exact hv)
    rw [Base64Decode_run, ho]
  · rw [Base64Decode_run, Base64Decode_run, hws]
    cases DecodeString (alphabetOf urlSafe) (TrimSpace v) <;> rfl
  · rw [Base64Decode_run, Base64Decode_run, hws]
    cases DecodeString (alphabetOf urlSafe) (TrimSpace v) <;> rfl

/-- C12, an instance: `QUJD` between a space, a newline and a no-break space in
front and a line separator and a newline behind is decoded as `QUJD` alone. -/
theorem Base64Decode_error_iff_witness :
    isWhitespace (ascii " \n" ++ [0xC2, 0xA0]) ∧ isWhitespace [0xE2, 0x80, 0xA8, 10]
      ∧ validBase64 (alphabetOf false) (ascii "QUJD") = true
      ∧ (Encoder.Base64Decode (NewEncoder (NewReader
            (ascii " \n" ++ [0xC2, 0xA0] ++ ascii "QUJD" ++ [0xE2, 0x80, 0xA8, 10])) NewBuffer)
            false).2.writer
          = (Encoder.Base64Decode (NewEncoder (NewReader (ascii "QUJD")) NewBuffer)
              false).2.writer :=
  ⟨⟨[[32], [10], [0xC2, 0xA0]], by decide, rfl⟩, ⟨[[0xE2, 0x80, 0xA8], [10]], by decide, rfl⟩,
    rfl,
    (Base64Decode_error_iff (ascii "QUJD") false (ascii " \n" ++ [0xC2, 0xA0]) (ascii "QUJD")
      [0xE2, 0x80, 0xA8, 10]
      ⟨[[32], [10], [0xC2, 0xA0]], by decide, rfl⟩ ⟨[[0xE2, 0x80, 0xA8], [10]], by decide, rfl⟩
      rfl).2.2.2.2.2.2⟩

/-! ## Theorems: `TruncateString` -/

theorem wrapInt64_id (x : Int) (h1 : -(2 ^ 63) ≤ x) (h2 : x < 2 ^ 63) : wrapInt64 x = x := by
  unfold wrapInt64
  omega

/-- C18: for `maxLen >= 3` (an `int`), `TruncateString(s, maxLen)` returns `s`
when `len(s) <= maxLen`, and otherwise the first `maxLen - 3` bytes of `s` and
`...`, of length `maxLen` exactly; the result is never longer than `maxLen`. -/
theorem TruncateString_spec (s : Bytes) (maxLen : Int) (h3 : 3 ≤ maxLen)
    (hint : maxLen < 2 ^ 63) :
    ((s.length : Int) ≤ maxLen → TruncateString s maxLen = some s)
      ∧ (maxLen < (s.length : Int) →
          TruncateString s maxLen = some (s.take (maxLen - 3).toNat ++ ascii "...")
            ∧ ((s.take (maxLen - 3).toNat ++ ascii "...").length : Int) = maxLen)
      ∧ ∃ r, TruncateString s maxLen = some r ∧ (r.length : Int) ≤ maxLen := by
  have hw : wrapInt64 (maxLen - 3) = maxLen - 3 := wrapInt64_id _ (by omega) (by omega)
  have hA : (s.length : Int) ≤ maxLen → TruncateString s maxLen = some s := by
    intro h; simp [TruncateString, h]
  have hB : maxLen < (s.length : Int) →
      TruncateString s maxLen = some (s.take (maxLen - 3).toNat ++ ascii "...")
        ∧ ((s.take (maxLen - 3).toNat ++ ascii "...").length : Int) = maxLen := by
    intro h
    have h1 : ¬ (s.length : Int) ≤ maxLen := by omega
    have h2 : ¬ (maxLen - 3 < 0 ∨ (s.length : Int) < maxLen - 3) := by omega
    have hlen : (ascii "...").length = 3 := rfl
    refine ⟨by simp only [TruncateString, if_neg h1, hw, if_neg h2], ?_⟩
    rw [List.length_append, List.length_take, hlen]
    omega
  refine ⟨hA, hB, ?_⟩
  by_cases h : (s.length : Int) ≤ maxLen
  · exact ⟨s, hA h, h⟩
  · have h' : maxLen < (s.length : Int) := by omega
    exact ⟨_, (hB h').1, by rw [(hB h').2]⟩

/-- C18, an instance: thirteen bytes cut to eight. -/
theorem TruncateString_spec_witness :
    (3 : Int) ≤ 8 ∧ (8 : Int) < 2 ^ 63
      ∧ TruncateString (ascii "Hello, World!") 8 = some (ascii "Hello...") :=
  ⟨by decide, by decide,
    ((TruncateString_spec (ascii "Hello, World!") 8 (by decide) (by decide)).2.1
      (by decide)).1⟩

/-! ## Theorems: `GenerateString` -/

theorem randInt_pos (src : RandSource) (k : Nat) (len : Nat) (h : 0 < len) :
    randInt src k (len : Int)
      = match src k with
        | .error e => some (.error e)
        | .ok raw => some (.ok (raw % len)) := by
  have h1 : ¬ (len : Int) ≤ 0 := by omega
  simp only [randInt, if_neg h1, Int.toNat_ofNat]

/-- The inner loop does not panic: it ends with the error of the first draw
that fails, or with `length` bytes of `chars`. -/
theorem randomString_spec (src : RandSource) (chars : Bytes) (h : 0 < chars.length) :
    ∀ (length k : Nat),
      (∃ e j, j < length ∧ src (k + j) = .error e
          ∧ randomString src chars length k = some (.error e))
        ∨ (∃ s, randomString src chars length k = some (.ok s) ∧ s.length = length
            ∧ (∀ b ∈ s, b ∈ chars) ∧ ∀ j < length, ∃ raw, src (k + j) = .ok raw) := by
  intro length
  induction length with
  | zero => intro k; exact Or.inr ⟨[], rfl, rfl, by simp, by simp⟩
  | succ n ih =>
    intro k
    rw [randomString, randInt_pos src k chars.length h]
    cases hs : src k with
    | error e => exact Or.inl ⟨e, 0, by omega, hs, rfl⟩
    | ok raw =>
      have hlt : raw % chars.length < chars.length := Nat.mod_lt _ h
      simp only [List.getElem?_eq_getElem hlt]
      rcases ih (k + 1) with ⟨e, j, hj, hsj, hr⟩ | ⟨s, hr, hlen, hmem, hall⟩
      · rw [hr]
        exact Or.inl ⟨e, j + 1, by omega, by rw [← hsj]; congr 1; omega, rfl⟩
      · rw [hr]
        refine Or.inr ⟨_, rfl, by simp [hlen], ?_, ?_⟩
        · intro b hb
          rcases List.mem_cons.mp hb with rfl | hb
          · exact List.getElem_mem _
          · exact hmem b hb
        · intro j hj
          cases j with
          | zero => exact ⟨raw, hs⟩
          | succ j =>
            obtain ⟨r, hr⟩ := hall j (by omega)
            exact ⟨r, by rw [← hr]; congr 1; omega⟩

/-- The outer loop does not panic: it ends with the error of the first draw
that fails, or with `count` strings of `length` bytes of `chars`. -/
theorem randomStrings_spec (src : RandSource) (chars : Bytes) (h : 0 < chars.length)
    (length : Nat) :
    ∀ (count k : Nat),
      (∃ e j, j < count * length ∧ src (k + j) = .error e
          ∧ randomStrings src chars length count k = some (.error e))
        ∨ (∃ strs, randomStrings src chars length count k = some (.ok strs)
            ∧ strs.length = count
            ∧ (∀ s ∈ strs, s.length = length ∧ ∀ b ∈ s, b ∈ chars)
            ∧ ∀ j < count * length, ∃ raw, src (k + j) = .ok raw) := by
  intro count
  induction count with
  | zero => intro k; exact Or.inr ⟨[], rfl, rfl, by simp, by simp⟩
  | succ n ih =>
    intro k
    have hmul : (n + 1) * length = length + n * length := by ring
    rw [randomStrings]
    rcases randomString_spec src chars h length k with
      ⟨e, j, hj, hsj, hr⟩ | ⟨s, hr, hlen, hmem, hall⟩
    · rw [hr]
      exact Or.inl ⟨e, j, by rw [hmul]; omega, hsj, rfl⟩
    · rw [hr]
      rcases ih (k + length) with ⟨e, j, hj, hsj, hr2⟩ | ⟨strs, hr2, hlen2, hmem2, hall2⟩
      · rw [hr2]
        exact Or.inl ⟨e, length + j, by rw [hmul]; omega,
          by rw [← hsj]; congr 1; omega, rfl⟩
      · rw [hr2]
        refine Or.inr ⟨_, rfl, by simp [hlen2], ?_, ?_⟩
        · intro x hx
          rcases List.mem_cons.mp hx with rfl | hx
          · exact ⟨hlen, hmem⟩
          · exact hmem2 x hx
        · intro j hj
          by_cases hjl : j < length
          · exact hall j hjl
          · obtain ⟨r, hr⟩ := hall2 (j - length) (by rw [hmul] at hj; omega)
            exact ⟨r, by rw [← hr]; congr 1; omega⟩

theorem charsetChars_names (charset : Bytes) :
    (charset ∈ charsetNames → ∃ chars, charsetChars charset = some chars ∧ 0 < chars.length)
      ∧ (charset ∉ charsetNames → charsetChars charset = none) := by
  constructor
  · intro hm
    simp only [charsetNames, List.mem_cons, List.mem_singleton, List.not_mem_nil, or_false] at hm
    rcases hm with rfl | rfl | rfl | rfl | rfl <;> exact ⟨_, rfl, by decide⟩
  · intro hm
    simp only [charsetNames, List.mem_cons, List.mem_singleton, List.not_mem_nil, or_false,
      not_or] at hm
    obtain ⟨h1, h2, h3, h4, h5⟩ := hm
    simp only [charsetChars, if_neg h1, if_neg h2, if_neg h3, if_neg h4, if_neg h5]

theorem writeLines_unbounded (strs : List Bytes) :
    ∀ ws : List Bytes, writeLines ⟨ws, none⟩ strs
      = (⟨ws ++ strs.map (fun s => s ++ [10]), none⟩, none) := by
  induction strs with
  | nil => intro ws; simp [writeLines]
  | cons s rest ih =>
    intro ws
    simp only [writeLines, Fprintln, Writer.Write]
    rw [ih]
    simp
theorem makeslicePanics_iff (maxAlloc size : Nat) (n : Int) :
    makeslicePanics maxAlloc size n = true
      ↔ n < 0 ∨ (2 : Int) ^ 64 ≤ n * size ∨ (maxAlloc : Int) < n * size := by
  unfold makeslicePanics
  simp only [Bool.or_eq_true, decide_eq_true_eq, or_assoc]

theorem makeslicePanics_false (maxAlloc size : Nat) (n : Int) (h0 : 0 ≤ n)
    (h1 : n * size ≤ maxAlloc) (h2 : n * size < 2 ^ 64) :
    makeslicePanics maxAlloc size n = false := by
  cases h : makeslicePanics maxAlloc size n with
  | false => rfl
  | true =>
    rcases (makeslicePanics_iff maxAlloc size n).mp h with h | h | h
    · omega
    · omega
    · omega

/-- C20, as stated, fails: the count `2^62` is not negative, and for it
`make([]string, count)` panics, the size of the slice being beyond a `uintptr`,
whatever the allocator serves. -/
theorem GenerateString_count_out_of_range :
    ascii "hex" ∈ charsetNames ∧ (0 : Int) ≤ 8 ∧ (0 : Int) ≤ 2 ^ 62
      ∧ ∀ (L : Lib) (maxAlloc : Nat) (src : RandSource) (w : Writer),
          Generator.GenerateString L maxAlloc src (NewGenerator w) 8 (2 ^ 62) (ascii "hex")
            (ascii "string") = none := by
  refine ⟨by decide, by decide, by decide, fun L maxAlloc src w => ?_⟩
  have hp : makeslicePanics maxAlloc 16 (2 ^ 62) = true :=
    (makeslicePanics_iff maxAlloc 16 (2 ^ 62)).mpr (Or.inr (Or.inl (by norm_num)))
  have hcs : charsetChars (ascii "hex") = some (ascii "0123456789abcdef") := by rfl
  simp only [Generator.GenerateString, hcs, hp, ↓reduceIte]

/-- C20, amended: for a charset name among `alphanumeric`, `alpha`, `numeric`,
`ascii` and `hex`, a length and a count that are not negative and every random
source: when the slices can be made, that is `16 * count` bytes and, with a
count of at least one, `length` bytes are within `maxAlloc` and a `uintptr`,
`GenerateString` does not panic (the bound of `rand.Int` is positive and the
index into the set in range): either a draw among the first `count * length`
fails and that error is returned with nothing written, or no draw fails and
exactly `count` strings, each of `length` bytes of the set, go to
`outputResult`, which for the format `string` writes each and a newline.  When
a slice cannot be made, `make` panics.  For any other charset name the error is
returned and nothing is written. -/
theorem GenerateString_spec (L : Lib) (maxAlloc : Nat) (src : RandSource) (w : Writer)
    (length count : Int) (charset format : Bytes) (hl : 0 ≤ length) (hc : 0 ≤ count) :
    (charset ∈ charsetNames → count * 16 ≤ maxAlloc → count * 16 < 2 ^ 64 →
        (count = 0 ∨ (length ≤ maxAlloc ∧ length < 2 ^ 64)) →
        ∃ chars, charsetChars charset = some chars ∧
          ((∃ e k, k < count.toNat * length.toNat ∧ src k = .error e
              ∧ Generator.GenerateString L maxAlloc src (NewGenerator w) length count charset
                  format = some (some (.random e), NewGenerator w))
            ∨ (∃ strs, (∀ k < count.toNat * length.toNat, ∃ raw, src k = .ok raw)
                ∧ Generator.GenerateString L maxAlloc src (NewGenerator w) length count charset
                    format = some (Generator.outputResult L (NewGenerator w) strs format)
                ∧ (strs.length : Int) = count
                ∧ ∀ s ∈ strs, (s.length : Int) = length ∧ ∀ b ∈ s, b ∈ chars)))
      ∧ (charset ∈ charsetNames →
          ((maxAlloc : Int) < count * 16 ∨ 2 ^ 64 ≤ count * 16
            ∨ (0 < count ∧ ((maxAlloc : Int) < length ∨ 2 ^ 64 ≤ length))) →
          Generator.GenerateString L maxAlloc src (NewGenerator w) length count charset format
            = none)
      ∧ (charset ∉ charsetNames →
          Generator.GenerateString L maxAlloc src (NewGenerator w) length count charset format
            = some (some (.unknownCharset charset), NewGenerator w))
      ∧ ∀ strs : List Bytes,
          Generator.outputResult L (NewGenerator NewBuffer) strs (ascii "string")
            = (none, ⟨⟨strs.map (fun s => s ++ [10]), none⟩⟩) := by
  refine ⟨?_, ?_, ?_, ?_⟩
  · intro hm hcm hc64 hlen
    obtain ⟨chars, hcs, hpos⟩ := (charsetChars_names charset).1 hm
    refine ⟨chars, hcs, ?_⟩
    have h1 : makeslicePanics maxAlloc 16 count = false :=
      makeslicePanics_false maxAlloc 16 count hc (by exact_mod_cast hcm) (by exact_mod_cast hc64)
    have h2 : ¬ (0 < count ∧ makeslicePanics maxAlloc 1 length = true) := by
      rintro ⟨hpc, hpl⟩
      rcases hlen with h0 | ⟨hlm, hl64⟩
      · omega
      · have := makeslicePanics_false maxAlloc 1 length hl (by simpa using hlm)
          (by simpa using hl64)
        rw [this] at hpl
        cases hpl
    have hrun : Generator.GenerateString L maxAlloc src (NewGenerator w) length count charset
        format
        = match randomStrings src chars length.toNat count.toNat 0 with
          | none => none
          | some (.error e) => some (some (.random e), NewGenerator w)
          | some (.ok strs) => some ((NewGenerator w).outputResult L strs format) := by
      simp only [Generator.GenerateString, hcs, h1, if_neg h2, Bool.false_eq_true, if_false]
    rw [hrun]
    rcases randomStrings_spec src chars hpos length.toNat count.toNat 0 with
      ⟨e, j, hj, hsj, hr⟩ | ⟨strs, hr, hlen, hmem, hall⟩
    · rw [hr]
      rw [Nat.zero_add] at hsj
      exact Or.inl ⟨e, j, hj, hsj, rfl⟩
    · rw [hr]
      refine Or.inr ⟨strs, ?_, rfl, by rw [hlen]; omega, ?_⟩
      · intro k hk
        obtain ⟨r, hr⟩ := hall k hk
        rw [Nat.zero_add] at hr
        exact ⟨r, hr⟩
      · intro s hs
        exact ⟨by rw [(hmem s hs).1]; omega, (hmem s hs).2⟩
  · intro hm hbig
    obtain ⟨chars, hcs, _⟩ := (charsetChars_names charset).1 hm
    cases hp : makeslicePanics maxAlloc 16 count with
    | true => simp only [Generator.GenerateString, hcs, hp, ↓reduceIte]
    | false =>
      have hnp : ¬ (count < 0 ∨ (2 : Int) ^ 64 ≤ count * ((16 : Nat) : Int)
          ∨ (maxAlloc : Int) < count * ((16 : Nat) : Int)) := by
        intro h
        rw [(makeslicePanics_iff maxAlloc 16 count).mpr h] at hp
        cases hp
      have hq : 0 < count ∧ makeslicePanics maxAlloc 1 length = true := by
        rcases hbig with h | h | ⟨h0, h⟩
        · exact absurd (Or.inr (Or.inr (by exact_mod_cast h))) hnp
        · exact absurd (Or.inr (Or.inl (by exact_mod_cast h))) hnp
        · refine ⟨h0, (makeslicePanics_iff maxAlloc 1 length).mpr ?_⟩
          rcases h with h | h
          · exact Or.inr (Or.inr (by simpa using h))
          · exact Or.inr (Or.inl (by simpa using h))
      simp only [Generator.GenerateString, hcs, hp, if_pos hq, Bool.false_eq_true, if_false]
  · intro hm
    simp only [Generator.GenerateString, (charsetChars_names charset).2 hm]
  · intro strs
    have := writeLines_unbounded strs []
    simp only [List.nil_append] at this
    simp only [Generator.outputResult, NewGenerator, NewBuffer, if_true, this]

/-- C20, an instance: two strings of three hexadecimal digits from the draws
`0, 1, 2, ...`, with the `maxAlloc` of linux/amd64. -/
theorem GenerateString_spec_witness :
    (0 : Int) ≤ 3 ∧ (0 : Int) ≤ 2 ∧ ascii "hex" ∈ charsetNames
      ∧ (2 : Int) * 16 ≤ ((2 ^ 48 : Nat) : Int) ∧ (2 : Int) * 16 < 2 ^ 64
      ∧ ((3 : Int) ≤ ((2 ^ 48 : Nat) : Int) ∧ (3 : Int) < 2 ^ 64)
      ∧ Generator.GenerateString Lib.failing (2 ^ 48) (fun k => .ok (10 + 17 * k))
            (NewGenerator NewBuffer) 3 2 (ascii "hex") (ascii "string")
          = some (none, ⟨⟨[ascii "abc\n", ascii "def\n"], none⟩⟩)
      ∧ ∃ chars, charsetChars (ascii "hex") = some chars ∧
          ((∃ e k, k < (2 : Int).toNat * (3 : Int).toNat
              ∧ (fun k => Except.ok (10 + 17 * k) : RandSource) k = .error e
              ∧ Generator.GenerateString Lib.failing (2 ^ 48) (fun k => .ok (10 + 17 * k))
                  (NewGenerator NewBuffer) 3 2 (ascii "hex") (ascii "string")
                  = some (some (.random e), NewGenerator NewBuffer))
            ∨ (∃ strs, (∀ k < (2 : Int).toNat * (3 : Int).toNat,
                  ∃ raw, (fun k => Except.ok (10 + 17 * k) : RandSource) k = .ok raw)
                ∧ Generator.GenerateString Lib.failing (2 ^ 48) (fun k => .ok (10 + 17 * k))
                    (NewGenerator NewBuffer) 3 2 (ascii "hex") (ascii "string")
                    = some (Generator.outputResult Lib.failing (NewGenerator NewBuffer) strs
                        (ascii "string"))
                ∧ (strs.length : Int) = 2
                ∧ ∀ s ∈ strs, (s.length : Int) = 3 ∧ ∀ b ∈ s, b ∈ chars)) :=
  ⟨by decide, by decide, by decide, by norm_num, by norm_num, by norm_num, by rfl,
    (GenerateString_spec Lib.failing (2 ^ 48) (fun k => .ok (10 + 17 * k)) NewBuffer 3 2
      (ascii "hex") (ascii "string") (by decide) (by decide)).1 (by decide) (by norm_num)
      (by norm_num) (Or.inr (by norm_num))⟩

/-! ## Theorems: `GenerateHash` -/

theorem hexEncodeToString_length (src : Bytes) :
    (hexEncodeToString src).length = 2 * src.length := by
  induction src with
  | nil => rfl
  | cons v rest ih => simp only [hexEncodeToString, List.length_cons, ih]; omega

set_option maxRecDepth 100000 in
theorem hextable_lower_all :
    (List.finRange 256).all (fun v : Byte =>
      isLowerHex (hextable.getD (v.val >>> 4) 0)
        && isLowerHex (hextable.getD (v.val &&& 0x0f) 0)) = true := by
  decide

theorem hexEncodeToString_lower (src : Bytes) :
    (hexEncodeToString src).all isLowerHex = true := by
  induction src with
  | nil => rfl
  | cons v rest ih =>
    have := List.all_eq_true.mp hextable_lower_all v (List.mem_finRange v)
    simp only [Bool.and_eq_true] at this
    simp only [hexEncodeToString, List.all_cons, this.1, this.2, ih, Bool.and_self]

theorem md5Sum_length (msg : Bytes) : (md5Sum msg).length = 16 := by
  simp [md5Sum, leBytes]

/-- C16: for a hash function that is freshly created and whose digests have
`Size()` bytes, as those of MD5, SHA-1, SHA-256 and SHA-512, `GenerateHash`
on an input read to its end returns no error and the lower-case hexadecimal
encoding of the digest of the whole input, of twice the digest size in length,
and writes nothing; if reading fails it returns the error and the empty
string.  For MD5 (RFC 1321) and the empty input the string is
`d41d8cd98f00b204e9800998ecf8427e`. -/
theorem GenerateHash_spec (hashFunc : Hash) (r : Reader) (w : Writer)
    (hfresh : hashFunc.written = [])
    (hsize : ∀ x, (hashFunc.sum x).length = hashFunc.size) :
    (r.failure = none →
        (Hasher.GenerateHash (NewHasher r w) hashFunc).1
            = hexEncodeToString (hashFunc.sum r.pending.flatten)
          ∧ (Hasher.GenerateHash (NewHasher r w) hashFunc).2.1 = none
          ∧ (Hasher.GenerateHash (NewHasher r w) hashFunc).1.length = 2 * hashFunc.size
          ∧ (Hasher.GenerateHash (NewHasher r w) hashFunc).1.all isLowerHex = true)
      ∧ (∀ err, r.failure = some err →
          (Hasher.GenerateHash (NewHasher r w) hashFunc).1 = []
            ∧ (Hasher.GenerateHash (NewHasher r w) hashFunc).2.1 = some (.read err))
      ∧ (Hasher.GenerateHash (NewHasher r w) hashFunc).2.2.1.writer = w
      ∧ md5New.written = [] ∧ md5New.size = 16 ∧ (∀ x, (md5New.sum x).length = md5New.size)
      ∧ (Hasher.GenerateHash (NewHasher (NewReader []) NewBuffer) md5New).1
          = ascii "d41d8cd98f00b204e9800998ecf8427e" := by
  refine ⟨?_, ?_, ?_, rfl, rfl, md5Sum_length, ?_⟩
  · intro hf
    have hrun : Hasher.GenerateHash (NewHasher r w) hashFunc
        = (hexEncodeToString (hashFunc.sum r.pending.flatten), none, ⟨r.drained, w⟩,
            hashFunc.Write r.pending.flatten) := by
      simp [Hasher.GenerateHash, NewHasher, ioReadAll, hf, Hash.Sum, Hash.Write, hfresh]
    rw [hrun]
    exact ⟨rfl, rfl, by rw [hexEncodeToString_length, hsize], hexEncodeToString_lower _⟩
  · intro err hf
    simp [Hasher.GenerateHash, NewHasher, ioReadAll, hf]
  · cases hf : r.failure <;> simp [Hasher.GenerateHash, NewHasher, ioReadAll, hf]
  · set_option maxRecDepth 1000000 in rfl

set_option maxRecDepth 1000000 in
/-- C16, an instance: the MD5 of `Hello, World!`. -/
theorem GenerateHash_spec_witness :
    md5New.written = [] ∧ (∀ x, (md5New.sum x).length = md5New.size)
      ∧ (NewReader (ascii "Hello, World!")).failure = none
      ∧ (Hasher.GenerateHash (NewHasher (NewReader (ascii "Hello, World!")) NewBuffer)
          md5New).1 = ascii "65a8e27d8879283831b664bd8b7f0ad4" :=
  ⟨rfl, md5Sum_length, rfl,
    ((GenerateHash_spec md5New (NewReader (ascii "Hello, World!")) NewBuffer rfl
      md5Sum_length).1 rfl).1.trans (by rfl)⟩

/-! ## Theorems: `float64` -/

theorem bitLength_spec : ∀ (fuel n : Nat), n ≤ fuel → 0 < n →
    2 ^ (bitLength fuel n - 1) ≤ n ∧ n < 2 ^ bitLength fuel n ∧ 0 < bitLength fuel n := by
  intro fuel
  induction fuel with
  | zero => intro n h1 h2; omega
  | succ f ih =>
    intro n h1 h2
    have hn : n ≠ 0 := by omega
    rw [bitLength, if_neg hn]
    by_cases h : n / 2 = 0
    · have h1' : n = 1 := by omega
      subst h1'
      cases f with
      | zero => simp [bitLength]
      | succ g => simp [bitLength]
    · obtain ⟨a, b, c⟩ := ih (n / 2) (by omega) (by omega)
      refine ⟨?_, ?_, by omega⟩
      · rw [Nat.add_sub_cancel]
        have : bitLength f (n / 2) = (bitLength f (n / 2) - 1) + 1 := by omega
        rw [this, pow_succ]
        omega
      · rw [pow_succ]
        omega

theorem highBit_spec (n : Nat) (h : 0 < n) : 2 ^ highBit n ≤ n ∧ n < 2 ^ (highBit n + 1) := by
  obtain ⟨a, b, c⟩ := bitLength_spec n n (le_refl _) h
  unfold highBit
  refine ⟨a, ?_⟩
  have : bitLength n n - 1 + 1 = bitLength n n := by omega
  rw [this]; exact b

/-- Two fractions of the same value round to the same integer. -/
theorem divRoundEven_congr (n1 d1 n2 d2 : Nat) (h1 : 0 < d1) (h2 : 0 < d2)
    (h : n1 * d2 = n2 * d1) : divRoundEven n1 d1 = divRoundEven n2 d2 := by
  have hq : n1 / d1 = n2 / d2 := by
    rw [← Nat.mul_div_mul_right n1 d1 h2, h, Nat.mul_comm d1 d2, Nat.mul_div_mul_right n2 d2 h1]
  have e1 := Nat.div_add_mod n1 d1
  have e2 := Nat.div_add_mod n2 d2
  have hr : (n1 % d1) * d2 = (n2 % d2) * d1 := by
    have e1' : n1 * d2 = d1 * (n1 / d1) * d2 + (n1 % d1) * d2 := by rw [← Nat.add_mul, e1]
    have e2' : n2 * d1 = d2 * (n2 / d2) * d1 + (n2 % d2) * d1 := by rw [← Nat.add_mul, e2]
    have e3 : d1 * (n1 / d1) * d2 = d2 * (n2 / d2) * d1 := by rw [hq]; ring
    omega
  have hgt : 2 * (n1 % d1) > d1 ↔ 2 * (n2 % d2) > d2 := by
    constructor
    · intro hh
      by_contra hc
      have : 2 * (n2 % d2) * d1 ≤ d2 * d1 := Nat.mul_le_mul_right _ (by omega)
      have : d1 * d2 < 2 * (n1 % d1) * d2 := Nat.mul_lt_mul_of_pos_right hh h2
      have e : 2 * (n1 % d1) * d2 = 2 * (n2 % d2) * d1 := by rw [Nat.mul_assoc, hr]; ring
      have e' : d2 * d1 = d1 * d2 := Nat.mul_comm _ _
      omega
    · intro hh
      by_contra hc
      have : 2 * (n1 % d1) * d2 ≤ d1 * d2 := Nat.mul_le_mul_right _ (by omega)
      have : d2 * d1 < 2 * (n2 % d2) * d1 := Nat.mul_lt_mul_of_pos_right hh h1
      have e : 2 * (n1 % d1) * d2 = 2 * (n2 % d2) * d1 := by rw [Nat.mul_assoc, hr]; ring
      have e' : d2 * d1 = d1 * d2 := Nat.mul_comm _ _
      omega
  have heq : 2 * (n1 % d1) = d1 ↔ 2 * (n2 % d2) = d2 := by
    have e : 2 * (n1 % d1) * d2 = 2 * (n2 % d2) * d1 := by rw [Nat.mul_assoc, hr]; ring
    constructor
    · intro hh
      rw [hh] at e
      have : d2 * d1 = 2 * (n2 % d2) * d1 := by rw [← e]; ring
      exact (Nat.eq_of_mul_eq_mul_right h1 this).symm
    · intro hh
      rw [hh] at e
      have : 2 * (n1 % d1) * d2 = d1 * d2 := by rw [e]; ring
      exact Nat.eq_of_mul_eq_mul_right h2 this
  unfold divRoundEven
  rw [hq]
  simp only [hgt, heq]

theorem divRoundEven_of_dvd (n d : Nat) (h : 0 < d) (q : Nat) (hq : n = q * d) :
    divRoundEven n d = q := by
  have h1 : n % d = 0 := by rw [hq]; exact Nat.mul_mod_left q d
  have h2 : n / d = q := by rw [hq]; exact Nat.mul_div_cancel q h
  unfold divRoundEven
  rw [h1, h2]
  have : ¬ (2 * 0 > d ∨ 2 * 0 = d ∧ q % 2 = 1) := by omega
  rw [if_neg this]

theorem divRoundEven_le (n d : Nat) : n / d ≤ divRoundEven n d ∧ divRoundEven n d ≤ n / d + 1 := by
  unfold divRoundEven
  split <;> omega
theorem roundFloat64_scale (num den : Nat) (hn : 0 < num) (hd : 0 < den) :
    den * 2 ^ (highBit num - (highBit den + 53)) * 2 ^ 52
        ≤ num * 2 ^ (highBit den + 53 - highBit num)
      ∧ num * 2 ^ (highBit den + 53 - highBit num)
        < den * 2 ^ (highBit num - (highBit den + 53)) * 2 ^ 54 := by
  obtain ⟨a1, a2⟩ := highBit_spec num hn
  obtain ⟨b1, b2⟩ := highBit_spec den hd
  by_cases hc : highBit num ≤ highBit den + 53
  · have hj : highBit num - (highBit den + 53) = 0 := by omega
    rw [hj]
    constructor
    · calc den * 2 ^ 0 * 2 ^ 52 = den * 2 ^ 52 := by simp
        _ ≤ 2 ^ (highBit den + 1) * 2 ^ 52 := Nat.mul_le_mul_right _ (le_of_lt b2)
        _ = 2 ^ highBit num * 2 ^ (highBit den + 53 - highBit num) := by
            rw [← pow_add, ← pow_add]; congr 1; omega
        _ ≤ num * 2 ^ (highBit den + 53 - highBit num) := Nat.mul_le_mul_right _ a1
    · calc num * 2 ^ (highBit den + 53 - highBit num)
          < 2 ^ (highBit num + 1) * 2 ^ (highBit den + 53 - highBit num) :=
            Nat.mul_lt_mul_of_pos_right a2 (pow_pos (by decide) _)
        _ = 2 ^ highBit den * 2 ^ 54 := by rw [← pow_add, ← pow_add]; congr 1; omega
        _ ≤ den * 2 ^ 54 := Nat.mul_le_mul_right _ b1
        _ = den * 2 ^ 0 * 2 ^ 54 := by simp
  · have hi : highBit den + 53 - highBit num = 0 := by omega
    rw [hi]
    constructor
    · calc den * 2 ^ (highBit num - (highBit den + 53)) * 2 ^ 52
          ≤ 2 ^ (highBit den + 1) * 2 ^ (highBit num - (highBit den + 53)) * 2 ^ 52 :=
            Nat.mul_le_mul_right _ (Nat.mul_le_mul_right _ (le_of_lt b2))
        _ = 2 ^ highBit num := by rw [← pow_add, ← pow_add]; congr 1; omega
        _ ≤ num := a1
        _ = num * 2 ^ 0 := by simp
    · calc num * 2 ^ 0 = num := by simp
        _ < 2 ^ (highBit num + 1) := a2
        _ = 2 ^ highBit den * 2 ^ (highBit num - (highBit den + 53)) * 2 ^ 54 := by
            rw [← pow_add, ← pow_add]; congr 1; omega
        _ ≤ den * 2 ^ (highBit num - (highBit den + 53)) * 2 ^ 54 :=
            Nat.mul_le_mul_right _ (Nat.mul_le_mul_right _ b1)

/-- The shape of a rounded value: a mantissa `m` from `2^52` to `2^53`, the
quotient of the scaled value rounded, times a power of two over a power of
two. -/
theorem roundFloat64_form (num den : Nat) (hn : 0 < num) (hd : 0 < den) :
    ∃ m k i, roundFloat64 num den = ⟨m * 2 ^ k, 2 ^ i⟩
      ∧ m = divRoundEven (num * 2 ^ i) (den * 2 ^ k)
      ∧ 2 ^ 52 ≤ num * 2 ^ i / (den * 2 ^ k) ∧ num * 2 ^ i / (den * 2 ^ k) < 2 ^ 53 := by
  obtain ⟨lo, hi⟩ := roundFloat64_scale num den hn hd
  have hne : num ≠ 0 := by omega
  generalize hi' : highBit den + 53 - highBit num = i at lo hi
  generalize hj' : highBit num - (highBit den + 53) = j at lo hi
  have hD : 0 < den * 2 ^ j := Nat.mul_pos hd (pow_pos (by decide) _)
  have hq1 : 2 ^ 52 ≤ num * 2 ^ i / (den * 2 ^ j) := by
    apply (Nat.le_div_iff_mul_le hD).mpr
    rw [Nat.mul_comm (2 ^ 52)]; exact lo
  have hq2 : num * 2 ^ i / (den * 2 ^ j) < 2 ^ 54 := by
    apply (Nat.div_lt_iff_lt_mul hD).mpr
    rw [Nat.mul_comm (2 ^ 54)]; exact hi
  have e : den * 2 ^ (j + 1) = den * 2 ^ j * 2 := by ring
  by_cases hk : num * 2 ^ i / (den * 2 ^ j) ≥ 2 ^ 53
  · refine ⟨_, j + 1, i, ?_, rfl, ?_, ?_⟩
    · simp only [roundFloat64, if_neg hne, hi', hj', if_pos hk]
    · rw [e, ← Nat.div_div_eq_div_mul]; omega
    · rw [e, ← Nat.div_div_eq_div_mul]; omega
  · refine ⟨_, j, i, ?_, rfl, hq1, by omega⟩
    simp only [roundFloat64, if_neg hne, hi', hj', if_neg hk]

/-- A value of at most 53 significant bits is a `float64`: rounding gives it
back. -/
theorem roundFloat64_exact (num den : Nat) (hn : 0 < num) (hd : 0 < den) (M a b : Nat)
    (hM : M < 2 ^ 53) (hv : num * 2 ^ b = M * 2 ^ a * den) :
    (roundFloat64 num den).num * den = num * (roundFloat64 num den).den := by
  obtain ⟨m, k, i, hr, hm, hlo, hhi⟩ := roundFloat64_form num den hn hd
  have hD : 0 < den * 2 ^ k := Nat.mul_pos hd (pow_pos (by decide) _)
  have p1 : (2 : Nat) ^ (b + k) = 2 ^ b * 2 ^ k := pow_add 2 b k
  have p2 : (2 : Nat) ^ (a + i) = 2 ^ a * 2 ^ i := pow_add 2 a i
  have key : num * 2 ^ i * 2 ^ (b + k) = M * 2 ^ (a + i) * (den * 2 ^ k) := by
    rw [p1, p2]
    calc num * 2 ^ i * (2 ^ b * 2 ^ k) = (num * 2 ^ b) * (2 ^ i * 2 ^ k) := by ring
      _ = (M * 2 ^ a * den) * (2 ^ i * 2 ^ k) := by rw [hv]
      _ = M * (2 ^ a * 2 ^ i) * (den * 2 ^ k) := by ring
  have hdvd : ∃ q, num * 2 ^ i = q * (den * 2 ^ k) := by
    by_cases hc : b + k ≤ a + i
    · obtain ⟨c, hc'⟩ : ∃ c, a + i = c + (b + k) := ⟨a + i - (b + k), by omega⟩
      have p3 : (2 : Nat) ^ (a + i) = 2 ^ c * 2 ^ (b + k) := by rw [hc']; exact pow_add 2 c _
      refine ⟨M * 2 ^ c, ?_⟩
      apply Nat.eq_of_mul_eq_mul_right (pow_pos (by decide : 0 < 2) (b + k))
      rw [key, p3]; ring
    · exfalso
      obtain ⟨c, hc'⟩ : ∃ c, b + k = c + 1 + (a + i) := ⟨b + k - (a + i) - 1, by omega⟩
      have p3 : (2 : Nat) ^ (b + k) = 2 ^ c * 2 * 2 ^ (a + i) := by
        rw [hc', pow_add, pow_succ]
      have key2 : num * 2 ^ i * (2 ^ c * 2) = M * (den * 2 ^ k) := by
        apply Nat.eq_of_mul_eq_mul_right (pow_pos (by decide : 0 < 2) (a + i))
        calc num * 2 ^ i * (2 ^ c * 2) * 2 ^ (a + i)
            = num * 2 ^ i * (2 ^ c * 2 * 2 ^ (a + i)) := by ring
          _ = num * 2 ^ i * 2 ^ (b + k) := by rw [p3]
          _ = M * 2 ^ (a + i) * (den * 2 ^ k) := key
          _ = M * (den * 2 ^ k) * 2 ^ (a + i) := by ring
      have h1 : 2 ^ 52 * (den * 2 ^ k) ≤ num * 2 ^ i := (Nat.le_div_iff_mul_le hD).mp hlo
      have h2 : 1 ≤ 2 ^ c := Nat.one_le_two_pow
      have h3 : num * 2 ^ i * 2 ≤ num * 2 ^ i * (2 ^ c * 2) :=
        Nat.mul_le_mul_left _ (by omega)
      have h4 : M * (den * 2 ^ k) < 2 ^ 53 * (den * 2 ^ k) := Nat.mul_lt_mul_of_pos_right hM hD
      omega
  obtain ⟨q, hq⟩ := hdvd
  have hmq : m = q := by rw [hm]; exact divRoundEven_of_dvd _ _ hD q hq
  rw [hr]
  simp only
  rw [hmq]
  calc q * 2 ^ k * den = q * (den * 2 ^ k) := by ring
    _ = num * 2 ^ i := hq.symm
theorem roundFloat64_isFloat (num den : Nat) (hd : 0 < den) :
    (roundFloat64 num den).isFloat ∧ (0 < num → 0 < (roundFloat64 num den).num) := by
  by_cases hn : num = 0
  · subst hn
    refine ⟨⟨by simp [roundFloat64], 0, 0, 0, by norm_num, by simp [roundFloat64]⟩, by omega⟩
  · have hn' : 0 < num := by omega
    obtain ⟨m, k, i, hr, hm, hlo, hhi⟩ := roundFloat64_form num den hn' hd
    have hmle := divRoundEven_le (num * 2 ^ i) (den * 2 ^ k)
    rw [← hm] at hmle
    rw [hr]
    refine ⟨⟨pow_pos (by decide) _, ?_⟩, fun _ => Nat.mul_pos (by omega) (pow_pos (by decide) _)⟩
    by_cases h53 : m < 2 ^ 53
    · exact ⟨m, k, i, h53, rfl⟩
    · have : m = 2 ^ 53 := by omega
      refine ⟨1, 53 + k, i, by norm_num, ?_⟩
      simp only [this, Nat.one_mul]
      rw [pow_add]

/-- Dividing a `float64` by a power of two is exact. -/
theorem float64Div_pow2 (x y : Frac) (hx : x.isFloat) (hxn : 0 < x.num) (c : Nat)
    (hy : y.num = 2 ^ c * y.den) (hyd : 0 < y.den) :
    0 < (float64Div x y).den ∧ (float64Div x y).same ⟨x.num, x.den * 2 ^ c⟩ := by
  obtain ⟨hxd, M, a, b, hM, hv⟩ := hx
  have hyn : 0 < y.num := by rw [hy]; exact Nat.mul_pos (pow_pos (by decide) _) hyd
  have hnum : 0 < x.num * y.den := Nat.mul_pos hxn hyd
  have hden : 0 < x.den * y.num := Nat.mul_pos hxd hyn
  have hE := roundFloat64_exact (x.num * y.den) (x.den * y.num) hnum hden M a (b + c) hM (by
    rw [hy, pow_add]
    calc x.num * y.den * (2 ^ b * 2 ^ c) = (x.num * 2 ^ b) * (y.den * 2 ^ c) := by ring
      _ = (M * 2 ^ a * x.den) * (y.den * 2 ^ c) := by rw [hv]
      _ = M * 2 ^ a * (x.den * (2 ^ c * y.den)) := by ring)
  have hpos := (roundFloat64_isFloat (x.num * y.den) (x.den * y.num) hden).1.1
  refine ⟨hpos, ?_⟩
  unfold Frac.same float64Div
  simp only
  apply Nat.eq_of_mul_eq_mul_right hyd
  rw [hy] at hE
  calc (roundFloat64 (x.num * y.den) (x.den * y.num)).num * (x.den * 2 ^ c) * y.den
      = (roundFloat64 (x.num * y.den) (x.den * y.num)).num * (x.den * (2 ^ c * y.den)) := by ring
    _ = x.num * y.den * (roundFloat64 (x.num * y.den) (x.den * y.num)).den := by
        rw [← hy] at hE ⊢; exact hE
    _ = x.num * (roundFloat64 (x.num * y.den) (x.den * y.num)).den * y.den := by ring

/-- The conversion of an integer of at most 53 significant bits is exact. -/
theorem float64OfNat_exact (M a : Nat) (hM : M < 2 ^ 53) :
    (float64OfNat (M * 2 ^ a)).num = M * 2 ^ a * (float64OfNat (M * 2 ^ a)).den := by
  by_cases h0 : M * 2 ^ a = 0
  · rw [h0]; simp [float64OfNat, roundFloat64]
  · have := roundFloat64_exact (M * 2 ^ a) 1 (by omega) (by decide) M a 0 hM (by simp)
    simpa [float64OfNat] using this

/-- Two fractions of the same value are printed alike. -/
theorem fmtFixed_congr (prec : Nat) (x y : Frac) (hx : 0 < x.den) (hy : 0 < y.den)
    (h : x.same y) : fmtFixed prec x = fmtFixed prec y := by
  unfold fmtFixed
  have : divRoundEven (x.num * 10 ^ prec) x.den = divRoundEven (y.num * 10 ^ prec) y.den := by
    apply divRoundEven_congr _ _ _ _ hx hy
    unfold Frac.same at h
    calc x.num * 10 ^ prec * y.den = (x.num * y.den) * 10 ^ prec := by ring
      _ = (y.num * x.den) * 10 ^ prec := by rw [h]
      _ = y.num * 10 ^ prec * x.den := by ring
  rw [this]
/-! ## Theorems: `FormatBytes` -/

/-- The loop multiplies the divisor by 1024 once for each factor 1024 in `n`:
it ends before the fuel does, and the divisor does not wrap. -/
theorem unitLoop_spec : ∀ (j fuel n div exp : Nat), 1024 ^ j ≤ n → n < 1024 ^ (j + 1) →
    j < fuel → div * 1024 ^ j < 2 ^ 64 →
    unitLoop fuel n div exp = (div * 1024 ^ j, exp + j) := by
  intro j
  induction j with
  | zero =>
    intro fuel n div exp _ h2 h3 _
    obtain ⟨f, rfl⟩ : ∃ f, fuel = f + 1 := ⟨fuel - 1, by omega⟩
    have : ¬ n ≥ 1024 := by simpa using h2
    simp [unitLoop, this]
  | succ j ih =>
    intro fuel n div exp h1 h2 h3 h4
    obtain ⟨f, rfl⟩ : ∃ f, fuel = f + 1 := ⟨fuel - 1, by omega⟩
    have hp : (1024 : Nat) ^ (j + 1) = 1024 ^ j * 1024 := pow_succ 1024 j
    have hp2 : (1024 : Nat) ^ (j + 1 + 1) = 1024 ^ (j + 1) * 1024 := pow_succ 1024 (j + 1)
    have hpos : 0 < (1024 : Nat) ^ j := pow_pos (by decide) _
    have hge : n ≥ 1024 := by
      have : 1024 ^ j * 1024 ≥ 1 * 1024 := Nat.mul_le_mul_right _ hpos
      omega
    have hdiv : div * 1024 ^ (j + 1) = div * 1024 * 1024 ^ j := by rw [hp]; ring
    have hmod : div * 1024 % 2 ^ 64 = div * 1024 := by
      apply Nat.mod_eq_of_lt
      have : div * 1024 * 1 ≤ div * 1024 * 1024 ^ j := Nat.mul_le_mul_left _ hpos
      omega
    rw [unitLoop, if_pos hge, hmod]
    rw [ih f (n / 1024) (div * 1024) (exp + 1)
      ((Nat.le_div_iff_mul_le (by decide)).mpr (by omega))
      ((Nat.div_lt_iff_lt_mul (by decide)).mpr (by omega)) (by omega) (by omega)]
    rw [hdiv]
    congr 1
    omega

theorem unitExponent_spec (b : Nat) (h1 : 1024 ≤ b) (h2 : b < 2 ^ 64) :
    1 ≤ unitExponent b ∧ unitExponent b ≤ 6
      ∧ 1024 ^ unitExponent b ≤ b ∧ b < 1024 ^ (unitExponent b + 1) := by
  unfold unitExponent
  split_ifs <;> norm_num at * <;> omega

/-- The text of `FormatBytes` from 1024 on: the `float64` of the size over
`1024^e`, with one decimal, and the unit. -/
theorem FormatBytes_float (b : Nat) (h1 : 1024 ≤ b) (h2 : b < 2 ^ 64) :
    FormatBytes b
      = some (fmtFixed 1 ⟨(float64OfNat b).num, (float64OfNat b).den * 1024 ^ unitExponent b⟩
          ++ [32, (ascii "KMGTPE").getD (unitExponent b - 1) 0, 66]) := by
  obtain ⟨e1, e2, e3, e4⟩ := unitExponent_spec b h1 h2
  obtain ⟨j, hj⟩ : ∃ j, unitExponent b = j + 1 := ⟨unitExponent b - 1, by omega⟩
  rw [hj] at e2 e3 e4 ⊢
  have hj5 : j ≤ 5 := by omega
  have hp : (1024 : Nat) ^ (j + 1) = 1024 ^ j * 1024 := pow_succ 1024 j
  have hp2 : (1024 : Nat) ^ (j + 1 + 1) = 1024 ^ (j + 1) * 1024 := pow_succ 1024 (j + 1)
  have hlt : j < 1024 ^ j := Nat.lt_pow_self (by decide) j
  have hle : (1024 : Nat) ^ (j + 1) ≤ 1024 ^ 6 := Nat.pow_le_pow_right (by decide) (by omega)
  have hn1 : 1024 ^ j ≤ b / 1024 := (Nat.le_div_iff_mul_le (by decide)).mpr (by omega)
  have hn2 : b / 1024 < 1024 ^ (j + 1) := (Nat.div_lt_iff_lt_mul (by decide)).mpr (by omega)
  have hloop := unitLoop_spec j (b / 1024) (b / 1024) 1024 0 hn1 hn2 (by omega)
    (by rw [Nat.mul_comm, ← hp]; have : (1024 : Nat) ^ 6 < 2 ^ 64 := by norm_num
        omega)
  have hdiv : 1024 * 1024 ^ j = 1024 ^ (j + 1) := by rw [hp]; ring
  rw [hdiv, Nat.zero_add] at hloop
  have hletter : (ascii "KMGTPE")[j]? = some ((ascii "KMGTPE").getD j 0) := by
    interval_cases j <;> rfl
  have hnb : ¬ b < 1024 := by omega
  -- the quotient
  have hx := roundFloat64_isFloat b 1 (by decide)
  have hy := roundFloat64_isFloat (1024 ^ (j + 1)) 1 (by decide)
  have hpow2 : (1024 : Nat) ^ (j + 1) = 2 ^ (10 * (j + 1)) := by
    rw [pow_mul]; norm_num
  have hyv : (float64OfNat (1024 ^ (j + 1))).num
      = 2 ^ (10 * (j + 1)) * (float64OfNat (1024 ^ (j + 1))).den := by
    have := float64OfNat_exact 1 (10 * (j + 1)) (by norm_num)
    rw [Nat.one_mul, ← hpow2] at this
    rw [this]
    congr 1
  have hq := float64Div_pow2 (float64OfNat b) (float64OfNat (1024 ^ (j + 1))) hx.1
    (hx.2 (by omega)) (10 * (j + 1)) hyv hy.1.1
  have hsame : fmtFixed 1 (float64Div (float64OfNat b) (float64OfNat (1024 ^ (j + 1))))
      = fmtFixed 1 ⟨(float64OfNat b).num, (float64OfNat b).den * 1024 ^ (j + 1)⟩ := by
    apply fmtFixed_congr 1 _ _ hq.1
    · exact Nat.mul_pos hx.1.1 (pow_pos (by decide) _)
    · have hfrac : (⟨(float64OfNat b).num, (float64OfNat b).den * 1024 ^ (j + 1)⟩ : Frac)
          = ⟨(float64OfNat b).num, (float64OfNat b).den * 2 ^ (10 * (j + 1))⟩ := by
        rw [hpow2]
      rw [hfrac]
      exact hq.2
  unfold FormatBytes
  rw [if_neg hnb]
  simp only [hloop, hletter, hsame, Nat.add_sub_cancel]
/-- C17, as stated, fails: for `b = 1441151880758558721`, which is `5 * 2^58 + 1`,
the quotient `b / 1024^6` lies above `1.25`, nearer to `1.3` than to `1.2`, so
that printed with one decimal it is `1.3`; `FormatBytes` returns `1.2 EB`,
because `float64(b)` is `5 * 2^58`, the quotient `1.25` exactly, and the tie
goes to the even digit. -/
theorem FormatBytes_rounds_float64 :
    (1441151880758558721 : Nat) < 2 ^ 64
      ∧ unitExponent 1441151880758558721 = 6
      ∧ 13 * 1024 ^ 6 - 10 * 1441151880758558721 < 10 * 1441151880758558721 - 12 * 1024 ^ 6
      ∧ formatBytesText 1441151880758558721 ⟨1441151880758558721, 1024 ^ 6⟩ = ascii "1.3 EB"
      ∧ float64OfNat 1441151880758558721 = ⟨1441151880758558720, 1⟩
      ∧ FormatBytes 1441151880758558721 = some (ascii "1.2 EB") := by
  refine ⟨by norm_num, by rfl, by norm_num, by rfl, by rfl, by rfl⟩

set_option maxRecDepth 100000 in
/-- C17, amended: for every `uint64` `b`, `FormatBytes(b)` is the decimal `b`
and ` B` when `b < 1024`, and otherwise `float64(b) / 1024^e` printed with one
decimal (the nearest, a tie to the even digit), a space, the `e`-th letter of
`KMGTPE` and `B`, where `e` is the exponent in 1..6 with
`1024^e <= b < 1024^(e+1)` and `float64(b)` is `b` rounded to 53 significant
bits; for `b < 2^53` that is `b / 1024^e` itself (1500 gives `1.5 KB`, 1500000
gives `1.4 MB`).  `monitor.formatBytes` returns the same string. -/
theorem FormatBytes_spec (b : Nat) (h : b < 2 ^ 64) :
    FormatBytes b
        = some (formatBytesText b
            ⟨(float64OfNat b).num, (float64OfNat b).den * 1024 ^ unitExponent b⟩)
      ∧ (1024 ≤ b → 1 ≤ unitExponent b ∧ unitExponent b ≤ 6
          ∧ 1024 ^ unitExponent b ≤ b ∧ b < 1024 ^ (unitExponent b + 1))
      ∧ (b < 2 ^ 53 →
          FormatBytes b = some (formatBytesText b ⟨b, 1024 ^ unitExponent b⟩))
      ∧ formatBytes b = FormatBytes b
      ∧ FormatBytes 500 = some (ascii "500 B")
      ∧ FormatBytes 1500 = some (ascii "1.5 KB")
      ∧ FormatBytes 1500000 = some (ascii "1.4 MB") := by
  have hmain : FormatBytes b
      = some (formatBytesText b
          ⟨(float64OfNat b).num, (float64OfNat b).den * 1024 ^ unitExponent b⟩) := by
    by_cases hb : b < 1024
    · simp only [FormatBytes, formatBytesText, if_pos hb]
    · rw [FormatBytes_float b (by omega) h]
      simp only [formatBytesText, if_neg hb]
  refine ⟨hmain, fun h1 => unitExponent_spec b h1 h, ?_, rfl, by rfl, by rfl, by rfl⟩
  intro h53
  rw [hmain]
  by_cases hb : b < 1024
  · simp only [formatBytesText, if_pos hb]
  · simp only [formatBytesText, if_neg hb]
    have hx := roundFloat64_isFloat b 1 (by decide)
    have hex := float64OfNat_exact b 0 h53
    simp only [pow_zero, Nat.mul_one] at hex
    have : fmtFixed 1 ⟨(float64OfNat b).num, (float64OfNat b).den * 1024 ^ unitExponent b⟩
        = fmtFixed 1 ⟨b, 1024 ^ unitExponent b⟩ := by
      apply fmtFixed_congr 1 _ _ (Nat.mul_pos hx.1.1 (pow_pos (by decide) _))
        (pow_pos (by decide) _)
      show (float64OfNat b).num * 1024 ^ unitExponent b
        = b * ((float64OfNat b).den * 1024 ^ unitExponent b)
      rw [hex]; ring
    rw [this]

/-- C17, an instance: 1500 bytes. -/
theorem FormatBytes_spec_witness :
    (1500 : Nat) < 2 ^ 64 ∧ (1500 : Nat) < 2 ^ 53
      ∧ FormatBytes 1500 = some (formatBytesText 1500 ⟨1500, 1024 ^ unitExponent 1500⟩)
      ∧ formatBytesText 1500 ⟨1500, 1024 ^ unitExponent 1500⟩ = ascii "1.5 KB" :=
  ⟨by norm_num, by norm_num,
    (FormatBytes_spec 1500 (by norm_num)).2.2.1 (by norm_num), by rfl⟩

/-! ## Theorems: `FormatDuration` -/

set_option maxRecDepth 100000 in
/-- C19: the duration of 4097 hours less one nanosecond has 4096 whole hours
and 59 whole minutes modulo 60, and `FormatDuration` prints `4097 h 59 min`:
`Hours()` adds `float64(4096)` and a fraction so near to 1 that the sum rounds
to `4097`.  The examples of the claim hold: 0 gives `0 µs`, 90 seconds
`1 min 30 s`, 90 minutes `1 h 30 min`. -/
theorem FormatDuration_hours_off :
    (Hour : Int) ≤ 14749199999999999
      ∧ (14749199999999999 : Nat) / Hour = 4096
      ∧ (14749199999999999 : Nat) / Minute % 60 = 59
      ∧ float64ToInt (Duration.Hours 14749199999999999) = 4097
      ∧ float64ToInt (Duration.Minutes 14749199999999999) % 60 = 59
      ∧ FormatDuration 14749199999999999 = ascii "4097 h 59 min"
      ∧ FormatDuration 0 = [48, 32, 0xC2, 0xB5, 115]
      ∧ FormatDuration 90000000000 = ascii "1 min 30 s"
      ∧ FormatDuration 5400000000000 = ascii "1 h 30 min" := by
  refine ⟨by decide, by rfl, by rfl, by rfl, by rfl, by rfl, by rfl, by rfl, by rfl⟩

/-! ## Theorems: the bounds of `FormatBytes` -/

/-- C28: for every `uint64` from 1024 on (a smaller one returns before the
loop), the loop of `FormatBytes` ends with `exp <= 5` and the divisor
`div = 1024^(exp+1) <= 2^60`, which did not wrap, and `1 <= b/div < 1024`;
the index into `KMGTPE` is in range, so that `FormatBytes` and
`monitor.formatBytes` return a string. -/
theorem FormatBytes_in_range (b : Nat) (h1 : 1024 ≤ b) (h2 : b < 2 ^ 64) :
    (unitLoop (b / 1024) (b / 1024) 1024 0).2 ≤ 5
      ∧ (unitLoop (b / 1024) (b / 1024) 1024 0).1
          = 1024 ^ ((unitLoop (b / 1024) (b / 1024) 1024 0).2 + 1)
      ∧ (unitLoop (b / 1024) (b / 1024) 1024 0).1 ≤ 2 ^ 60
      ∧ 1 ≤ b / (unitLoop (b / 1024) (b / 1024) 1024 0).1
      ∧ b / (unitLoop (b / 1024) (b / 1024) 1024 0).1 < 1024
      ∧ (unitLoop (b / 1024) (b / 1024) 1024 0).2 < (ascii "KMGTPE").length
      ∧ (∃ text, FormatBytes b = some text)
      ∧ (∃ text, formatBytes b = some text) := by
  obtain ⟨e1, e2, e3, e4⟩ := unitExponent_spec b h1 h2
  obtain ⟨j, hj⟩ : ∃ j, unitExponent b = j + 1 := ⟨unitExponent b - 1, by omega⟩
  rw [hj] at e2 e3 e4
  have hp : (1024 : Nat) ^ (j + 1) = 1024 ^ j * 1024 := pow_succ 1024 j
  have hp2 : (1024 : Nat) ^ (j + 1 + 1) = 1024 ^ (j + 1) * 1024 := pow_succ 1024 (j + 1)
  have hlt : j < 1024 ^ j := Nat.lt_pow_self (by decide) j
  have hle : (1024 : Nat) ^ (j + 1) ≤ 1024 ^ 6 := Nat.pow_le_pow_right (by decide) (by omega)
  have h60 : (1024 : Nat) ^ 6 = 2 ^ 60 := by norm_num
  have hpos : 0 < (1024 : Nat) ^ (j + 1) := pow_pos (by decide) _
  have hn1 : 1024 ^ j ≤ b / 1024 := (Nat.le_div_iff_mul_le (by decide)).mpr (by omega)
  have hn2 : b / 1024 < 1024 ^ (j + 1) := (Nat.div_lt_iff_lt_mul (by decide)).mpr (by omega)
  have hloop := unitLoop_spec j (b / 1024) (b / 1024) 1024 0 hn1 hn2 (by omega)
    (by rw [Nat.mul_comm, ← hp]; omega)
  have hdiv : 1024 * 1024 ^ j = 1024 ^ (j + 1) := by rw [hp]; ring
  rw [hdiv, Nat.zero_add] at hloop
  have hfloat := FormatBytes_float b h1 h2
  rw [hloop]
  refine ⟨by simp only; omega, rfl, by simp only; omega, ?_, ?_, ?_, ⟨_, hfloat⟩, ⟨_, hfloat⟩⟩
  · exact (Nat.le_div_iff_mul_le hpos).mpr (by omega)
  · exact (Nat.div_lt_iff_lt_mul hpos).mpr (by rw [Nat.mul_comm, ← hp2]; exact e4)
  · have : (ascii "KMGTPE").length = 6 := rfl
    rw [this]; simp only; omega

/-- C28, an instance: the largest `uint64`. -/
theorem FormatBytes_in_range_witness :
    (1024 : Nat) ≤ 2 ^ 64 - 1 ∧ (2 ^ 64 - 1 : Nat) < 2 ^ 64
      ∧ (unitLoop ((2 ^ 64 - 1) / 1024) ((2 ^ 64 - 1) / 1024) 1024 0).2 ≤ 5 :=
  ⟨by norm_num, by norm_num, (FormatBytes_in_range (2 ^ 64 - 1) (by norm_num) (by norm_num)).1⟩

/-! ## Theorems: the slice bound of `TruncateString` -/

/-- C29, as stated, fails: for the smallest `int`, `maxLen - 3` wraps to
`2^63 - 3`, which is not negative; the call on `abc` fails all the same, the
bound lying beyond the three bytes of the string. -/
theorem TruncateString_bound_wraps :
    ((ascii "abc").length : Int) > -(2 ^ 63) ∧ (-(2 ^ 63) : Int) < 3
      ∧ wrapInt64 (-(2 ^ 63) - 3) = 2 ^ 63 - 3
      ∧ ¬ wrapInt64 (-(2 ^ 63) - 3) < 0
      ∧ TruncateString (ascii "abc") (-(2 ^ 63)) = none := by
  refine ⟨by decide, by decide, by decide, by decide, by decide⟩

/-- C29, amended: for a string shorter than `2^63 - 3` bytes and every `int`
`maxLen`, the call fails on its slice bound exactly when `len(s) > maxLen` and
`maxLen < 3`; the bound `maxLen - 3` is then negative or, for the three
smallest values of `maxLen`, wraps to a value beyond `len(s)`.  For every
other input the bound lies in `0..len(s)`, where it is used, and the call
returns a string. -/
theorem TruncateString_fails_iff (s : Bytes) (maxLen : Int) (hlen : (s.length : Int) < 2 ^ 63 - 3)
    (hmin : -(2 ^ 63) ≤ maxLen) (hmax : maxLen < 2 ^ 63) :
    (TruncateString s maxLen = none ↔ ((s.length : Int) > maxLen ∧ maxLen < 3))
      ∧ ((s.length : Int) > maxLen ∧ maxLen < 3 →
          wrapInt64 (maxLen - 3) < 0 ∨ (s.length : Int) < wrapInt64 (maxLen - 3))
      ∧ ((s.length : Int) > maxLen ∧ maxLen < 3 ∧ -(2 ^ 63) + 3 ≤ maxLen →
          wrapInt64 (maxLen - 3) = maxLen - 3 ∧ maxLen - 3 < 0)
      ∧ ((s.length : Int) > maxLen ∧ 3 ≤ maxLen →
          0 ≤ wrapInt64 (maxLen - 3) ∧ wrapInt64 (maxLen - 3) ≤ (s.length : Int)
            ∧ TruncateString s maxLen
                = some (s.take (maxLen - 3).toNat ++ ascii "..."))
      ∧ ((s.length : Int) ≤ maxLen → TruncateString s maxLen = some s) := by
  have hw : wrapInt64 (maxLen - 3) = maxLen - 3 ∨ wrapInt64 (maxLen - 3) = maxLen - 3 + 2 ^ 64 := by
    unfold wrapInt64; omega
  have hw3 : -(2 ^ 63) + 3 ≤ maxLen → wrapInt64 (maxLen - 3) = maxLen - 3 := by
    intro h; unfold wrapInt64; omega
  have hwlow : maxLen < -(2 ^ 63) + 3 → wrapInt64 (maxLen - 3) = maxLen - 3 + 2 ^ 64 := by
    intro h; unfold wrapInt64; omega
  have hbad : (s.length : Int) > maxLen ∧ maxLen < 3 →
      wrapInt64 (maxLen - 3) < 0 ∨ (s.length : Int) < wrapInt64 (maxLen - 3) := by
    rintro ⟨_, h3⟩
    by_cases hc : -(2 ^ 63) + 3 ≤ maxLen
    · left; rw [hw3 hc]; omega
    · right; rw [hwlow (by omega)]; omega
  refine ⟨?_, hbad, ?_, ?_, ?_⟩
  · constructor
    · intro hnone
      by_cases h1 : (s.length : Int) ≤ maxLen
      · simp [TruncateString, h1] at hnone
      · refine ⟨by omega, ?_⟩
        by_contra h3
        have h3' : 3 ≤ maxLen := by omega
        have hw' := hw3 (by omega)
        have hok : ¬ (maxLen - 3 < 0 ∨ (s.length : Int) < maxLen - 3) := by omega
        simp only [TruncateString, if_neg h1, hw', if_neg hok] at hnone
        cases hnone
    · intro hb
      have h1 : ¬ (s.length : Int) ≤ maxLen := by omega
      simp only [TruncateString, if_neg h1, if_pos (hbad hb)]
  · rintro ⟨_, h3, hc⟩
    exact ⟨hw3 hc, by omega⟩
  · rintro ⟨h1, h3⟩
    have hw' := hw3 (by omega)
    have h1' : ¬ (s.length : Int) ≤ maxLen := by omega
    have hok : ¬ (maxLen - 3 < 0 ∨ (s.length : Int) < maxLen - 3) := by omega
    refine ⟨by rw [hw']; omega, by rw [hw']; omega, ?_⟩
    simp only [TruncateString, if_neg h1', hw', if_neg hok]
  · intro h1
    simp only [TruncateString, if_pos h1]

/-- C29, an instance: `abc` and `maxLen = 2`. -/
theorem TruncateString_fails_iff_witness :
    ((ascii "abc").length : Int) < 2 ^ 63 - 3 ∧ (-(2 ^ 63) : Int) ≤ 2 ∧ (2 : Int) < 2 ^ 63
      ∧ TruncateString (ascii "abc") 2 = none :=
  ⟨by decide, by decide, by decide,
    (TruncateString_fails_iff (ascii "abc") 2 (by decide) (by decide) (by decide)).1.mpr
      ⟨by decide, by decide⟩⟩

/-! ## Theorems: `internal/httpclient` -/

theorem cutColon_append (u p : Bytes) (h : (58 : Byte) ∉ u) :
    cutColon (u ++ [58] ++ p) = some (u, p) := by
  have key : cutColon (u ++ 58 :: p) = some (u, p) := by
    induction u with
    | nil => simp [cutColon]
    | cons c cs ih =>
      have hc : c ≠ 58 := fun e => h (by simp [e])
      have hcs : (58 : Byte) ∉ cs := fun e => h (by simp [e])
      have hi := ih hcs
      rw [List.cons_append, cutColon, if_neg hc, hi]
  simpa using key

theorem parseBasicAuth_basicAuth (u p : Bytes) (h : (58 : Byte) ∉ u) :
    parseBasicAuth (basicAuth u p) = some (u, p) := by
  have h1 : ¬ ((basicAuth u p).length < 6
      ∨ ((basicAuth u p).take 6).map lowerByte ≠ ascii "basic ") := by
    have hlen : (ascii "Basic ").length = 6 := rfl
    have ht : (basicAuth u p).take 6 = ascii "Basic " := by
      unfold basicAuth
      rw [← hlen, List.take_left]
    rw [ht]
    simp only [basicAuth, List.length_append, hlen]
    have : (ascii "Basic ").map lowerByte = ascii "basic " := by decide
    simp [this]
  have hd : (basicAuth u p).drop 6 = EncodeToString encodeStd (u ++ [58] ++ p) := by
    have hlen : (ascii "Basic ").length = 6 := rfl
    unfold basicAuth
    rw [← hlen, List.drop_left]
  unfold parseBasicAuth
  rw [if_neg h1, hd]
  have := decodeLoop_EncodeToString encodeStd goodAlphabet_encodeStd (u ++ [58] ++ p) _
    (le_refl _)
  unfold DecodeString
  rw [this]
  exact cutColon_append u p h

/-- C25: with `--user alice:secret`, the documented form, and no `--password`,
the request carries `Basic YWxpY2U6c2VjcmV0Og==`, the Base64 of
`alice:secret:`: the whole value is the user name and the password is empty,
and a server reads the user `alice` with the password `secret:`, not `secret`.
With the user name and the password given apart, `SendRequest` sets the header
for exactly that user name and password (read back as such when the user name
has no colon), and it sets none for an empty user name. -/
theorem httpRun_user_not_split :
    httpRunAuthorization (ascii "alice:secret") []
        = some (ascii "Basic YWxpY2U6c2VjcmV0Og==")
      ∧ basicAuth (ascii "alice") (ascii "secret") = ascii "Basic YWxpY2U6c2VjcmV0"
      ∧ parseBasicAuth (ascii "Basic YWxpY2U6c2VjcmV0Og==")
          = some (ascii "alice", ascii "secret:")
      ∧ (∀ username password : Bytes, username ≠ [] →
          sendRequestAuthorization username password = some (basicAuth username password))
      ∧ (∀ username password : Bytes, (58 : Byte) ∉ username →
          parseBasicAuth (basicAuth username password) = some (username, password))
      ∧ (∀ password : Bytes, sendRequestAuthorization [] password = none) := by
  refine ⟨by rfl, by rfl, by rfl, ?_, parseBasicAuth_basicAuth, ?_⟩
  · intro u p hu
    simp [sendRequestAuthorization, hu]
  · intro p
    simp [sendRequestAuthorization]

theorem headerValue_head (k v : Bytes) (rest : List (Bytes × Bytes)) :
    headerValue ((k, v) :: rest) k = v := by
  simp [headerValue]

theorem printHeadersRows_eq (headers : List (Bytes × Bytes))
    (h : (headers.map (fun e => e.1)).Nodup) : printHeadersRows headers = headers := by
  unfold printHeadersRows
  simp only [List.map_map]
  have key : ∀ (pre post : List (Bytes × Bytes)), ((pre ++ post).map (fun e => e.1)).Nodup →
      post.map ((fun key => (key, headerValue (pre ++ post) key)) ∘ fun e => e.1) = post := by
    intro pre post
    induction post generalizing pre with
    | nil => intro _; rfl
    | cons e rest ih =>
      intro hnd
      have hlook : ∀ (pre : List (Bytes × Bytes)), (∀ f ∈ pre, f.1 ≠ e.1) →
          headerValue (pre ++ e :: rest) e.1 = e.2 := by
        intro pre
        induction pre with
        | nil => intro _; obtain ⟨k, v⟩ := e; simp [headerValue]
        | cons f pre ih2 =>
          intro hne
          obtain ⟨fk, fv⟩ := f
          have : fk ≠ e.1 := hne (fk, fv) (by simp)
          simp only [List.cons_append, headerValue, if_neg this]
          exact ih2 (fun g hg => hne g (by simp [hg]))
      have hpre : ∀ f ∈ pre, f.1 ≠ e.1 := by
        intro f hf heq
        rw [List.map_append, List.nodup_append] at hnd
        exact hnd.2.2 (List.mem_map_of_mem _ hf) (by simp [heq])
      simp only [List.map_cons, Function.comp, hlook pre hpre]
      have := ih (pre ++ [e]) (by simpa using hnd)
      simp only [List.append_assoc, List.singleton_append, Function.comp] at this
      rw [this]
  have := key [] headers (by simpa using h)
  simpa using this

/-- C27: for the headers `Server` and `Content-Type`, visited in this order by
the `range` loop, `printHeaders` puts the row of `Server` before the row of
`Content-Type`, which is not the ascending order of the keys: the list named
`sortedHeaders` is never sorted.  For every map the rows are its entries, each
key once with its value, in the order of the visit. -/
theorem printHeaders_not_sorted :
    printHeadersRows [(ascii "Server", ascii "nginx"), (ascii "Content-Type", ascii "text/html")]
        = [(ascii "Server", ascii "nginx"), (ascii "Content-Type", ascii "text/html")]
      ∧ bytesLess (ascii "Content-Type") (ascii "Server") = true
      ∧ ascendingKeys (printHeadersRows
          [(ascii "Server", ascii "nginx"), (ascii "Content-Type", ascii "text/html")]) = false
      ∧ ∀ headers : List (Bytes × Bytes), (headers.map (fun e => e.1)).Nodup →
          printHeadersRows headers = headers := by
  refine ⟨by rfl, by rfl, by rfl, printHeadersRows_eq⟩

/-! ## Theorems: `GenerateNumber` -/

theorem randInt_of_pos (src : RandSource) (k : Nat) (bound : Int) (h : 0 < bound) :
    randInt src k bound
      = match src k with
        | .error e => some (.error e)
        | .ok raw => some (.ok (raw % bound.toNat)) := by
  have h1 : ¬ bound ≤ 0 := by omega
  unfold randInt
  rw [if_neg h1] <;> cases src k <;> rfl

/-- The loop of the integer mode with a positive bound does not panic: it ends
with the error of the first draw that fails, or with `count` numbers
`n + min`, each `n` below the bound. -/
theorem randomInts_spec (src : RandSource) (range64 min : Int) (h : 0 < range64) :
    ∀ (count k : Nat),
      (∃ e j, j < count ∧ src (k + j) = .error e
          ∧ randomInts src range64 min count k = some (.error e))
        ∨ (∃ ns : List Nat, randomInts src range64 min count k
              = some (.ok (ns.map (fun (n : Nat) => itoaInt (wrapInt64 ((n : Int) + min)))))
            ∧ ns.length = count ∧ (∀ n ∈ ns, (n : Int) < range64)
            ∧ ∀ j < count, ∃ raw, src (k + j) = .ok raw) := by
  intro count
  induction count with
  | zero => intro k; exact Or.inr ⟨[], rfl, rfl, by simp, by simp⟩
  | succ c ih =>
    intro k
    rw [randomInts, randInt_of_pos src k range64 h]
    cases hs : src k with
    | error e => exact Or.inl ⟨e, 0, by omega, hs, rfl⟩
    | ok raw =>
      have hlt : ((raw % range64.toNat : Nat) : Int) < range64 := by
        have : raw % range64.toNat < range64.toNat := Nat.mod_lt _ (by omega)
        omega
      simp only
      rcases ih (k + 1) with ⟨e, j, hj, hsj, hr⟩ | ⟨ns, hr, hlen, hmem, hall⟩
      · rw [hr]
        exact Or.inl ⟨e, j + 1, by omega, by rw [← hsj]; congr 1; omega, rfl⟩
      · rw [hr]
        refine Or.inr ⟨raw % range64.toNat :: ns, rfl, by simp [hlen], ?_, ?_⟩
        · intro n hn
          rcases List.mem_cons.mp hn with rfl | hn
          · exact hlt
          · exact hmem n hn
        · intro j hj
          cases j with
          | zero => exact ⟨raw, hs⟩
          | succ j =>
            obtain ⟨r, hr⟩ := hall j (by omega)
            exact ⟨r, by rw [← hr]; congr 1; omega⟩

theorem randomInts_panic (src : RandSource) (range64 min : Int) (h : range64 ≤ 0)
    (count k : Nat) : randomInts src range64 min (count + 1) k = none := by
  simp only [randomInts, randInt, if_pos h]

/-- C21, as stated, fails: the count `2^62` is not negative, and for it
`make([]string, count)` panics, the size of the slice being beyond a `uintptr`,
whatever the allocator serves. -/
theorem GenerateNumber_count_out_of_range :
    (1 : Int) ≤ 100 ∧ (100 : Int) - 1 + 1 < 2 ^ 63 ∧ (0 : Int) ≤ 2 ^ 62
      ∧ ∀ (L : Lib) (maxAlloc : Nat) (src : RandSource) (bsrc : ByteSource) (w : Writer),
          Generator.GenerateNumber L maxAlloc src bsrc (NewGenerator w) 1 100 (2 ^ 62) false
            (ascii "string") = none := by
  refine ⟨by decide, by decide, by decide, fun L maxAlloc src bsrc w => ?_⟩
  have hp : makeslicePanics maxAlloc 16 (2 ^ 62) = true :=
    (makeslicePanics_iff maxAlloc 16 (2 ^ 62)).mpr (Or.inr (Or.inl (by norm_num)))
  simp only [Generator.GenerateNumber, hp, Bool.false_eq_true, ↓reduceIte]

/-- C21, amended: for `int64` values `min <= max` with `max - min + 1` below
`2^63`, a count that is not negative and every random source: when the slice
of the results can be made, `16 * count` bytes being within `maxAlloc` and a
`uintptr`, `GenerateNumber` in integer mode does not panic: either a draw
among the first `count` fails and that error is returned with nothing written,
or no draw fails and exactly `count` integers `v` with `min <= v <= max`,
printed in decimal, go to `outputResult`, which for the format `string` writes
each and a newline.  When the slice cannot be made, `make` panics. -/
theorem GenerateNumber_integers (L : Lib) (maxAlloc : Nat) (src : RandSource)
    (bsrc : ByteSource) (w : Writer) (min max count : Int) (format : Bytes)
    (hmin : -(2 ^ 63) ≤ min) (hmax : max < 2 ^ 63)
    (hle : min ≤ max) (hrange : max - min + 1 < 2 ^ 63) (hc : 0 ≤ count) :
    (count * 16 ≤ maxAlloc → count * 16 < 2 ^ 64 →
        ((∃ e k, k < count.toNat ∧ src k = .error e
          ∧ Generator.GenerateNumber L maxAlloc src bsrc (NewGenerator w) min max count false
              format = some (some (.random e), NewGenerator w))
        ∨ (∃ vs : List Int, (∀ k < count.toNat, ∃ raw, src k = .ok raw)
            ∧ Generator.GenerateNumber L maxAlloc src bsrc (NewGenerator w) min max count false
                format = some (Generator.outputResult L (NewGenerator w) (vs.map itoaInt) format)
            ∧ (vs.length : Int) = count
            ∧ ∀ v ∈ vs, min ≤ v ∧ v ≤ max)))
      ∧ (((maxAlloc : Int) < count * 16 ∨ 2 ^ 64 ≤ count * 16) →
          Generator.GenerateNumber L maxAlloc src bsrc (NewGenerator w) min max count false
            format = none)
      ∧ ∀ strs : List Bytes,
          Generator.outputResult L (NewGenerator NewBuffer) strs (ascii "string")
            = (none, ⟨⟨strs.map (fun s => s ++ [10]), none⟩⟩) := by
  have hw : wrapInt64 (max - min + 1) = max - min + 1 := by unfold wrapInt64; omega
  have hpos : 0 < max - min + 1 := by omega
  refine ⟨?_, ?_, ?_⟩
  · intro hcm hc64
    have h1 : makeslicePanics maxAlloc 16 count = false :=
      makeslicePanics_false maxAlloc 16 count hc (by exact_mod_cast hcm) (by exact_mod_cast hc64)
    have hrun : Generator.GenerateNumber L maxAlloc src bsrc (NewGenerator w) min max count
        false format
        = match randomInts src (max - min + 1) min count.toNat 0 with
          | none => none
          | some (.error e) => some (some (.random e), NewGenerator w)
          | some (.ok ints) => some ((NewGenerator w).outputResult L ints format) := by
      simp only [Generator.GenerateNumber, Bool.false_eq_true, if_false, hw, h1]
    rw [hrun]
    rcases randomInts_spec src (max - min + 1) min hpos count.toNat 0 with
      ⟨e, j, hj, hsj, hr⟩ | ⟨ns, hr, hlen, hmem, hall⟩
    · rw [hr]
      rw [Nat.zero_add] at hsj
      exact Or.inl ⟨e, j, hj, hsj, rfl⟩
    · rw [hr]
      refine Or.inr ⟨ns.map (fun (n : Nat) => wrapInt64 ((n : Int) + min)), ?_, ?_, ?_, ?_⟩
      · intro k hk
        obtain ⟨r, hr⟩ := hall k hk
        rw [Nat.zero_add] at hr
        exact ⟨r, hr⟩
      · simp only [List.map_map]; rfl
      · rw [List.length_map, hlen]; omega
      · intro v hv
        obtain ⟨n, hn, rfl⟩ := List.mem_map.mp hv
        have := hmem n hn
        have hwv : wrapInt64 ((n : Int) + min) = (n : Int) + min := by unfold wrapInt64; omega
        rw [hwv]; omega
  · intro hbig
    have hp : makeslicePanics maxAlloc 16 count = true := by
      refine (makeslicePanics_iff maxAlloc 16 count).mpr ?_
      rcases hbig with h | h
      · exact Or.inr (Or.inr (by exact_mod_cast h))
      · exact Or.inr (Or.inl (by exact_mod_cast h))
    simp only [Generator.GenerateNumber, hp, Bool.false_eq_true, ↓reduceIte]
  · intro strs
    have := writeLines_unbounded strs []
    simp only [List.nil_append] at this
    simp only [Generator.outputResult, NewGenerator, NewBuffer, if_true, this]

set_option maxRecDepth 100000 in
/-- C21, an instance: two numbers from 1 to 100 for the draws 7 and 8, with
the `maxAlloc` of linux/amd64. -/
theorem GenerateNumber_integers_witness :
    (-(2 ^ 63) : Int) ≤ 1 ∧ (100 : Int) < 2 ^ 63 ∧ (1 : Int) ≤ 100
      ∧ (100 : Int) - 1 + 1 < 2 ^ 63 ∧ (0 : Int) ≤ 2
      ∧ (2 : Int) * 16 ≤ ((2 ^ 48 : Nat) : Int) ∧ (2 : Int) * 16 < 2 ^ 64
      ∧ Generator.GenerateNumber Lib.failing (2 ^ 48) (fun k => .ok (7 + k)) (fun _ => .ok [])
          (NewGenerator NewBuffer) 1 100 2 false (ascii "string")
          = some (none, ⟨⟨[ascii "8\n", ascii "9\n"], none⟩⟩)
      ∧ ((∃ e k, k < (2 : Int).toNat ∧ (fun k => Except.ok (7 + k) : RandSource) k = .error e
          ∧ Generator.GenerateNumber Lib.failing (2 ^ 48) (fun k => .ok (7 + k))
              (fun _ => .ok []) (NewGenerator NewBuffer) 1 100 2 false (ascii "string")
              = some (some (.random e), NewGenerator NewBuffer))
        ∨ (∃ vs : List Int,
            (∀ k < (2 : Int).toNat, ∃ raw, (fun k => Except.ok (7 + k) : RandSource) k = .ok raw)
            ∧ Generator.GenerateNumber Lib.failing (2 ^ 48) (fun k => .ok (7 + k))
                (fun _ => .ok []) (NewGenerator NewBuffer) 1 100 2 false (ascii "string")
                = some (Generator.outputResult Lib.failing (NewGenerator NewBuffer)
                    (vs.map itoaInt) (ascii "string"))
            ∧ (vs.length : Int) = 2
            ∧ ∀ v ∈ vs, (1 : Int) ≤ v ∧ v ≤ 100)) :=
  ⟨by decide, by decide, by decide, by decide, by decide, by norm_num, by norm_num, by rfl,
    (GenerateNumber_integers Lib.failing (2 ^ 48) (fun k => .ok (7 + k)) (fun _ => .ok [])
      NewBuffer 1 100 2 (ascii "string") (by decide) (by decide) (by decide) (by decide)
      (by decide)).1 (by norm_num) (by norm_num)⟩

set_option maxRecDepth 100000 in
/-- C30, as stated, fails: for `min` the largest and `max` the smallest
`int64`, where `max < min`, the bound `max - min + 1` wraps to `2`, which is
positive, and the call returns a number instead of failing; and with a count
of zero `rand.Int` is not called, whatever the bound (with the `maxAlloc` of
linux/amd64). -/
theorem GenerateNumber_bound_wraps_positive :
    (-(2 ^ 63) : Int) < 2 ^ 63 - 1
      ∧ wrapInt64 (-(2 ^ 63) - (2 ^ 63 - 1) + 1) = 2
      ∧ (∀ L : Lib, Generator.GenerateNumber L (2 ^ 48) (fun _ => .ok 0) (fun _ => .ok [])
          (NewGenerator NewBuffer) (2 ^ 63 - 1) (-(2 ^ 63)) 1 false (ascii "string")
          = some (none, ⟨⟨[ascii "9223372036854775807\n"], none⟩⟩))
      ∧ wrapInt64 (100 - 200 + 1) ≤ 0
      ∧ (∀ L : Lib, Generator.GenerateNumber L (2 ^ 48) (fun _ => .ok 0) (fun _ => .ok [])
          (NewGenerator NewBuffer) 200 100 0 false (ascii "string")
          = some (none, ⟨⟨[], none⟩⟩)) := by
  refine ⟨by decide, by decide, fun L => by rfl, by decide, fun L => by rfl⟩

/-- C30, amended: in integer mode `GenerateNumber` calls `rand.Int` with the
bound `max - min + 1` in wrapping `int64` arithmetic, and with a count of at
least one it panics exactly when the slice of the results cannot be made,
`16 * count` bytes being beyond `maxAlloc` or a `uintptr`, or that bound is
not positive: that is when `max < min` with `min - max <= 2^63 + 1`, or when
`min <= max` with `max - min + 1 >= 2^63`.  From the command line, an only
argument `min` above the default `max` of 100 gets there: no check compares it
with `max`. -/
theorem GenerateNumber_panics_iff (L : Lib) (maxAlloc : Nat) (src : RandSource)
    (bsrc : ByteSource) (w : Writer) (min max count : Int) (format : Bytes)
    (hmin : -(2 ^ 63) ≤ min ∧ min < 2 ^ 63) (hmax : -(2 ^ 63) ≤ max ∧ max < 2 ^ 63)
    (hc : 1 ≤ count) :
    (Generator.GenerateNumber L maxAlloc src bsrc (NewGenerator w) min max count false format
          = none
        ↔ ((maxAlloc : Int) < count * 16 ∨ 2 ^ 64 ≤ count * 16
            ∨ wrapInt64 (max - min + 1) ≤ 0))
      ∧ (wrapInt64 (max - min + 1) ≤ 0
        ↔ (max < min ∧ min - max ≤ 2 ^ 63 + 1) ∨ (min ≤ max ∧ 2 ^ 63 ≤ max - min + 1))
      ∧ (∀ (parseInt atoi : Bytes → Option Int) (a : Bytes), parseInt a = some min →
          100 < min →
          numberRun L maxAlloc src bsrc parseInt atoi [a] false format w = (.panic, w)) := by
  obtain ⟨c, hcn⟩ : ∃ c, count.toNat = c + 1 := ⟨count.toNat - 1, by omega⟩
  have hmk : makeslicePanics maxAlloc 16 count = true
      ↔ ((maxAlloc : Int) < count * 16 ∨ (2 : Int) ^ 64 ≤ count * 16) := by
    rw [makeslicePanics_iff]
    constructor
    · rintro (h | h | h)
      · omega
      · exact Or.inr (by exact_mod_cast h)
      · exact Or.inl (by exact_mod_cast h)
    · rintro (h | h)
      · exact Or.inr (Or.inr (by exact_mod_cast h))
      · exact Or.inr (Or.inl (by exact_mod_cast h))
  have hrun : makeslicePanics maxAlloc 16 count = false →
      Generator.GenerateNumber L maxAlloc src bsrc (NewGenerator w) min max count false format
      = match randomInts src (wrapInt64 (max - min + 1)) min count.toNat 0 with
        | none => none
        | some (.error e) => some (some (.random e), NewGenerator w)
        | some (.ok ints) => some ((NewGenerator w).outputResult L ints format) := by
    intro h
    simp only [Generator.GenerateNumber, Bool.false_eq_true, if_false, h]
  have hrun1 : makeslicePanics maxAlloc 16 count = true →
      Generator.GenerateNumber L maxAlloc src bsrc (NewGenerator w) min max count false format
      = none := by
    intro h
    simp only [Generator.GenerateNumber, Bool.false_eq_true, if_false, h, ↓reduceIte]
  refine ⟨?_, ?_, ?_⟩
  · cases hp : makeslicePanics maxAlloc 16 count with
    | true =>
      rw [hrun1 hp]
      rcases hmk.mp hp with h | h
      · exact ⟨fun _ => Or.inl h, fun _ => rfl⟩
      · exact ⟨fun _ => Or.inr (Or.inl h), fun _ => rfl⟩
    | false =>
      have hnot : ¬ ((maxAlloc : Int) < count * 16 ∨ (2 : Int) ^ 64 ≤ count * 16) := by
        intro h
        rw [hmk.mpr h] at hp
        cases hp
      rw [hrun hp]
      constructor
      · intro hnone
        refine Or.inr (Or.inr ?_)
        by_contra hpos
        have hpos' : 0 < wrapInt64 (max - min + 1) := by omega
        rcases randomInts_spec src _ min hpos' count.toNat 0 with
          ⟨e, j, _, _, hr⟩ | ⟨ns, hr, _, _, _⟩
        · rw [hr] at hnone; cases hnone
        · rw [hr] at hnone; cases hnone
      · rintro (h | h | hle)
        · exact absurd (Or.inl h) hnot
        · exact absurd (Or.inr h) hnot
        · rw [hcn, randomInts_panic src _ min hle c 0]
  · unfold wrapInt64
    omega
  · intro parseInt atoi a hp h100
    have hw : wrapInt64 (100 - min + 1) ≤ 0 := by unfold wrapInt64; omega
    have hpanic : Generator.GenerateNumber L maxAlloc src bsrc (NewGenerator w) min 100 1 false
        format = none := by
      cases hm : makeslicePanics maxAlloc 16 1 with
      | true => simp only [Generator.GenerateNumber, Bool.false_eq_true, if_false, hm, ↓reduceIte]
      | false =>
        simp only [Generator.GenerateNumber, Bool.false_eq_true, if_false, hm]
        have e1 : (1 : Int).toNat = 0 + 1 := rfl
        rw [e1, randomInts_panic src _ min hw 0 0]
    simp only [numberRun, hp, List.drop, hpanic]

/-- C30, an instance: `min = 200`, `max = 100`, one number, with the `maxAlloc`
of linux/amd64. -/
theorem GenerateNumber_panics_iff_witness :
    ((-(2 ^ 63) : Int) ≤ 200 ∧ (200 : Int) < 2 ^ 63) ∧ ((-(2 ^ 63) : Int) ≤ 100 ∧ (100 : Int) < 2 ^ 63)
      ∧ (1 : Int) ≤ 1
      ∧ Generator.GenerateNumber Lib.failing (2 ^ 48) (fun _ => .ok 0) (fun _ => .ok [])
          (NewGenerator NewBuffer) 200 100 1 false (ascii "string") = none :=
  ⟨by decide, by decide, by decide,
    (GenerateNumber_panics_iff Lib.failing (2 ^ 48) (fun _ => .ok 0) (fun _ => .ok []) NewBuffer
      200 100 1 (ascii "string") (by decide) (by decide) (by decide)).1.mpr
      (Or.inr (Or.inr (by decide)))⟩
theorem randomBits_lt (b0 b1 b2 b3 : Byte) :
    b0.val ||| b1.val <<< 8 ||| b2.val <<< 16 ||| b3.val <<< 24 < 2 ^ 32 := by
  have h0 := b0.isLt
  have h1 := b1.isLt
  have h2 := b2.isLt
  have h3 := b3.isLt
  have e1 : b1.val <<< 8 = b1.val * 256 := by rw [Nat.shiftLeft_eq]
  have e2 : b2.val <<< 16 = b2.val * 65536 := by rw [Nat.shiftLeft_eq]
  have e3 : b3.val <<< 24 = b3.val * 16777216 := by rw [Nat.shiftLeft_eq]
  apply Nat.or_lt_two_pow
  · apply Nat.or_lt_two_pow
    · apply Nat.or_lt_two_pow
      · omega
      · rw [e1]; omega
    · rw [e2]; omega
  · rw [e3]; omega

/-- The quotient of an integer below `2^32` by `2^32` is not negative and lies
below one. -/
theorem fraction_below_one (k : Nat) (hk : k < 2 ^ 32) :
    (Float64.div (Float64.ofInt k) (Float64.ofInt (2 ^ 32))).isNegative = false
      ∧ (Float64.div (Float64.ofInt k) (Float64.ofInt (2 ^ 32))).aboveOne = false
      ∧ (Float64.div (Float64.ofInt k) (Float64.ofInt (2 ^ 32))).abs.num * 2 ^ 32
          = k * (Float64.div (Float64.ofInt k) (Float64.ofInt (2 ^ 32))).abs.den
      ∧ 0 < (Float64.div (Float64.ofInt k) (Float64.ofInt (2 ^ 32))).abs.den := by
  have hneg : (Float64.div (Float64.ofInt k) (Float64.ofInt (2 ^ 32))).neg = false := by
    have h1 : ¬ ((k : Int) < 0) := by omega
    have h2 : ¬ ((2 ^ 32 : Int) < 0) := by norm_num
    simp [Float64.div, Float64.ofInt, h1, h2]
  have habs : (Float64.div (Float64.ofInt k) (Float64.ofInt (2 ^ 32))).abs
      = float64Div (float64OfNat k) (float64OfNat (2 ^ 32)) := by
    simp only [Float64.div, Float64.ofInt, Int.natAbs_ofNat]
    rfl
  have hy := roundFloat64_isFloat (2 ^ 32) 1 (by decide)
  have hyv : (float64OfNat (2 ^ 32)).num = 2 ^ 32 * (float64OfNat (2 ^ 32)).den := by
    have := float64OfNat_exact 1 32 (by norm_num)
    rw [Nat.one_mul] at this
    exact this
  have hx := roundFloat64_isFloat k 1 (by decide)
  have hxv : (float64OfNat k).num = k * (float64OfNat k).den := by
    have := float64OfNat_exact k 0 (by omega)
    simpa using this
  have hval : (float64Div (float64OfNat k) (float64OfNat (2 ^ 32))).num * 2 ^ 32
        = k * (float64Div (float64OfNat k) (float64OfNat (2 ^ 32))).den
      ∧ 0 < (float64Div (float64OfNat k) (float64OfNat (2 ^ 32))).den := by
    by_cases hk0 : k = 0
    · subst hk0
      have : float64Div (float64OfNat 0) (float64OfNat (2 ^ 32)) = ⟨0, 1⟩ := by
        simp [float64Div, float64OfNat, roundFloat64]
      rw [this]; simp
    · have hq := float64Div_pow2 (float64OfNat k) (float64OfNat (2 ^ 32)) hx.1
        (hx.2 (by omega)) 32 hyv hy.1.1
      refine ⟨?_, hq.1⟩
      have hs := hq.2
      unfold Frac.same at hs
      simp only at hs
      rw [hxv] at hs
      apply Nat.eq_of_mul_eq_mul_right hx.1.1
      calc (float64Div (float64OfNat k) (float64OfNat (2 ^ 32))).num * 2 ^ 32
            * (float64OfNat k).den
          = (float64Div (float64OfNat k) (float64OfNat (2 ^ 32))).num
            * ((float64OfNat k).den * 2 ^ 32) := by ring
        _ = k * (float64OfNat k).den
            * (float64Div (float64OfNat k) (float64OfNat (2 ^ 32))).den := hs
        _ = k * (float64Div (float64OfNat k) (float64OfNat (2 ^ 32))).den
            * (float64OfNat k).den := by ring
  rw [← habs] at hval
  refine ⟨by unfold Float64.isNegative; rw [hneg]; rfl, ?_, hval.1, hval.2⟩
  have hlt : (Float64.div (Float64.ofInt k) (Float64.ofInt (2 ^ 32))).abs.num
      < (Float64.div (Float64.ofInt k) (Float64.ofInt (2 ^ 32))).abs.den ∨
      (Float64.div (Float64.ofInt k) (Float64.ofInt (2 ^ 32))).abs.den
      ≤ (Float64.div (Float64.ofInt k) (Float64.ofInt (2 ^ 32))).abs.num := by omega
  rcases hlt with hlt | hge
  · unfold Float64.aboveOne
    rw [hneg]
    simp only [Bool.not_false, Bool.true_and, decide_eq_false_iff_not]
    omega
  · exfalso
    have h1 := Nat.mul_le_mul_right (2 ^ 32) hge
    have h2 : k * (Float64.div (Float64.ofInt k) (Float64.ofInt (2 ^ 32))).abs.den
        < 2 ^ 32 * (Float64.div (Float64.ofInt k) (Float64.ofInt (2 ^ 32))).abs.den :=
      Nat.mul_lt_mul_of_pos_right hk hval.2
    rw [← hval.1] at h2
    have h3 : (Float64.div (Float64.ofInt k) (Float64.ofInt (2 ^ 32))).abs.den * 2 ^ 32
        = 2 ^ 32 * (Float64.div (Float64.ofInt k) (Float64.ofInt (2 ^ 32))).abs.den :=
      Nat.mul_comm _ _
    omega

set_option maxRecDepth 100000 in
/-- C22: for `min = -5000000000000000000`, `max = 5000000000000000000` and
the random bytes `00 00 00 80 ..`, whose fraction `n` is one half,
`GenerateNumber` in float mode prints `-9223372036854775808.000000`, a value
far below `min`: `max - min` wraps to `-8446744073709551616` in `int64`, so
that `diff` is negative.  The fraction itself is as claimed for all random
bytes: the integer of the first four bytes over `2^32`, not negative and below
one, so that neither correction is taken; and with `min = 1`, `max = 100` the
same bytes give `50.500000` (the slices of one element are made with the
`maxAlloc` of linux/amd64). -/
theorem GenerateNumber_float_below_min :
    (-5000000000000000000 : Int) ≤ 5000000000000000000
      ∧ wrapInt64 (5000000000000000000 - (-5000000000000000000)) = -8446744073709551616
      ∧ (∀ L : Lib, Generator.GenerateNumber L (2 ^ 48) (fun _ => .ok 0)
          (fun _ => .ok [0, 0, 0, 128, 0, 0, 0, 0]) (NewGenerator NewBuffer)
          (-5000000000000000000) 5000000000000000000 1 true (ascii "string")
          = some (none, ⟨⟨[ascii "-9223372036854775808.000000\n"], none⟩⟩))
      ∧ (∀ L : Lib, Generator.GenerateNumber L (2 ^ 48) (fun _ => .ok 0)
          (fun _ => .ok [0, 0, 0, 128, 0, 0, 0, 0]) (NewGenerator NewBuffer)
          1 100 1 true (ascii "string")
          = some (none, ⟨⟨[ascii "50.500000\n"], none⟩⟩))
      ∧ ∀ randBytes : Bytes,
          randomFraction randBytes
              = Float64.div (Float64.ofInt (((randBytes.getD 0 0).val
                  ||| (randBytes.getD 1 0).val <<< 8 ||| (randBytes.getD 2 0).val <<< 16
                  ||| (randBytes.getD 3 0).val <<< 24 : Nat) : Int)) (Float64.ofInt (2 ^ 32))
            ∧ (randomFraction randBytes).isNegative = false
            ∧ (randomFraction randBytes).abs.num < (randomFraction randBytes).abs.den := by
  refine ⟨by decide, by decide, fun L => by rfl, fun L => by rfl, ?_⟩
  intro randBytes
  have hk := randomBits_lt (randBytes.getD 0 0) (randBytes.getD 1 0) (randBytes.getD 2 0)
    (randBytes.getD 3 0)
  obtain ⟨h1, h2, h3, h4⟩ := fraction_below_one _ hk
  have heq : randomFraction randBytes
      = Float64.div (Float64.ofInt (((randBytes.getD 0 0).val
          ||| (randBytes.getD 1 0).val <<< 8 ||| (randBytes.getD 2 0).val <<< 16
          ||| (randBytes.getD 3 0).val <<< 24 : Nat) : Int)) (Float64.ofInt (2 ^ 32)) := by
    unfold randomFraction
    simp only [h1, h2, Bool.false_eq_true, if_false]
  rw [heq]
  refine ⟨rfl, h1, ?_⟩
  have h5 := Nat.mul_lt_mul_of_pos_right hk h4
  rw [← h3] at h5
  have h6 := Nat.mul_comm (2 ^ 32)
    (Float64.div (Float64.ofInt (((randBytes.getD 0 0).val
          ||| (randBytes.getD 1 0).val <<< 8 ||| (randBytes.getD 2 0).val <<< 16
          ||| (randBytes.getD 3 0).val <<< 24 : Nat) : Int)) (Float64.ofInt (2 ^ 32))).abs.den
  omega

/-! ## Theorems: `GenerateDate` -/

theorem roundFloat64_isNat (num den v : Nat) (hd : 0 < den) (hv : num = v * den)
    (hlt : v < 2 ^ 53) : (roundFloat64 num den).isNat v := by
  by_cases h0 : num = 0
  · have hv0 : v = 0 := by
      rw [h0] at hv
      rcases Nat.mul_eq_zero.mp hv.symm with h | h
      · exact h
      · omega
    subst hv0
    rw [h0]
    exact ⟨by simp [roundFloat64], by simp [roundFloat64]⟩
  · have hn : 0 < num := by omega
    have hE := roundFloat64_exact num den hn hd v 0 0 hlt (by rw [hv]; ring)
    have hF := (roundFloat64_isFloat num den hd).1.1
    refine ⟨hF, ?_⟩
    apply Nat.eq_of_mul_eq_mul_right hd
    rw [hE, hv]; ring

theorem float64OfNat_isNat (v : Nat) (hlt : v < 2 ^ 53) : (float64OfNat v).isNat v :=
  roundFloat64_isNat v 1 v (by decide) (by simp) hlt

theorem float64Add_isNat (x y : Frac) (a b : Nat) (hx : x.isNat a) (hy : y.isNat b)
    (hlt : a + b < 2 ^ 53) : (float64Add x y).isNat (a + b) := by
  apply roundFloat64_isNat _ _ _ (Nat.mul_pos hx.1 hy.1) _ hlt
  rw [hx.2, hy.2]; ring

theorem float64Div_isNat (x y : Frac) (q c : Nat) (hx : x.isNat (q * c)) (hy : y.isNat c)
    (hc : 0 < c) (hlt : q < 2 ^ 53) : (float64Div x y).isNat q := by
  have hyn : 0 < y.num := by rw [hy.2]; exact Nat.mul_pos hc hy.1
  apply roundFloat64_isNat _ _ _ (Nat.mul_pos hx.1 hyn) _ hlt
  rw [hx.2, hy.2]; ring

theorem float64ToInt_isNat (x : Frac) (v : Nat) (hx : x.isNat v) : float64ToInt x = v := by
  unfold float64ToInt
  rw [hx.2]
  exact Nat.mul_div_cancel v hx.1

/-- The days of a difference of whole days that fits in a `Duration`:
`int64(diff.Hours() / 24)` is their number. -/
theorem diffDays_exact (days : Nat) (h : days * nsPerDay ≤ 2 ^ 63 - 1) :
    float64ToInt (float64Div (Duration.Hours (days * nsPerDay)) (float64OfNat 24)) = days := by
  have hD : days ≤ 106751 := by unfold nsPerDay Hour at h; omega
  have h1 : days * nsPerDay / Hour = 24 * days := by unfold nsPerDay Hour; omega
  have h2 : days * nsPerDay % Hour = 0 := by unfold nsPerDay Hour; omega
  have hH : (Duration.Hours (days * nsPerDay)).isNat (days * 24) := by
    unfold Duration.Hours
    rw [h1, h2]
    have ha := float64OfNat_isNat (24 * days) (by omega)
    have hz : (float64OfNat 0).isNat (0 * (60 * 60 * 1000000000)) := by
      simpa using float64OfNat_isNat 0 (by norm_num)
    have hc := float64OfNat_isNat (60 * 60 * 1000000000) (by norm_num)
    have hq := float64Div_isNat _ _ 0 _ hz hc (by norm_num) (by norm_num)
    have := float64Add_isNat _ _ (24 * days) 0 ha hq (by omega)
    have e : 24 * days + 0 = days * 24 := by omega
    rw [e] at this
    exact this
  have h24 := float64OfNat_isNat 24 (by norm_num)
  exact float64ToInt_isNat _ _ (float64Div_isNat _ _ days 24 hH h24 (by decide) (by omega))

set_option maxRecDepth 100000 in
/-- The days of the largest `Duration`. -/
theorem diffDays_saturated :
    float64ToInt (float64Div (Duration.Hours (2 ^ 63 - 1)) (float64OfNat 24)) = 106751 := by
  rfl

theorem getYear_eq_some {s : Bytes} {y : Nat} {r : Bytes} (h : getYear s = some (y, r)) :
    ∃ a b c d, s = a :: b :: c :: d :: r
      ∧ (isDigit a && isDigit b && isDigit c && isDigit d) = true
      ∧ y = (a.val - 48) * 1000 + (b.val - 48) * 100 + (c.val - 48) * 10 + (d.val - 48) := by
  rcases s with _ | ⟨a, _ | ⟨b, _ | ⟨c, _ | ⟨d, rest⟩⟩⟩⟩
  all_goals simp only [getYear] at h
  all_goals try (cases h; done)
  split_ifs at h with hd
  simp only [Option.some.injEq, Prod.mk.injEq] at h
  obtain ⟨rfl, rfl⟩ := h
  exact ⟨a, b, c, d, rfl, hd, rfl⟩

theorem getnum2_eq_some {s : Bytes} {n : Nat} {r : Bytes} (h : getnum2 s = some (n, r)) :
    ∃ a b, s = a :: b :: r ∧ (isDigit a && isDigit b) = true
      ∧ n = (a.val - 48) * 10 + (b.val - 48) := by
  rcases s with _ | ⟨a, _ | ⟨b, rest⟩⟩
  all_goals simp only [getnum2] at h
  all_goals try (cases h; done)
  split_ifs at h with hd
  simp only [Option.some.injEq, Prod.mk.injEq] at h
  obtain ⟨rfl, rfl⟩ := h
  exact ⟨a, b, rfl, hd, rfl⟩

theorem skipDash_eq_some {s r : Bytes} (h : skipDash s = some r) : s = 45 :: r := by
  rcases s with _ | ⟨c, rest⟩
  all_goals simp only [skipDash] at h
  all_goals try (cases h; done)
  split_ifs at h with hd
  simp only [Option.some.injEq] at h
  rw [hd, h]

/-- `time.Parse` with the layout `2006-01-02` accepts exactly the dates in the
form `YYYY-MM-DD`. -/
theorem timeParseDate_ok_iff (s : Bytes) :
    (∃ day, timeParseDate s = .ok day) ↔ isDateForm s = true := by
  constructor
  · rintro ⟨day, h⟩
    unfold timeParseDate at h
    split at h
    · cases h
    · rename_i year v1 hy
      split at h
      · cases h
      · rename_i v2 hs1
        split at h
        · cases h
        · rename_i month v3 hm
          split_ifs at h with hmr
          split at h
          · cases h
          · rename_i v4 hs2
            split at h
            · cases h
            · rename_i dd v5 hdd
              split_ifs at h with hlen hdr
              obtain ⟨y1, y2, y3, y4, rfl, hyd, rfl⟩ := getYear_eq_some hy
              obtain rfl := skipDash_eq_some hs1
              obtain ⟨m1, m2, rfl, hmd, rfl⟩ := getnum2_eq_some hm
              obtain rfl := skipDash_eq_some hs2
              obtain ⟨d1, d2, rfl, hddd, rfl⟩ := getnum2_eq_some hdd
              have hv5 : v5 = [] := by
                cases v5 with
                | nil => rfl
                | cons a t => simp at hlen
              subst hv5
              simp only [Bool.and_eq_true] at hyd hmd hddd
              obtain ⟨⟨⟨a1, a2⟩, a3⟩, a4⟩ := hyd
              obtain ⟨a5, a6⟩ := hmd
              obtain ⟨a7, a8⟩ := hddd
              simp only [isDateForm, a1, a2, a3, a4, a5, a6, a7, a8, Bool.and_self, decide_True,
                Bool.true_and, Bool.and_eq_true, decide_eq_true_eq]
              omega
  · intro h
    unfold isDateForm at h
    split at h
    · rename_i y1 y2 y3 y4 s1 m1 m2 s2 d1 d2
      simp only [Bool.and_eq_true, decide_eq_true_eq] at h
      obtain ⟨⟨⟨⟨⟨⟨⟨⟨⟨⟨⟨⟨⟨h1, h2⟩, h3⟩, h4⟩, rfl⟩, h5⟩, h6⟩, rfl⟩, h7⟩, h8⟩, h9⟩, h10⟩, h11⟩, h12⟩ := h
      have hm : ¬ ((m1.val - 48) * 10 + (m2.val - 48) = 0 ∨ 12 < (m1.val - 48) * 10 + (m2.val - 48)) := by
        omega
      have hd : ¬ ((d1.val - 48) * 10 + (d2.val - 48) < 1
          ∨ (d1.val - 48) * 10 + (d2.val - 48) > daysIn ((m1.val - 48) * 10 + (m2.val - 48))
              ((y1.val - 48) * 1000 + (y2.val - 48) * 100 + (y3.val - 48) * 10 + (y4.val - 48))) := by
        omega
      refine ⟨dayNumber
        ((y1.val - 48) * 1000 + (y2.val - 48) * 100 + (y3.val - 48) * 10 + (y4.val - 48))
        ((m1.val - 48) * 10 + (m2.val - 48)) ((d1.val - 48) * 10 + (d2.val - 48)), ?_⟩
      simp only [timeParseDate, getYear, skipDash, getnum2, h1, h2, h3, h4, h5, h6, h7, h8,
        Bool.and_self, if_true, if_neg hm, if_neg hd, List.length_nil, ne_eq, not_true_eq_false,
        if_false]
    · cases h

/-- The loop of `GenerateDate` for a number of days from 0 to 106751 does not
panic: it ends with the error of the first draw that fails, or with `count`
dates `start` plus `n` days, each `n` at most `diffDays`. -/
theorem randomDates_spec (src : RandSource) (format : Bytes → Int → Bytes)
    (start diffDays : Int) (dateFormat : Bytes) (h0 : 0 ≤ diffDays) (h1 : diffDays ≤ 106751) :
    ∀ (count k : Nat),
      (∃ e j, j < count ∧ src (k + j) = .error e
          ∧ randomDates src format start diffDays dateFormat count k = some (.error e))
        ∨ (∃ ns : List Nat, randomDates src format start diffDays dateFormat count k
              = some (.ok (ns.map
                  (fun (n : Nat) => format dateFormat (start + ((n * nsPerDay : Nat) : Int)))))
            ∧ ns.length = count ∧ (∀ n ∈ ns, (n : Int) ≤ diffDays)
            ∧ ∀ j < count, ∃ raw, src (k + j) = .ok raw) := by
  have hw : wrapInt64 (diffDays + 1) = diffDays + 1 := by unfold wrapInt64; omega
  have hpos : 0 < diffDays + 1 := by omega
  intro count
  induction count with
  | zero => intro k; exact Or.inr ⟨[], rfl, rfl, by simp, by simp⟩
  | succ c ih =>
    intro k
    rw [randomDates, hw, randInt_of_pos src k (diffDays + 1) hpos]
    cases hs : src k with
    | error e => exact Or.inl ⟨e, 0, by omega, hs, rfl⟩
    | ok raw =>
      have hlt : ((raw % (diffDays + 1).toNat : Nat) : Int) ≤ diffDays := by
        have : raw % (diffDays + 1).toNat < (diffDays + 1).toNat := Nat.mod_lt _ (by omega)
        omega
      simp only
      rcases ih (k + 1) with ⟨e, j, hj, hsj, hr⟩ | ⟨ns, hr, hlen, hmem, hall⟩
      · rw [hr]
        exact Or.inl ⟨e, j + 1, by omega, by rw [← hsj]; congr 1; omega, rfl⟩
      · rw [hr]
        refine Or.inr ⟨raw % (diffDays + 1).toNat :: ns, ?_, by simp [hlen], ?_, ?_⟩
        · have hlt2 := hlt
          have hday : wrapInt64 (((raw % (diffDays + 1).toNat : Nat) : Int) * 24 * Hour)
              = ((raw % (diffDays + 1).toNat * nsPerDay : Nat) : Int) := by
            generalize raw % (diffDays + 1).toNat = n at hlt2
            unfold wrapInt64 nsPerDay Hour
            push_cast
            omega
          simp only [hday, List.map_cons]
        · intro n hn
          rcases List.mem_cons.mp hn with rfl | hn
          · exact hlt
          · exact hmem n hn
        · intro j hj
          cases j with
          | zero => exact ⟨raw, hs⟩
          | succ j =>
            obtain ⟨r, hr⟩ := hall j (by omega)
            exact ⟨r, by rw [← hr]; congr 1; omega⟩

/-- The number of days `GenerateDate` computes between two days in order: at
most the days between them, and at most 106751. -/
theorem diffDays_le (s e : Nat) (hse : s ≤ e) :
    float64ToInt (float64Div
        (Duration.Hours (timeSub ((e * nsPerDay : Nat) : Int) ((s * nsPerDay : Nat) : Int)).toNat)
        (float64OfNat 24)) ≤ e - s
      ∧ float64ToInt (float64Div
        (Duration.Hours (timeSub ((e * nsPerDay : Nat) : Int) ((s * nsPerDay : Nat) : Int)).toNat)
        (float64OfNat 24)) ≤ 106751 := by
  obtain ⟨d, rfl⟩ : ∃ d, e = s + d := ⟨e - s, by omega⟩
  have hsub : (((s + d) * nsPerDay : Nat) : Int) - ((s * nsPerDay : Nat) : Int)
      = ((d * nsPerDay : Nat) : Int) := by push_cast; ring
  by_cases hbig : d * nsPerDay ≤ 2 ^ 63 - 1
  · have ht : (timeSub (((s + d) * nsPerDay : Nat) : Int) ((s * nsPerDay : Nat) : Int)).toNat
        = d * nsPerDay := by
      unfold timeSub
      rw [hsub]
      have h1 : ¬ ((d * nsPerDay : Nat) : Int) > 2 ^ 63 - 1 := by omega
      have h2 : ¬ ((d * nsPerDay : Nat) : Int) < -(2 ^ 63) := by omega
      rw [if_neg h1, if_neg h2]
      rfl
    rw [ht, diffDays_exact d hbig]
    unfold nsPerDay Hour at hbig
    omega
  · have ht : (timeSub (((s + d) * nsPerDay : Nat) : Int) ((s * nsPerDay : Nat) : Int)).toNat
        = 2 ^ 63 - 1 := by
      unfold timeSub
      rw [hsub]
      have h1 : ((d * nsPerDay : Nat) : Int) > 2 ^ 63 - 1 := by omega
      rw [if_pos h1]
      rfl
    rw [ht, diffDays_saturated]
    unfold nsPerDay Hour at hbig
    omega

/-- C23, as stated, fails: the count `2^62` is not negative, and for it
`make([]string, count)` panics, the size of the slice being beyond a `uintptr`,
whatever the allocator serves. -/
theorem GenerateDate_count_out_of_range :
    isDateForm (ascii "2024-01-01") = true ∧ isDateForm (ascii "2024-01-10") = true
      ∧ timeParseDate (ascii "2024-01-01") = .ok 739251
      ∧ timeParseDate (ascii "2024-01-10") = .ok 739260
      ∧ (0 : Int) ≤ 2 ^ 62
      ∧ ∀ (L : Lib) (maxAlloc : Nat) (src : RandSource) (format : Bytes → Int → Bytes)
          (w : Writer),
          Generator.GenerateDate L maxAlloc src format (NewGenerator w) (ascii "2024-01-01")
            (ascii "2024-01-10") (2 ^ 62) (ascii "2006-01-02") (ascii "string") = none := by
  have hs : timeParseDate (ascii "2024-01-01") = .ok 739251 := by rfl
  have he : timeParseDate (ascii "2024-01-10") = .ok 739260 := by rfl
  refine ⟨by rfl, by rfl, hs, he, by decide, fun L maxAlloc src format w => ?_⟩
  have hp : makeslicePanics maxAlloc 16 (2 ^ 62) = true :=
    (makeslicePanics_iff maxAlloc 16 (2 ^ 62)).mpr (Or.inr (Or.inl (by norm_num)))
  have h3 : ¬ ((739260 * nsPerDay : Nat) : Int) < ((739251 * nsPerDay : Nat) : Int) := by
    have : 739251 * nsPerDay ≤ 739260 * nsPerDay := Nat.mul_le_mul_right _ (by decide)
    omega
  simp only [Generator.GenerateDate, hs, he, if_neg h3, hp, ↓reduceIte]

/-- C23, amended: `GenerateDate` with a count that is not negative.  When the
start string is not a date in the form `YYYY-MM-DD`, or the start is one and
the end string is not, or both are and the end day is before the start day, it
returns an error and the generator, so its writer, is unchanged.  Otherwise,
when the slice of the results can be made, `16 * count` bytes being within
`maxAlloc` and a `uintptr`, it does not panic and, for every random source,
either a draw among the first `count` fails and that error is returned with
nothing written, or exactly `count` dates go to `outputResult`, each the start
plus a whole number `n` of days with `0 <= n <= end - start`, so from the
start to the end; and when the slice cannot be made, `make` panics. -/
theorem GenerateDate_spec (L : Lib) (maxAlloc : Nat) (src : RandSource)
    (format : Bytes → Int → Bytes)
    (w : Writer) (startStr endStr : Bytes) (count : Int) (dateFormat outputFormat : Bytes)
    (hc : 0 ≤ count) :
    (isDateForm startStr = false →
        ∃ e, Generator.GenerateDate L maxAlloc src format (NewGenerator w) startStr endStr count
          dateFormat outputFormat = some (some (.invalidStart e), NewGenerator w))
      ∧ (isDateForm startStr = true → isDateForm endStr = false →
        ∃ e, Generator.GenerateDate L maxAlloc src format (NewGenerator w) startStr endStr count
          dateFormat outputFormat = some (some (.invalidEnd e), NewGenerator w))
      ∧ (isDateForm startStr = true → isDateForm endStr = true →
        ∃ s e, timeParseDate startStr = .ok s ∧ timeParseDate endStr = .ok e
          ∧ (e < s →
            Generator.GenerateDate L maxAlloc src format (NewGenerator w) startStr endStr count
              dateFormat outputFormat = some (some .endBeforeStart, NewGenerator w))
          ∧ (s ≤ e → ((maxAlloc : Int) < count * 16 ∨ 2 ^ 64 ≤ count * 16) →
            Generator.GenerateDate L maxAlloc src format (NewGenerator w) startStr endStr count
              dateFormat outputFormat = none)
          ∧ (s ≤ e → count * 16 ≤ maxAlloc → count * 16 < 2 ^ 64 →
            (∃ err k, k < count.toNat ∧ src k = .error err
              ∧ Generator.GenerateDate L maxAlloc src format (NewGenerator w) startStr endStr
                  count dateFormat outputFormat
                = some (some (.output (.random err)), NewGenerator w))
            ∨ (∃ ns : List Nat, (∀ k < count.toNat, ∃ raw, src k = .ok raw)
              ∧ Generator.GenerateDate L maxAlloc src format (NewGenerator w) startStr endStr
                  count dateFormat outputFormat
                = some
                  (((NewGenerator w).outputResult L
                      (ns.map (fun (n : Nat) => format dateFormat (((s + n) * nsPerDay : Nat) : Int)))
                      outputFormat).1.map GenerateDateError.output,
                   ((NewGenerator w).outputResult L
                      (ns.map (fun (n : Nat) => format dateFormat (((s + n) * nsPerDay : Nat) : Int)))
                      outputFormat).2)
              ∧ (ns.length : Int) = count
              ∧ ∀ n ∈ ns, s + n ≤ e))) := by
  refine ⟨?_, ?_, ?_⟩
  · intro h
    cases hs : timeParseDate startStr with
    | ok d =>
      have := (timeParseDate_ok_iff startStr).mp ⟨d, hs⟩
      rw [h] at this
      cases this
    | error e => exact ⟨e, by simp only [Generator.GenerateDate, hs]⟩
  · intro h1 h2
    obtain ⟨s, hs⟩ := (timeParseDate_ok_iff startStr).mpr h1
    cases he : timeParseDate endStr with
    | ok d =>
      have := (timeParseDate_ok_iff endStr).mp ⟨d, he⟩
      rw [h2] at this
      cases this
    | error e => exact ⟨e, by simp only [Generator.GenerateDate, hs, he]⟩
  · intro h1 h2
    obtain ⟨s, hs⟩ := (timeParseDate_ok_iff startStr).mpr h1
    obtain ⟨e, he⟩ := (timeParseDate_ok_iff endStr).mpr h2
    refine ⟨s, e, hs, he, ?_, ?_, ?_⟩
    · intro hlt
      have hpos : 0 < nsPerDay := by decide
      have h3 : ((e * nsPerDay : Nat) : Int) < ((s * nsPerDay : Nat) : Int) := by
        exact_mod_cast Nat.mul_lt_mul_of_pos_right hlt hpos
      simp only [Generator.GenerateDate, hs, he, if_pos h3]
    · intro hle hbig
      have h3 : ¬ ((e * nsPerDay : Nat) : Int) < ((s * nsPerDay : Nat) : Int) := by
        have : s * nsPerDay ≤ e * nsPerDay := Nat.mul_le_mul_right _ hle
        omega
      have hp : makeslicePanics maxAlloc 16 count = true := by
        refine (makeslicePanics_iff maxAlloc 16 count).mpr ?_
        rcases hbig with h | h
        · exact Or.inr (Or.inr (by exact_mod_cast h))
        · exact Or.inr (Or.inl (by exact_mod_cast h))
      simp only [Generator.GenerateDate, hs, he, if_neg h3, hp, ↓reduceIte]
    · intro hle hcm hc64
      have hp : makeslicePanics maxAlloc 16 count = false :=
        makeslicePanics_false maxAlloc 16 count hc (by exact_mod_cast hcm)
          (by exact_mod_cast hc64)
      have h3 : ¬ ((e * nsPerDay : Nat) : Int) < ((s * nsPerDay : Nat) : Int) := by
        have : s * nsPerDay ≤ e * nsPerDay := Nat.mul_le_mul_right _ hle
        omega
      obtain ⟨hd1, hd2⟩ := diffDays_le s e hle
      generalize hdd : float64ToInt (float64Div
        (Duration.Hours (timeSub ((e * nsPerDay : Nat) : Int) ((s * nsPerDay : Nat) : Int)).toNat)
        (float64OfNat 24)) = dd at hd1 hd2
      have hrun : Generator.GenerateDate L maxAlloc src format (NewGenerator w) startStr endStr
          count dateFormat outputFormat
          = match randomDates src format ((s * nsPerDay : Nat) : Int) (dd : Int) dateFormat
              count.toNat 0 with
            | none => none
            | some (.error e) => some (some (.output (.random e)), NewGenerator w)
            | some (.ok dates) =>
              match (NewGenerator w).outputResult L dates outputFormat with
              | (none, g1) => some (none, g1)
              | (some e, g1) => some (some (.output e), g1) := by
        simp only [Generator.GenerateDate, hs, he, if_neg h3, hp, Bool.false_eq_true, if_false,
          hdd]
      rw [hrun]
      rcases randomDates_spec src format ((s * nsPerDay : Nat) : Int) (dd : Int) dateFormat
          (by omega) (by omega) count.toNat 0 with
        ⟨err, j, hj, hsj, hr⟩ | ⟨ns, hr, hlen, hmem, hall⟩
      · rw [hr]
        rw [Nat.zero_add] at hsj
        exact Or.inl ⟨err, j, hj, hsj, rfl⟩
      · rw [hr]
        have hmap : ns.map
              (fun (n : Nat) => format dateFormat (((s * nsPerDay : Nat) : Int) + ((n * nsPerDay : Nat) : Int)))
            = ns.map (fun (n : Nat) => format dateFormat (((s + n) * nsPerDay : Nat) : Int)) := by
          apply List.map_congr_left
          intro n _
          have e1 : ((s * nsPerDay : Nat) : Int) + ((n * nsPerDay : Nat) : Int)
              = (((s + n) * nsPerDay : Nat) : Int) := by
            push_cast
            ring
          rw [e1]
        rw [hmap]
        refine Or.inr ⟨ns, ?_, ?_, ?_, ?_⟩
        · intro k hk
          obtain ⟨r, hr⟩ := hall k hk
          rw [Nat.zero_add] at hr
          exact ⟨r, hr⟩
        · simp only
          generalize (NewGenerator w).outputResult L
            (ns.map (fun (n : Nat) => format dateFormat (((s + n) * nsPerDay : Nat) : Int)))
            outputFormat = r
          rcases r with ⟨_ | e1, g1⟩ <;> rfl
        · rw [hlen]; omega
        · intro n hn
          have := hmem n hn
          omega

set_option maxRecDepth 100000 in
/-- C23, an instance: two dates from the first ten days of 2024 for the draws
12 and 13, with the day number standing for the layout of the date and the
`maxAlloc` of linux/amd64. -/
theorem GenerateDate_spec_witness :
    (0 : Int) ≤ 2
      ∧ isDateForm (ascii "2024-01-01") = true ∧ isDateForm (ascii "2024-01-10") = true
      ∧ (2 : Int) * 16 ≤ ((2 ^ 48 : Nat) : Int) ∧ (2 : Int) * 16 < 2 ^ 64
      ∧ Generator.GenerateDate Lib.failing (2 ^ 48) (fun k => .ok (12 + k))
          (fun _ t => itoaInt (t / nsPerDay)) (NewGenerator NewBuffer)
          (ascii "2024-01-01") (ascii "2024-01-10") 2 (ascii "2006-01-02") (ascii "string")
          = some (none, ⟨⟨[ascii "739253\n", ascii "739254\n"], none⟩⟩)
      ∧ ∃ ns : List Nat,
          Generator.GenerateDate Lib.failing (2 ^ 48) (fun k => .ok (12 + k))
            (fun _ t => itoaInt (t / nsPerDay)) (NewGenerator NewBuffer)
            (ascii "2024-01-01") (ascii "2024-01-10") 2 (ascii "2006-01-02") (ascii "string")
            = some
              (((NewGenerator NewBuffer).outputResult Lib.failing
                  (ns.map (fun (n : Nat) => itoaInt ((((739251 + n) * nsPerDay : Nat) : Int) / nsPerDay)))
                  (ascii "string")).1.map GenerateDateError.output,
               ((NewGenerator NewBuffer).outputResult Lib.failing
                  (ns.map (fun (n : Nat) => itoaInt ((((739251 + n) * nsPerDay : Nat) : Int) / nsPerDay)))
                  (ascii "string")).2)
          ∧ (ns.length : Int) = 2 ∧ ∀ n ∈ ns, 739251 + n ≤ 739260 := by
  refine ⟨by decide, by rfl, by rfl, by norm_num, by norm_num, by rfl, ?_⟩
  obtain ⟨s, e, hs, he, _, _, h⟩ :=
    (GenerateDate_spec Lib.failing (2 ^ 48) (fun k => .ok (12 + k))
      (fun _ t => itoaInt (t / nsPerDay))
      NewBuffer (ascii "2024-01-01") (ascii "2024-01-10") 2 (ascii "2006-01-02")
      (ascii "string") (by decide)).2.2 (by rfl) (by rfl)
  have hs1 : timeParseDate (ascii "2024-01-01") = .ok 739251 := by rfl
  have he1 : timeParseDate (ascii "2024-01-10") = .ok 739260 := by rfl
  rw [hs1] at hs
  rw [he1] at he
  cases hs
  cases he
  rcases h (by decide) (by norm_num) (by norm_num) with
    ⟨err, k, _, hk, _⟩ | ⟨ns, _, hrun, hlen, hmem⟩
  · cases hk
  · exact ⟨ns, hrun, hlen, hmem⟩

/-! ## Theorems: `renderProgressBar` -/

/-- Rounding to a `float64` does not go below an integer of at most 53 bits
that the value is not below. -/
theorem roundFloat64_ge_nat (num den v : Nat) (hd : 0 < den) (hv : v * den ≤ num)
    (hlt : v ≤ 2 ^ 53) : v * (roundFloat64 num den).den ≤ (roundFloat64 num den).num := by
  by_cases h0 : num = 0
  · have hv0 : v = 0 := by
      subst h0
      rcases Nat.mul_eq_zero.mp (Nat.le_zero.mp hv) with h | h
      · exact h
      · omega
    subst hv0
    simp
  · obtain ⟨m, k, i, hr, hm, hlo, _⟩ := roundFloat64_form num den (by omega) hd
    rw [hr]
    show v * 2 ^ i ≤ m * 2 ^ k
    have hq := (divRoundEven_le (num * 2 ^ i) (den * 2 ^ k)).1
    rw [← hm] at hq
    by_cases hik : k ≤ i
    · obtain ⟨t, rfl⟩ : ∃ t, i = k + t := ⟨i - k, by omega⟩
      have e : (2 : Nat) ^ (k + t) = 2 ^ k * 2 ^ t := pow_add 2 k t
      have hpos : 0 < den * 2 ^ k := Nat.mul_pos hd (pow_pos (by decide) _)
      have h1 : v * 2 ^ t ≤ num * 2 ^ (k + t) / (den * 2 ^ k) := by
        rw [Nat.le_div_iff_mul_le hpos]
        have e1 : v * 2 ^ t * (den * 2 ^ k) = v * den * 2 ^ (k + t) := by rw [e]; ring
        rw [e1]
        exact Nat.mul_le_mul_right _ hv
      have e2 : v * 2 ^ (k + t) = v * 2 ^ t * 2 ^ k := by rw [e]; ring
      rw [e2]
      exact Nat.mul_le_mul_right _ (le_trans h1 hq)
    · obtain ⟨t, rfl⟩ : ∃ t, k = i + (1 + t) := ⟨k - i - 1, by omega⟩
      have e : (2 : Nat) ^ (i + (1 + t)) = 2 ^ i * 2 ^ (1 + t) := pow_add 2 i (1 + t)
      have e3 : (2 : Nat) ^ (1 + t) = 2 * 2 ^ t := by
        have := pow_add 2 1 t
        simpa using this
      have hm52 : 2 ^ 52 ≤ m := le_trans hlo hq
      have ht : 1 ≤ 2 ^ t := Nat.one_le_two_pow
      have h2 : v * 2 ^ i ≤ 2 ^ 53 * 2 ^ i := Nat.mul_le_mul_right _ hlt
      have h3 : 2 ^ 53 * 2 ^ i ≤ m * (2 ^ i * (2 * 2 ^ t)) := by
        have h4 : 2 ^ 52 * (2 ^ i * (2 * 1)) ≤ m * (2 ^ i * (2 * 2 ^ t)) :=
          Nat.mul_le_mul hm52 (Nat.mul_le_mul_left _ (Nat.mul_le_mul_left _ ht))
        have e5 : (2 : Nat) ^ 53 * 2 ^ i = 2 ^ 52 * (2 ^ i * (2 * 1)) := by ring
        rw [e5]
        exact h4
      rw [e, e3]
      exact le_trans h2 h3

/-- The loop of `renderProgressBar` appends `=` up to the index `completed` and
spaces from there on. -/
theorem renderProgressBarLoop_eq (completed : Int) :
    ∀ (rounds i : Nat) (bar : Bytes),
      renderProgressBarLoop completed bar rounds i
        = bar ++ List.replicate (min rounds (completed.toNat - i)) 61
            ++ List.replicate (rounds - (completed.toNat - i)) 32 := by
  have e61 : ascii "=" = [61] := by rfl
  have e32 : ascii " " = [32] := by rfl
  intro rounds
  induction rounds with
  | zero => intro i bar; simp [renderProgressBarLoop]
  | succ n ih =>
    intro i bar
    rw [renderProgressBarLoop, ih]
    by_cases h : (i : Int) < completed
    · have h1 : min (n + 1) (completed.toNat - i) = min n (completed.toNat - (i + 1)) + 1 := by
        omega
      have h2 : n + 1 - (completed.toNat - i) = n - (completed.toNat - (i + 1)) := by omega
      rw [if_pos h, h1, h2, List.replicate_succ, e61]
      simp
    · have h1 : min (n + 1) (completed.toNat - i) = 0 := by omega
      have h2 : min n (completed.toNat - (i + 1)) = 0 := by omega
      have h3 : n + 1 - (completed.toNat - i) = (n - (completed.toNat - (i + 1))) + 1 := by omega
      rw [if_neg h, h1, h2, h3, List.replicate_succ, e32]
      simp

/-- The bar of `renderProgressBar`: the width is at least 10 and the number of
cells filled is `completed`, clamped to the width and to zero. -/
theorem renderProgressBar_eq (o : Int) (percent : Float64) (width : Int) :
    renderProgressBar o percent width
      = progressBarText
          (min (Float64.toInt o (Float64.mul (Float64.div percent (Float64.ofInt 100))
              (Float64.ofInt (max width 10)))) (max width 10)).toNat
          (max width 10).toNat := by
  have hw : (if width < 10 then 10 else width) = max width 10 := by
    split_ifs with h
    · omega
    · omega
  unfold renderProgressBar
  simp only [hw]
  generalize Float64.toInt o (Float64.mul (Float64.div percent (Float64.ofInt 100))
    (Float64.ofInt (max width 10))) = c
  have hc : (if c > max width 10 then max width 10 else c) = min c (max width 10) := by
    split_ifs with h
    · omega
    · omega
  rw [hc, renderProgressBarLoop_eq]
  have h1 : min (max width 10).toNat ((min c (max width 10)).toNat - 0)
      = (min c (max width 10)).toNat := by omega
  rw [h1]
  rfl
theorem progressBarText_length (k w : Nat) (h : k ≤ w) : (progressBarText k w).length = w + 2 := by
  have e1 : ascii "[" = [91] := by rfl
  have e2 : ascii "]" = [93] := by rfl
  simp only [progressBarText, e1, e2, List.length_append, List.length_replicate,
    List.length_singleton]
  omega

/-- The product `percent / 100 * float64(w)` of `renderProgressBar` for a
percent of at least 100 and a width below `2^53` is at least the width. -/
theorem completed_ge_width (percent : Float64) (n : Nat) (hd : 0 < percent.abs.den)
    (h100 : 100 * percent.abs.den ≤ percent.abs.num) (hn : n < 2 ^ 53) :
    n ≤ (Float64.mul (Float64.div percent (Float64.ofInt 100)) (Float64.ofInt n)).abs.num
        / (Float64.mul (Float64.div percent (Float64.ofInt 100)) (Float64.ofInt n)).abs.den := by
  obtain ⟨hyd, hyn⟩ := float64OfNat_isNat 100 (by norm_num)
  obtain ⟨hwd, hwn⟩ := float64OfNat_isNat n hn
  have hq : 1 * (float64Div percent.abs (float64OfNat 100)).den
      ≤ (float64Div percent.abs (float64OfNat 100)).num := by
    unfold float64Div
    apply roundFloat64_ge_nat _ _ 1 _ _ (by norm_num)
    · rw [hyn]
      exact Nat.mul_pos hd (Nat.mul_pos (by norm_num) hyd)
    · rw [hyn, Nat.one_mul]
      calc percent.abs.den * (100 * (float64OfNat 100).den)
          = 100 * percent.abs.den * (float64OfNat 100).den := by ring
        _ ≤ percent.abs.num * (float64OfNat 100).den := Nat.mul_le_mul_right _ h100
  rw [Nat.one_mul] at hq
  have hqd : 0 < (float64Div percent.abs (float64OfNat 100)).den :=
    (roundFloat64_isFloat _ _ (by rw [hyn]; exact Nat.mul_pos hd (Nat.mul_pos (by norm_num) hyd))).1.1
  have e100 : (Float64.ofInt 100).abs = float64OfNat 100 := by rfl
  have en : (Float64.ofInt (n : Int)).abs = float64OfNat n := by
    simp only [Float64.ofInt, Int.natAbs_ofNat]
  have hx : (Float64.mul (Float64.div percent (Float64.ofInt 100)) (Float64.ofInt n)).abs
      = roundFloat64 ((float64Div percent.abs (float64OfNat 100)).num * (float64OfNat n).num)
          ((float64Div percent.abs (float64OfNat 100)).den * (float64OfNat n).den) := by
    simp only [Float64.mul, Float64.div, e100, en]
  rw [hx]
  have hden : 0 < (float64Div percent.abs (float64OfNat 100)).den * (float64OfNat n).den :=
    Nat.mul_pos hqd hwd
  have hxd := (roundFloat64_isFloat
    ((float64Div percent.abs (float64OfNat 100)).num * (float64OfNat n).num) _ hden).1.1
  rw [Nat.le_div_iff_mul_le hxd]
  apply roundFloat64_ge_nat _ _ n hden _ (by omega)
  rw [hwn]
  calc n * ((float64Div percent.abs (float64OfNat 100)).den * (float64OfNat n).den)
      = (float64Div percent.abs (float64OfNat 100)).den * (n * (float64OfNat n).den) := by ring
    _ ≤ (float64Div percent.abs (float64OfNat 100)).num * (n * (float64OfNat n).den) :=
        Nat.mul_le_mul_right _ hq

theorem toInt_of_fits (o : Int) (x : Float64) (h : x.fitsInt64) :
    Float64.toInt o x = x.truncated := by
  have h1 : ¬ (x.truncated < -(2 ^ 63) ∨ 2 ^ 63 ≤ x.truncated) := by
    unfold Float64.fitsInt64 at h
    omega
  unfold Float64.toInt
  exact if_neg h1

set_option maxRecDepth 100000 in
/-- C26, as stated, fails: for 29 percent and the width 100 the bar has 28
cells filled, not the 29 of `29 / 100 * 100`, since the quotient and the
product are rounded to `float64`; and for the percent `10^21` and the width 10
the product is beyond `int64`, and with the result `-2^63` of the conversion on
amd64 the bar is empty, not full. -/
theorem renderProgressBar_not_exact :
    (∀ o : Int, renderProgressBar o ⟨false, ⟨29, 1⟩⟩ 100 = progressBarText 28 100)
      ∧ exactCompleted ⟨false, ⟨29, 1⟩⟩ 100 = 29
      ∧ renderProgressBar (-(2 ^ 63)) ⟨false, ⟨10 ^ 21, 1⟩⟩ 10 = progressBarText 0 10
      ∧ exactCompleted ⟨false, ⟨10 ^ 21, 1⟩⟩ 10 = 10 := by
  refine ⟨fun o => ?_, by decide, ?_, by decide⟩
  · rw [renderProgressBar_eq]
    rfl
  · rw [renderProgressBar_eq]
    rfl

/-- C26, amended: for every finite percent and every width, with `w` the
larger of the width and 10, `renderProgressBar` returns `[`, `k` times `=`,
`w - k` spaces and `]`, of length `w + 2`, where `k` is `completed` clamped to
`0..w` and `completed` is the conversion to `int` of the `float64` product of
the `float64` quotient `percent / 100` and `float64(w)`.  When that product is
in the range of `int64` the conversion drops its fractional part, a negative
percent gives the empty bar, and a percent of at least 100 with `w` below
`2^53` gives the full bar. -/
theorem renderProgressBar_spec (o : Int) (percent : Float64) (width : Int)
    (hd : 0 < percent.abs.den) :
    renderProgressBar o percent width
        = progressBarText
            (min (Float64.toInt o (Float64.mul (Float64.div percent (Float64.ofInt 100))
                (Float64.ofInt (max width 10)))) (max width 10)).toNat
            (max width 10).toNat
      ∧ (renderProgressBar o percent width).length = (max width 10).toNat + 2
      ∧ ((Float64.mul (Float64.div percent (Float64.ofInt 100))
            (Float64.ofInt (max width 10))).fitsInt64 →
          Float64.toInt o (Float64.mul (Float64.div percent (Float64.ofInt 100))
              (Float64.ofInt (max width 10)))
            = (Float64.mul (Float64.div percent (Float64.ofInt 100))
                (Float64.ofInt (max width 10))).truncated
          ∧ (percent.neg = true →
              renderProgressBar o percent width = progressBarText 0 (max width 10).toNat)
          ∧ (percent.neg = false → 100 * percent.abs.den ≤ percent.abs.num →
              max width 10 < 2 ^ 53 →
              renderProgressBar o percent width
                = progressBarText (max width 10).toNat (max width 10).toNat)) := by
  have hW : 10 ≤ max width 10 := le_max_right _ _
  refine ⟨renderProgressBar_eq o percent width, ?_, ?_⟩
  · rw [renderProgressBar_eq]
    apply progressBarText_length
    omega
  · intro hfit
    have ht := toInt_of_fits o _ hfit
    have hWneg : (Float64.ofInt (max width 10)).neg = false := by
      have : ¬ max width 10 < 0 := by
        have := le_max_right width 10
        omega
      simp only [Float64.ofInt, decide_eq_false_iff_not]
      exact this
    have h100 : (Float64.ofInt 100).neg = false := by rfl
    have hxneg : (Float64.mul (Float64.div percent (Float64.ofInt 100))
        (Float64.ofInt (max width 10))).neg = percent.neg := by
      simp only [Float64.mul, Float64.div, hWneg, h100, Bool.xor_false]
    refine ⟨ht, ?_, ?_⟩
    · intro hneg
      rw [renderProgressBar_eq, ht]
      have hle : (Float64.mul (Float64.div percent (Float64.ofInt 100))
          (Float64.ofInt (max width 10))).truncated ≤ 0 := by
        unfold Float64.truncated
        rw [hxneg, hneg, if_pos rfl]
        exact neg_nonpos.mpr (Int.ofNat_nonneg _)
      have : (min (Float64.mul (Float64.div percent (Float64.ofInt 100))
          (Float64.ofInt (max width 10))).truncated (max width 10)).toNat = 0 := by
        omega
      rw [this]
    · intro hpos h100le hlt
      rw [renderProgressBar_eq, ht]
      have hW10 := le_max_right width 10
      obtain ⟨n, hn⟩ : ∃ n : Nat, max width 10 = (n : Int) := ⟨(max width 10).toNat, by omega⟩
      rw [hn] at hlt ⊢
      have hge := completed_ge_width percent n hd h100le (by exact_mod_cast hlt)
      have hle : (n : Int) ≤ (Float64.mul (Float64.div percent (Float64.ofInt 100))
          (Float64.ofInt (n : Int))).truncated := by
        unfold Float64.truncated
        rw [hn] at hxneg
        rw [hxneg, hpos]
        simp only [Bool.false_eq_true, if_false]
        exact_mod_cast hge
      have : min (Float64.mul (Float64.div percent (Float64.ofInt 100))
          (Float64.ofInt (n : Int))).truncated (n : Int) = (n : Int) := by
        omega
      rw [this]

set_option maxRecDepth 100000 in
/-- C26, instances: 50, 120 and -10 percent at the width 10, and a width below
10. -/
theorem renderProgressBar_spec_witness :
    (0 : Nat) < (⟨false, ⟨50, 1⟩⟩ : Float64).abs.den
      ∧ (∀ o : Int, renderProgressBar o ⟨false, ⟨50, 1⟩⟩ 10 = ascii "[=====     ]")
      ∧ (∀ o : Int, renderProgressBar o ⟨false, ⟨120, 1⟩⟩ 10 = ascii "[==========]")
      ∧ (∀ o : Int, renderProgressBar o ⟨true, ⟨10, 1⟩⟩ 10 = ascii "[          ]")
      ∧ (∀ o : Int, renderProgressBar o ⟨false, ⟨50, 1⟩⟩ 3 = ascii "[=====     ]")
      ∧ (∀ o : Int, (renderProgressBar o ⟨false, ⟨50, 1⟩⟩ 10).length = (max (10 : Int) 10).toNat + 2) := by
  refine ⟨by decide, fun o => ?_, fun o => ?_, fun o => ?_, fun o => ?_, fun o => ?_⟩
  · rw [renderProgressBar_eq]; rfl
  · rw [renderProgressBar_eq]; rfl
  · rw [renderProgressBar_eq]; rfl
  · rw [renderProgressBar_eq]; rfl
  · exact (renderProgressBar_spec o ⟨false, ⟨50, 1⟩⟩ 10 (by decide)).2.1

end DevHelper
